import Mathlib

/-! # Verification development for the MCP server runtime

Shallow embedding of `buffer.{hpp,cpp}`, the `Descriptor` latch of
`io_manager.{hpp,cpp}` and `file_cache.{hpp,cpp}`.

Conventions used throughout.
* `size_t` values are natural numbers; subtraction on them wraps modulo `2 ^ 64`
  (`usub`).
* A `std::deque` is a list; `push_back` appends, `pop_front` drops the head.
* Raw memory of a chunk is a function from offsets to bytes.
* Pointers into the heap are natural numbers, `NULL` is `none`.
* An operation that dereferences freed memory, frees memory twice or (for the
  list walk of the cache) does not finish has no defined result: it returns `none`.
-/

set_option autoImplicit false

/-! ## Machine arithmetic -/

/-- Subtraction on `size_t`: wraps modulo `2 ^ 64`. -/
def usub (a b : Nat) : Nat := (a + (2 ^ 64 - b % 2 ^ 64)) % 2 ^ 64

/-! ## Buffer (buffer.hpp, buffer.cpp) -/

/-- Models `Buffer::Position`: a pair chunk number, offset. -/
structure Buffer.Position where
  idx : Nat
  off : Nat
deriving DecidableEq, Repr

/-- The memory of one chunk (`char*`), offsets to bytes. -/
abbrev Buffer.Chunk := Nat → Nat

/-- Models `class Buffer`: the two deques and the two positions. -/
structure Buffer where
  chunks_ : List Buffer.Chunk
  sizes_ : List Nat
  wpos_ : Buffer.Position
  rpos_ : Buffer.Position

namespace Buffer

/-- Models `enum { BlockSize = 4096 }`. -/
def BlockSize : Nat := 4096

/-- Memory returned by `new char[BlockSize]`; its initial content is modelled as zeroes. -/
def freshChunk : Chunk := fun _ => 0

/-- Models `sizes_[i]`. -/
def sizeAt (b : Buffer) (i : Nat) : Nat := b.sizes_.getD i 0

/-- Models `chunks_[i]`. -/
def chunkAt (b : Buffer) (i : Nat) : Chunk := b.chunks_.getD i freshChunk

/-- Models `Buffer::addChunk`: pushes a new chunk and returns its position. -/
def addChunk (b : Buffer) : Position × Buffer :=
  let b1 : Buffer := { b with chunks_ := b.chunks_ ++ [freshChunk], sizes_ := b.sizes_ ++ [0] }
  (⟨b1.chunks_.length - 1, 0⟩, b1)

/-- Models `Buffer::Buffer()`: `wpos_(addChunk()), rpos_(wpos_)`. -/
def new : Buffer :=
  let b0 : Buffer := { chunks_ := [], sizes_ := [], wpos_ := ⟨0, 0⟩, rpos_ := ⟨0, 0⟩ }
  let r := b0.addChunk
  { r.2 with wpos_ := r.1, rpos_ := r.1 }

/-- Models `Buffer::dropChunks`. -/
def dropChunks (b : Buffer) (n : Nat) : Buffer :=
  if n = 0 then b
  else
    { chunks_ := b.chunks_.drop n
      sizes_ := b.sizes_.drop n
      wpos_ := ⟨usub b.wpos_.idx n, b.wpos_.off⟩
      rpos_ := ⟨usub b.rpos_.idx n, b.rpos_.off⟩ }

/-- Models `Buffer::writeSize`. -/
def writeSize (b : Buffer) : Nat := usub BlockSize b.wpos_.off

/-- Models `Buffer::readSize`. -/
def readSize (b : Buffer) : Nat := usub (b.sizeAt b.rpos_.idx) b.rpos_.off

/-- Models `Buffer::numChunks`. -/
def numChunks (b : Buffer) : Nat := b.chunks_.length

/-- Models `Buffer::reserve`. -/
def reserve (b : Buffer) (bytes : Nat) : Bool × Buffer :=
  if bytes > BlockSize then (false, b)
  else if usub BlockSize b.wpos_.off ≥ bytes then (true, b)
  else
    let should_advance : Bool := decide (b.rpos_ = b.wpos_)
    let r := b.addChunk
    let b1 : Buffer := { r.2 with wpos_ := r.1 }
    if should_advance then (true, ({ b1 with rpos_ := b1.wpos_ }).dropChunks 1)
    else (true, b1)

/-- Models `Buffer::advance`. -/
def advance (b : Buffer) (bytes : Nat) : Bool × Buffer :=
  if bytes ≤ 0 then (false, b)
  else if bytes ≤ b.writeSize then
    (true, { b with wpos_ := ⟨b.wpos_.idx, b.wpos_.off + bytes⟩
                    sizes_ := b.sizes_.set b.wpos_.idx (b.sizeAt b.wpos_.idx + bytes) })
  else (false, b)

/-- The byte copy loop `*dest = *src` with `dest++, src++`. -/
def copyBytes (c : Chunk) (dest : Nat) : List Nat → Chunk
  | [] => c
  | x :: xs => copyBytes (Function.update c dest x) (dest + 1) xs

/-- Stores `src` at the write pointer (`writePtr()`), without moving it. -/
def pokeAtWritePtr (b : Buffer) (src : List Nat) : Buffer :=
  { b with chunks_ := b.chunks_.set b.wpos_.idx
                        (copyBytes (b.chunkAt b.wpos_.idx) b.wpos_.off src) }

/-- One round of the `while (bytes_left > 0)` loop of `Buffer::write`, `src` being what is
left to write. -/
def writeRound (b : Buffer) (src : List Nat) : Buffer :=
  let bytes_in_chunk := min b.writeSize src.length
  let bytes_left := src.length - bytes_in_chunk
  let b1 := b.pokeAtWritePtr (src.take bytes_in_chunk)
  let b2 : Buffer :=
    { b1 with sizes_ := b1.sizes_.set b1.wpos_.idx (b1.sizeAt b1.wpos_.idx + bytes_in_chunk)
              wpos_ := ⟨b1.wpos_.idx, b1.wpos_.off + bytes_in_chunk⟩ }
  if bytes_left > 0 ∨ b2.wpos_.off = BlockSize then
    let r := b2.addChunk
    { r.2 with wpos_ := r.1 }
  else b2

/-- The `while (bytes_left > 0)` loop of `Buffer::write`; every round but the first writes at
least one byte, so `|data| + 1` rounds are enough. -/
def writeLoop : Nat → Buffer → List Nat → Buffer
  | 0, b, _ => b
  | fuel + 1, b, src =>
    if src.length > 0 then
      writeLoop fuel (b.writeRound src) (src.drop (min b.writeSize src.length))
    else b

/-- Models `Buffer::write`. -/
def write (b : Buffer) (data : List Nat) : Buffer :=
  writeLoop (data.length + 1) b data

/-- Models `Buffer::maybeRemoveLastChunk`: returns the removed chunk, if any. -/
def maybeRemoveLastChunk (b : Buffer) : Option Chunk × Buffer :=
  if b.sizeAt b.wpos_.idx = 0 then
    (some (b.chunkAt b.wpos_.idx),
      { b with chunks_ := b.chunks_.dropLast, sizes_ := b.sizes_.dropLast })
  else (none, b)

/-- Models `Buffer::isConsumed`. -/
def isConsumed (b : Buffer) : Bool :=
  if b.rpos_.idx ≠ 0 ∨ b.rpos_.off ≠ 0 then true else false

/-- Models `Buffer::appendFrom`; the pair is (`this`, `other`) after the call. -/
def appendFrom (b other : Buffer) : Buffer × Buffer :=
  if other.isConsumed then (b, other)
  else if other.readSize = 0 then (b, other)
  else
    let r1 := b.maybeRemoveLastChunk
    let r2 := other.maybeRemoveLastChunk
    let last_chunk := r1.1
    let other_last_chunk := r2.1
    let t1 : Buffer := { r1.2 with chunks_ := r1.2.chunks_ ++ r2.2.chunks_
                                   sizes_ := r1.2.sizes_ ++ r2.2.sizes_ }
    let t2 : Buffer :=
      if t1.sizes_.getLastD 0 = BlockSize then
        match last_chunk with
        | none => t1.addChunk.2
        | some c => { t1 with chunks_ := t1.chunks_ ++ [c], sizes_ := t1.sizes_ ++ [0] }
      else t1
    let t3 : Buffer :=
      if t2.readSize = 0 then { t2 with rpos_ := ⟨t2.rpos_.idx + 1, 0⟩ } else t2
    let t4 : Buffer := { t3 with wpos_ := ⟨t3.chunks_.length - 1, t3.sizes_.getLastD 0⟩ }
    let o1 : Buffer := { r2.2 with chunks_ := [], sizes_ := [] }
    let o2 : Buffer :=
      match other_last_chunk with
      | none => let r := o1.addChunk; { r.2 with wpos_ := r.1 }
      | some c => { o1 with chunks_ := o1.chunks_ ++ [c], sizes_ := o1.sizes_ ++ [0] }
    (t4, { o2 with rpos_ := o2.wpos_ })

/-- The body of the `for` loop of `Buffer::copyFrom` for chunk `i` of `other`. -/
def copyStep (other : Buffer) (b : Buffer) (i : Nat) : Buffer :=
  let len := other.sizeAt i
  let b1 : Buffer :=
    if i ≠ 0 ∨ len > b.writeSize then
      let r := b.addChunk
      { r.2 with wpos_ := r.1 }
    else b
  let b2 := b1.pokeAtWritePtr ((List.range len).map (other.chunkAt i))
  { b2 with sizes_ := b2.sizes_.set b2.wpos_.idx (b2.sizeAt b2.wpos_.idx + len)
            wpos_ := ⟨b2.wpos_.idx, b2.wpos_.off + len⟩ }

/-- Models `Buffer::copyFrom`; `other` is not modified. -/
def copyFrom (b other : Buffer) : Buffer :=
  if other.isConsumed then b
  else if other.readSize = 0 then b
  else
    let b1 := (List.range other.chunks_.length).foldl (copyStep other) b
    if b1.wpos_.off = BlockSize then
      let r := b1.addChunk
      { r.2 with wpos_ := r.1 }
    else b1

/-- The first `while` loop of `Buffer::consume`; the state is the buffer, `bytes_to_consume`
and `chunks_to_drop`. Every iteration either ends the loop or moves `rpos_.idx` one chunk
closer to `wpos_.idx`. -/
def consumeLoop : Nat → Buffer → Nat → Nat → Buffer × Nat × Nat
  | 0, b, n, d => (b, n, d)
  | fuel + 1, b, n, d =>
    if n > 0 ∧ b.rpos_.idx < b.wpos_.idx then
      let bytes_in_chunk := min n b.readSize
      let b1 : Buffer := { b with rpos_ := ⟨b.rpos_.idx, b.rpos_.off + bytes_in_chunk⟩ }
      if b1.readSize = 0 then
        consumeLoop fuel { b1 with rpos_ := ⟨b1.rpos_.idx + 1, 0⟩ } (n - bytes_in_chunk) (d + 1)
      else consumeLoop fuel b1 (n - bytes_in_chunk) d
    else (b, n, d)

/-- Models `Buffer::consume`. -/
def consume (b : Buffer) (bytes_to_consume : Nat) : Buffer :=
  let r := consumeLoop (b.wpos_.idx - b.rpos_.idx + 1) b bytes_to_consume 0
  let b1 := r.1
  let n := r.2.1
  let b2 : Buffer :=
    if n > 0 then
      let bytes_in_chunk := min n b1.readSize
      { b1 with rpos_ := ⟨b1.rpos_.idx, b1.rpos_.off + bytes_in_chunk⟩ }
    else b1
  b2.dropChunks r.2.2

/-- Models `Buffer::byteCount`. -/
def byteCount (b : Buffer) : Nat := b.readSize + (b.sizes_.drop 1).sum

/-- Models `class Buffer::Iterator`; the `buffer_` pointer is passed to every operation and
`chunk_start_` is kept as the number of the chunk it points to. -/
structure Iterator where
  pos_ : Position
  bytes_read_ : Nat
  bytes_total_ : Nat
  budget_ : Nat
  chunk_start_ : Nat

/-- Models `Buffer::Iterator::Iterator(Buffer*)`. -/
def Iterator.mk0 (b : Buffer) : Iterator :=
  { pos_ := b.rpos_
    bytes_read_ := 0
    bytes_total_ := b.byteCount
    budget_ := usub (b.sizeAt b.rpos_.idx) b.rpos_.off
    chunk_start_ := b.rpos_.idx }

/-- Models `Buffer::begin`. -/
def begin (b : Buffer) : Iterator := { Iterator.mk0 b with pos_ := b.rpos_ }

/-- Models `Buffer::end`. -/
def end_ (b : Buffer) : Iterator := { Iterator.mk0 b with pos_ := b.wpos_ }

/-- Models `Buffer::Iterator::getBudget`. -/
def Iterator.getBudget (b : Buffer) (it : Iterator) : Nat :=
  usub (b.sizeAt it.pos_.idx) it.pos_.off

/-- Models `Buffer::Iterator::eob`. -/
def Iterator.eob (b : Buffer) (it : Iterator) : Bool :=
  if it.budget_ ≠ 0 then false
  else decide (it.pos_.idx = b.wpos_.idx) && decide (it.pos_.off = b.wpos_.off)

/-- Models `Buffer::Iterator::slowNext`. -/
def Iterator.slowNext (b : Buffer) (it : Iterator) : Iterator :=
  if it.pos_.off < b.sizeAt it.pos_.idx then
    let it1 : Iterator :=
      { it with pos_ := ⟨it.pos_.idx, it.pos_.off + 1⟩, bytes_read_ := it.bytes_read_ + 1 }
    let it2 : Iterator :=
      if it1.pos_.off = b.sizeAt it1.pos_.idx ∧ it1.pos_.idx < b.wpos_.idx then
        { it1 with pos_ := ⟨it1.pos_.idx + 1, 0⟩, chunk_start_ := it1.pos_.idx + 1 }
      else it1
    { it2 with budget_ := it2.getBudget b }
  else it

/-- Models `Buffer::Iterator::next`. -/
def Iterator.next (b : Buffer) (it : Iterator) : Iterator :=
  if it.budget_ > 1 then
    { it with budget_ := it.budget_ - 1
              pos_ := ⟨it.pos_.idx, it.pos_.off + 1⟩
              bytes_read_ := it.bytes_read_ + 1 }
  else it.slowNext b

/-- Models `Buffer::Iterator::getChar`. -/
def Iterator.getChar (b : Buffer) (it : Iterator) : Nat :=
  b.chunkAt it.chunk_start_ it.pos_.off

/-- Models `Buffer::Iterator::bytesTotal`. -/
def Iterator.bytesTotal (it : Iterator) : Nat := it.bytes_total_

/-- Models `Buffer::Iterator::bytesRead`. -/
def Iterator.bytesRead (it : Iterator) : Nat := it.bytes_read_

/-- The iterator after `k` calls of `next()`. -/
def Iterator.nextN (b : Buffer) : Nat → Iterator → Iterator
  | 0, it => it
  | k + 1, it => Iterator.nextN b k (it.next b)

end Buffer

/-! ## Descriptor (io_manager.hpp, io_manager.cpp) -/

/-- A `Callback<void>*`, identified by its address. -/
abbrev Callback := Nat

/-- The tasks handed to `workerPool()->addTask`, oldest first. -/
abbrev TaskLog := List Callback

/-- Models `class Descriptor`: the callback state protected by `m_`. -/
structure Descriptor where
  fd_ : Int
  closed_ : Bool
  read_cb_ : Option Callback
  write_cb_ : Option Callback
  can_read_ : Bool
  can_write_ : Bool
  waiting_read_ : Bool
  waiting_write_ : Bool
deriving DecidableEq, Repr

namespace Descriptor

/-- Models `Descriptor::Descriptor`. -/
def new (fd : Int) (read_cb write_cb : Option Callback) : Descriptor :=
  { fd_ := fd, closed_ := false, read_cb_ := read_cb, write_cb_ := write_cb
    can_read_ := false, can_write_ := false, waiting_read_ := false, waiting_write_ := false }

/-- Models `if (cb && flag) workerPool()->addTask(cb)`. -/
def submitIf (cb : Option Callback) (flag : Bool) (pool : TaskLog) : TaskLog :=
  match cb with
  | some f => if flag then pool ++ [f] else pool
  | none => pool

/-- Models `Descriptor::setUpCalls`. -/
def setUpCalls (d : Descriptor) (read_cb write_cb : Option Callback) : Descriptor :=
  { d with read_cb_ := read_cb, write_cb_ := write_cb }

/-- Models `Descriptor::readWhenReady`. -/
def readWhenReady (d : Descriptor) (pool : TaskLog) : Descriptor × TaskLog :=
  let ready_now : Bool := d.can_read_
  let d1 : Descriptor :=
    if d.can_read_ then { d with can_read_ := false } else { d with waiting_read_ := true }
  (d1, submitIf d1.read_cb_ ready_now pool)

/-- Models `Descriptor::writeWhenReady`. -/
def writeWhenReady (d : Descriptor) (pool : TaskLog) : Descriptor × TaskLog :=
  let ready_now : Bool := d.can_write_
  let d1 : Descriptor :=
    if d.can_write_ then { d with can_write_ := false } else { d with waiting_write_ := true }
  (d1, submitIf d1.write_cb_ ready_now pool)

/-- Models `Descriptor::readIfWaiting`. -/
def readIfWaiting (d : Descriptor) (pool : TaskLog) : Descriptor × TaskLog :=
  let schedule_now : Bool := d.waiting_read_
  let d1 : Descriptor :=
    if d.waiting_read_ then { d with waiting_read_ := false } else { d with can_read_ := true }
  (d1, submitIf d1.read_cb_ schedule_now pool)

/-- Models `Descriptor::writeIfWaiting`. -/
def writeIfWaiting (d : Descriptor) (pool : TaskLog) : Descriptor × TaskLog :=
  let schedule_now : Bool := d.waiting_write_
  let d1 : Descriptor :=
    if d.waiting_write_ then { d with waiting_write_ := false } else { d with can_write_ := true }
  (d1, submitIf d1.write_cb_ schedule_now pool)

/-- One call on a `Descriptor`. -/
inductive Call where
  | readWhenReady
  | writeWhenReady
  | readIfWaiting
  | writeIfWaiting
  | setUpCalls (read_cb write_cb : Option Callback)
deriving DecidableEq, Repr

/-- Performs one call. -/
def step (s : Descriptor × TaskLog) : Call → Descriptor × TaskLog
  | .readWhenReady => s.1.readWhenReady s.2
  | .writeWhenReady => s.1.writeWhenReady s.2
  | .readIfWaiting => s.1.readIfWaiting s.2
  | .writeIfWaiting => s.1.writeIfWaiting s.2
  | .setUpCalls r w => (s.1.setUpCalls r w, s.2)

/-- Performs a sequence of calls, first call first. -/
def run (s : Descriptor × TaskLog) (calls : List Call) : Descriptor × TaskLog :=
  calls.foldl step s

end Descriptor

/-! ## FileCache (file_cache.hpp, file_cache.cpp) -/

/-- An address on the heap. Address `0` is `&tail_`, the sentinel inside the cache. -/
abbrev FileCache.Addr := Nat

/-- Models `struct FileCache::Node`. -/
structure FileCache.Node where
  file_name : String
  buf : Option FileCache.Addr
  pin_count : Int
  size : Int
  next : Option FileCache.Addr
deriving DecidableEq, Repr

/-- What `open`, `fstat` and `read` report for a path: `open` fails with an error number, or
the file has the given bytes and `read` either delivers them or fails with an error number. -/
inductive FileCache.File where
  | absent (errno : Int)
  | present (bytes : List Nat) (read_errno : Option Int)
deriving DecidableEq, Repr

/-- The files seen by the cache. -/
abbrev FileCache.FileSystem := String → FileCache.File

/-- What `pin` hands back: the handle (0 when the pin failed), `*buf` and `*error`. -/
structure FileCache.PinResult where
  h : FileCache.Addr
  buf : Option FileCache.Addr
  error : Int
deriving DecidableEq, Repr

/-- Models `class FileCache`, with the heap it owns: `nodes` holds the `Node` objects (address 0 is
`tail_`), `bufs` the `Buffer` objects; a freed or never allocated address holds `none`.
`cache_map_` compares keys by the string they point to, so it is kept as an association list
from the string to the node. -/
structure FileCache where
  max_size_ : Int
  head_ : FileCache.Addr
  cache_map_ : List (String × FileCache.Addr)
  bytes_used_ : Int
  pin_total_ : Int
  hit_total_ : Int
  failed_total_ : Int
  nodes : FileCache.Addr → Option FileCache.Node
  bufs : FileCache.Addr → Option Buffer
  node_brk : Nat
  buf_brk : Nat

namespace FileCache

/-- Models `FileCache::FileCache`: `head_(&tail_)`, `tail_("", NULL)`. -/
def new (max_size : Int) : FileCache :=
  { max_size_ := max_size, head_ := 0, cache_map_ := []
    bytes_used_ := 0, pin_total_ := 0, hit_total_ := 0, failed_total_ := 0
    nodes := fun a =>
      if a = 0 then some { file_name := "", buf := none, pin_count := 0, size := 0, next := none }
      else none
    bufs := fun _ => none
    node_brk := 1, buf_brk := 1 }

/-- Models `FileCache::maxSize`. -/
def maxSize (c : FileCache) : Int := c.max_size_
/-- Models `FileCache::bytesUsed`. -/
def bytesUsed (c : FileCache) : Int := c.bytes_used_
/-- Models `FileCache::pins`. -/
def pins (c : FileCache) : Int := c.pin_total_
/-- Models `FileCache::hits`. -/
def hits (c : FileCache) : Int := c.hit_total_
/-- Models `FileCache::failed`. -/
def failed (c : FileCache) : Int := c.failed_total_

/-- Models `cache_map_.find`. -/
def mapFind (m : List (String × Addr)) (k : String) : Option (String × Addr) :=
  m.find? (fun e => e.1 == k)

/-- Models `cache_map_.erase`. -/
def mapErase (m : List (String × Addr)) (k : String) : List (String × Addr) :=
  m.filter (fun e => !(e.1 == k))

/-- Models `FileCache::nodeInsert`. -/
def nodeInsert (c : FileCache) (node : Addr) : Option FileCache :=
  match c.nodes c.head_ with
  | none => none
  | some hd =>
    let c1 : FileCache :=
      { c with nodes := Function.update c.nodes c.head_ (some { hd with next := some node })
               head_ := node }
    match c1.nodes node with
    | none => none
    | some nd => some { c1 with nodes := Function.update c1.nodes node (some { nd with next := none }) }

/-- Models `FileCache::nodeExtract`. -/
def nodeExtract (c : FileCache) (node prev : Addr) : Option FileCache :=
  if node = prev then some c
  else
    let c1 : FileCache := if c.head_ = node then { c with head_ := prev } else c
    match c1.nodes node, c1.nodes prev with
    | some nd, some pv =>
      some { c1 with nodes := Function.update c1.nodes prev (some { pv with next := nd.next }) }
    | _, _ => none

/-- The `while` loop of `FileCache::evict`. The state is the cache, `bytes_to_evict`
(a `size_t`), `bytes_evicted`, `curr`, `prev` and `to_delete`. -/
def evictLoop : Nat → FileCache → Nat → Int → Option Addr → Addr → List Addr →
    Option (FileCache × Nat × Int × List Addr)
  | fuel, c, bytes_to_evict, bytes_evicted, curr, prev, to_delete =>
    match curr with
    | none => some (c, bytes_to_evict, bytes_evicted, to_delete)
    | some a =>
      if bytes_to_evict > 0 then
        match fuel with
        | 0 => none
        | fuel + 1 =>
          match c.nodes a with
          | none => none
          | some nd =>
            if nd.pin_count = 0 then
              let c1 : FileCache := { c with cache_map_ := mapErase c.cache_map_ nd.file_name }
              match nodeExtract c1 a prev with
              | none => none
              | some c2 =>
                match c2.nodes a with
                | none => none
                | some nd2 =>
                  evictLoop fuel c2 (usub bytes_to_evict (nd.size % 2 ^ 64).toNat)
                    (bytes_evicted + nd.size) nd2.next a (to_delete ++ [a])
            else evictLoop fuel c bytes_to_evict bytes_evicted nd.next a to_delete
      else some (c, bytes_to_evict, bytes_evicted, to_delete)

/-- Models `delete node`, running `~Node` (`delete buf`). -/
def deleteNode (c : FileCache) (a : Addr) : Option FileCache :=
  if a = 0 then none
  else
    match c.nodes a with
    | none => none
    | some nd =>
      let c1 : FileCache := { c with nodes := Function.update c.nodes a none }
      match nd.buf with
      | none => some c1
      | some p =>
        match c1.bufs p with
        | none => none
        | some _ => some { c1 with bufs := Function.update c1.bufs p none }

/-- The loop deleting every node of `to_delete`. -/
def deleteAll (c : FileCache) : List Addr → Option FileCache
  | [] => some c
  | a :: rest =>
    match deleteNode c a with
    | none => none
    | some c1 => deleteAll c1 rest

/-- Models `FileCache::evict`. The walk visits every node at most once unless the list is cyclic, so
it is given as many rounds as nodes were ever allocated. -/
def evict (c : FileCache) (bytes_to_evict : Nat) : Option (Bool × FileCache) :=
  if c.head_ = 0 then some (false, c)
  else
    match c.nodes 0 with
    | none => none
    | some t =>
      match evictLoop c.node_brk c bytes_to_evict 0 t.next 0 [] with
      | none => none
      | some (c1, n, e, del) =>
        let c2 : FileCache := { c1 with bytes_used_ := c1.bytes_used_ - e }
        match deleteAll c2 del with
        | none => none
        | some c3 => some (decide (n ≤ 0), c3)

/-- The read loop of `FileCache::load`. `rest` is the part of the file after the file offset,
so `to_read` is its length; `read` on the regular file delivers as many bytes as asked for,
up to the end of the file. The result is `none` when the loop does not end, the error number
when `read` fails, and the buffer otherwise. -/
def readLoop : Nat → Buffer → List Nat → Option Int → Option (Except Int Buffer)
  | fuel, b, rest, read_errno =>
    if rest.length > 0 then
      match fuel with
      | 0 => none
      | fuel + 1 =>
        let b1 := (b.reserve Buffer.BlockSize).2
        match read_errno with
        | some e => some (.error e)
        | none =>
          readLoop fuel (b1.pokeAtWritePtr (rest.take b1.writeSize)) (rest.drop b1.writeSize)
            read_errno
    else some (.ok b)

/-- Models `FileCache::load`. -/
def load (fs : FileSystem) (c : FileCache) (file_name : String) :
    Option (PinResult × FileCache) :=
  match fs file_name with
  | .absent errno => some (⟨0, none, errno⟩, c)
  | .present bytes read_errno =>
    let st_size : Nat := bytes.length
    let made_room : Option (Bool × FileCache) :=
      if c.max_size_ - c.bytes_used_ < (st_size : Int) then evict c st_size else some (true, c)
    match made_room with
    | none => none
    | some (false, c1) =>
      some (⟨0, none, 0⟩,
        { c1 with pin_total_ := c1.pin_total_ + 1, failed_total_ := c1.failed_total_ + 1 })
    | some (true, c1) =>
      let p := c1.buf_brk
      match readLoop st_size Buffer.new bytes read_errno with
      | none => none
      | some (.error errno) => some (⟨0, none, errno⟩, { c1 with buf_brk := p + 1 })
      | some (.ok nb) =>
        let new_buf := (nb.advance st_size).2
        let a := c1.node_brk
        let new_node : Node :=
          { file_name := file_name, buf := some p, pin_count := 1, size := st_size, next := none }
        let c2 : FileCache :=
          { c1 with bufs := Function.update c1.bufs p (some new_buf), buf_brk := p + 1
                    nodes := Function.update c1.nodes a (some new_node), node_brk := a + 1 }
        match mapFind c2.cache_map_ file_name with
        | none =>
          match nodeInsert { c2 with cache_map_ := (file_name, a) :: c2.cache_map_ } a with
          | none => none
          | some c3 =>
            some (⟨a, some p, 0⟩,
              { c3 with pin_total_ := c3.pin_total_ + 1
                        bytes_used_ := c3.bytes_used_ + st_size })
        | some _ =>
          match deleteNode c2 a with
          | none => none
          | some c3 =>
            some (⟨0, none, 0⟩,
              { c3 with pin_total_ := c3.pin_total_ + 1
                        failed_total_ := c3.failed_total_ + 1 })

/-- Models `FileCache::pin`. -/
def pin (fs : FileSystem) (c : FileCache) (file_name : String) :
    Option (PinResult × FileCache) :=
  match mapFind c.cache_map_ file_name with
  | some (_, a) =>
    match c.nodes a with
    | none => none
    | some nd =>
      some (⟨a, nd.buf, 0⟩,
        { c with nodes := Function.update c.nodes a (some { nd with pin_count := nd.pin_count + 1 })
                 pin_total_ := c.pin_total_ + 1
                 hit_total_ := c.hit_total_ + 1 })
  | none => load fs c file_name

/-- Models `FileCache::unpin`; the flag tells whether a FATAL message was logged. -/
def unpin (c : FileCache) (h : Addr) : Option (Bool × FileCache) :=
  if h = 0 then some (false, c)
  else
    match c.nodes h with
    | none => none
    | some key =>
      match mapFind c.cache_map_ key.file_name with
      | none => some (true, c)
      | some (_, a) =>
        match c.nodes a with
        | none => none
        | some nd =>
          let count := nd.pin_count
          let c1 : FileCache :=
            { c with nodes := Function.update c.nodes a (some { nd with pin_count := nd.pin_count - 1 }) }
          some (decide (count = 0), c1)

/-- One call on the cache. -/
inductive Call where
  | pin (file_name : String)
  | unpin (h : Addr)
deriving DecidableEq, Repr

/-- Performs one call. -/
def step (fs : FileSystem) (c : FileCache) : Call → Option FileCache
  | .pin f => (pin fs c f).map (fun r => r.2)
  | .unpin h => (unpin c h).map (fun r => r.2)

/-- Performs a sequence of calls, first call first. -/
def run (fs : FileSystem) (c : FileCache) : List Call → Option FileCache
  | [] => some c
  | x :: rest =>
    match step fs c x with
    | none => none
    | some c1 => run fs c1 rest

/-- The sum of the sizes of the nodes in the cache map. -/
def mapBytes (c : FileCache) : Int :=
  (c.cache_map_.map (fun e => match c.nodes e.2 with
                              | some nd => nd.size
                              | none => 0)).sum

end FileCache

/-! ## Concrete scenarios used to exercise the definitions -/

namespace FileCache

/-- A directory with a 10 byte file `ten`, a 6 byte file `six`, a 3 byte file `abc`, and
nothing else (`open` fails with `ENOENT = 2`). -/
def fsA : FileSystem := fun s =>
  if s = "ten" then .present (List.replicate 10 120) none
  else if s = "six" then .present (List.replicate 6 121) none
  else if s = "abc" then .present [97, 98, 99] none
  else .absent 2

/-- A directory with the single file `big` of 4097 bytes `x`. -/
def fsBig : FileSystem := fun s =>
  if s = "big" then .present (List.replicate 4097 120) none else .absent 2

/-- A cache of capacity 10 after `h = pin("ten")` and `unpin(h)`. -/
def cacheA : FileCache :=
  (run fsA (FileCache.new 10) [.pin "ten", .unpin 1]).getD (FileCache.new 10)

end FileCache

/-! ## Invariants and predicates used in the statements -/

/-- The latch invariant: `can` and `waiting` are not both set, in either direction. -/
def Descriptor.LatchOk (d : Descriptor) : Prop :=
  ¬ (d.can_read_ = true ∧ d.waiting_read_ = true) ∧
  ¬ (d.can_write_ = true ∧ d.waiting_write_ = true)

/-- The buffer `b` holds exactly the bytes `s`: they were stored without holes from chunk 0 on
and none was consumed. -/
structure Buffer.Holds (b : Buffer) (s : List Nat) : Prop where
  sizes : b.sizes_ =
    List.replicate (s.length / Buffer.BlockSize) Buffer.BlockSize ++ [s.length % Buffer.BlockSize]
  nchunks : b.chunks_.length = s.length / Buffer.BlockSize + 1
  wpos : b.wpos_ = ⟨s.length / Buffer.BlockSize, s.length % Buffer.BlockSize⟩
  rpos : b.rpos_ = ⟨0, 0⟩
  bytes : ∀ k, k < s.length →
    b.chunkAt (k / Buffer.BlockSize) (k % Buffer.BlockSize) = s.getD k 0

namespace FileCache

/-- The fields of a node other than its list link. -/
def Node.core (nd : Node) : String × Option Addr × Int × Int :=
  (nd.file_name, nd.buf, nd.pin_count, nd.size)

/-- The `size` of the node at `a`, 0 when there is no node. -/
def nodeSize (c : FileCache) (a : Addr) : Int :=
  match c.nodes a with
  | some nd => nd.size
  | none => 0

/-- The list `l` consists of the nodes met when following `next` from `start` up to `NULL`, all of
them live. -/
def isChain (nodes : Addr → Option Node) : Option Addr → List Addr → Prop
  | start, [] => start = none
  | start, a :: rest => start = some a ∧ ∃ nd, nodes a = some nd ∧ isChain nodes nd.next rest

/-- Representation invariant of the cache: the map is keyed by the names of live heap nodes,
every live heap node is in the map, no list link points back to the sentinel, addresses from
`node_brk` on are unused, and `bytes_used_` is the sum of the sizes of the nodes in the map and
does not exceed `max_size_`. -/
structure Inv (c : FileCache) : Prop where
  keys_nodup : (c.cache_map_.map Prod.fst).Nodup
  map_live : ∀ k a, (k, a) ∈ c.cache_map_ →
    a ≠ 0 ∧ ∃ nd, c.nodes a = some nd ∧ nd.file_name = k ∧ 0 ≤ nd.size
  live_map : ∀ a nd, a ≠ 0 → c.nodes a = some nd → (nd.file_name, a) ∈ c.cache_map_
  next_ne : ∀ a nd, c.nodes a = some nd → nd.next ≠ some 0
  fresh : ∀ a, c.node_brk ≤ a → c.nodes a = none
  brk_pos : 0 < c.node_brk
  used : c.bytes_used_ = c.mapBytes
  cap : c.bytes_used_ ≤ c.max_size_

/-- What the loop of `evict` maintains, `c` being the cache at the start of `evict`, `ci` the
cache, `del` the `to_delete` list, `e` the count `bytes_evicted`, `n0` the request and `n`
the value of `bytes_to_evict` at the start of a round. -/
structure EvictInv (c ci : FileCache) (del : List Addr) (e : Int) (n0 n : Nat) : Prop where
  same : ∀ a, (ci.nodes a).map Node.core = (c.nodes a).map Node.core
  next_ne : ∀ a nd, ci.nodes a = some nd → nd.next ≠ some 0
  map : ci.cache_map_ = c.cache_map_.filter (fun x => decide (x.2 ∉ del))
  ev : e = (del.map c.nodeSize).sum
  del_unpinned : ∀ d, d ∈ del → ∃ nd, c.nodes d = some nd ∧ nd.pin_count = 0
  arith : 0 ≤ e ∧ n < 2 ^ 64 ∧ ((n : Int) + e) % 2 ^ 64 = (n0 : Int) % 2 ^ 64
  used : ci.bytes_used_ = c.bytes_used_
  max : ci.max_size_ = c.max_size_
  bufs : ci.bufs = c.bufs
  brk : ci.node_brk = c.node_brk ∧ ci.buf_brk = c.buf_brk
  counters : ci.pin_total_ = c.pin_total_ ∧ ci.hit_total_ = c.hit_total_ ∧
    ci.failed_total_ = c.failed_total_

/-- File sizes are `off_t` values: every file has fewer than `2 ^ 63` bytes. -/
def FileSystem.Sized (fs : FileSystem) : Prop :=
  ∀ name bytes e, fs name = File.present bytes e → bytes.length < 2 ^ 63

end FileCache

/-- Everything of the cache except the heap and `head_` is the same in `c` and `c1`. -/
structure FileCache.SameMeta (c c1 : FileCache) : Prop where
  map : c1.cache_map_ = c.cache_map_
  used : c1.bytes_used_ = c.bytes_used_
  max : c1.max_size_ = c.max_size_
  node_brk : c1.node_brk = c.node_brk
  buf_brk : c1.buf_brk = c.buf_brk
  pins : c1.pin_total_ = c.pin_total_
  hits : c1.hit_total_ = c.hit_total_
  failed : c1.failed_total_ = c.failed_total_

/-- The name and the size of a node. -/
def FileCache.Node.ident (nd : FileCache.Node) : String × Int := (nd.file_name, nd.size)

namespace FileCache

/-- A run on a cache of capacity 10: `ten` is loaded and unpinned, the pin of `abc` evicts it
and fails, the pin of `six` loads a 6 byte node. -/
def callsB : List Call := [.pin "ten", .unpin 1, .pin "abc", .pin "six"]

/-- The cache after the calls `callsB`. -/
def cacheB : FileCache := (run fsA (FileCache.new 10) callsB).getD (FileCache.new 10)

/-- A cache of capacity 10 holding the pinned 10 byte node `ten`. -/
def cacheP : FileCache := (run fsA (FileCache.new 10) [.pin "ten"]).getD (FileCache.new 10)

end FileCache

namespace Buffer

/-- A never consumed source Buffer holding exactly one full chunk: `4096` bytes `x` were written
to a fresh Buffer. -/
def srcFull : Buffer := Buffer.new.write (List.replicate 4096 120)

end Buffer

/-! ## RequestStats (request_stats.hpp, request_stats.cpp)

`TicksClock::ticksPerSecond()` is measured when the program starts; its value is the parameter
`tps` of the definitions below. It is a `double` holding a whole number (twice a difference of
two ticks), so the two comparisons that involve it are done in `double`, after the conversion of
the `uint64_t` operands:
* `counts.base_tick + ticksPerSecond() < now` in `finishedRequest` converts `base_tick`, adds in
  `double` and compares with the converted `now`; ticks from `2 ^ 53` on are rounded by the
  conversion, so the model rounds as the machine does (`toDouble`);
* `now - counts.base_tick > ticksPerSecond()` in `getStats` converts the difference; for a whole
  `ticksPerSecond()` below `2 ^ 53` the outcome is that of the comparison of the whole numbers
  (`toDouble_gt_iff`), which is what the model takes;
* `kTicksPerSlot` is the quotient in `double` converted to `uint64_t`, for `ticksPerSecond()`
  below `2 ^ 53` the whole quotient `tps / 10`.
Ticks are `uint64_t`, slot counts `uint32_t`. -/

/-- Models `struct Counts`: `val` maps a slot number to its count. -/
structure RequestStats.Counts where
  base_pos : Nat
  base_tick : Nat
  val : Nat → Nat

/-- Models `class RequestStats`. -/
structure RequestStats where
  num_threads_ : Nat
  counts_ : List RequestStats.Counts

namespace RequestStats

/-- Models `kNumSlots`. -/
def kNumSlots : Nat := 10

/-- Models `kTicksPerSlot = TicksClock::ticksPerSecond() / kNumSlots`, converted to `uint64_t`. -/
def kTicksPerSlot (tps : Nat) : Nat := tps / kNumSlots

/-- Models `RequestStats::RequestStats`. -/
def new (num_threads : Nat) : RequestStats :=
  { num_threads_ := num_threads
    counts_ := List.replicate num_threads { base_pos := 0, base_tick := 0, val := fun _ => 0 } }

/-- Models `RequestStats::incPos`. -/
def incPos (p : Nat) : Nat := (p + 1) % 2 ^ 32 % kNumSlots

/-- Models `RequestStats::posForTick`; the caller checks that `kTicksPerSlot` is not zero. -/
def posForTick (tps t : Nat) : Nat := t / kTicksPerSlot tps % kNumSlots

/-- Models `RequestStats::roundTick`; the caller checks that `kTicksPerSlot` is not zero. -/
def roundTick (tps t : Nat) : Nat := t - t % kTicksPerSlot tps

/-- The loop `do { curr_pos = incPos(curr_pos); counts.val[curr_pos] = 0; } while (curr_pos !=
new_pos)` of `finishedRequest`. The position runs through the ten slots in turn, so a loop that
has not ended after ten rounds never ends (`none`). -/
def zeroLoop : Nat → (Nat → Nat) → Nat → Nat → Option (Nat → Nat)
  | 0, _, _, _ => none
  | fuel + 1, val, curr_pos, new_pos =>
    let curr := incPos curr_pos
    let val1 := Function.update val curr 0
    if curr ≠ new_pos then zeroLoop fuel val1 curr new_pos else some val1

/-- The number of low bits that the conversion of the whole number `x` to `double` drops: the
least `e` with `x / 2 ^ e < 2 ^ 53`, looked for in at most `fuel` halvings. -/
def doubleShift : Nat → Nat → Nat
  | 0, _ => 0
  | fuel + 1, x => if x < 2 ^ 53 then 0 else doubleShift fuel (x / 2) + 1

/-- The value of a whole number `x` below `2 ^ 117` as a `double` (IEEE 754 binary64: 53 bits of
mantissa, round to nearest, ties to even): what the conversion of a `uint64_t` to `double` and
the sum of two whole `double`s yield. Numbers below `2 ^ 53` are kept; above, the `e` low bits
that do not fit are rounded away. -/
def toDouble (x : Nat) : Nat :=
  let e := doubleShift 64 x
  let q := x / 2 ^ e
  let r := x % 2 ^ e
  if 2 * r < 2 ^ e then q * 2 ^ e
  else if 2 ^ e < 2 * r then (q + 1) * 2 ^ e
  else (q + q % 2) * 2 ^ e

/-- Models `RequestStats::finishedRequest`. The result is `none` when the call does not return:
wrong thread number (`LOG(FATAL)` ends the process), division by a zero `kTicksPerSlot`, or a
loop that does not end. The test `counts.base_tick + TicksClock::ticksPerSecond() < now` is done
in `double`: `base_tick` is converted, the sum is rounded, and `now` is converted. -/
def finishedRequest (tps : Nat) (rs : RequestStats) (thread_num now : Nat) :
    Option RequestStats :=
  if thread_num ≥ rs.num_threads_ then none
  else
    match rs.counts_[thread_num]? with
    | none => none
    | some counts =>
      let advanced : Option Counts :=
        if now > (counts.base_tick + kTicksPerSlot tps) % 2 ^ 64 then
          if kTicksPerSlot tps = 0 then none
          else
            let new_pos := posForTick tps now
            let zeroed : Option (Nat → Nat) :=
              if toDouble (toDouble counts.base_tick + tps) < toDouble now then
                some (fun i => if i < kNumSlots then 0 else counts.val i)
              else zeroLoop kNumSlots counts.val counts.base_pos new_pos
            match zeroed with
            | none => none
            | some val1 =>
              some { base_pos := new_pos, base_tick := roundTick tps now, val := val1 }
        else some counts
      match advanced with
      | none => none
      | some c1 =>
        let c2 : Counts :=
          { c1 with val := Function.update c1.val c1.base_pos ((c1.val c1.base_pos + 1) % 2 ^ 32) }
        some { rs with counts_ := rs.counts_.set thread_num c2 }

/-- The loop `do { curr_pos = incPos(curr_pos); reqs_acc += counts.val[curr_pos]; } while
(curr_pos != counts.base_pos)` of `getStats`; `none` when it does not end. -/
def sumLoop : Nat → (Nat → Nat) → Nat → Nat → Nat → Option Nat
  | 0, _, _, _, _ => none
  | fuel + 1, val, curr_pos, base_pos, reqs_acc =>
    let curr := incPos curr_pos
    let acc1 := (reqs_acc + val curr) % 2 ^ 32
    if curr ≠ base_pos then sumLoop fuel val curr base_pos acc1 else some acc1

/-- The `for` loop of `getStats` over the records of the threads. The test
`now - counts.base_tick > TicksClock::ticksPerSecond()` converts the difference to `double`; with
a whole `ticksPerSecond()` below `2 ^ 53` it holds exactly when the whole numbers compare so. -/
def getStatsLoop (tps now : Nat) : List Counts → Nat → Option Nat
  | [], reqs_acc => some reqs_acc
  | counts :: rest, reqs_acc =>
    if usub now counts.base_tick > tps then getStatsLoop tps now rest reqs_acc
    else if kTicksPerSlot tps = 0 then none
    else
      match sumLoop kNumSlots counts.val (posForTick tps now) counts.base_pos reqs_acc with
      | none => none
      | some acc1 => getStatsLoop tps now rest acc1

/-- Models `RequestStats::getStats`; the result is `*reqsLastSec`. -/
def getStats (tps : Nat) (rs : RequestStats) (now : Nat) : Option Nat :=
  getStatsLoop tps now (rs.counts_.take rs.num_threads_) 0

/-- A sequence of calls `finishedRequest(thread_num, now)`, first call first. -/
def run (tps : Nat) (rs : RequestStats) : List (Nat × Nat) → Option RequestStats
  | [] => some rs
  | x :: rest =>
    match finishedRequest tps rs x.1 x.2 with
    | none => none
    | some rs1 => run tps rs1 rest

/-- The record of thread `i`. -/
def countsOf (rs : RequestStats) (i : Nat) : Counts :=
  rs.counts_.getD i { base_pos := 0, base_tick := 0, val := fun _ => 0 }

end RequestStats

namespace RequestStats

/-- The number of `incPos` steps that lead from slot `p` to slot `j`, counting a full turn of the
ring as ten steps: between 1 and 10 for slots below ten. -/
def ringDist (p j : Nat) : Nat := (j + 9 - p) % 10 + 1

/-- The slots after slot `old` up to and including slot `new`, in ring order; all ten slots when
`new = old`. -/
def ringAfter (old new : Nat) : List Nat :=
  (List.range (ringDist old new)).map (fun k => (old + 1 + k) % 10)

/-- The slots strictly between slot `old` and slot `new`, in ring order. -/
def ringBetween (old new : Nat) : List Nat :=
  (List.range (ringDist old new - 1)).map (fun k => (old + 1 + k) % 10)

/-- The slot advance rule as the specification words it, on the record of one thread: past
`base_tick + ticks_per_slot` the slot and the tick are moved, all ten slots are zeroed when
`now - base_tick ≥ ticks_per_second` and otherwise exactly the slots strictly between the old
and the new slot; then `val[base_slot]` is incremented. -/
def finishedRequestSpec (tps : Nat) (counts : Counts) (now : Nat) : Counts :=
  let moved : Counts :=
    if now > counts.base_tick + kTicksPerSlot tps then
      let new_slot := now / kTicksPerSlot tps % 10
      { base_pos := new_slot
        base_tick := now - now % kTicksPerSlot tps
        val := fun i =>
          if now - counts.base_tick ≥ tps then (if i < 10 then 0 else counts.val i)
          else if i ∈ ringBetween counts.base_pos new_slot then 0 else counts.val i }
    else counts
  { moved with val := Function.update moved.val moved.base_pos (moved.val moved.base_pos + 1) }

/-- The record of a thread that has not recorded anything. -/
def Counts.fresh : Counts := { base_pos := 0, base_tick := 0, val := fun _ => 0 }

end RequestStats

namespace RequestStats

/-- Thread 0 records a completion at tick 300 and one at tick 500. -/
def callsOver : List (Nat × Nat) := [(0, 300), (0, 500)]

/-- The state of a `RequestStats` for one thread, with ten ticks per second, after completions at
ticks 2 and 4. -/
def advState : RequestStats :=
  (run 10 (RequestStats.new 1) [(0, 2), (0, 4)]).getD (RequestStats.new 1)

end RequestStats

/-! ## HTTP request parser (http_parser.hpp, http_parser.cpp, http_request.hpp)

A `string` is the list of its bytes; `' '` is 32, `'/'` is 47, `'\r'` is 13 and `'\n'` is 10. The
iterator `in` points into a Buffer, which is passed along with it. -/

/-- Models `struct Request`. -/
structure http.Request where
  method : List Nat
  address : List Nat
  version : List Nat
deriving DecidableEq, Repr

/-- How a routine of `Parser` ends: it returns, or it throws one of the two exceptions. -/
inductive http.Parser.Exit where
  | returned
  | IncompleteInput
  | ErrorInRequest
deriving DecidableEq, Repr

namespace http

open Buffer (Iterator)

/-- Models `Request::clear`. -/
def Request.clear (_r : Request) : Request := { method := [], address := [], version := [] }

namespace Parser

/-- The number of rounds given to a loop that moves the iterator by one byte per round: one more
than the chunks of the Buffer have bytes. A loop that needs more does not end (`none`). -/
def rounds (b : Buffer) : Nat := b.numChunks * Buffer.BlockSize + 1

/-- The `while (!in->eob())` loop of `Parser::parseString`. -/
def parseStringLoop : Nat → Buffer → Iterator → List Nat → Option (Iterator × List Nat)
  | fuel, b, it, res =>
    if it.eob b then some (it, res)
    else
      let c := it.getChar b
      if c = 32 then some (it, res)
      else if c = 13 then some (it, res)
      else
        match fuel with
        | 0 => none
        | fuel + 1 => parseStringLoop fuel b (it.next b) (res ++ [c])

/-- Models `Parser::parseString`; the result holds `*in` and `*res` when the routine ends. -/
def parseString (b : Buffer) (it : Iterator) (res : List Nat) :
    Option (Exit × Iterator × List Nat) :=
  if it.eob b then some (.IncompleteInput, it, res)
  else
    match parseStringLoop (rounds b) b it res with
    | none => none
    | some (it1, res1) =>
      if it1.eob b then some (.IncompleteInput, it1, res1)
      else some (.returned, it1, res1)

/-- The `while (!in->eob())` loop of `Parser::parseLine`, with the test that follows it: the loop
is left at `eob()`, by the `return` or by the `throw`. -/
def parseLineLoop : Nat → Buffer → Iterator → List Nat → Option (Exit × Iterator × List Nat)
  | fuel, b, it, res =>
    if it.eob b then some (.IncompleteInput, it, res)
    else
      let c := it.getChar b
      if c = 13 then
        let it1 := it.next b
        if it1.getChar b = 10 then some (.returned, it1.next b, res)
        else some (.ErrorInRequest, it1, res)
      else
        match fuel with
        | 0 => none
        | fuel + 1 => parseLineLoop fuel b (it.next b) (res ++ [c])

/-- Models `Parser::parseLine`. -/
def parseLine (b : Buffer) (it : Iterator) (res : List Nat) :
    Option (Exit × Iterator × List Nat) :=
  if it.eob b then some (.IncompleteInput, it, res)
  else parseLineLoop (rounds b) b it res

/-- Models `Parser::skipChar`. -/
def skipChar (b : Buffer) (it : Iterator) (skip : Nat) : Exit × Iterator :=
  if it.eob b then (.IncompleteInput, it)
  else if it.getChar b ≠ skip then (.ErrorInRequest, it)
  else (.returned, it.next b)

/-- Models `Parser::skipNewLine`. -/
def skipNewLine (b : Buffer) (it : Iterator) : Exit × Iterator :=
  if it.eob b then (.IncompleteInput, it)
  else
    let first := it.getChar b
    let it1 := it.next b
    if it1.eob b then (.IncompleteInput, it1)
    else
      let second := it1.getChar b
      if first ≠ 13 ∨ second ≠ 10 then (.ErrorInRequest, it1)
      else (.returned, it1.next b)

/-- The loop `while (true) { dummy.clear(); parseLine(in, &dummy); if (dummy.size() == 0) break; }`
of `Parser::parseRequest`. Every round but the last moves the iterator. -/
def headerLoop : Nat → Buffer → Iterator → Option (Exit × Iterator)
  | fuel, b, it =>
    match parseLine b it [] with
    | none => none
    | some (.returned, it1, dummy) =>
      if dummy.length = 0 then some (.returned, it1)
      else
        match fuel with
        | 0 => none
        | fuel + 1 => headerLoop fuel b it1
    | some (e, it1, _) => some (e, it1)

/-- Runs `g` on the state left by a routine that returned; an exception ends the sequence. -/
def andThen {σ : Type} (r : Option (Exit × σ)) (g : σ → Option (Exit × σ)) : Option (Exit × σ) :=
  match r with
  | some (.returned, s) => g s
  | other => other

/-- The statements of the `try` block of `Parser::parseRequest`, in order. -/
def parseRequestBody (b : Buffer) (it : Iterator) (request : Request) :
    Option (Exit × Iterator × Request) :=
  let s1 := (parseString b it request.method).map
    (fun r => (r.1, r.2.1, { request with method := r.2.2 }))
  let s2 := andThen s1 (fun s => some ((skipChar b s.1 32).1, (skipChar b s.1 32).2, s.2))
  let s3 := andThen s2 (fun s => some ((skipChar b s.1 47).1, (skipChar b s.1 47).2, s.2))
  let s4 := andThen s3 (fun s => (parseString b s.1 s.2.address).map
    (fun r => (r.1, r.2.1, { s.2 with address := r.2.2 })))
  let s5 := andThen s4 (fun s => some ((skipChar b s.1 32).1, (skipChar b s.1 32).2, s.2))
  let s6 := andThen s5 (fun s => (parseString b s.1 s.2.version).map
    (fun r => (r.1, r.2.1, { s.2 with version := r.2.2 })))
  let s7 := andThen s6 (fun s => some ((skipNewLine b s.1).1, (skipNewLine b s.1).2, s.2))
  andThen s7 (fun s => (headerLoop (rounds b) b s.1).map (fun r => (r.1, r.2, s.2)))

/-- The value returned by `parseRequest` for each way the `try` block ends. -/
def exitCode : Exit → Int
  | .returned => 0
  | .IncompleteInput => 1
  | .ErrorInRequest => -1

/-- Models `Parser::parseRequest`: the value returned, `*in` and `*request` after the call;
`none` when the call does not return. -/
def parseRequest (b : Buffer) (it : Iterator) (request : Request) :
    Option (Int × Iterator × Request) :=
  (parseRequestBody b it request.clear).map (fun r => (exitCode r.1, r.2.1, r.2.2))

end Parser

/-- The bytes of a string literal. -/
def bytes (s : String) : List Nat := s.toList.map Char.toNat

/-- The bytes of the request `M SP / A SP V CRLF H1 CRLF ... Hk CRLF CRLF`. -/
def requestBytes (M A V : List Nat) (headers : List (List Nat)) : List Nat :=
  M ++ [32, 47] ++ A ++ [32] ++ V ++ [13, 10] ++
    (headers.map (fun h => h ++ [13, 10])).flatten ++ [13, 10]

end http

/-- The Buffer `b` holds the bytes `pre ++ s` without holes from chunk 0 on; the bytes `pre`, all in
its first chunk, were consumed and the bytes `s` are still to be read. -/
def Buffer.HoldsAt (b : Buffer) (pre s : List Nat) : Prop :=
  Buffer.Holds { b with rpos_ := ⟨0, 0⟩ } (pre ++ s) ∧ b.rpos_ = ⟨0, pre.length⟩ ∧
    pre.length < Buffer.BlockSize

/-- Iterating `b` from `begin()` yields exactly the bytes `s`: after `k < |s|` calls of `next()`
the iterator is not at `eob()`, `getChar()` is the `k`-th byte of `s` and `bytesRead()` is `k`;
after `|s|` calls it is at `eob()`; `bytesTotal()` is `|s|`. The chunks of `b` have room for
more than `|s|` bytes. -/
structure Buffer.Reads (b : Buffer) (s : List Nat) : Prop where
  not_eob : ∀ k, k < s.length → (Buffer.Iterator.nextN b k b.begin).eob b = false
  getChar : ∀ k, k < s.length → (Buffer.Iterator.nextN b k b.begin).getChar b = s.getD k 0
  eob : (Buffer.Iterator.nextN b s.length b.begin).eob b = true
  bytesRead : ∀ k, k ≤ s.length → (Buffer.Iterator.nextN b k b.begin).bytesRead = k
  bytesTotal : b.begin.bytesTotal = s.length
  room : s.length < b.numChunks * Buffer.BlockSize

namespace http

/-- The request `GET / HTTP/1.1` with the header line `Host: x`. -/
def reqHost : List Nat := requestBytes (bytes "GET") [] (bytes "HTTP/1.1") [bytes "Host: x"]

/-- The request `GET / HTTP/1.1` without header lines. -/
def reqPlain : List Nat := requestBytes (bytes "GET") [] (bytes "HTTP/1.1") []

/-- The request `reqHost` cut right after the CR of its header line. -/
def prefixHeaderCR : List Nat := bytes "GET / HTTP/1.1\r\nHost: x\r"

/-- The request `reqPlain` cut right after the CR of the empty line. -/
def prefixEmptyCR : List Nat := bytes "GET / HTTP/1.1\r\n\r"

/-- The request `reqHost` cut right after the CR of its request line. -/
def prefixLineCR : List Nat := bytes "GET / HTTP/1.1\r"

end http

/-- Every node of the cache other than the sentinel `tail_` owns a Buffer. -/
def FileCache.BufOk (c : FileCache) : Prop :=
  ∀ a nd, a ≠ 0 → c.nodes a = some nd → nd.buf ≠ none

/-- The cache has no room for a file of `n` bytes: `load` finds the free space too small and
`evict(n)` returns false. -/
def FileCache.NoRoom (c : FileCache) (n : Nat) : Prop :=
  c.max_size_ - c.bytes_used_ < (n : Int) ∧ (FileCache.evict c n).map Prod.fst = some false

/-- The result of `pin("abc")` on the cache `cacheP`, which is full with the pinned file `ten`. -/
def FileCache.pinAbc : FileCache.PinResult × FileCache :=
  (FileCache.pin FileCache.fsA FileCache.cacheP "abc").getD (⟨0, none, 0⟩, FileCache.cacheP)

/-! ## ThreadPoolFast (thread_pool_fast.hpp, thread_pool_fast.cpp)

A task is a `Callback<void>*`; `NULL`, the request to stop a worker, is `none`. A worker is named
by its number, the position of its thread in `workers_tids_`. -/

/-- Models the mailbox of `class ThreadPoolFast::Worker` (`has_task_`, `task_`). -/
structure ThreadPoolFast.Worker where
  has_task_ : Bool
  task_ : Option Callback
deriving DecidableEq, Repr

/-- Models `class ThreadPoolFast`: the state protected by `m_dispatch_`, the number of worker
threads (`workers_tids_.size()`) and the `Worker` objects. -/
structure ThreadPoolFast where
  dispatch_queue_ : List (Option Callback)
  workers_ : List Nat
  num_workers : Nat
  worker : Nat → ThreadPoolFast.Worker

namespace ThreadPoolFast

/-- Models `Worker::assignTask` on worker `w`. -/
def assignTask (p : ThreadPoolFast) (w : Nat) (task : Option Callback) : ThreadPoolFast :=
  { p with worker := Function.update p.worker w { has_task_ := true, task_ := task } }

/-- Models `ThreadPoolFast::queueWorker`. -/
def queueWorker (p : ThreadPoolFast) (w : Nat) : ThreadPoolFast :=
  match p.dispatch_queue_ with
  | task :: rest => assignTask { p with dispatch_queue_ := rest } w task
  | [] => { p with workers_ := w :: p.workers_ }

/-- Models `ThreadPoolFast::addTask`. -/
def addTask (p : ThreadPoolFast) (task : Option Callback) : ThreadPoolFast :=
  match p.workers_ with
  | w :: rest => assignTask { p with workers_ := rest } w task
  | [] => { p with dispatch_queue_ := p.dispatch_queue_ ++ [task] }

/-- Models `ThreadPoolFast::ThreadPoolFast`: each worker is created with an empty mailbox and
queued. -/
def new (num_workers : Nat) : ThreadPoolFast :=
  (List.range num_workers).foldl queueWorker
    { dispatch_queue_ := [], workers_ := [], num_workers := num_workers
      worker := fun _ => { has_task_ := false, task_ := none } }

/-- Models `ThreadPoolFast::count`. -/
def count (p : ThreadPoolFast) : Nat := p.dispatch_queue_.length

/-- Where the thread of a worker is in `Worker::workerLoop`: waiting for `has_task_`, running the
task it took, or gone after a `NULL` task. -/
inductive Phase where
  | waiting
  | running (t : Callback)
  | exited
deriving DecidableEq, Repr

/-- The pool, its worker threads and a client thread that is not a worker. The client calls
`addTask` for each task of `tasksLeft` and then `stop()`, which calls `addTask(NULL)` once per
worker (`nullsLeft` calls still to make) and then joins the workers in turn (`joined` are
joined). `done` lists the tasks that were run to completion, oldest first. -/
structure Sys where
  pool : ThreadPoolFast
  phase : Nat → Phase
  done : List Callback
  tasksLeft : List Callback
  nullsLeft : Nat
  joined : Nat

/-- The steps of the threads. Each is done under a lock (`m_dispatch_`, or `m_` of the worker) or
touches only what belongs to the thread:
* `client`: the next call of the client, `addTask(t)`, `addTask(NULL)` or `pthread_join`;
* `take w`: worker `w` leaves its wait, clears `has_task_` and looks at `task_`;
* `finish w`: worker `w` completes the task it runs and calls `queueWorker(this)`. -/
inductive Event where
  | client
  | take (w : Nat)
  | finish (w : Nat)
deriving DecidableEq, Repr

/-- One step; `none` when the thread cannot take it (it is blocked or gone). -/
def step (s : Sys) : Event → Option Sys
  | .client =>
    match s.tasksLeft with
    | t :: rest => some { s with pool := s.pool.addTask (some t), tasksLeft := rest }
    | [] =>
      if s.nullsLeft > 0 then
        some { s with pool := s.pool.addTask none, nullsLeft := s.nullsLeft - 1 }
      else if s.joined < s.pool.num_workers ∧ s.phase s.joined = .exited then
        some { s with joined := s.joined + 1 }
      else none
  | .take w =>
    if w < s.pool.num_workers ∧ s.phase w = .waiting ∧ (s.pool.worker w).has_task_ = true then
      let pool1 : ThreadPoolFast :=
        { s.pool with
          worker := Function.update s.pool.worker w { s.pool.worker w with has_task_ := false } }
      match (s.pool.worker w).task_ with
      | none => some { s with pool := pool1, phase := Function.update s.phase w .exited }
      | some t => some { s with pool := pool1, phase := Function.update s.phase w (.running t) }
    else none
  | .finish w =>
    if w < s.pool.num_workers then
      match s.phase w with
      | .running t =>
        some { s with done := s.done ++ [t], pool := s.pool.queueWorker w
                      phase := Function.update s.phase w .waiting }
      | _ => none
    else none

/-- A sequence of steps, first step first; `none` when one of them cannot be taken. -/
def run (s : Sys) : List Event → Option Sys
  | [] => some s
  | e :: rest =>
    match step s e with
    | none => none
    | some s1 => run s1 rest

/-- The system after the constructor: `n` waiting workers, and a client about to submit
`tasks`. -/
def Sys.init (n : Nat) (tasks : List Callback) : Sys :=
  { pool := ThreadPoolFast.new n, phase := fun _ => .waiting, done := []
    tasksLeft := tasks, nullsLeft := n, joined := 0 }

/-- The client is about to call `stop()`: every task was submitted, no stop request yet. -/
def Sys.stopCalled (s : Sys) : Prop :=
  s.tasksLeft = [] ∧ s.nullsLeft = s.pool.num_workers

/-- The call `stop()` of the client has returned: every worker was joined. -/
def Sys.stopReturned (s : Sys) : Prop :=
  s.tasksLeft = [] ∧ s.nullsLeft = 0 ∧ s.joined = s.pool.num_workers

end ThreadPoolFast

namespace ThreadPoolFast

/-- How often the item `x` occurs in a list of items. -/
def cnt (x : Option Callback) (l : List (Option Callback)) : Nat :=
  l.countP (fun y => decide (y = x))

/-- How often the item `x`, a task or `NULL`, is with a worker: in its mailbox, being run by it,
or, for `NULL`, taken by its thread, which is gone. -/
def itemCount (x : Option Callback) (m : Worker) (p : Phase) : Nat :=
  (if m.has_task_ = true ∧ m.task_ = x then 1 else 0) +
    (match p with
     | .running t => if some t = x then 1 else 0
     | .exited => if x = none then 1 else 0
     | .waiting => 0)

/-- How often the item `x` is with one of the workers. -/
def Sys.held (s : Sys) (x : Option Callback) : Nat :=
  Finset.sum (Finset.range s.pool.num_workers)
    (fun w => itemCount x (s.pool.worker w) (s.phase w))

/-- What holds in every state of a pool of `n` workers whose client submits `tasks` and then calls
`stop()`:
* `account`: every item the client hands over, the tasks and the `n` stop requests, is in
  exactly one place: still with the client, in the dispatch queue, with a worker, or done;
* `free`: the free list holds exactly the workers that wait with an empty mailbox, once each;
* `free_queue`: tasks are queued only while no worker is free;
* `nulls_last`: in the queue no task comes after a stop request;
* `delivered`: once a stop request has reached a worker, no task is in the queue. -/
structure Sys.Inv (n : Nat) (tasks : List Callback) (s : Sys) : Prop where
  num : s.pool.num_workers = n
  joined_le : s.joined ≤ n
  joined_exited : ∀ w, w < s.joined → s.phase w = .exited
  order : s.tasksLeft ≠ [] → s.nullsLeft = n
  account : ∀ x, cnt x (tasks.map some ++ List.replicate n none) =
    cnt x (s.tasksLeft.map some ++ List.replicate s.nullsLeft none) +
      cnt x s.pool.dispatch_queue_ + s.held x + cnt x (s.done.map some)
  busy : ∀ w, w < n → s.phase w ≠ .waiting → (s.pool.worker w).has_task_ = false
  free : ∀ w, w ∈ s.pool.workers_ ↔
    (w < n ∧ s.phase w = .waiting ∧ (s.pool.worker w).has_task_ = false)
  free_nodup : s.pool.workers_.Nodup
  free_queue : s.pool.workers_ ≠ [] → s.pool.dispatch_queue_ = []
  nulls_last : s.pool.dispatch_queue_.Pairwise (fun a b => a = none → b = none)
  delivered : (∃ w, w < n ∧ 0 < itemCount none (s.pool.worker w) (s.phase w)) →
    ∀ t, some t ∉ s.pool.dispatch_queue_

/-- The steps an item still needs: a task in the queue or in a mailbox is taken and finished, a
stop request is taken. -/
def weight : Option Callback → Nat
  | none => 1
  | some _ => 2

/-- The steps the worker itself still has to take for what it holds. -/
def workerWeight (m : Worker) (p : Phase) : Nat :=
  (if m.has_task_ = true then weight m.task_ else 0) +
    (match p with
     | .running _ => 1
     | _ => 0)

/-- The number of steps left until `stop()` has returned. -/
def Sys.stepsLeft (s : Sys) : Nat :=
  3 * s.tasksLeft.length + 2 * s.nullsLeft + (s.pool.num_workers - s.joined) +
    (s.pool.dispatch_queue_.map weight).sum +
    Finset.sum (Finset.range s.pool.num_workers)
      (fun w => workerWeight (s.pool.worker w) (s.phase w))

end ThreadPoolFast

/-! ## ThreadPoolNormal (thread_pool_normal.hpp, thread_pool_normal.cpp) -/

/-- Models `class ThreadPoolNormal`: the dispatch queue and the number of worker threads
(`workers_.size()`). -/
structure ThreadPoolNormal where
  dispatch_queue_ : List (Option Callback)
  num_workers : Nat
deriving DecidableEq, Repr

namespace ThreadPoolNormal

/-- Models `ThreadPoolNormal::ThreadPoolNormal`. -/
def new (num_workers : Nat) : ThreadPoolNormal :=
  { dispatch_queue_ := [], num_workers := num_workers }

/-- Models `ThreadPoolNormal::addTask`. -/
def addTask (p : ThreadPoolNormal) (task : Option Callback) : ThreadPoolNormal :=
  { p with dispatch_queue_ := p.dispatch_queue_ ++ [task] }

/-- The first block of `ThreadPoolNormal::stop`: under the lock, one `NULL` per worker is
pushed. -/
def pushStops (p : ThreadPoolNormal) : ThreadPoolNormal :=
  { p with dispatch_queue_ := p.dispatch_queue_ ++ List.replicate p.num_workers none }

/-- Models `ThreadPoolNormal::count`. -/
def count (p : ThreadPoolNormal) : Nat := p.dispatch_queue_.length

/-- Where the thread of a worker is in `workerLoop`: about to take a task from the queue (it
waits while the queue is empty), running the task it took, or gone after a `NULL` task. -/
inductive Phase where
  | idle
  | running (t : Callback)
  | exited
deriving DecidableEq, Repr

/-- The pool, its worker threads and a client thread that is not a worker. The client calls
`addTask` for each task of `tasksLeft` and then `stop()`, which pushes the stop requests
(`stopPushed`) and then joins the workers in turn. `done` lists the tasks that were run to
completion, oldest first. -/
structure Sys where
  pool : ThreadPoolNormal
  phase : Nat → Phase
  done : List Callback
  tasksLeft : List Callback
  stopPushed : Bool
  joined : Nat

/-- The steps of the threads, each done under `m_dispatch_` or touching only what belongs to the
thread:
* `client`: the next action of the client, `addTask(t)`, the first block of `stop()`, or
  `pthread_join`;
* `take w`: worker `w` takes the task at the front of the queue;
* `finish w`: worker `w` completes the task it runs and goes back to the queue. -/
inductive Event where
  | client
  | take (w : Nat)
  | finish (w : Nat)
deriving DecidableEq, Repr

/-- One step; `none` when the thread cannot take it (it is blocked or gone). -/
def step (s : Sys) : Event → Option Sys
  | .client =>
    match s.tasksLeft with
    | t :: rest => some { s with pool := s.pool.addTask (some t), tasksLeft := rest }
    | [] =>
      if s.stopPushed = false then some { s with pool := s.pool.pushStops, stopPushed := true }
      else if s.joined < s.pool.num_workers ∧ s.phase s.joined = .exited then
        some { s with joined := s.joined + 1 }
      else none
  | .take w =>
    if w < s.pool.num_workers ∧ s.phase w = .idle then
      match s.pool.dispatch_queue_ with
      | [] => none
      | none :: rest =>
        some { s with pool := { s.pool with dispatch_queue_ := rest }
                      phase := Function.update s.phase w .exited }
      | some t :: rest =>
        some { s with pool := { s.pool with dispatch_queue_ := rest }
                      phase := Function.update s.phase w (.running t) }
    else none
  | .finish w =>
    if w < s.pool.num_workers then
      match s.phase w with
      | .running t =>
        some { s with done := s.done ++ [t], phase := Function.update s.phase w .idle }
      | _ => none
    else none

/-- A sequence of steps, first step first; `none` when one of them cannot be taken. -/
def run (s : Sys) : List Event → Option Sys
  | [] => some s
  | e :: rest =>
    match step s e with
    | none => none
    | some s1 => run s1 rest

/-- The system after the constructor: `n` workers at the queue, and a client about to submit
`tasks`. -/
def Sys.init (n : Nat) (tasks : List Callback) : Sys :=
  { pool := ThreadPoolNormal.new n, phase := fun _ => .idle, done := []
    tasksLeft := tasks, stopPushed := false, joined := 0 }

/-- The call `stop()` of the client has returned: every worker was joined. -/
def Sys.stopReturned (s : Sys) : Prop :=
  s.tasksLeft = [] ∧ s.stopPushed = true ∧ s.joined = s.pool.num_workers

/-- How often the item `x` is with a worker thread: run by it, or, for `NULL`, taken by it. -/
def itemCount (x : Option Callback) (p : Phase) : Nat :=
  match p with
  | .running t => if some t = x then 1 else 0
  | .exited => if x = none then 1 else 0
  | .idle => 0

/-- How often the item `x` is with one of the workers. -/
def Sys.held (s : Sys) (x : Option Callback) : Nat :=
  Finset.sum (Finset.range s.pool.num_workers) (fun w => itemCount x (s.phase w))

/-- The stop requests the client has not pushed yet. -/
def Sys.stopsLeft (s : Sys) : Nat := if s.stopPushed = true then 0 else s.pool.num_workers

/-- What holds in every state of a pool of `n` workers whose client submits `tasks` and then calls
`stop()`:
* `account`: every item the client hands over, the tasks and the `n` stop requests, is in
  exactly one place: still with the client, in the dispatch queue, with a worker, or done;
* `nulls_last`: in the queue no task comes after a stop request;
* `delivered`: once a worker has taken a stop request, no task is in the queue. -/
structure Sys.Inv (n : Nat) (tasks : List Callback) (s : Sys) : Prop where
  num : s.pool.num_workers = n
  joined_le : s.joined ≤ n
  joined_exited : ∀ w, w < s.joined → s.phase w = .exited
  order : s.tasksLeft ≠ [] → s.stopPushed = false
  account : ∀ x, ThreadPoolFast.cnt x (tasks.map some ++ List.replicate n none) =
    ThreadPoolFast.cnt x (s.tasksLeft.map some ++ List.replicate s.stopsLeft none) +
      ThreadPoolFast.cnt x s.pool.dispatch_queue_ + s.held x +
      ThreadPoolFast.cnt x (s.done.map some)
  nulls_last : s.pool.dispatch_queue_.Pairwise (fun a b => a = none → b = none)
  delivered : (∃ w, w < n ∧ s.phase w = .exited) → ∀ t, some t ∉ s.pool.dispatch_queue_

/-- The steps a worker still has to take for the task it is running. -/
def Phase.load : Phase → Nat
  | .running _ => 1
  | _ => 0

/-- The number of steps left until `stop()` has returned. -/
def Sys.stepsLeft (s : Sys) : Nat :=
  3 * s.tasksLeft.length + (if s.stopPushed = true then 0 else s.pool.num_workers + 1) +
    (s.pool.num_workers - s.joined) + (s.pool.dispatch_queue_.map ThreadPoolFast.weight).sum +
    Finset.sum (Finset.range s.pool.num_workers) (fun w => (s.phase w).load)

end ThreadPoolNormal

namespace ThreadPoolFast

/-- One worker, tasks 7 and 8, after both `addTask` calls: the client is about to call
`stop()`. -/
def atStop : Sys := (run (Sys.init 1 [7, 8]) [.client, .client]).getD (Sys.init 1 [7, 8])

/-- The state `atStop` after `stop()` has queued its stop request, the worker has run both tasks
and taken the stop request, and the client has joined it. -/
def afterStop : Sys :=
  (run atStop [.client, .take 0, .finish 0, .take 0, .finish 0, .take 0, .client]).getD atStop

end ThreadPoolFast

/-! ## DescriptorPoller (descriptor_poller.hpp, descriptor_poller_epoll.cpp)

The flag values `EPOLLERR`, `EPOLLHUP`, `EPOLLIN` and `EPOLLOUT` come from `<sys/epoll.h>`; they
are parameters of `getEvents`. An event mask is a natural number, `&` and `|` act on its bits. -/

/-- The values of the flags of `<sys/epoll.h>` that `getEvents` looks at. -/
structure DescriptorPoller.EpollFlags where
  EPOLLERR : Nat
  EPOLLHUP : Nat
  EPOLLIN : Nat
  EPOLLOUT : Nat
deriving DecidableEq, Repr

/-- Models `struct epoll_event`: the reported event set and `data.ptr`, the address of the
`Descriptor`. -/
structure DescriptorPoller.EpollEvent where
  events : Nat
  ptr : Nat
deriving DecidableEq, Repr

namespace DescriptorPoller

/-- Models `DP_ERROR = 0x0000001`. -/
def DP_ERROR : Nat := 1

/-- Models `DP_READ_READY = 0x0000002`. -/
def DP_READ_READY : Nat := 2

/-- Models `DP_WRITE_READY = 0x0000004`. -/
def DP_WRITE_READY : Nat := 4

/-- Models `DescriptorPoller::getEvents` for the reported event `ev` (`poller_->events_[i]`);
`events` is the value `*events` had before the call, the result is `*events` and `*descr` after
it. -/
def getEvents (fl : EpollFlags) (ev : EpollEvent) (events : Nat) : Nat × Nat :=
  let e0 := events &&& 0
  let descr := ev.ptr
  if ev.events &&& fl.EPOLLERR ≠ 0 then (e0 ||| DP_ERROR, descr)
  else
    let e1 := if ev.events &&& (fl.EPOLLHUP ||| fl.EPOLLIN) ≠ 0 then e0 ||| DP_READ_READY else e0
    let e2 := if ev.events &&& (fl.EPOLLHUP ||| fl.EPOLLOUT) ≠ 0 then e1 ||| DP_WRITE_READY else e1
    (e2, descr)

/-- The flag values of Linux: `EPOLLIN = 0x001`, `EPOLLOUT = 0x004`, `EPOLLERR = 0x008`,
`EPOLLHUP = 0x010`. -/
def linuxFlags : EpollFlags := { EPOLLERR := 8, EPOLLHUP := 16, EPOLLIN := 1, EPOLLOUT := 4 }

end DescriptorPoller

/-! ## IOManager: timers and the dispatch of poller events (io_manager.hpp, io_manager.cpp)

`timer_queue_` is a `std::multimap` from deadlines to tasks. It is kept as the list of its
entries in iteration order: sorted by deadline, and an entry inserted with a deadline that is
already present comes after the entries with that deadline. -/

/-- Models `IOManager::TimerQueue`, the entries in iteration order. -/
abbrev IOManager.TimerQueue := List (Nat × Callback)

namespace IOManager

/-- Models `timer_queue_.insert(make_pair(ts, task))`: the entry goes before the first entry
with a larger deadline. -/
def TimerQueue.insert : TimerQueue → Nat → Callback → TimerQueue
  | [], ts, task => [(ts, task)]
  | e :: rest, ts, task =>
    if ts < e.1 then (ts, task) :: e :: rest else e :: TimerQueue.insert rest ts task

/-- Models `IOManager::addTimer`; `ts` is the deadline computed from the clock and the delay. -/
def addTimer (q : TimerQueue) (ts : Nat) (task : Callback) : TimerQueue := q.insert ts task

/-- The loop of `IOManager::pollBody` that issues the alarm callbacks that are due at `now`:
the result is the queue and the tasks handed to `worker_pool_->addTask` after it. -/
def drainTimers (now : Nat) : TimerQueue → TaskLog → TimerQueue × TaskLog
  | [], pool => ([], pool)
  | e :: rest, pool =>
    if e.1 > now then (e :: rest, pool) else drainTimers now rest (pool ++ [e.2])

/-- The two `if` statements of `IOManager::pollBody` that follow `getEvents`, for the mask `e`
and the descriptor `desc`. -/
def dispatch (e : Nat) (s : Descriptor × TaskLog) : Descriptor × TaskLog :=
  let s1 :=
    if e &&& (DescriptorPoller.DP_ERROR ||| DescriptorPoller.DP_READ_READY) ≠ 0 then
      s.1.readIfWaiting s.2
    else s
  if e &&& (DescriptorPoller.DP_ERROR ||| DescriptorPoller.DP_WRITE_READY) ≠ 0 then
    s1.1.writeIfWaiting s1.2
  else s1

end IOManager

namespace Buffer

/-- A destination Buffer whose content was fully consumed: 100 bytes `x` were written to a fresh
Buffer and then consumed. -/
def dstRead : Buffer := (Buffer.new.write (List.replicate 100 120)).consume 100

/-- A never consumed source Buffer holding 4000 bytes `y`. -/
def src4000 : Buffer := Buffer.new.write (List.replicate 4000 121)

end Buffer

namespace Buffer

/-- Models `Buffer::Iterator::operator==`: two iterators are equal when their positions are. -/
def Iterator.eq (a c : Iterator) : Bool := decide (a.pos_ = c.pos_)

/-- One call of a producer or consumer on a Buffer. -/
inductive Op where
  | write (data : List Nat)
  | reserve (bytes : Nat)
  | advance (bytes : Nat)
  | consume (bytes : Nat)
deriving DecidableEq, Repr

/-- Performs one call; what `reserve` and `advance` return is not kept. -/
def step (b : Buffer) : Op → Buffer
  | .write data => b.write data
  | .reserve bytes => (b.reserve bytes).2
  | .advance bytes => (b.advance bytes).2
  | .consume bytes => b.consume bytes

/-- Performs a sequence of calls, first call first. -/
def run (b : Buffer) (ops : List Op) : Buffer := ops.foldl step b

/-- The number of chunks is a `size_t`: every Buffer met while `ops` are performed on `b` has
fewer than `2 ^ 64` chunks. -/
def fits (b : Buffer) : List Op → Bool
  | [] => decide (b.numChunks < 2 ^ 64)
  | op :: rest => decide (b.numChunks < 2 ^ 64) && fits (b.step op) rest

/-- The number of bytes written and not consumed: what is left of the read chunk and the sizes
of the chunks after it. -/
def unread (b : Buffer) : Nat :=
  (b.sizeAt b.rpos_.idx - b.rpos_.off) + (b.sizes_.drop (b.rpos_.idx + 1)).sum

/-- The layout of the chunks: the two deques have the same length, the write position is in the
last chunk at its fill mark, the read position is in a chunk not after it and not past the fill
mark of its chunk, no chunk holds more than `BlockSize` bytes, and the chunks strictly between
the first and the last are not empty. -/
structure Lay (b : Buffer) : Prop where
  chunks : b.chunks_.length = b.sizes_.length
  widx : b.wpos_.idx + 1 = b.sizes_.length
  woff : b.sizeAt b.wpos_.idx = b.wpos_.off
  ridx : b.rpos_.idx ≤ b.wpos_.idx
  roff : b.rpos_.off ≤ b.sizeAt b.rpos_.idx
  le : ∀ i, b.sizeAt i ≤ BlockSize
  mid : ∀ i, 0 < i → i < b.wpos_.idx → 0 < b.sizeAt i

/-- When the read position is at the fill mark of a chunk that is not the last one, the next
chunk is not empty. -/
def Ahead (b : Buffer) : Prop :=
  b.rpos_.idx < b.wpos_.idx → b.rpos_.off = b.sizeAt b.rpos_.idx →
    0 < b.sizeAt (b.rpos_.idx + 1)

/-- What holds of a Buffer between the calls of `write`, `reserve`, `advance` and `consume`: the
layout `Lay`, the read position is in chunk 0, and `Ahead`. -/
structure Wf (b : Buffer) : Prop where
  lay : Lay b
  first : b.rpos_.idx = 0
  ahead : Ahead b

/-- The read position is not after the write position in stream order. -/
def readNotPastWrite (b : Buffer) : Prop :=
  b.rpos_.idx < b.wpos_.idx ∨ (b.rpos_.idx = b.wpos_.idx ∧ b.rpos_.off ≤ b.wpos_.off)

/-- The Buffer `b` with one more, empty, chunk that holds the write position: what
`wpos_ = addChunk()` makes of `b`. -/
def withNewChunk (b : Buffer) : Buffer :=
  let r := b.addChunk
  { r.2 with wpos_ := r.1 }

/-- The sequence of calls that `write(data)` is documented to be equivalent to:
`reserve(|data|)`, the copy of `data` to `writePtr()`, and `advance(|data|)`. -/
def reserveCopyAdvance (b : Buffer) (data : List Nat) : Buffer :=
  ((((b.reserve data.length).2).pokeAtWritePtr data).advance data.length).2

/-- A Buffer whose only chunk was filled and read to its end: `reserve(4096)`, `advance(4096)`
and `consume(4096)` on a fresh Buffer. -/
def fullRead : Buffer := Buffer.new.run [.reserve 4096, .advance 4096, .consume 4096]

end Buffer

/-! ## Connection (connection.hpp, connection.cpp)

The calls of the operating system are inputs: what `socket`, `connect` and `getsockopt` report
is given by a `Connection.Env`, what the calls of `write` on the socket report is given by a list
of `Connection.WriteRes`, one entry per call of `socketWrite`. `error_string_` and the input side
(`in_`, `doRead`) are left out. The up-call `connDone()` belongs to the sub-class; the model
records that it is issued. -/

/-- What a call of the connection lets its owner observe. -/
inductive Connection.Event where
  | connDone
  | release (count : Int)
deriving DecidableEq, Repr

/-- Models `class Connection` together with the tasks its `Descriptor` handed to the worker
pool. `io_desc_ = none` is the `NULL` pointer; `deleted` tells whether `release()` ran
`delete this`; `log` lists the up-calls and the calls of `release()`, oldest first. -/
structure Connection where
  writing_ : Bool
  out_ : Buffer
  client_fd_ : Int
  closed_ : Bool
  io_desc_ : Option Descriptor
  in_error_ : Bool
  refs_ : Int
  deleted : Bool
  pool : TaskLog
  log : List Connection.Event

/-- The results of the system calls of `startConnect` and `doConnect`, the two values of
`<errno.h>` they are compared with, and the addresses of the three callbacks made by
`makeCallableMany`. -/
structure Connection.Env where
  socket_fd : Int
  connect_res : Int
  connect_errno : Int
  so_error : Int
  EINPROGRESS : Int
  EINTR : Int
  doConnect_cb : Callback
  doRead_cb : Callback
  doWrite_cb : Callback
deriving DecidableEq, Repr

/-- What one call of `socketWrite` reports: `-1` with `errno == EAGAIN`, `-1` with another error,
or the number of bytes written. -/
inductive Connection.WriteRes where
  | eagain
  | failed
  | wrote (n : Nat)
deriving DecidableEq, Repr

namespace Connection

/-- The conversion of a `size_t` to `int`. -/
def toInt32 (n : Nat) : Int :=
  if n % 2 ^ 32 < 2 ^ 31 then ((n % 2 ^ 32 : Nat) : Int) else ((n % 2 ^ 32 : Nat) : Int) - 2 ^ 32

/-- Models the passive constructor `Connection::Connection(IOService*, int client_fd)`. -/
def passive (env : Env) (client_fd : Int) : Connection :=
  { writing_ := false, out_ := Buffer.new, client_fd_ := client_fd, closed_ := false
    io_desc_ := some (Descriptor.new client_fd (some env.doRead_cb) (some env.doWrite_cb))
    in_error_ := false, refs_ := 0, deleted := false, pool := [], log := [] }

/-- Models the active constructor `Connection::Connection(IOService*)`. -/
def active : Connection :=
  { writing_ := false, out_ := Buffer.new, client_fd_ := -1, closed_ := true
    io_desc_ := none, in_error_ := false, refs_ := 0, deleted := false, pool := [], log := [] }

/-- Models `Connection::acquire`. -/
def acquire (c : Connection) : Connection := { c with refs_ := c.refs_ + 1 }

/-- Models `Connection::release`. -/
def release (c : Connection) : Connection :=
  let count := c.refs_ - 1
  let c1 : Connection := { c with refs_ := count, log := c.log ++ [.release count] }
  if count = 0 then { c1 with deleted := true } else c1

/-- Models `Connection::doConnect`; `none` when `io_desc_->setUpCalls` is reached with
`io_desc_ == NULL`. -/
def doConnect (env : Env) (c : Connection) : Option Connection :=
  let checked : Option Connection :=
    if !c.in_error_ then
      if env.so_error ≠ 0 then some { c with in_error_ := true }
      else
        match c.io_desc_ with
        | none => none
        | some d =>
          some { c with closed_ := false
                        io_desc_ := some (d.setUpCalls (some env.doRead_cb) (some env.doWrite_cb)) }
    else some c
  match checked with
  | none => none
  | some c1 => some (release { c1 with log := c1.log ++ [.connDone] })

/-- Models `Connection::startConnect`. -/
def startConnect (env : Env) (c : Connection) : Option Connection :=
  let c0 : Connection := { c with client_fd_ := env.socket_fd }
  if c0.client_fd_ < 0 then some { c0 with in_error_ := true }
  else
    let c1 := c0.acquire
    if env.connect_res ≥ 0 then doConnect env c1
    else if env.connect_errno ≠ env.EINPROGRESS ∧ env.connect_errno ≠ env.EINTR then
      doConnect env { c1 with client_fd_ := -1, in_error_ := true }
    else
      let d := Descriptor.new c1.client_fd_ none (some env.doConnect_cb)
      let r := d.writeWhenReady c1.pool
      some { c1 with io_desc_ := some r.1, pool := r.2 }

/-- Models `Connection::startRead`; `none` when `io_desc_` is `NULL`. -/
def startRead (c : Connection) : Option Connection :=
  let c1 := c.acquire
  match c1.io_desc_ with
  | none => none
  | some d =>
    let r := d.readWhenReady c1.pool
    some { c1 with io_desc_ := some r.1, pool := r.2 }

/-- Models `Connection::doWrite`. The list holds what the calls of `socketWrite` report, first
call first; the result is `none` when the list ends before the loop does, or when
`io_desc_->writeWhenReady` is reached with `io_desc_ == NULL`. -/
def doWrite : List WriteRes → Connection → Option Connection
  | [], _ => none
  | r :: rest, c =>
    let size : Int := toInt32 c.out_.readSize
    match r with
    | .eagain =>
      let c1 := c.acquire
      match c1.io_desc_ with
      | none => none
      | some d =>
        let w := d.writeWhenReady c1.pool
        some (release { c1 with io_desc_ := some w.1, pool := w.2 })
    | .failed => some (release c)
    | .wrote 0 => some (release c)
    | .wrote (n + 1) =>
      let c1 : Connection := { c with out_ := c.out_.consume (n + 1) }
      if size = ((n + 1 : Nat) : Int) ∧ c1.out_.readSize = 0 then
        some (release { c1 with writing_ := false })
      else doWrite rest c1

/-- Models `Connection::startWrite`. -/
def startWrite (ws : List WriteRes) (c : Connection) : Option Connection :=
  if c.writing_ then some c
  else doWrite ws (acquire { c with writing_ := true })

end Connection

namespace Connection

/-- A test environment: the socket is descriptor 5, `connect` succeeds at once and no error is
pending on the socket; `EINPROGRESS` and `EINTR` have their Linux values. -/
def envNow : Env :=
  { socket_fd := 5, connect_res := 0, connect_errno := 0, so_error := 0
    EINPROGRESS := 115, EINTR := 4, doConnect_cb := 1, doRead_cb := 2, doWrite_cb := 3 }

/-- A test environment in which `socket` fails. -/
def envNoSocket : Env := { envNow with socket_fd := -1 }

/-- A test environment in which `connect` fails at once with an error other than `EINPROGRESS`
and `EINTR` (111 is `ECONNREFUSED`). -/
def envRefused : Env := { envNow with connect_res := -1, connect_errno := 111 }

/-- A served connection: accepted on descriptor 5, `startRead()` was called, nothing was written
to `out_`. -/
def served : Connection := ((passive envNow 5).startRead).getD (passive envNow 5)

end Connection

namespace Descriptor

/-- The calls that drive the latch: every call but `setUpCalls`. -/
def Call.isLatch : Call → Bool
  | .setUpCalls _ _ => false
  | _ => true

/-- The flag as a number. -/
def flag (b : Bool) : Nat := if b then 1 else 0

end Descriptor

namespace Descriptor

/-- A Descriptor with read callback `r` and write callback `w` whose latch invariant holds. -/
structure Sched (r w : Callback) (d : Descriptor) : Prop where
  rcb : d.read_cb_ = some r
  wcb : d.write_cb_ = some w
  ok : LatchOk d

end Descriptor

namespace ThreadPoolFast

/-- A call that changes the free list or the dispatch queue: `addTask(task)` by any thread, or
`queueWorker(w)` by worker `w` that has finished a task. -/
inductive Op where
  | addTask (task : Option Callback)
  | queueWorker (w : Nat)
deriving DecidableEq, Repr

/-- Performs one call; the calls are serialised by `m_dispatch_`. -/
def apply (p : ThreadPoolFast) : Op → ThreadPoolFast
  | .addTask task => p.addTask task
  | .queueWorker w => p.queueWorker w

/-- Performs the calls in the order in which they take the lock. -/
def runOps (p : ThreadPoolFast) (ops : List Op) : ThreadPoolFast := ops.foldl apply p

end ThreadPoolFast

namespace FileCache

/-- A directory with the 5 byte files `a` and `b`, the 10 byte file `c`, and nothing else. -/
def fsPair : FileSystem := fun s =>
  if s = "a" then .present (List.replicate 5 97) none
  else if s = "b" then .present (List.replicate 5 98) none
  else if s = "c" then .present (List.replicate 10 99) none
  else .absent 2

/-- A cache of capacity 10 after `a` and `b` were pinned and unpinned: it is full, the list is
sentinel, `a`, `b`, and both nodes are unpinned. -/
def cachePair : FileCache :=
  (run fsPair (FileCache.new 10) [.pin "a", .pin "b", .unpin 1, .unpin 2]).getD (FileCache.new 10)

/-- Calls issued by several threads, each with the number of its thread, in the order in which
they run; no two calls overlap. -/
abbrev Schedule := List (Nat × Call)

/-- Performs the calls of a schedule one after the other. -/
def runSchedule (fs : FileSystem) (c : FileCache) (sched : Schedule) : Option FileCache :=
  run fs c (sched.map Prod.snd)

end FileCache

/-! ## The free lists of the allocators (myAlloc_1Layer/MyMalloc.hpp, MyMalloc.cpp;
myAlloc_2Layer_lock/heap_alloc.cpp, thread_cache.cpp)

An address is a natural number and `NULL` is 0. The managed memory is seen through the two
struct types the code reads and writes in it: `hdr a` is the `ObjHeader` at address `a` (the
header or the footer of a block) and `node a` is the `DualLnkNode` at address `a`. A block has
at least 48 bytes, so its header, its node and its footer take different bytes. The sizes of
the structs are those of an LP64 machine. A call that dereferences `NULL` has no result. -/

/-- Models `struct ObjHeader`. -/
structure ObjHeader where
  _flags : Int
  _objectSize : Nat
deriving DecidableEq, Repr

/-- Models `struct DualLnkNode`. -/
structure DualLnkNode where
  next_ : Nat
  prev_ : Nat
deriving DecidableEq, Repr

/-- The memory managed by an allocator. -/
structure HeapMem where
  hdr : Nat → ObjHeader
  node : Nat → DualLnkNode

/-- Models the array `freels_`: the first node of each size class. -/
abbrev FreeLs := Nat → Nat

namespace HeapMem

/-- Models `sizeof(ObjHeader)`. -/
def sizeofObjHeader : Nat := 16

/-- Models `sizeof(DualLnkNode)`. -/
def sizeofDualLnkNode : Nat := 16

/-- Models `NUMOFSIZECLASSES`. -/
def NUMOFSIZECLASSES : Nat := 65

/-- Models `ObjFree`. -/
def ObjFree : Int := 0

/-- Models `ObjAllocated`. -/
def ObjAllocated : Int := 1

/-- Models `((ObjHeader*)((unsigned char*)node - sizeof(ObjHeader)))->_objectSize`, which is
`getFreeNodeSize(node)`. -/
def getFreeNodeSize (m : HeapMem) (node : Nat) : Nat :=
  (m.hdr (node - sizeofObjHeader))._objectSize

/-- Models the assignment `a->next_ = v`. -/
def setNext (m : HeapMem) (a v : Nat) : Option HeapMem :=
  if a = 0 then none
  else some { m with node := Function.update m.node a { m.node a with next_ := v } }

/-- Models the assignment `a->prev_ = v`. -/
def setPrev (m : HeapMem) (a v : Nat) : Option HeapMem :=
  if a = 0 then none
  else some { m with node := Function.update m.node a { m.node a with prev_ := v } }

/-- The `while` loop of `insertFreeBlock`: the result is `iter` and `preiter` after it. -/
def insertScan (m : HeapMem) (toinsertSize : Nat) : Nat → Nat → Nat → Option (Nat × Nat)
  | fuel, iter, preiter =>
    if iter ≠ 0 then
      if m.getFreeNodeSize iter ≥ toinsertSize then some (iter, preiter)
      else
        match fuel with
        | 0 => none
        | fuel + 1 => insertScan m toinsertSize fuel (m.node iter).next_ iter
    else some (iter, preiter)

/-- Models `Allocator::insertFreeBlock` of MyMalloc.cpp; `Allocator::insertFreeBlock` of
heap_alloc.cpp and `ThreadCache::insertFreeBlock` have the same text. `fuel` bounds the rounds
of the loop; the result is `none` when the loop needs more rounds. -/
def insertFreeBlock (fuel : Nat) (freels_ : FreeLs) (m : HeapMem) (toinsert : Nat) (pos : Int) :
    Option (Bool × FreeLs × HeapMem) :=
  if pos < 0 then some (false, freels_, m)
  else
    let pos : Nat := if pos > (NUMOFSIZECLASSES : Int) - 1 then NUMOFSIZECLASSES - 1 else pos.toNat
    if pos = NUMOFSIZECLASSES - 1 ∧ freels_ pos ≠ 0 then
      if toinsert = 0 then none
      else
        let toinsertSize := m.getFreeNodeSize toinsert
        match insertScan m toinsertSize fuel (freels_ pos) 0 with
        | none => none
        | some (iter, preiter) =>
          if iter = 0 then
            ((m.setNext preiter toinsert).bind (fun m1 => m1.setPrev toinsert preiter)).bind
              (fun m2 => (m2.setNext toinsert 0).map (fun m3 => (true, freels_, m3)))
          else if preiter = 0 then
            ((m.setNext toinsert iter).bind (fun m1 => m1.setPrev toinsert 0)).bind
              (fun m2 => (m2.setPrev iter toinsert).map
                (fun m3 => (true, Function.update freels_ pos toinsert, m3)))
          else
            (((m.setNext preiter toinsert).bind (fun m1 => m1.setNext toinsert iter)).bind
              (fun m2 => m2.setPrev iter toinsert)).bind
              (fun m3 => (m3.setPrev toinsert preiter).map (fun m4 => (true, freels_, m4)))
    else
      let tmpnext := freels_ pos
      ((m.setNext toinsert tmpnext).bind
        (fun m1 => if tmpnext ≠ 0 then m1.setPrev tmpnext toinsert else some m1)).bind
        (fun m2 => (m2.setPrev toinsert 0).map
          (fun m3 => (true, Function.update freels_ pos toinsert, m3)))

/-- The `while` loop of `rmFromFreeLs`: the result is `iter` after it. -/
def rmScan (m : HeapMem) (totsize : Nat) : Nat → Nat → Option Nat
  | fuel, iter =>
    if iter ≠ 0 then
      if m.getFreeNodeSize iter ≥ totsize then some iter
      else
        match fuel with
        | 0 => none
        | fuel + 1 => rmScan m totsize fuel (m.node iter).next_
    else some iter

/-- Models `Allocator::rmFromFreeLs` of MyMalloc.cpp; `Allocator::rmFromFreeLs` of
heap_alloc.cpp and `ThreadCache::rmFromFreeLs` have the same text. The first component of the
result is the returned pointer. -/
def rmFromFreeLs (fuel : Nat) (freels_ : FreeLs) (m : HeapMem) (pos : Int) (totsize : Nat) :
    Option (Nat × FreeLs × HeapMem) :=
  if pos < 0 then some (0, freels_, m)
  else
    let pos : Nat := if pos > (NUMOFSIZECLASSES : Int) - 1 then NUMOFSIZECLASSES - 1 else pos.toNat
    if freels_ pos = 0 then some (0, freels_, m)
    else if pos = NUMOFSIZECLASSES - 1 then
      match rmScan m totsize fuel (freels_ pos) with
      | none => none
      | some iter =>
        if iter = 0 then some (0, freels_, m)
        else if iter = freels_ pos then
          let fl1 := Function.update freels_ pos (m.node iter).next_
          (if (m.node iter).next_ ≠ 0 then m.setPrev (m.node iter).next_ 0 else some m).map
            (fun m1 => (iter, fl1, m1))
        else
          ((m.setNext (m.node iter).prev_ (m.node iter).next_).bind
            (fun m1 =>
              if (m1.node iter).next_ ≠ 0 then
                m1.setPrev (m1.node iter).next_ (m1.node iter).prev_
              else some m1)).map
            (fun m2 => (iter, freels_, m2))
    else
      let firstNode := freels_ pos
      let fl1 := Function.update freels_ pos (m.node firstNode).next_
      (if (m.node firstNode).next_ ≠ 0 then m.setPrev (m.node firstNode).next_ 0 else some m).map
        (fun m1 => (firstNode, fl1, m1))

/-- The nodes `l` are linked from `start` to `stop`: `start` is the first of them, `next_` of
each is the one after it, `next_` of the last is `stop`, and `prev_` of each is the one before
it, `p` for the first. None of them is `NULL`. -/
def Seg (m : HeapMem) : Nat → Nat → List Nat → Nat → Prop
  | _, start, [], stop => start = stop
  | p, start, a :: rest, stop =>
    start = a ∧ a ≠ 0 ∧ (m.node a).prev_ = p ∧ Seg m a (m.node a).next_ rest stop

/-- The free list of class `pos` consists of the nodes `l`, in this order, with consistent
`next_` and `prev_` links: what `checkDualLnkList(pos)` asserts. -/
def IsList (freels_ : FreeLs) (m : HeapMem) (pos : Nat) (l : List Nat) : Prop :=
  Seg m 0 (freels_ pos) l 0

/-- The blocks of `l` are in non-decreasing order of size. -/
def SortedBySize (m : HeapMem) (l : List Nat) : Prop :=
  (l.map m.getFreeNodeSize).Pairwise (fun a b => a ≤ b)

end HeapMem

namespace HeapMem

/-- A heap with two free blocks in the last size class: a block of 512 bytes with its node at
address 1016 and a block of 1024 bytes with its node at 2016; the block with its node at 4016
has 600 bytes and is not on a list. -/
def memTwo : HeapMem :=
  { hdr := fun a =>
      if a = 1000 then { _flags := 0, _objectSize := 512 }
      else if a = 2000 then { _flags := 0, _objectSize := 1024 }
      else if a = 4000 then { _flags := 0, _objectSize := 600 }
      else { _flags := 0, _objectSize := 0 }
    node := fun a =>
      if a = 1016 then { next_ := 2016, prev_ := 0 }
      else if a = 2016 then { next_ := 0, prev_ := 1016 }
      else { next_ := 0, prev_ := 0 } }

/-- The array `freels_` for `memTwo`: only the last class has blocks. -/
def flTwo : FreeLs := fun i => if i = 64 then 1016 else 0

end HeapMem

/-! ## The two-layer allocator (myAlloc_2Layer_lock/heap_alloc.hpp, heap_alloc.cpp,
thread_cache.hpp, thread_cache.cpp)

The central heap `Allocator` hands out blocks of whole pages; a `ThreadCache` gets its memory
from the central heap and serves the small requests of the threads mapped to it. The calls of
one thread are modelled; `tid` is its `pthread_self()`. The content of the objects (the bytes
copied by `memcpy`) and the call counters are left out, `sbrk` always succeeds, and the
assertions are enabled: a call in which an `assert` fails, or which dereferences `NULL`, has no
result. -/

/-- Models `class ThreadCache` (the fields that the allocation calls use). -/
structure myalloc.ThreadCache where
  freels_ : FreeLs
  _heapSize : Nat
  _initialized : Bool

/-- Models `class Allocator` of heap_alloc.hpp. -/
structure myalloc.Allocator where
  freels_ : FreeLs
  _thr_caches : Nat → myalloc.ThreadCache
  _heapSize : Nat
  _initialized : Bool

/-- The state of the process: `Allocator::TheAllocator`, the memory, and the program break (the
value that `sbrk(0)` returns). -/
structure myalloc.Heap where
  TheAllocator : myalloc.Allocator
  mem : HeapMem
  brk : Nat

namespace HeapMem

/-- Models the assignment `obj->_objectSize = v` for the `ObjHeader` at `a`. -/
def setSize (m : HeapMem) (a v : Nat) : HeapMem :=
  { m with hdr := Function.update m.hdr a { m.hdr a with _objectSize := v } }

/-- Models the assignment `obj->_flags = v` for the `ObjHeader` at `a`. -/
def setFlags (m : HeapMem) (a : Nat) (v : Int) : HeapMem :=
  { m with hdr := Function.update m.hdr a { m.hdr a with _flags := v } }

/-- The conversion of a `size_t` to `int`. -/
def toInt (n : Nat) : Int :=
  if n % 2 ^ 32 < 2 ^ 31 then ((n % 2 ^ 32 : Nat) : Int) else ((n % 2 ^ 32 : Nat) : Int) - 2 ^ 32

/-- The loop `while (index < NUMOFSIZECLASSES) { if (freels_[index] != NULL) break; ++index; }`
of `allocateObject`; it ends within `NUMOFSIZECLASSES` rounds, `k` is the number of rounds it is
given. -/
def searchLarger (freels_ : FreeLs) : Nat → Nat → Nat
  | 0, index => index
  | k + 1, index =>
    if index < NUMOFSIZECLASSES then
      if freels_ index ≠ 0 then index else searchLarger freels_ k (index + 1)
    else index

/-- The end of `allocateObject`: header and footer of the block at `mem` get the size
`totalSize` and the flag `ObjAllocated`; the result is the pointer after the header. -/
def markAllocated (m : HeapMem) (mem totalSize : Nat) : Nat × HeapMem :=
  let m1 := (m.setSize mem totalSize).setFlags mem ObjAllocated
  let foot := mem + totalSize - sizeofObjHeader
  let m2 := (m1.setSize foot totalSize).setFlags foot ObjAllocated
  (mem + sizeofObjHeader, m2)

/-- The branch `Split larger free slot` of `allocateObject`, which has the same text in
`Allocator` and in `ThreadCache` but for the unit of the size classes (`BASICALLOCSIZE` or 8):
the block `toSplit`, just taken from a free list, is cut when it is large enough. The result is
`mem`, the new `totalSize`, the free lists and the memory. -/
def splitBlock (fuel : Nat) (unit : Nat) (freels_ : FreeLs) (m : HeapMem)
    (toSplit totalSize : Nat) : Option (Nat × Nat × FreeLs × HeapMem) :=
  if toSplit = 0 then none
  else
    let realSize := (m.hdr (toSplit - sizeofObjHeader))._objectSize
    if realSize ≥ (totalSize + sizeofDualLnkNode + 2 * sizeofObjHeader) % 2 ^ 64 then
      let newclass := (usub realSize totalSize) / unit
      let head := toSplit + totalSize - sizeofObjHeader
      let m1 := (m.setSize head (usub realSize totalSize)).setFlags head ObjFree
      let foot := toSplit + realSize - 2 * sizeofObjHeader
      let m2 := (m1.setSize foot (usub realSize totalSize)).setFlags foot ObjFree
      match insertFreeBlock fuel freels_ m2 (toSplit + totalSize) (toInt newclass) with
      | some (true, fl1, m3) => some (toSplit - sizeofObjHeader, totalSize, fl1, m3)
      | _ => none
    else some (toSplit - sizeofObjHeader, realSize, freels_, m)

end HeapMem

namespace myalloc

open HeapMem

/-- Models `BASICALLOCSIZE`. -/
def BASICALLOCSIZE : Nat := 4096

/-- Models `CENTHEAPALLOCTHRESHOLD`. -/
def CENTHEAPALLOCTHRESHOLD : Nat := 2 ^ 14

/-- Models `NUMOFTHREADCACHES`. -/
def NUMOFTHREADCACHES : Nat := 17

/-- The process before the first call: the static `TheAllocator` is zero-initialised, nothing
was obtained from the system, the program break is `brk0`. -/
def Heap.init (brk0 : Nat) : Heap :=
  { TheAllocator :=
      { freels_ := fun _ => 0
        _thr_caches := fun _ => { freels_ := fun _ => 0, _heapSize := 0, _initialized := false }
        _heapSize := 0, _initialized := false }
    mem := { hdr := fun _ => { _flags := 0, _objectSize := 0 }
             node := fun _ => { next_ := 0, prev_ := 0 } }
    brk := brk0 }

/-- Models `Allocator::getMemoryFromOS`. -/
def Allocator.getMemoryFromOS (s : Heap) (size : Nat) : Nat × Heap :=
  (s.brk,
    { s with TheAllocator := { s.TheAllocator with
                               _heapSize := (s.TheAllocator._heapSize + size) % 2 ^ 64 }
             brk := s.brk + size })

/-- Models `Allocator::allocateObject` of heap_alloc.cpp. -/
def Allocator.allocateObject (fuel : Nat) (s : Heap) (size : Nat) : Option (Nat × Heap) :=
  if size = 0 then some (0, s)
  else
    let rounded : Nat :=
      (size + (sizeofObjHeader <<< 1) + BASICALLOCSIZE - 1) % 2 ^ 64 / BASICALLOCSIZE
        * BASICALLOCSIZE
    let totalSize : Nat := if rounded < 48 then 48 else rounded
    if totalSize % BASICALLOCSIZE ≠ 0 then none
    else
      let index : Nat :=
        if totalSize / BASICALLOCSIZE > NUMOFSIZECLASSES - 1 then NUMOFSIZECLASSES - 1
        else totalSize / BASICALLOCSIZE
      let a := s.TheAllocator
      let found : Option (Nat × Nat × Heap) :=
        if a.freels_ index ≠ 0 then
          match rmFromFreeLs fuel a.freels_ s.mem (toInt (totalSize / BASICALLOCSIZE))
              totalSize with
          | none => none
          | some (p, fl1, m1) =>
            let s1 : Heap := { s with TheAllocator := { a with freels_ := fl1 }, mem := m1 }
            if p ≠ 0 then
              let mem := p - sizeofObjHeader
              some (mem,
                if (m1.hdr mem)._objectSize > totalSize then (m1.hdr mem)._objectSize
                else totalSize, s1)
            else
              let g := Allocator.getMemoryFromOS s1 totalSize
              some (g.1, totalSize, g.2)
        else
          let index1 := searchLarger a.freels_ NUMOFSIZECLASSES (index + 1)
          if index1 = NUMOFSIZECLASSES then
            let g := Allocator.getMemoryFromOS s totalSize
            some (g.1, totalSize, g.2)
          else
            match rmFromFreeLs fuel a.freels_ s.mem (toInt index1)
                (index1 * BASICALLOCSIZE % 2 ^ 64) with
            | none => none
            | some (toSplit, fl1, m1) =>
              match splitBlock fuel BASICALLOCSIZE fl1 m1 toSplit totalSize with
              | none => none
              | some (mem, total1, fl2, m2) =>
                some (mem, total1,
                  { s with TheAllocator := { a with freels_ := fl2 }, mem := m2 })
      match found with
      | none => none
      | some (mem, total1, s2) =>
        let r := markAllocated s2.mem mem total1
        some (r.1, { s2 with mem := r.2 })

/-- Models `Allocator::freeObject` of heap_alloc.cpp. -/
def Allocator.freeObject (fuel : Nat) (s : Heap) (ptr : Nat) : Option Heap :=
  if ptr = 0 then none
  else
    let obj := ptr - sizeofObjHeader
    let totalSize := (s.mem.hdr obj)._objectSize
    if totalSize < sizeofDualLnkNode + 2 * sizeofObjHeader then some s
    else
      let m1 := s.mem.setFlags obj ObjFree
      let m2 := m1.setFlags (obj + totalSize - sizeofObjHeader) ObjFree
      match insertFreeBlock fuel s.TheAllocator.freels_ m2 ptr
          (toInt (totalSize / BASICALLOCSIZE)) with
      | some (true, fl1, m3) =>
        some { s with TheAllocator := { s.TheAllocator with freels_ := fl1 }, mem := m3 }
      | _ => none

/-- Models `Allocator::objectSize`. -/
def Allocator.objectSize (s : Heap) (ptr : Nat) : Nat :=
  usub (s.mem.hdr (ptr - sizeofObjHeader))._objectSize (sizeofObjHeader <<< 1)

/-- Models `ThreadCache::getMemoryFromCentHeap`. -/
def ThreadCache.getMemoryFromCentHeap (fuel : Nat) (s : Heap) (size : Nat) :
    Option (Nat × Heap) :=
  match Allocator.allocateObject fuel s size with
  | none => none
  | some (pAvailSpace, s1) => some (pAvailSpace - sizeofObjHeader, s1)

/-- Puts the free lists `fl` in thread cache `i`. -/
def Heap.setCache (s : Heap) (i : Nat) (fl : FreeLs) : Heap :=
  { s with TheAllocator := { s.TheAllocator with
      _thr_caches := Function.update s.TheAllocator._thr_caches i
        { s.TheAllocator._thr_caches i with freels_ := fl } } }

/-- Models `ThreadCache::allocateObject` for thread cache `i`. -/
def ThreadCache.allocateObject (fuel : Nat) (s0 : Heap) (i : Nat) (size : Nat) :
    Option (Nat × Heap) :=
  let s : Heap :=
    if (s0.TheAllocator._thr_caches i)._initialized then s0
    else
      { s0 with TheAllocator := { s0.TheAllocator with
          _thr_caches := Function.update s0.TheAllocator._thr_caches i
            { s0.TheAllocator._thr_caches i with
              freels_ := fun _ => 0, _initialized := true } } }
  let rounded : Nat := (size + (sizeofObjHeader <<< 1) + 7) % 2 ^ 64 / 8 * 8
  let totalSize : Nat := if rounded < 48 then 48 else rounded
  let index : Nat :=
    if totalSize / 8 > NUMOFSIZECLASSES - 1 then NUMOFSIZECLASSES - 1 else totalSize / 8
  let fl := (s.TheAllocator._thr_caches i).freels_
  let found : Option (Nat × Nat × Heap) :=
    if fl index ≠ 0 then
      match rmFromFreeLs fuel fl s.mem (toInt (totalSize / 8)) totalSize with
      | none => none
      | some (p, fl1, m1) =>
        let s1 : Heap := { s.setCache i fl1 with mem := m1 }
        let got : Option (Nat × Heap) :=
          if p ≠ 0 then some (p - sizeofObjHeader, s1)
          else ThreadCache.getMemoryFromCentHeap fuel s1 totalSize
        match got with
        | none => none
        | some (mem, s2) =>
          some (mem,
            if (s2.mem.hdr mem)._objectSize > totalSize then (s2.mem.hdr mem)._objectSize
            else totalSize, s2)
    else
      let index1 := searchLarger fl NUMOFSIZECLASSES (index + 1)
      if index1 = NUMOFSIZECLASSES then
        match ThreadCache.getMemoryFromCentHeap fuel s totalSize with
        | none => none
        | some (mem, s2) =>
          some (mem,
            if (s2.mem.hdr mem)._objectSize > totalSize then (s2.mem.hdr mem)._objectSize
            else totalSize, s2)
      else
        match rmFromFreeLs fuel fl s.mem (toInt index1) (index1 * 8 % 2 ^ 64) with
        | none => none
        | some (toSplit, fl1, m1) =>
          match splitBlock fuel 8 fl1 m1 toSplit totalSize with
          | none => none
          | some (mem, total1, fl2, m2) => some (mem, total1, { s.setCache i fl2 with mem := m2 })
  match found with
  | none => none
  | some (mem, total1, s2) =>
    let r := markAllocated s2.mem mem total1
    some (r.1, { s2 with mem := r.2 })

/-- Models `ThreadCache::freeObject` for thread cache `i`. -/
def ThreadCache.freeObject (fuel : Nat) (s : Heap) (i : Nat) (ptr : Nat) : Option Heap :=
  if ptr = 0 then none
  else
    let obj := ptr - sizeofObjHeader
    let totalSize := (s.mem.hdr obj)._objectSize
    if totalSize < sizeofDualLnkNode + 2 * sizeofObjHeader then some s
    else
      let m1 := s.mem.setFlags obj ObjFree
      let m2 := m1.setFlags (obj + totalSize - sizeofObjHeader) ObjFree
      match insertFreeBlock fuel (s.TheAllocator._thr_caches i).freels_ m2 ptr
          (toInt (totalSize / 8)) with
      | some (true, fl1, m3) => some { s.setCache i fl1 with mem := m3 }
      | _ => none

/-- Models `Allocator::assignMalloc`. -/
def Allocator.assignMalloc (fuel : Nat) (tid : Nat) (s0 : Heap) (size : Nat) :
    Option (Nat × Heap) :=
  let s : Heap :=
    if s0.TheAllocator._initialized then s0
    else
      { s0 with TheAllocator := { s0.TheAllocator with
          freels_ := fun _ => 0, _heapSize := 0, _initialized := true } }
  let index := tid % NUMOFTHREADCACHES
  if size > CENTHEAPALLOCTHRESHOLD then Allocator.allocateObject fuel s size
  else ThreadCache.allocateObject fuel s index size

/-- Models `malloc`. -/
def malloc (fuel : Nat) (tid : Nat) (s : Heap) (size : Nat) : Option (Nat × Heap) :=
  if size > 0 then Allocator.assignMalloc fuel tid s size else none

/-- Models `free`. -/
def free (fuel : Nat) (tid : Nat) (s : Heap) (ptr : Nat) : Option Heap :=
  if ptr = 0 then some s
  else
    let index := tid % NUMOFTHREADCACHES
    let freeobjsize := Allocator.objectSize s ptr
    if freeobjsize % CENTHEAPALLOCTHRESHOLD = 0 then Allocator.freeObject fuel s ptr
    else ThreadCache.freeObject fuel s index ptr

/-- Models `realloc`. -/
def realloc (fuel : Nat) (tid : Nat) (s : Heap) (ptr size : Nat) : Option (Nat × Heap) :=
  if size > 0 then
    match malloc fuel tid s size with
    | none => none
    | some (newptr, s1) =>
      if ptr ≠ 0 then
        match Allocator.freeObject fuel s1 ptr with
        | none => none
        | some s2 => some (newptr, s2)
      else some (newptr, s1)
  else none

/-- The loop of `Allocator::checkFreeLsConsist`: `some false` when an assertion fails. -/
def Allocator.checkLoop (m : HeapMem) (index classsize : Nat) : Nat → Nat → Nat → Option Bool
  | fuel, iter, prenodesize =>
    if iter ≠ 0 then
      let head := m.hdr (iter - sizeofObjHeader)
      let totsize := head._objectSize
      let foot := m.hdr (iter + totsize - 2 * sizeofObjHeader)
      if head._flags ≠ ObjFree then some false
      else if totsize % BASICALLOCSIZE ≠ 0 then some false
      else if index ≤ NUMOFSIZECLASSES - 2 ∧ totsize ≠ classsize then some false
      else if ¬ index ≤ NUMOFSIZECLASSES - 2 ∧ ¬ (totsize ≥ classsize ∧ totsize ≥ prenodesize)
        then some false
      else if foot._flags ≠ ObjFree then some false
      else if foot._objectSize ≠ totsize then some false
      else
        match fuel with
        | 0 => none
        | fuel + 1 =>
          Allocator.checkLoop m index classsize fuel (m.node iter).next_
            (if index ≤ NUMOFSIZECLASSES - 2 then prenodesize else totsize)
    else some true

/-- Models `Allocator::checkFreeLsConsist` of heap_alloc.cpp: `some true` when every assertion
holds. -/
def Allocator.checkFreeLsConsist (fuel : Nat) (s : Heap) (index : Nat) : Option Bool :=
  if index < NUMOFSIZECLASSES then
    Allocator.checkLoop s.mem index (index * BASICALLOCSIZE % 2 ^ 64) fuel
      (s.TheAllocator.freels_ index) 0
  else some false

/-- The loop of `Allocator::checkDualLnkList`. -/
def Allocator.checkLinks (m : HeapMem) : Nat → Nat → Nat → Option Bool
  | fuel, iter, preiter =>
    if iter ≠ 0 then
      if (m.node iter).prev_ ≠ preiter then some false
      else
        match fuel with
        | 0 => none
        | fuel + 1 => Allocator.checkLinks m fuel (m.node iter).next_ iter
    else some true

/-- Models `Allocator::checkDualLnkList`. -/
def Allocator.checkDualLnkList (fuel : Nat) (s : Heap) (index : Nat) : Option Bool :=
  if index < NUMOFSIZECLASSES then
    Allocator.checkLinks s.mem fuel (s.TheAllocator.freels_ index) 0
  else some false

/-- Models `Allocator::checkALL`: `some true` when every assertion of the two checks holds for
every size class. -/
def Allocator.checkALL (fuel : Nat) (s : Heap) : Option Bool :=
  (List.range NUMOFSIZECLASSES).foldl
    (fun acc i =>
      match acc with
      | some true =>
        match Allocator.checkFreeLsConsist fuel s i with
        | some true => Allocator.checkDualLnkList fuel s i
        | r => r
      | r => r)
    (some true)

/-- A call of the C interface, with the pointer and the size it is given. -/
inductive Call where
  | malloc (size : Nat)
  | free (ptr : Nat)
  | realloc (ptr size : Nat)
deriving DecidableEq, Repr

/-- Performs one call of thread `tid`. -/
def step (fuel tid : Nat) (s : Heap) : Call → Option Heap
  | .malloc size => (malloc fuel tid s size).map (fun r => r.2)
  | .free ptr => free fuel tid s ptr
  | .realloc ptr size => (realloc fuel tid s ptr size).map (fun r => r.2)

/-- Performs a sequence of calls, first call first. -/
def run (fuel tid : Nat) (s : Heap) : List Call → Option Heap
  | [] => some s
  | c :: rest =>
    match step fuel tid s c with
    | none => none
    | some s1 => run fuel tid s1 rest

end myalloc

/-! ## HTTP response parser and the `stats` response (http_response.hpp, http_parser.cpp,
http_connection.cpp)

The standard library is modelled where the code uses it: `ostringstream << n` gives the decimal
digits of an unsigned `n`; `is >> contentSize` is modelled for a text whose first characters
after white space are decimal digits with a value below `2 ^ 64` and has no result in the model
otherwise (a sign, no digit, a value that does not fit); `string(line, pos)` throws
`std::out_of_range`, which `parseResponse` does not catch, when `pos` is beyond the line. -/

/-- Models `struct Response`. -/
structure http.Response where
  statusLine : List Nat
  headerRemainder : List Nat
  body : List Nat
deriving DecidableEq, Repr

namespace http

open Buffer (Iterator)

/-- Models `Response::clear`. -/
def Response.clear (_r : Response) : Response :=
  { statusLine := [], headerRemainder := [], body := [] }

/-- Models `ostringstream << n` for an unsigned integer: its decimal digits. -/
def decimal (n : Nat) : List Nat := (Nat.toDigits 10 n).map Char.toNat

/-- Models the conversion of `s.c_str()` to a `MemPiece`, which takes the length with `strlen`:
the bytes before the first NUL. -/
def cstr (s : List Nat) : List Nat := s.takeWhile (fun c => decide (c ≠ 0))

namespace Parser

/-- Tells whether `line` begins with `pat`. -/
def startsWith : List Nat → List Nat → Bool
  | _, [] => true
  | [], _ :: _ => false
  | c :: rest, p :: pat => decide (c = p) && startsWith rest pat

/-- Models `line.find(pat)`: the position of the first occurrence of `pat`, `none` for
`string::npos`. -/
def find : List Nat → List Nat → Option Nat
  | [], pat => if startsWith [] pat then some 0 else none
  | c :: rest, pat =>
    if startsWith (c :: rest) pat then some 0 else (find rest pat).map (fun p => p + 1)

/-- Models `isspace` in the C locale. -/
def isSpace (c : Nat) : Bool := decide (c = 32 ∨ (9 ≤ c ∧ c ≤ 13))

/-- Models `isdigit`. -/
def isDigit (c : Nat) : Bool := decide (48 ≤ c ∧ c ≤ 57)

/-- The value of the decimal digits at the start of `text`, continuing from `acc`. -/
def digitsValue : List Nat → Nat → Nat
  | [], acc => acc
  | c :: rest, acc => if isDigit c then digitsValue rest (acc * 10 + (c - 48)) else acc

/-- Models `is >> contentSize` on a stream over `text`, for a `size_t`. -/
def readSize (text : List Nat) : Option Nat :=
  match text.dropWhile isSpace with
  | [] => none
  | c :: rest =>
    if isDigit c then
      if digitsValue (c :: rest) 0 < 2 ^ 64 then some (digitsValue (c :: rest) 0) else none
    else none

/-- Models `sizeof(lengthString)` for `const char lengthString[] = "Content-Length:"`: the 15
characters and the NUL. -/
def sizeofLengthString : Nat := 16

/-- The statements of the loop of `parseResponse` that look at a header line: the value of
`contentSize` after them, given its value before. -/
def contentLength (contentSize : Nat) (line : List Nat) : Option Nat :=
  match find line (bytes "Content-Length:") with
  | some _ =>
    if line.length < sizeofLengthString then none
    else readSize (line.drop sizeofLengthString)
  | none => some contentSize

/-- The `for (;;)` loop of `Parser::parseResponse`; the state is the iterator, `contentSize`
and `response->headerRemainder`. Every round but the last moves the iterator. -/
def responseHeaderLoop :
    Nat → Buffer → Iterator → Nat → List Nat → Option (Exit × Iterator × Nat × List Nat)
  | fuel, b, it, contentSize, headerRemainder =>
    match parseLine b it [] with
    | none => none
    | some (.returned, it1, line) =>
      if line = [] then some (.returned, it1, contentSize, headerRemainder)
      else
        match contentLength contentSize line with
        | none => none
        | some contentSize1 =>
          match fuel with
          | 0 => none
          | fuel + 1 => responseHeaderLoop fuel b it1 contentSize1 (headerRemainder ++ line)
    | some (e, it1, _) => some (e, it1, contentSize, headerRemainder)

/-- The loop `while (contentSize--) { body.push_back(in->getChar()); in->next(); }`. -/
def bodyLoop (b : Buffer) : Nat → Iterator → List Nat → Iterator × List Nat
  | 0, it, body => (it, body)
  | contentSize + 1, it, body => bodyLoop b contentSize (it.next b) (body ++ [it.getChar b])

/-- Models `Parser::parseResponse`: the value returned, `*in` and `*response` after the call;
`none` when the call does not return. -/
def parseResponse (b : Buffer) (it : Iterator) (response : Response) :
    Option (Int × Iterator × Response) :=
  let r0 := response.clear
  match parseLine b it r0.statusLine with
  | none => none
  | some (.returned, it1, statusLine) =>
    let r1 : Response := { r0 with statusLine := statusLine }
    match responseHeaderLoop (rounds b) b it1 0 r1.headerRemainder with
    | none => none
    | some (.returned, it2, contentSize, headerRemainder) =>
      let r2 : Response := { r1 with headerRemainder := headerRemainder }
      if usub it2.bytesTotal it2.bytesRead < contentSize then
        some (exitCode .IncompleteInput, it2, r2)
      else
        let r := bodyLoop b contentSize it2 r2.body
        some (0, r.1, { r2 with body := r.2 })
    | some (e, it2, _, headerRemainder) =>
      some (exitCode e, it2, { r1 with headerRemainder := headerRemainder })
  | some (e, it1, statusLine) => some (exitCode e, it1, { r0 with statusLine := statusLine })

end Parser

/-- The writes to `out_` that `HTTPServerConnection::handleRequest` makes for the address
`stats`, `reqsLastSec` being the count that `getStats` reported. -/
def HTTPServerConnection.writeStats (out_ : Buffer) (reqsLastSec : Nat) : Buffer :=
  let stats_string := decimal reqsLastSec
  let os := bytes "Content-Length: " ++ decimal stats_string.length ++ bytes "\r\n"
  (((((((out_.write (bytes "HTTP/1.1 200 OK\r\n")).write
    (bytes "Date: Wed, 28 Oct 2009 15:24:11 GMT\r\n")).write
    (bytes "Server: Lab02a\r\n")).write
    (bytes "Accept-Ranges: bytes\r\n")).write
    (cstr os)).write
    (bytes "Content-Type: text/html\r\n")).write
    (bytes "\r\n")).write
    (cstr stats_string)

end http

namespace http

/-- The value of `contentSize` after the loop of `parseResponse` has looked at the header lines
`headers`, given its value before. -/
def Parser.lengthAfter : Nat → List (List Nat) → Option Nat
  | contentSize, [] => some contentSize
  | contentSize, line :: rest =>
    match Parser.contentLength contentSize line with
    | none => none
    | some contentSize1 => Parser.lengthAfter contentSize1 rest

/-- The bytes of a response: the status line, the header lines, the empty line and the
body. -/
def responseBytes (statusLine : List Nat) (headers : List (List Nat)) (body : List Nat) :
    List Nat :=
  statusLine ++ [13, 10] ++ (headers.map (fun h => h ++ [13, 10])).flatten ++ [13, 10] ++ body

/-- The header lines of the `stats` response for a body of `k` bytes. -/
def statsHeaders (k : Nat) : List (List Nat) :=
  [bytes "Date: Wed, 28 Oct 2009 15:24:11 GMT", bytes "Server: Lab02a",
    bytes "Accept-Ranges: bytes", bytes "Content-Length: " ++ decimal k,
    bytes "Content-Type: text/html"]

end http

/-! # Theorems -/

/-! ## Buffer: write then iterate -/

theorem usub_eq (a b : Nat) (hb : b ≤ a) (ha : a < 2 ^ 64) : usub a b = a - b := by
  unfold usub
  omega

namespace Buffer

theorem copyBytes_apply (xs : List Nat) (c : Chunk) (d i : Nat) :
    copyBytes c d xs i = if d ≤ i ∧ i < d + xs.length then xs.getD (i - d) 0 else c i := by
  induction xs generalizing c d with
  | nil =>
    have : ¬ (d ≤ i ∧ i < d) := by omega
    simp [copyBytes, this]
  | cons x xs ih =>
    simp only [copyBytes, ih, List.length_cons]
    by_cases h1 : d + 1 ≤ i
    · have h2 : d ≤ i := by omega
      have h3 : i - d = (i - (d + 1)) + 1 := by omega
      by_cases h4 : i < d + 1 + xs.length
      · have h5 : i < d + (xs.length + 1) := by omega
        simp [h1, h2, h4, h5, h3]
      · have h5 : ¬ i < d + (xs.length + 1) := by omega
        have h6 : i ≠ d := by omega
        simp [h1, h4, h5, Function.update, h6]
    · by_cases h2 : i = d
      · subst h2
        simp [Function.update]
      · have h3 : ¬ d ≤ i := by omega
        simp [h1, h3, Function.update, h2]

theorem holds_new : Holds Buffer.new [] := by
  constructor <;> simp [Buffer.new, addChunk, BlockSize]

theorem Holds.sizeAt_lt {b : Buffer} {s : List Nat} (h : Holds b s) {i : Nat}
    (hi : i < s.length / BlockSize) : b.sizeAt i = BlockSize := by
  simp [sizeAt, h.sizes, List.getElem?_append, hi]

theorem Holds.sizeAt_last {b : Buffer} {s : List Nat} (h : Holds b s) :
    b.sizeAt (s.length / BlockSize) = s.length % BlockSize := by
  simp [sizeAt, h.sizes, List.getElem?_append]

theorem Holds.byteCount_eq {b : Buffer} {s : List Nat} (h : Holds b s) :
    b.byteCount = s.length := by
  have hr : b.readSize = b.sizeAt 0 := by
    simp only [readSize, h.rpos]
    rw [usub_eq _ _ (Nat.zero_le _)]
    · simp
    · have : b.sizeAt 0 ≤ BlockSize := by
        by_cases hq : 0 < s.length / BlockSize
        · rw [h.sizeAt_lt hq]
        · have hq0 : s.length / BlockSize = 0 := Nat.eq_zero_of_not_pos hq
          have := h.sizeAt_last
          rw [hq0] at this
          rw [this]
          exact (Nat.mod_lt _ (by decide)).le
      simp only [BlockSize] at this
      omega
  have hsum : b.sizeAt 0 + (b.sizes_.drop 1).sum = b.sizes_.sum := by
    simp only [sizeAt]
    cases hs : b.sizes_ with
    | nil => simp
    | cons x xs => simp
  rw [Buffer.byteCount, hr, hsum, h.sizes]
  simp only [List.sum_append, List.sum_replicate, List.sum_cons, List.sum_nil, smul_eq_mul,
    BlockSize]
  omega

theorem set_length_append_singleton {α : Type} (l : List α) (a c : α) :
    (l ++ [a]).set l.length c = l ++ [c] := by
  induction l with
  | nil => rfl
  | cons x xs ih => simp [ih]

theorem Holds.writeSize_eq {b : Buffer} {s : List Nat} (h : Holds b s) :
    b.writeSize = 4096 - s.length % 4096 := by
  have hr : s.length % 4096 < 4096 := Nat.mod_lt _ (by decide)
  simp only [writeSize, h.wpos, BlockSize]
  rw [usub_eq _ _ hr.le (by decide)]

theorem Holds.chunkAt_set {b : Buffer} {s : List Nat} (h : Holds b s) (c : Chunk) (i : Nat)
    (tl : List Chunk) (hi : i ≤ s.length / 4096) :
    (b.chunks_.set (s.length / 4096) c ++ tl).getD i freshChunk =
      if i = s.length / 4096 then c else b.chunkAt i := by
  have hn := h.nchunks
  simp only [BlockSize] at hn
  have hlt : i < (b.chunks_.set (s.length / 4096) c).length := by
    simp only [List.length_set]; omega
  rw [List.getD_append _ _ _ _ hlt]
  simp only [List.getD_eq_getElem?_getD, List.getElem?_set, chunkAt]
  by_cases hq : i = s.length / 4096
  · subst hq
    have : s.length / 4096 < b.chunks_.length := by omega
    simp [this]
  · have : ¬ (s.length / 4096 = i) := fun e => hq e.symm
    simp [hq, this]

theorem Holds.writeRound {b : Buffer} {pre : List Nat} (h : Holds b pre) (src : List Nat)
    (hsrc : 0 < src.length) :
    Holds (b.writeRound src) (pre ++ src.take (min b.writeSize src.length)) ∧
      0 < min b.writeSize src.length := by
  have hr : pre.length % 4096 < 4096 := Nat.mod_lt _ (by decide)
  have hws := h.writeSize_eq
  have hwpos := h.wpos
  have hsizes := h.sizes
  have hn := h.nchunks
  have hlast := h.sizeAt_last
  have hrpos := h.rpos
  simp only [BlockSize] at hwpos hsizes hn hlast
  generalize hk : min b.writeSize src.length = k
  have hk1 : 0 < k := by omega
  have hk2 : k ≤ src.length := by omega
  have hk3 : pre.length % 4096 + k ≤ 4096 := by omega
  have hlen : (pre ++ src.take k).length = pre.length + k := by
    simp only [List.length_append, List.length_take]; omega
  refine ⟨?_, hk1⟩
  have hsz : b.sizeAt (pre.length / 4096) = pre.length % 4096 := hlast
  -- the bytes of the written chunk and of the earlier ones
  have hbytes : ∀ (tl : List Chunk) (j : Nat), j < pre.length + k →
      (b.chunks_.set (pre.length / 4096)
          (copyBytes (b.chunkAt (pre.length / 4096)) (pre.length % 4096) (src.take k)) ++ tl).getD
        (j / 4096) freshChunk (j % 4096) = (pre ++ src.take k).getD j 0 := by
    intro tl j hj
    have hjq : j / 4096 ≤ pre.length / 4096 := by omega
    rw [h.chunkAt_set _ _ _ hjq]
    by_cases hjl : j < pre.length
    · rw [List.getD_append _ _ _ _ hjl]
      have hb := h.bytes j hjl
      simp only [BlockSize] at hb
      by_cases hq : j / 4096 = pre.length / 4096
      · rw [if_pos hq, copyBytes_apply]
        have : ¬ (pre.length % 4096 ≤ j % 4096 ∧ j % 4096 < pre.length % 4096 + (src.take k).length) := by
          omega
        rw [if_neg this, ← hq]
        exact hb
      · rw [if_neg hq]
        exact hb
    · have hjl' : pre.length ≤ j := by omega
      rw [List.getD_append_right _ _ _ _ hjl']
      have hq : j / 4096 = pre.length / 4096 := by omega
      rw [if_pos hq, copyBytes_apply]
      have htl : (src.take k).length = k := by simp only [List.length_take]; omega
      have : pre.length % 4096 ≤ j % 4096 ∧ j % 4096 < pre.length % 4096 + (src.take k).length := by
        rw [htl]; omega
      rw [if_pos this]
      congr 1
      omega
  by_cases hfull : pre.length % 4096 + k = 4096
  · have hq' : (pre.length + k) / 4096 = pre.length / 4096 + 1 := by omega
    have hr' : (pre.length + k) % 4096 = 0 := by omega
    have e : b.writeRound src =
        { chunks_ := b.chunks_.set (pre.length / 4096)
              (copyBytes (b.chunkAt (pre.length / 4096)) (pre.length % 4096) (src.take k)) ++
              [freshChunk]
          sizes_ := b.sizes_.set (pre.length / 4096) (pre.length % 4096 + k) ++ [0]
          wpos_ := ⟨pre.length / 4096 + 1, 0⟩
          rpos_ := ⟨0, 0⟩ } := by
      simp only [Buffer.writeRound, hk, pokeAtWritePtr, hwpos, addChunk, BlockSize, sizeAt] at hsz ⊢
      simp only [hsz, hfull, or_true, if_true, hrpos, List.length_append, List.length_set, hn,
        List.length_singleton, Nat.add_sub_cancel]
    rw [e]
    constructor
    · simp only [hlen, hq', hr', BlockSize, hsizes]
      have := set_length_append_singleton (List.replicate (pre.length / 4096) 4096)
        (pre.length % 4096) (pre.length % 4096 + k)
      simp only [List.length_replicate] at this
      rw [this, hfull, List.replicate_succ']
    · simp only [hlen, hq', BlockSize, List.length_append, List.length_set, hn,
        List.length_singleton]
    · simp only [hlen, hq', hr', BlockSize]
    · rfl
    · intro j hj
      rw [hlen] at hj
      simp only [chunkAt, BlockSize]
      exact hbytes _ j hj
  · have hq' : (pre.length + k) / 4096 = pre.length / 4096 := by omega
    have hr' : (pre.length + k) % 4096 = pre.length % 4096 + k := by omega
    have hkn : src.length - k = 0 := by omega
    have e : b.writeRound src =
        { chunks_ := b.chunks_.set (pre.length / 4096)
              (copyBytes (b.chunkAt (pre.length / 4096)) (pre.length % 4096) (src.take k))
          sizes_ := b.sizes_.set (pre.length / 4096) (pre.length % 4096 + k)
          wpos_ := ⟨pre.length / 4096, pre.length % 4096 + k⟩
          rpos_ := ⟨0, 0⟩ } := by
      simp only [Buffer.writeRound, hk, pokeAtWritePtr, hwpos, addChunk, BlockSize, sizeAt] at hsz ⊢
      simp only [hsz, hfull, hkn, or_false, if_false, hrpos, gt_iff_lt, Nat.lt_irrefl]
    rw [e]
    constructor
    · simp only [hlen, hq', hr', BlockSize, hsizes]
      have := set_length_append_singleton (List.replicate (pre.length / 4096) 4096)
        (pre.length % 4096) (pre.length % 4096 + k)
      simp only [List.length_replicate] at this
      rw [this]
    · simp only [hlen, hq', BlockSize, List.length_set, hn]
    · simp only [hlen, hq', hr', BlockSize]
    · rfl
    · intro j hj
      rw [hlen] at hj
      simp only [chunkAt, BlockSize]
      have := hbytes [] j hj
      rw [List.append_nil] at this
      simp only [chunkAt, BlockSize] at this ⊢
      exact this

theorem Holds.writeLoop (fuel : Nat) : ∀ (b : Buffer) (pre src : List Nat), Holds b pre →
    src.length < fuel → Holds (writeLoop fuel b src) (pre ++ src) := by
  induction fuel with
  | zero => intro b pre src _ hlt; omega
  | succ fuel ih =>
    intro b pre src h hlt
    by_cases hsrc : 0 < src.length
    · obtain ⟨h1, hk⟩ := h.writeRound src hsrc
      have h2 := ih (b.writeRound src) _ (src.drop (min b.writeSize src.length)) h1
        (by simp only [List.length_drop]; omega)
      rw [List.append_assoc, List.take_append_drop] at h2
      simpa only [Buffer.writeLoop, gt_iff_lt, hsrc, if_true] using h2
    · have : src = [] := List.eq_nil_of_length_eq_zero (by omega)
      subst this
      simpa [Buffer.writeLoop] using h

theorem holds_write (s : List Nat) : Holds (Buffer.new.write s) s := by
  have := Holds.writeLoop (s.length + 1) Buffer.new [] s holds_new (by omega)
  simpa [Buffer.write] using this

theorem Iterator.nextN_succ (b : Buffer) (k : Nat) (it : Iterator) :
    Iterator.nextN b (k + 1) it = (Iterator.nextN b k it).next b := by
  induction k generalizing it with
  | zero => rfl
  | succ k ih =>
    have := ih (it.next b)
    simpa only [Iterator.nextN] using this

theorem Holds.sizeAt_cases {b : Buffer} {s : List Nat} (h : Holds b s) (j : Nat)
    (hj : j < s.length) :
    j % 4096 < b.sizeAt (j / 4096) ∧ b.sizeAt (j / 4096) ≤ 4096 ∧
      (j / 4096 < s.length / 4096 → b.sizeAt (j / 4096) = 4096) ∧
      (¬ j / 4096 < s.length / 4096 →
        j / 4096 = s.length / 4096 ∧ b.sizeAt (j / 4096) = s.length % 4096) := by
  by_cases hq : j / 4096 < s.length / 4096
  · have := h.sizeAt_lt (i := j / 4096) hq
    simp only [BlockSize] at this
    rw [this]
    refine ⟨by omega, by omega, fun _ => rfl, fun hn => absurd hq hn⟩
  · have hq' : j / 4096 = s.length / 4096 := by omega
    have := h.sizeAt_last
    simp only [BlockSize] at this
    rw [hq', this]
    refine ⟨by omega, by omega, fun hn => by omega, fun _ => ⟨rfl, rfl⟩⟩

theorem Holds.sizeAt_le {b : Buffer} {s : List Nat} (h : Holds b s) (i : Nat) :
    b.sizeAt i ≤ 4096 := by
  simp only [sizeAt, h.sizes, BlockSize, List.getD_eq_getElem?_getD, List.getElem?_append,
    List.getElem?_replicate, List.length_replicate]
  split
  · simp
  · by_cases h0 : i - s.length / 4096 = 0
    · rw [h0]; simp; omega
    · obtain ⟨m, hm⟩ := Nat.exists_eq_succ_of_ne_zero h0
      rw [hm]; simp

theorem Holds.nextN_begin {b : Buffer} {s : List Nat} (h : Holds b s) :
    ∀ j, j ≤ s.length → Iterator.nextN b j b.begin =
      { pos_ := ⟨j / 4096, j % 4096⟩, bytes_read_ := j, bytes_total_ := s.length
        budget_ := b.sizeAt (j / 4096) - j % 4096, chunk_start_ := j / 4096 } := by
  intro j
  induction j with
  | zero =>
    intro _
    have h0 := h.sizeAt_le 0
    simp only [Iterator.nextN, begin, Iterator.mk0, h.rpos, h.byteCount_eq]
    rw [usub_eq _ _ (Nat.zero_le _) (by omega)]
  | succ j ih =>
    intro hj
    have hj' : j < s.length := by omega
    rw [Iterator.nextN_succ, ih hj'.le]
    obtain ⟨c1, c2, c3, c4⟩ := h.sizeAt_cases j hj'
    have hw := h.wpos
    simp only [BlockSize] at hw
    by_cases hb : b.sizeAt (j / 4096) - j % 4096 > 1
    · have e1 : (j + 1) / 4096 = j / 4096 := by omega
      have e2 : (j + 1) % 4096 = j % 4096 + 1 := by omega
      have e3 : b.sizeAt (j / 4096) - j % 4096 - 1 = b.sizeAt (j / 4096) - (j % 4096 + 1) := by
        omega
      simp only [Iterator.next]
      rw [if_pos hb, e1, e2, e3]
    · have hS : j % 4096 + 1 = b.sizeAt (j / 4096) := by omega
      simp only [Iterator.next, Iterator.slowNext, Iterator.getBudget]
      rw [if_neg hb, if_pos c1]
      by_cases hq : j / 4096 < s.length / 4096
      · have hfull := c3 hq
        have e1 : (j + 1) / 4096 = j / 4096 + 1 := by omega
        have e2 : (j + 1) % 4096 = 0 := by omega
        have h1 := h.sizeAt_le (j / 4096 + 1)
        have hq' : j / 4096 < b.wpos_.idx := by rw [hw]; exact hq
        rw [if_pos ⟨hS, hq'⟩, e1, e2]
        simp only
        rw [usub_eq _ _ (Nat.zero_le _) (by omega)]
      · obtain ⟨d1, d2⟩ := c4 hq
        have e1 : (j + 1) / 4096 = j / 4096 := by omega
        have e2 : (j + 1) % 4096 = j % 4096 + 1 := by omega
        have hq' : ¬ (j % 4096 + 1 = b.sizeAt (j / 4096) ∧ j / 4096 < b.wpos_.idx) := by
          rw [hw]; exact fun hc => hq hc.2
        rw [if_neg hq', e1, e2]
        simp only
        rw [usub_eq _ _ (by omega) (by omega)]

/-- C1. Round trip on a fresh Buffer: after `write(s)`, the iterator obtained from `begin()`
is not at `eob()` and `getChar()` returns the `k`-th byte of `s` after `k` calls of `next()`,
for every `k < |s|`; after exactly `|s|` calls `eob()` is true; and `bytesTotal()` as well as
`byteCount()` equal `|s|`. This holds for every `s`, whatever its length. -/
theorem write_iterate_round_trip (s : List Nat) :
    (List.range s.length).map (fun k =>
        ((Iterator.nextN (Buffer.new.write s) k (Buffer.new.write s).begin).eob
            (Buffer.new.write s),
          (Iterator.nextN (Buffer.new.write s) k (Buffer.new.write s).begin).getChar
            (Buffer.new.write s)))
      = s.map (fun x => (false, x)) ∧
    (Iterator.nextN (Buffer.new.write s) s.length (Buffer.new.write s).begin).eob
        (Buffer.new.write s) = true ∧
    (Buffer.new.write s).begin.bytesTotal = s.length ∧
    (Buffer.new.write s).byteCount = s.length := by
  have h := holds_write s
  generalize Buffer.new.write s = b at h
  refine ⟨?_, ?_, ?_, h.byteCount_eq⟩
  · apply List.ext_getElem
    · simp
    · intro i h1 h2
      have hi : i < s.length := by simpa using h1
      obtain ⟨c1, -, -, -⟩ := h.sizeAt_cases i hi
      have hb := h.bytes i hi
      simp only [BlockSize] at hb
      simp only [List.getElem_map, List.getElem_range, h.nextN_begin i hi.le, Iterator.eob,
        Iterator.getChar, hb]
      have hne : b.sizeAt (i / 4096) - i % 4096 ≠ 0 := by omega
      rw [if_pos hne, List.getD_eq_getElem _ _ hi]
  · have hl := h.sizeAt_last
    have hw := h.wpos
    simp only [BlockSize] at hl hw
    simp only [h.nextN_begin s.length (Nat.le_refl _), Iterator.eob, hl, hw]
    simp
  · have := h.nextN_begin 0 (Nat.zero_le _)
    simp only [Iterator.nextN] at this
    rw [Iterator.bytesTotal, this]

end Buffer

/-! ## Descriptor latch -/

namespace Descriptor

/-- C3. Transition table of the latch. With a callback installed, in each direction:
Idle + edge sets `can`; Idle + request sets `waiting`; Ready + edge changes nothing;
Ready + request clears `can` and submits the callback; Demand + edge clears `waiting` and
submits the callback; Demand + request changes nothing. Nothing else is submitted, and
without a callback nothing is submitted at all. -/
theorem latch_transition_table (d : Descriptor) (pool : TaskLog) (cb : Callback) :
    -- read direction
    (({ d with read_cb_ := some cb, waiting_read_ := false, can_read_ := false }).readIfWaiting pool
      = ({ d with read_cb_ := some cb, waiting_read_ := false, can_read_ := true }, pool) ∧
    ({ d with read_cb_ := some cb, waiting_read_ := false, can_read_ := false }).readWhenReady pool
      = ({ d with read_cb_ := some cb, waiting_read_ := true, can_read_ := false }, pool) ∧
    ({ d with read_cb_ := some cb, waiting_read_ := false, can_read_ := true }).readIfWaiting pool
      = ({ d with read_cb_ := some cb, waiting_read_ := false, can_read_ := true }, pool) ∧
    ({ d with read_cb_ := some cb, waiting_read_ := false, can_read_ := true }).readWhenReady pool
      = ({ d with read_cb_ := some cb, waiting_read_ := false, can_read_ := false },
          pool ++ [cb]) ∧
    ({ d with read_cb_ := some cb, waiting_read_ := true, can_read_ := false }).readIfWaiting pool
      = ({ d with read_cb_ := some cb, waiting_read_ := false, can_read_ := false },
          pool ++ [cb]) ∧
    ({ d with read_cb_ := some cb, waiting_read_ := true, can_read_ := false }).readWhenReady pool
      = ({ d with read_cb_ := some cb, waiting_read_ := true, can_read_ := false }, pool)) ∧
    -- write direction
    (({ d with write_cb_ := some cb, waiting_write_ := false, can_write_ := false }).writeIfWaiting
        pool
      = ({ d with write_cb_ := some cb, waiting_write_ := false, can_write_ := true }, pool) ∧
    ({ d with write_cb_ := some cb, waiting_write_ := false, can_write_ := false }).writeWhenReady
        pool
      = ({ d with write_cb_ := some cb, waiting_write_ := true, can_write_ := false }, pool) ∧
    ({ d with write_cb_ := some cb, waiting_write_ := false, can_write_ := true }).writeIfWaiting
        pool
      = ({ d with write_cb_ := some cb, waiting_write_ := false, can_write_ := true }, pool) ∧
    ({ d with write_cb_ := some cb, waiting_write_ := false, can_write_ := true }).writeWhenReady
        pool
      = ({ d with write_cb_ := some cb, waiting_write_ := false, can_write_ := false },
          pool ++ [cb]) ∧
    ({ d with write_cb_ := some cb, waiting_write_ := true, can_write_ := false }).writeIfWaiting
        pool
      = ({ d with write_cb_ := some cb, waiting_write_ := false, can_write_ := false },
          pool ++ [cb]) ∧
    ({ d with write_cb_ := some cb, waiting_write_ := true, can_write_ := false }).writeWhenReady
        pool
      = ({ d with write_cb_ := some cb, waiting_write_ := true, can_write_ := false }, pool)) ∧
    -- no callback installed: nothing is ever submitted
    (({ d with read_cb_ := none }).readIfWaiting pool).2 = pool ∧
    (({ d with read_cb_ := none }).readWhenReady pool).2 = pool ∧
    (({ d with write_cb_ := none }).writeIfWaiting pool).2 = pool ∧
    (({ d with write_cb_ := none }).writeWhenReady pool).2 = pool := by
  refine ⟨⟨rfl, rfl, rfl, rfl, rfl, rfl⟩, ⟨rfl, rfl, rfl, rfl, rfl, rfl⟩, ?_, ?_, ?_, ?_⟩
  · cases hw : d.waiting_read_ <;> simp [readIfWaiting, submitIf, hw]
  · cases hw : d.can_read_ <;> simp [readWhenReady, submitIf, hw]
  · cases hw : d.waiting_write_ <;> simp [writeIfWaiting, submitIf, hw]
  · cases hw : d.can_write_ <;> simp [writeWhenReady, submitIf, hw]

theorem latchOk_step (s : Descriptor × TaskLog) (c : Call) (h : LatchOk s.1) :
    LatchOk (step s c).1 := by
  obtain ⟨d, pool⟩ := s
  obtain ⟨hr, hw⟩ := h
  cases c <;>
    simp only [step, readWhenReady, writeWhenReady, readIfWaiting, writeIfWaiting, setUpCalls,
      LatchOk] at * <;>
    (try split) <;> simp_all

theorem latchOk_run (calls : List Call) (s : Descriptor × TaskLog) (h : LatchOk s.1) :
    LatchOk (run s calls).1 := by
  induction calls generalizing s with
  | nil => simpa [run] using h
  | cons c rest ih =>
    have := ih (step s c) (latchOk_step s c h)
    simpa [run] using this

/-- C4. In every state reached from a newly constructed Descriptor by any sequence of
`readWhenReady`, `writeWhenReady`, `readIfWaiting`, `writeIfWaiting` and `setUpCalls`,
`can_read_` and `waiting_read_` are not both true, and neither are `can_write_` and
`waiting_write_`. -/
theorem latch_invariant (fd : Int) (read_cb write_cb : Option Callback) (pool : TaskLog)
    (calls : List Call) :
    ¬ ((run (Descriptor.new fd read_cb write_cb, pool) calls).1.can_read_ = true ∧
        (run (Descriptor.new fd read_cb write_cb, pool) calls).1.waiting_read_ = true) ∧
    ¬ ((run (Descriptor.new fd read_cb write_cb, pool) calls).1.can_write_ = true ∧
        (run (Descriptor.new fd read_cb write_cb, pool) calls).1.waiting_write_ = true) := by
  have h0 : LatchOk (Descriptor.new fd read_cb write_cb, pool).1 := by
    simp [LatchOk, Descriptor.new]
  exact latchOk_run calls _ h0

end Descriptor

/-! ## Buffer: byte accounting -/

namespace Buffer

/-- C2 (failing input). `buf1.write("X"); buf1.consume(1); buf2.write("Y");
buf1.appendFrom(&buf2)`: one byte was written, one consumed and one appended, so one byte is
left to read (`readSize() = 1`), but `byteCount()` answers 2: `appendFrom` moved `rpos_` to
chunk 1 and `byteCount` adds `sizes_[1]` a second time. -/
theorem byteCount_after_appendFrom_to_read_buffer :
    ((Buffer.new.write [88]).consume 1).byteCount = 0 ∧
    (Buffer.new.write [89]).isConsumed = false ∧
    (Buffer.new.write [89]).byteCount = 1 ∧
    (((Buffer.new.write [88]).consume 1).appendFrom (Buffer.new.write [89])).1.readSize = 1 ∧
    (((Buffer.new.write [88]).consume 1).appendFrom (Buffer.new.write [89])).1.byteCount = 2 := by
  decide

end Buffer

/-! ## FileCache: hits, eviction result, counters -/

namespace FileCache

/-- C8 (failing input). A cache of capacity 10 holds the single unpinned 10 byte node `ten`.
`evict(6)` removes it, reclaiming 10 >= 6 bytes, and still returns false, because
`bytes_to_evict` is a `size_t` that wrapped below zero; so `pin("six")` fails although the
unpinned nodes total 10 bytes. -/
theorem evict_reports_failure_after_reclaiming_enough :
    cacheA.cache_map_ = [("ten", 1)] ∧
    (cacheA.nodes 1).map (fun nd => (nd.pin_count, nd.size)) = some (0, 10) ∧
    (evict cacheA 6).map (fun r => (r.1, cacheA.bytesUsed - r.2.bytesUsed, r.2.cache_map_))
      = some (false, 10, []) ∧
    (pin fsA cacheA "six").map (fun r => (r.1, r.2.failed - cacheA.failed))
      = some (⟨0, none, 0⟩, 1) := by
  decide!

/-- C10 (failing input). On a fresh cache, `pin` of a path that cannot be opened returns
handle 0 with `errno`, and leaves `pins()` at 0 after one call (and `failed()` at 0). -/
theorem pin_of_missing_file_is_not_counted :
    (pin fsA (FileCache.new 10) "nope").map (fun r => (r.1, r.2.pins, r.2.hits, r.2.failed))
      = some (⟨0, none, 2⟩, 0, 0, 0) := by
  decide!

/-- C5 (failing input). On a cache of capacity 8192, `pin` of the readable 4097 byte file
`big` succeeds (handle 1, Buffer 1, 4097 bytes accounted), but the Buffer handed out is empty:
`byteCount()` and `readSize()` are 0 and its iterator is at `eob()` at once. The read loop
never advances the write pointer, and the one `advance(4097)` after it is refused. For
comparison, the 3 byte file `abc` is handed out with its 3 bytes. -/
theorem pin_of_large_file_returns_empty_buffer :
    (pin fsBig (FileCache.new 8192) "big").map
        (fun r => (r.1, r.2.bytesUsed,
          (r.2.bufs 1).map (fun b => (b.byteCount, b.readSize, (b.begin).eob b))))
      = some (⟨1, some 1, 0⟩, 4097, some (0, 0, true)) ∧
    (pin fsA (FileCache.new 8192) "abc").map (fun r => (r.1, r.2.bytesUsed))
      = some (⟨1, some 1, 0⟩, 3) ∧
    ((pin fsA (FileCache.new 8192) "abc").bind (fun r => r.2.bufs 1)).map
        (fun b => (List.range 3).map (fun k => (Buffer.Iterator.nextN b k b.begin).getChar b))
      = some [97, 98, 99] ∧
    ((pin fsA (FileCache.new 8192) "abc").bind (fun r => r.2.bufs 1)).map
        (fun b => (b.byteCount, (Buffer.Iterator.nextN b 3 b.begin).eob b))
      = some (3, true) := by
  refine ⟨by decide!, by decide!, by decide!, by decide!⟩

end FileCache

/-! ## FileCache: representation invariant -/

namespace FileCache

theorem mapFind_some {m : List (String × Addr)} {k k' : String} {a : Addr}
    (h : mapFind m k = some (k', a)) : k' = k ∧ (k', a) ∈ m := by
  unfold mapFind at h
  have h1 := List.find?_some h
  have h2 := List.mem_of_find?_eq_some h
  exact ⟨by simpa using h1, h2⟩

theorem mapFind_none {m : List (String × Addr)} {k : String} (h : mapFind m k = none) :
    k ∉ m.map Prod.fst := by
  unfold mapFind at h
  rw [List.find?_eq_none] at h
  intro hk
  obtain ⟨e, he, rfl⟩ := List.mem_map.1 hk
  exact h e he (by simp)

theorem sum_filter_ne (f : Addr → Int) (d : Addr) :
    ∀ m : List (String × Addr), (m.map Prod.snd).Nodup → d ∈ m.map Prod.snd →
      (m.map (fun x => f x.2)).sum =
        ((m.filter (fun x => decide (x.2 ≠ d))).map (fun x => f x.2)).sum + f d := by
  intro m
  induction m with
  | nil => intro _ h; simp at h
  | cons x xs ih =>
    intro hnd hd
    rw [List.map_cons, List.nodup_cons] at hnd
    by_cases hx : x.2 = d
    · have hnot : ∀ y ∈ xs, decide (y.2 ≠ d) = true := by
        intro y hy
        have : y.2 ≠ d := by
          intro hyd
          exact hnd.1 (by rw [hx, ← hyd]; exact List.mem_map_of_mem _ hy)
        simpa using this
      have hfil : xs.filter (fun y => decide (y.2 ≠ d)) = xs := List.filter_eq_self.2 hnot
      simp only [List.filter_cons, hx, ne_eq, not_true_eq_false, decide_False, List.map_cons,
        List.sum_cons]
      simp only [ne_eq] at hfil
      rw [hfil]
      simp [add_comm]
    · have hd' : d ∈ xs.map Prod.snd := by
        rw [List.map_cons, List.mem_cons] at hd
        rcases hd with hd | hd
        · exact absurd hd.symm hx
        · exact hd
      have := ih hnd.2 hd'
      simp only [List.filter_cons, ne_eq, hx, not_false_eq_true, decide_True, if_true,
        List.map_cons, List.sum_cons]
      simp only [ne_eq] at this
      rw [this]
      ring

theorem sum_filter_del (f : Addr → Int) :
    ∀ (del : List Addr) (m : List (String × Addr)), (m.map Prod.snd).Nodup → del.Nodup →
      (∀ d, d ∈ del → d ∈ m.map Prod.snd) →
      (m.map (fun x => f x.2)).sum =
        ((m.filter (fun x => decide (x.2 ∉ del))).map (fun x => f x.2)).sum + (del.map f).sum := by
  intro del
  induction del with
  | nil => intro m _ _ _; simp
  | cons d ds ih =>
    intro m hm hdel hsub
    rw [List.nodup_cons] at hdel
    have h1 := ih m hm hdel.2 (fun x hx => hsub x (List.mem_cons_of_mem _ hx))
    have hm' : ((m.filter (fun x => decide (x.2 ∉ ds))).map Prod.snd).Nodup :=
      List.Nodup.sublist (List.Sublist.map _ (List.filter_sublist _)) hm
    have hd' : d ∈ (m.filter (fun x => decide (x.2 ∉ ds))).map Prod.snd := by
      obtain ⟨x, hx, rfl⟩ := List.mem_map.1 (hsub d (List.mem_cons_self _ _))
      exact List.mem_map.2 ⟨x, List.mem_filter.2 ⟨hx, by simpa using hdel.1⟩, rfl⟩
    have h2 := sum_filter_ne f d _ hm' hd'
    rw [h1, h2, List.filter_filter]
    have hfil : m.filter (fun x => decide (x.2 ∉ d :: ds)) =
        m.filter (fun a => decide (a.2 ≠ d) && decide (a.2 ∉ ds)) := by
      apply List.filter_congr
      intro x _
      simp [List.mem_cons, not_or]
    rw [hfil, List.map_cons, List.sum_cons]
    ring

theorem nodeExtract_spec {c c' : FileCache} {node prev : Addr}
    (h : nodeExtract c node prev = some c') :
    c'.cache_map_ = c.cache_map_ ∧ c'.bytes_used_ = c.bytes_used_ ∧
    c'.max_size_ = c.max_size_ ∧ c'.bufs = c.bufs ∧
    c'.node_brk = c.node_brk ∧ c'.buf_brk = c.buf_brk ∧
    c'.pin_total_ = c.pin_total_ ∧ c'.hit_total_ = c.hit_total_ ∧
    c'.failed_total_ = c.failed_total_ ∧
    (∀ a, (c'.nodes a).map Node.core = (c.nodes a).map Node.core) ∧
    ((∀ a nd, c.nodes a = some nd → nd.next ≠ some 0) →
      ∀ a nd, c'.nodes a = some nd → nd.next ≠ some 0) := by
  unfold nodeExtract at h
  by_cases hnp : node = prev
  · rw [if_pos hnp] at h
    cases h
    exact ⟨rfl, rfl, rfl, rfl, rfl, rfl, rfl, rfl, rfl, fun _ => rfl, fun hh => hh⟩
  · rw [if_neg hnp] at h
    simp only at h
    have hn1 : (if c.head_ = node then { c with head_ := prev } else c).nodes = c.nodes := by
      split <;> rfl
    rw [hn1] at h
    cases hnode : c.nodes node with
    | none => simp [hnode] at h
    | some nd =>
      cases hprev : c.nodes prev with
      | none => simp [hnode, hprev] at h
      | some pv =>
        simp only [hnode, hprev, Option.some.injEq] at h
        subst h
        refine ⟨?_, ?_, ?_, ?_, ?_, ?_, ?_, ?_, ?_, ?_, ?_⟩
        all_goals try (split <;> rfl)
        · intro a
          by_cases ha : a = prev
          · subst ha
            simp [hn1, hprev, Node.core]
          · simp [hn1, Function.update, ha]
        · intro hh a x hx
          by_cases ha : a = prev
          · subst ha
            simp only [hn1, Function.update_same, Option.some.injEq] at hx
            subst hx
            exact hh node nd hnode
          · simp only [hn1, Function.update, ha, dite_false] at hx
            exact hh a x hx

theorem Inv.key_unique {c : FileCache} (hc : Inv c) {k : String} {a b : Addr}
    (ha : (k, a) ∈ c.cache_map_) (hb : (k, b) ∈ c.cache_map_) : a = b := by
  have := List.inj_on_of_nodup_map hc.keys_nodup ha hb rfl
  exact (Prod.mk.inj this).2

theorem Inv.key_iff_addr {c : FileCache} (hc : Inv c) {a : Addr} {nd0 : Node} (ha0 : a ≠ 0)
    (hlive : c.nodes a = some nd0) {x : String × Addr} (hx : x ∈ c.cache_map_) :
    x.1 = nd0.file_name ↔ x.2 = a := by
  obtain ⟨k, b⟩ := x
  constructor
  · intro hk
    simp only at hk
    subst hk
    exact hc.key_unique hx (hc.live_map a nd0 ha0 hlive)
  · intro hb
    simp only at hb
    subst hb
    obtain ⟨-, nd, h1, h2, -⟩ := hc.map_live k b hx
    rw [hlive] at h1
    cases h1
    exact h2.symm

theorem Inv.erase_eq_filter {c : FileCache} (hc : Inv c) {a : Addr} {nd0 : Node} (ha0 : a ≠ 0)
    (hlive : c.nodes a = some nd0) (del : List Addr) :
    mapErase (c.cache_map_.filter (fun x => decide (x.2 ∉ del))) nd0.file_name =
      c.cache_map_.filter (fun x => decide (x.2 ∉ del ++ [a])) := by
  unfold mapErase
  rw [List.filter_filter]
  apply List.filter_congr
  intro x hx
  have := hc.key_iff_addr ha0 hlive hx
  by_cases h1 : x.2 = a
  · have h2 := this.2 h1
    simp [h1, h2]
  · have h2 : ¬ x.1 = nd0.file_name := fun h => h1 (this.1 h)
    simp [h1, h2]

theorem same_core {c ci : FileCache} (hs : ∀ a, (ci.nodes a).map Node.core = (c.nodes a).map Node.core)
    {a : Addr} {nd : Node} (h : ci.nodes a = some nd) :
    ∃ nd0, c.nodes a = some nd0 ∧ nd0.file_name = nd.file_name ∧ nd0.buf = nd.buf ∧
      nd0.pin_count = nd.pin_count ∧ nd0.size = nd.size := by
  have := hs a
  rw [h] at this
  cases h0 : c.nodes a with
  | none => simp [h0] at this
  | some nd0 =>
    simp only [h0, Option.map_some', Option.some.injEq, Node.core, Prod.mk.injEq] at this
    exact ⟨nd0, rfl, this.1.symm, this.2.1.symm, this.2.2.1.symm, this.2.2.2.symm⟩

theorem usub_arith (n n0 : Nat) (e size : Int) (hn : n < 2 ^ 64)
    (h : ((n : Int) + e) % 2 ^ 64 = (n0 : Int) % 2 ^ 64) :
    usub n (size % 2 ^ 64).toNat < 2 ^ 64 ∧
      ((usub n (size % 2 ^ 64).toNat : Nat) + (e + size)) % 2 ^ 64 = (n0 : Int) % 2 ^ 64 := by
  unfold usub
  omega

theorem evictLoop_inv {c : FileCache} (hc : Inv c) (n0 : Nat) :
    ∀ (fuel : Nat) (ci : FileCache) (n : Nat) (e : Int) (curr : Option Addr) (prev : Addr)
      (del : List Addr) (cf : FileCache) (nf : Nat) (ef : Int) (delf : List Addr),
      EvictInv c ci del e n0 n → curr ≠ some 0 →
      evictLoop fuel ci n e curr prev del = some (cf, nf, ef, delf) →
      EvictInv c cf delf ef n0 nf := by
  intro fuel
  induction fuel with
  | zero =>
    intro ci n e curr prev del cf nf ef delf hinv _ hrun
    unfold evictLoop at hrun
    cases curr with
    | none => simp only [Option.some.injEq, Prod.mk.injEq] at hrun
              obtain ⟨rfl, rfl, rfl, rfl⟩ := hrun
              exact hinv
    | some a =>
      by_cases hn : n > 0
      · simp [hn] at hrun
      · simp only [hn, if_false, Option.some.injEq, Prod.mk.injEq] at hrun
        obtain ⟨rfl, rfl, rfl, rfl⟩ := hrun
        exact hinv
  | succ fuel ih =>
    intro ci n e curr prev del cf nf ef delf hinv hcurr hrun
    unfold evictLoop at hrun
    cases curr with
    | none => simp only [Option.some.injEq, Prod.mk.injEq] at hrun
              obtain ⟨rfl, rfl, rfl, rfl⟩ := hrun
              exact hinv
    | some a =>
      have ha0 : a ≠ 0 := fun h => hcurr (by rw [h])
      by_cases hn : n > 0
      · simp only [hn, if_true] at hrun
        cases hnode : ci.nodes a with
        | none => simp [hnode] at hrun
        | some nd =>
          simp only [hnode] at hrun
          obtain ⟨nd0, hlive, hname, -, hpin, hsize⟩ := same_core hinv.same hnode
          by_cases hp : nd.pin_count = 0
          · simp only [hp, if_true] at hrun
            cases hex : nodeExtract { ci with cache_map_ := mapErase ci.cache_map_ nd.file_name }
                a prev with
            | none => simp [hex] at hrun
            | some c2 =>
              simp only [hex] at hrun
              cases hnode2 : c2.nodes a with
              | none => simp [hnode2] at hrun
              | some nd2 =>
                simp only [hnode2] at hrun
                obtain ⟨s1, s2, s3, s4, s5, s6, s7, s8, s9, s10, s11⟩ := nodeExtract_spec hex
                have hsz0 : 0 ≤ nd.size := by
                  obtain ⟨-, x, hx1, -, hx3⟩ :=
                    hc.map_live _ _ (hc.live_map a nd0 ha0 hlive)
                  rw [hlive] at hx1
                  cases hx1
                  rw [← hsize]; exact hx3
                have har := usub_arith n n0 e nd.size hinv.arith.2.1 hinv.arith.2.2
                have hnext := s11 hinv.next_ne
                refine ih c2 _ _ nd2.next a (del ++ [a]) cf nf ef delf ?_ (hnext a nd2 hnode2) hrun
                constructor
                · intro x; rw [s10 x]; exact hinv.same x
                · exact hnext
                · rw [s1]
                  simp only
                  rw [hinv.map, ← hname]
                  exact hc.erase_eq_filter ha0 hlive del
                · rw [List.map_append, List.sum_append, ← hinv.ev]
                  simp [nodeSize, hlive, hsize]
                · intro d hd
                  rcases List.mem_append.1 hd with hd | hd
                  · exact hinv.del_unpinned d hd
                  · simp only [List.mem_singleton] at hd
                    subst hd
                    exact ⟨nd0, hlive, by rw [hpin]; exact hp⟩
                · exact ⟨by have := hinv.arith.1; omega, har.1, har.2⟩
                · rw [s2]; exact hinv.used
                · rw [s3]; exact hinv.max
                · rw [s4]; exact hinv.bufs
                · rw [s5, s6]; exact hinv.brk
                · rw [s7, s8, s9]; exact hinv.counters
          · simp only [hp, if_false] at hrun
            exact ih ci _ _ nd.next a del cf nf ef delf hinv (hinv.next_ne a nd hnode) hrun
      · simp only [hn, if_false, Option.some.injEq, Prod.mk.injEq] at hrun
        obtain ⟨rfl, rfl, rfl, rfl⟩ := hrun
        exact hinv

theorem SameMeta.refl (c : FileCache) : SameMeta c c := ⟨rfl, rfl, rfl, rfl, rfl, rfl, rfl, rfl⟩

theorem SameMeta.trans {a b c : FileCache} (h1 : SameMeta a b) (h2 : SameMeta b c) :
    SameMeta a c :=
  ⟨h2.map.trans h1.map, h2.used.trans h1.used, h2.max.trans h1.max,
    h2.node_brk.trans h1.node_brk, h2.buf_brk.trans h1.buf_brk, h2.pins.trans h1.pins,
    h2.hits.trans h1.hits, h2.failed.trans h1.failed⟩

theorem deleteNode_spec {c c' : FileCache} {a : Addr} (h : deleteNode c a = some c') :
    a ≠ 0 ∧ (∃ nd, c.nodes a = some nd) ∧ c'.nodes = Function.update c.nodes a none ∧
      SameMeta c c' ∧ c'.head_ = c.head_ := by
  unfold deleteNode at h
  by_cases ha : a = 0
  · simp [ha] at h
  · rw [if_neg ha] at h
    cases hnode : c.nodes a with
    | none => simp [hnode] at h
    | some nd =>
      simp only [hnode] at h
      cases hb : nd.buf with
      | none =>
        simp only [hb, Option.some.injEq] at h
        subst h
        exact ⟨ha, ⟨nd, rfl⟩, rfl, ⟨rfl, rfl, rfl, rfl, rfl, rfl, rfl, rfl⟩, rfl⟩
      | some p =>
        simp only [hb] at h
        cases hp : c.bufs p with
        | none => simp [hp] at h
        | some _ =>
          simp only [hp, Option.some.injEq] at h
          subst h
          exact ⟨ha, ⟨nd, rfl⟩, rfl, ⟨rfl, rfl, rfl, rfl, rfl, rfl, rfl, rfl⟩, rfl⟩

theorem deleteAll_spec : ∀ (del : List Addr) (c c' : FileCache), deleteAll c del = some c' →
    del.Nodup ∧ 0 ∉ del ∧ (∀ d, d ∈ del → ∃ nd, c.nodes d = some nd) ∧
      (∀ a, c'.nodes a = if a ∈ del then none else c.nodes a) ∧
      SameMeta c c' ∧ c'.head_ = c.head_ := by
  intro del
  induction del with
  | nil =>
    intro c c' h
    simp only [deleteAll, Option.some.injEq] at h
    subst h
    exact ⟨List.nodup_nil, by simp, by simp, by simp, SameMeta.refl _, rfl⟩
  | cons d ds ih =>
    intro c c' h
    simp only [deleteAll] at h
    cases hd : deleteNode c d with
    | none => simp [hd] at h
    | some c1 =>
      simp only [hd] at h
      obtain ⟨h0, ⟨nd, hlive⟩, hnodes, hmeta, hhead⟩ := deleteNode_spec hd
      obtain ⟨i1, i2, i3, i4, i5, i6⟩ := ih c1 c' h
      have hnotin : d ∉ ds := by
        intro hmem
        obtain ⟨x, hx⟩ := i3 d hmem
        rw [hnodes] at hx
        simp at hx
      refine ⟨List.nodup_cons.2 ⟨hnotin, i1⟩, ?_, ?_, ?_, hmeta.trans i5, i6.trans hhead⟩
      · intro h
        rcases List.mem_cons.1 h with h | h
        · exact h0 h.symm
        · exact i2 h
      · intro x hx
        rcases List.mem_cons.1 hx with hx | hx
        · subst hx; exact ⟨nd, hlive⟩
        · obtain ⟨y, hy⟩ := i3 x hx
          rw [hnodes] at hy
          by_cases hxd : x = d
          · subst hxd; simp at hy
          · simp only [Function.update, hxd, dite_false] at hy
            exact ⟨y, hy⟩
      · intro a
        rw [i4 a, hnodes]
        by_cases h1 : a ∈ ds
        · have : a ∈ d :: ds := List.mem_cons_of_mem _ h1
          simp [h1, this]
        · by_cases h2 : a = d
          · subst h2
            simp [h1]
          · have : a ∉ d :: ds := by
              intro hm
              rcases List.mem_cons.1 hm with hm | hm
              · exact h2 hm
              · exact h1 hm
            simp [h1, this, Function.update, h2]

theorem mapBytes_eq (c : FileCache) :
    c.mapBytes = (c.cache_map_.map (fun x => c.nodeSize x.2)).sum := rfl

theorem Inv.addrs_nodup {c : FileCache} (hc : Inv c) : (c.cache_map_.map Prod.snd).Nodup := by
  have h1 : c.cache_map_.Nodup := List.Nodup.of_map _ hc.keys_nodup
  refine List.Nodup.map_on ?_ h1
  intro x hx y hy hxy
  obtain ⟨k1, a1⟩ := x
  obtain ⟨k2, a2⟩ := y
  simp only at hxy
  subst hxy
  obtain ⟨-, n1, e1, f1, -⟩ := hc.map_live _ _ hx
  obtain ⟨-, n2, e2, f2, -⟩ := hc.map_live _ _ hy
  rw [e1] at e2
  cases e2
  rw [← f1, ← f2]

/-- What a completed `evict` guarantees when started in a state satisfying the invariant. -/
theorem evict_spec {c : FileCache} (hc : Inv c) {n : Nat} (hn : n < 2 ^ 64) {r : Bool}
    {c' : FileCache} (h : evict c n = some (r, c')) :
    Inv c' ∧ c'.max_size_ = c.max_size_ ∧ c'.node_brk = c.node_brk ∧
      c'.buf_brk = c.buf_brk ∧ c'.pin_total_ = c.pin_total_ ∧ c'.hit_total_ = c.hit_total_ ∧
      c'.failed_total_ = c.failed_total_ ∧
      c'.bytes_used_ ≤ c.bytes_used_ ∧ (r = true → c'.bytes_used_ + n ≤ c.bytes_used_) ∧
      (∀ x, x ∈ c'.cache_map_ → x ∈ c.cache_map_) ∧
      (∀ k a nd, (k, a) ∈ c.cache_map_ → c.nodes a = some nd → nd.pin_count ≠ 0 →
        (k, a) ∈ c'.cache_map_ ∧
          ∃ nd1, c'.nodes a = some nd1 ∧ nd1.file_name = nd.file_name ∧ nd1.buf = nd.buf ∧
            nd1.pin_count = nd.pin_count ∧ nd1.size = nd.size) := by
  unfold evict at h
  by_cases hh : c.head_ = 0
  · rw [if_pos hh] at h
    simp only [Option.some.injEq, Prod.mk.injEq] at h
    obtain ⟨rfl, rfl⟩ := h
    refine ⟨hc, rfl, rfl, rfl, rfl, rfl, rfl, le_refl _, by simp, fun x hx => hx, ?_⟩
    intro k a nd hk hnd _
    exact ⟨hk, nd, hnd, rfl, rfl, rfl, rfl⟩
  · rw [if_neg hh] at h
    cases ht : c.nodes 0 with
    | none => simp [ht] at h
    | some t =>
      simp only [ht] at h
      cases hl : evictLoop c.node_brk c n 0 t.next 0 [] with
      | none => simp [hl] at h
      | some res =>
        obtain ⟨c1, nf, e, del⟩ := res
        simp only [hl] at h
        cases hd : deleteAll { c1 with bytes_used_ := c1.bytes_used_ - e } del with
        | none => simp [hd] at h
        | some c3 =>
          simp only [hd, Option.some.injEq, Prod.mk.injEq] at h
          obtain ⟨hr, rfl⟩ := h
          have hinit : EvictInv c c [] 0 n n :=
            ⟨fun _ => rfl, hc.next_ne, by simp, by simp, by simp, ⟨le_refl _, hn, by simp⟩, rfl,
              rfl, rfl, ⟨rfl, rfl⟩, ⟨rfl, rfl, rfl⟩⟩
          have hI := evictLoop_inv hc n c.node_brk c n 0 t.next 0 [] c1 nf e del hinit
            (hc.next_ne 0 t ht) hl
          obtain ⟨dnd, d0, dlive, dnodes, dmeta, -⟩ := deleteAll_spec del _ _ hd
          simp only at dnodes dlive
          have hmap3 : c3.cache_map_ = c.cache_map_.filter (fun x => decide (x.2 ∉ del)) := by
            rw [dmeta.map]; exact hI.map
          -- a node that survives has the same core as at the start
          have hkeep : ∀ a, a ∉ del → ∀ nd, c.nodes a = some nd →
              ∃ nd1, c3.nodes a = some nd1 ∧ nd1.file_name = nd.file_name ∧ nd1.buf = nd.buf ∧
                nd1.pin_count = nd.pin_count ∧ nd1.size = nd.size := by
            intro a ha nd hnd
            have hs := hI.same a
            rw [hnd] at hs
            cases h1 : c1.nodes a with
            | none => simp [h1] at hs
            | some nd1 =>
              simp only [h1, Option.map_some', Option.some.injEq, Node.core, Prod.mk.injEq] at hs
              refine ⟨nd1, ?_, hs.1, hs.2.1, hs.2.2.1, hs.2.2.2⟩
              rw [dnodes a, if_neg ha, h1]
          have hback : ∀ a nd1, c3.nodes a = some nd1 → a ∉ del ∧ c1.nodes a = some nd1 := by
            intro a nd1 h1
            rw [dnodes a] at h1
            by_cases ha : a ∈ del
            · simp [ha] at h1
            · rw [if_neg ha] at h1
              exact ⟨ha, h1⟩
          have hused : c3.bytes_used_ = c.bytes_used_ - e := by
            rw [dmeta.used]; simp only; rw [hI.used]
          have he : 0 ≤ e := hI.arith.1
          have hsubset : ∀ d, d ∈ del → d ∈ c.cache_map_.map Prod.snd := by
            intro d hdm
            obtain ⟨nd, hnd, -⟩ := hI.del_unpinned d hdm
            have hd0 : d ≠ 0 := fun hz => d0 (hz ▸ hdm)
            exact List.mem_map.2 ⟨_, hc.live_map d nd hd0 hnd, rfl⟩
          refine ⟨?_, ?_, ?_, ?_, ?_, ?_, ?_, ?_, ?_, ?_, ?_⟩
          · constructor
            · rw [hmap3]
              exact List.Nodup.sublist (List.Sublist.map _ (List.filter_sublist _)) hc.keys_nodup
            · intro k a hka
              rw [hmap3, List.mem_filter] at hka
              obtain ⟨a0, nd, hnd, hname, hsz⟩ := hc.map_live k a hka.1
              obtain ⟨nd1, g1, g2, -, -, g5⟩ := hkeep a (by simpa using hka.2) nd hnd
              exact ⟨a0, nd1, g1, by rw [g2, hname], by rw [g5]; exact hsz⟩
            · intro a nd1 ha0 h1
              obtain ⟨hnd, h1'⟩ := hback a nd1 h1
              obtain ⟨nd0, q1, q2, -, -, -⟩ := same_core hI.same h1'
              rw [hmap3, List.mem_filter]
              refine ⟨?_, by simpa using hnd⟩
              rw [← q2]
              exact hc.live_map a nd0 ha0 q1
            · intro a nd1 h1
              exact hI.next_ne a nd1 (hback a nd1 h1).2
            · intro a ha
              rw [dmeta.node_brk] at ha
              simp only at ha
              rw [hI.brk.1] at ha
              have hnone := hc.fresh a ha
              rw [dnodes a]
              split
              · rfl
              · have hs := hI.same a
                rw [hnone] at hs
                cases h1 : c1.nodes a with
                | none => rfl
                | some x => simp [h1] at hs
            · rw [dmeta.node_brk]; simp only; rw [hI.brk.1]; exact hc.brk_pos
            · rw [hused, hc.used, mapBytes_eq, mapBytes_eq, hmap3, hI.ev,
                sum_filter_del c.nodeSize del c.cache_map_ hc.addrs_nodup dnd hsubset]
              have : (List.filter (fun x => decide (x.2 ∉ del)) c.cache_map_).map
                    (fun x => c3.nodeSize x.2) =
                  (List.filter (fun x => decide (x.2 ∉ del)) c.cache_map_).map
                    (fun x => c.nodeSize x.2) := by
                apply List.map_congr_left
                intro x hx
                rw [List.mem_filter] at hx
                obtain ⟨-, nd, hnd, -, -⟩ := hc.map_live x.1 x.2 hx.1
                obtain ⟨nd1, g1, -, -, -, g5⟩ := hkeep x.2 (by simpa using hx.2) nd hnd
                simp [nodeSize, g1, hnd, g5]
              rw [this]
              ring
            · rw [hused, dmeta.max]
              simp only
              rw [hI.max]
              have := hc.cap
              omega
          · rw [dmeta.max]; simp only; exact hI.max
          · rw [dmeta.node_brk]; simp only; exact hI.brk.1
          · rw [dmeta.buf_brk]; simp only; exact hI.brk.2
          · rw [dmeta.pins]; simp only; exact hI.counters.1
          · rw [dmeta.hits]; simp only; exact hI.counters.2.1
          · rw [dmeta.failed]; simp only; exact hI.counters.2.2
          · rw [hused]; omega
          · intro hrt
            rw [hrt] at hr
            have hnf : nf = 0 := by simpa using hr
            have har := hI.arith.2.2
            rw [hnf] at har
            rw [hused]
            omega
          · intro x hx
            rw [hmap3, List.mem_filter] at hx
            exact hx.1
          · intro k a nd hka hnd hpin
            have hnot : a ∉ del := by
              intro hm
              obtain ⟨nd', h1, h2⟩ := hI.del_unpinned a hm
              rw [hnd] at h1
              cases h1
              exact hpin h2
            refine ⟨?_, hkeep a hnot nd hnd⟩
            rw [hmap3, List.mem_filter]
            exact ⟨hka, by simpa using hnot⟩

theorem ident_of_core {x y : Option Node} (h : x.map Node.core = y.map Node.core) :
    x.map Node.ident = y.map Node.ident := by
  cases x <;> cases y <;> simp_all [Node.core, Node.ident]

theorem ident_some {x : Option Node} {nd : Node} {y : Option Node}
    (h : x.map Node.ident = y.map Node.ident) (hy : y = some nd) :
    ∃ nd1, x = some nd1 ∧ nd1.file_name = nd.file_name ∧ nd1.size = nd.size := by
  subst hy
  cases x with
  | none => simp at h
  | some nd1 =>
    simp only [Option.map_some', Option.some.injEq, Node.ident, Prod.mk.injEq] at h
    exact ⟨nd1, rfl, h.1, h.2⟩

theorem nodeSize_congr {c c1 : FileCache} {a : Addr}
    (h : (c1.nodes a).map Node.ident = (c.nodes a).map Node.ident) :
    c1.nodeSize a = c.nodeSize a := by
  unfold nodeSize
  cases h1 : c1.nodes a <;> cases h0 : c.nodes a <;>
    simp_all [Node.ident]

theorem Inv.congr {c c1 : FileCache} (hc : Inv c) (hmap : c1.cache_map_ = c.cache_map_)
    (hused : c1.bytes_used_ = c.bytes_used_) (hmax : c1.max_size_ = c.max_size_)
    (hbrk : c.node_brk ≤ c1.node_brk)
    (hnodes : ∀ a, (c1.nodes a).map Node.ident = (c.nodes a).map Node.ident)
    (hnext : ∀ a nd, c1.nodes a = some nd → nd.next ≠ some 0) : Inv c1 := by
  constructor
  · rw [hmap]; exact hc.keys_nodup
  · intro k a hka
    rw [hmap] at hka
    obtain ⟨a0, nd, hnd, hname, hsz⟩ := hc.map_live k a hka
    obtain ⟨nd1, g1, g2, g3⟩ := ident_some (hnodes a) hnd
    exact ⟨a0, nd1, g1, by rw [g2, hname], by rw [g3]; exact hsz⟩
  · intro a nd1 ha0 h1
    obtain ⟨nd, g1, g2, -⟩ := ident_some (hnodes a).symm h1
    rw [hmap, ← g2]
    exact hc.live_map a nd ha0 g1
  · exact hnext
  · intro a ha
    have := hnodes a
    rw [hc.fresh a (le_trans hbrk ha)] at this
    cases h1 : c1.nodes a with
    | none => rfl
    | some x => simp [h1] at this
  · exact lt_of_lt_of_le hc.brk_pos hbrk
  · rw [hused, hc.used, mapBytes_eq, mapBytes_eq, hmap]
    congr 1
    apply List.map_congr_left
    intro x _
    exact (nodeSize_congr (hnodes x.2)).symm
  · rw [hused, hmax]; exact hc.cap

theorem Inv.insert {c c1 : FileCache} (hc : Inv c) {name : String} {size : Int}
    (hname : name ∉ c.cache_map_.map Prod.fst) (hsize : 0 ≤ size)
    (hcap : c.bytes_used_ + size ≤ c.max_size_)
    (hmap : c1.cache_map_ = (name, c.node_brk) :: c.cache_map_)
    (hused : c1.bytes_used_ = c.bytes_used_ + size) (hmax : c1.max_size_ = c.max_size_)
    (hbrk : c1.node_brk = c.node_brk + 1)
    (hold : ∀ a, a ≠ c.node_brk → (c1.nodes a).map Node.ident = (c.nodes a).map Node.ident)
    (hnew : (c1.nodes c.node_brk).map Node.ident = some (name, size))
    (hnext : ∀ a nd, c1.nodes a = some nd → nd.next ≠ some 0) : Inv c1 := by
  have hb0 : c.node_brk ≠ 0 := Nat.pos_iff_ne_zero.1 hc.brk_pos
  have hfresh : c.nodes c.node_brk = none := hc.fresh _ (le_refl _)
  have hne : ∀ k a, (k, a) ∈ c.cache_map_ → a ≠ c.node_brk := by
    intro k a hka h
    obtain ⟨-, nd, hnd, -, -⟩ := hc.map_live k a hka
    rw [h, hfresh] at hnd
    cases hnd
  constructor
  · rw [hmap, List.map_cons, List.nodup_cons]
    exact ⟨hname, hc.keys_nodup⟩
  · intro k a hka
    rw [hmap, List.mem_cons] at hka
    rcases hka with hka | hka
    · cases hka
      cases h1 : c1.nodes c.node_brk with
      | none => simp [h1] at hnew
      | some nd1 =>
        simp only [h1, Option.map_some', Option.some.injEq, Node.ident, Prod.mk.injEq] at hnew
        exact ⟨hb0, nd1, rfl, hnew.1, by rw [hnew.2]; exact hsize⟩
    · obtain ⟨a0, nd, hnd, hn2, hsz⟩ := hc.map_live k a hka
      obtain ⟨nd1, g1, g2, g3⟩ := ident_some (hold a (hne k a hka)) hnd
      exact ⟨a0, nd1, g1, by rw [g2, hn2], by rw [g3]; exact hsz⟩
  · intro a nd1 ha0 h1
    rw [hmap, List.mem_cons]
    by_cases ha : a = c.node_brk
    · subst ha
      simp only [h1, Option.map_some', Option.some.injEq, Node.ident, Prod.mk.injEq] at hnew
      left
      rw [hnew.1]
    · right
      obtain ⟨nd, g1, g2, -⟩ := ident_some (hold a ha).symm h1
      rw [← g2]
      exact hc.live_map a nd ha0 g1
  · exact hnext
  · intro a ha
    rw [hbrk] at ha
    have ha' : a ≠ c.node_brk := by omega
    have := hold a ha'
    rw [hc.fresh a (by omega)] at this
    cases h1 : c1.nodes a with
    | none => rfl
    | some x => simp [h1] at this
  · rw [hbrk]; omega
  · rw [hused, hc.used, mapBytes_eq, mapBytes_eq, hmap, List.map_cons, List.sum_cons]
    have h1 : c1.nodeSize c.node_brk = size := by
      unfold nodeSize
      cases h1 : c1.nodes c.node_brk with
      | none => simp [h1] at hnew
      | some nd1 =>
        simp only [h1, Option.map_some', Option.some.injEq, Node.ident, Prod.mk.injEq] at hnew
        exact hnew.2
    have h2 : c.cache_map_.map (fun x => c1.nodeSize x.2) =
        c.cache_map_.map (fun x => c.nodeSize x.2) := by
      apply List.map_congr_left
      intro x hx
      exact nodeSize_congr (hold x.2 (hne x.1 x.2 hx))
    simp only [h1, h2]
    ring
  · rw [hused, hmax]; exact hcap

theorem inv_new (max_size : Int) (h : 0 ≤ max_size) : Inv (FileCache.new max_size) := by
  constructor
  · simp [FileCache.new]
  · intro k a hka; simp [FileCache.new] at hka
  · intro a nd ha0 h1
    simp [FileCache.new, ha0] at h1
  · intro a nd h1
    simp only [FileCache.new] at h1
    split at h1
    · cases h1; simp
    · cases h1
  · intro a ha
    simp only [FileCache.new] at ha ⊢
    have : a ≠ 0 := by omega
    simp [this]
  · simp [FileCache.new]
  · simp [FileCache.new, mapBytes]
  · simpa [FileCache.new] using h

theorem nodeInsert_spec {c c' : FileCache} {a : Addr} (h : nodeInsert c a = some c') :
    SameMeta c c' ∧ c'.head_ = a ∧ c'.bufs = c.bufs ∧
      (∀ x, (c'.nodes x).map Node.core = (c.nodes x).map Node.core) ∧
      (a ≠ 0 → (∀ x nd, c.nodes x = some nd → nd.next ≠ some 0) →
        ∀ x nd, c'.nodes x = some nd → nd.next ≠ some 0) := by
  unfold nodeInsert at h
  cases hh : c.nodes c.head_ with
  | none => simp [hh] at h
  | some hd =>
    simp only [hh] at h
    by_cases hah : a = c.head_
    · subst hah
      simp only [Function.update_same, Option.some.injEq] at h
      subst h
      refine ⟨⟨rfl, rfl, rfl, rfl, rfl, rfl, rfl, rfl⟩, rfl, rfl, ?_, ?_⟩
      · intro x
        by_cases hx : x = c.head_
        · subst hx; simp [hh, Node.core]
        · simp [Function.update, hx]
      · intro _ hne x nd hx
        by_cases hxa : x = c.head_
        · subst hxa
          simp only [Function.update_same, Option.some.injEq] at hx
          subst hx
          simp
        · simp only [Function.update, hxa, dite_false] at hx
          exact hne x nd hx
    · cases ha : c.nodes a with
      | none => simp [Function.update, hah, ha] at h
      | some nd0 =>
        simp only [Function.update, hah, dite_false, ha, Option.some.injEq] at h
        subst h
        refine ⟨⟨rfl, rfl, rfl, rfl, rfl, rfl, rfl, rfl⟩, rfl, rfl, ?_, ?_⟩
        · intro x
          by_cases hx : x = a
          · subst hx; simp [ha, Node.core]
          · by_cases hx2 : x = c.head_
            · subst hx2; simp [hx, hh, Node.core]
            · simp [hx, hx2]
        · intro ha0 hne x nd hx
          dsimp only at hx
          by_cases hxa : x = a
          · subst hxa
            rw [Function.update_same] at hx
            cases hx
            simp
          · by_cases hx2 : x = c.head_
            · subst hx2
              rw [Function.update_noteq hxa, Function.update_same] at hx
              cases hx
              simpa using ha0
            · rw [Function.update_noteq hxa, Function.update_noteq hx2] at hx
              exact hne x nd hx

theorem room_spec {c : FileCache} (hc : Inv c) {n : Nat} (hn : n < 2 ^ 63) {b : Bool}
    {c1 : FileCache}
    (h : (if c.max_size_ - c.bytes_used_ < (n : Int) then evict c n else some (true, c))
      = some (b, c1)) :
    Inv c1 ∧ c1.max_size_ = c.max_size_ ∧ (b = true → c1.bytes_used_ + n ≤ c1.max_size_) ∧
      (∀ k a nd, (k, a) ∈ c.cache_map_ → c.nodes a = some nd → nd.pin_count ≠ 0 →
        (k, a) ∈ c1.cache_map_) := by
  by_cases hlt : c.max_size_ - c.bytes_used_ < (n : Int)
  · rw [if_pos hlt] at h
    obtain ⟨i1, i2, -, -, -, -, -, i8, i9, -, i11⟩ := evict_spec hc (by omega) h
    refine ⟨i1, i2, fun hb => ?_, fun k a nd h1 h2 h3 => (i11 k a nd h1 h2 h3).1⟩
    have := i9 hb
    have := hc.cap
    omega
  · rw [if_neg hlt] at h
    simp only [Option.some.injEq, Prod.mk.injEq] at h
    obtain ⟨-, rfl⟩ := h
    exact ⟨hc, rfl, fun _ => by omega, fun k a nd h1 _ _ => h1⟩

/-- A completed `load` re-establishes the invariant. -/
theorem load_inv {fs : FileSystem} {c c' : FileCache} {name : String} {r : PinResult}
    (hc : Inv c) (hfs : fs.Sized) (h : load fs c name = some (r, c')) :
    Inv c' ∧ c'.max_size_ = c.max_size_ ∧
      (∀ k a nd, (k, a) ∈ c.cache_map_ → c.nodes a = some nd → nd.pin_count ≠ 0 →
        (k, a) ∈ c'.cache_map_) := by
  unfold load at h
  cases hf : fs name with
  | absent errno =>
    simp only [hf, Option.some.injEq, Prod.mk.injEq] at h
    obtain ⟨-, rfl⟩ := h
    exact ⟨hc, rfl, fun k a nd h1 _ _ => h1⟩
  | present bytes read_errno =>
    have hsz : bytes.length < 2 ^ 63 := hfs name bytes read_errno hf
    simp only [hf] at h
    cases hroom : (if c.max_size_ - c.bytes_used_ < (bytes.length : Int)
        then evict c bytes.length else some (true, c)) with
    | none => simp [hroom] at h
    | some res =>
      obtain ⟨b, c1⟩ := res
      obtain ⟨i1, i2, i3, i4⟩ := room_spec hc hsz hroom
      simp only [hroom] at h
      cases b with
      | false =>
        simp only [Option.some.injEq, Prod.mk.injEq] at h
        obtain ⟨-, rfl⟩ := h
        exact ⟨i1.congr rfl rfl rfl (le_refl _) (fun _ => rfl) i1.next_ne, i2, i4⟩
      | true =>
        simp only at h
        have hcap := i3 rfl
        cases hread : readLoop bytes.length Buffer.new bytes read_errno with
        | none => simp [hread] at h
        | some res2 =>
          cases res2 with
          | error errno =>
            simp only [hread, Option.some.injEq, Prod.mk.injEq] at h
            obtain ⟨-, rfl⟩ := h
            exact ⟨i1.congr rfl rfl rfl (le_refl _) (fun _ => rfl) i1.next_ne, i2, i4⟩
          | ok nb =>
            simp only [hread] at h
            have hb0 : c1.node_brk ≠ 0 := Nat.pos_iff_ne_zero.1 i1.brk_pos
            have hfresh : c1.nodes c1.node_brk = none := i1.fresh _ (le_refl _)
            cases hfind : mapFind c1.cache_map_ name with
            | none =>
              simp only [hfind] at h
              split at h
              · simp at h
              · rename_i c3 hins
                simp only [Option.some.injEq, Prod.mk.injEq] at h
                obtain ⟨-, rfl⟩ := h
                obtain ⟨m, -, -, hcore, hnx⟩ := nodeInsert_spec hins
                refine ⟨?_, ?_, ?_⟩
                · refine @Inv.insert c1 _ i1 name (bytes.length : Int) (mapFind_none hfind)
                    (by omega) hcap ?_ ?_ ?_ ?_ ?_ ?_ ?_
                  · simp only; rw [m.map]
                  · simp only; rw [m.used]
                  · simp only; rw [m.max]
                  · simp only; rw [m.node_brk]
                  · intro a ha
                    simp only
                    rw [ident_of_core (hcore a)]
                    simp [Function.update, ha]
                  · simp only
                    rw [ident_of_core (hcore _)]
                    simp [Node.ident]
                  · simp only
                    refine hnx hb0 ?_
                    intro x nd hx
                    by_cases hxa : x = c1.node_brk
                    · subst hxa
                      simp only [Function.update_same, Option.some.injEq] at hx
                      subst hx
                      simp
                    · simp only [Function.update, hxa, dite_false] at hx
                      exact i1.next_ne x nd hx
                · simp only; rw [m.max]; exact i2
                · intro k a nd h1 h2 h3
                  simp only
                  rw [m.map]
                  exact List.mem_cons_of_mem _ (i4 k a nd h1 h2 h3)
            | some e =>
              simp only [hfind] at h
              split at h
              · simp at h
              · rename_i c3 hdel
                simp only [Option.some.injEq, Prod.mk.injEq] at h
                obtain ⟨-, rfl⟩ := h
                obtain ⟨-, -, hnodes, m, -⟩ := deleteNode_spec hdel
                refine ⟨?_, ?_, ?_⟩
                · refine i1.congr ?_ ?_ ?_ ?_ ?_ ?_
                  · simp only; rw [m.map]
                  · simp only; rw [m.used]
                  · simp only; rw [m.max]
                  · simp only; rw [m.node_brk]; simp
                  · intro x
                    simp only
                    rw [hnodes]
                    by_cases hx : x = c1.node_brk
                    · subst hx; simp [hfresh]
                    · simp [Function.update, hx]
                  · intro x nd hx
                    simp only at hx
                    rw [hnodes] at hx
                    by_cases hxa : x = c1.node_brk
                    · subst hxa; simp at hx
                    · simp only [Function.update, hxa, dite_false] at hx
                      exact i1.next_ne x nd hx
                · simp only; rw [m.max]; exact i2
                · intro k a nd h1 h2 h3
                  simp only
                  rw [m.map]
                  exact i4 k a nd h1 h2 h3

theorem pin_inv {fs : FileSystem} {c c' : FileCache} {name : String} {r : PinResult}
    (hc : Inv c) (hfs : fs.Sized) (h : pin fs c name = some (r, c')) :
    Inv c' ∧ c'.max_size_ = c.max_size_ ∧
      (∀ k a nd, (k, a) ∈ c.cache_map_ → c.nodes a = some nd → nd.pin_count ≠ 0 →
        (k, a) ∈ c'.cache_map_) := by
  unfold pin at h
  cases hfind : mapFind c.cache_map_ name with
  | none =>
    simp only [hfind] at h
    exact load_inv hc hfs h
  | some e =>
    obtain ⟨k, a⟩ := e
    simp only [hfind] at h
    cases hnode : c.nodes a with
    | none => simp [hnode] at h
    | some nd =>
      simp only [hnode, Option.some.injEq, Prod.mk.injEq] at h
      obtain ⟨-, rfl⟩ := h
      refine ⟨hc.congr rfl rfl rfl (le_refl _) ?_ ?_, rfl, fun k a nd h1 _ _ => h1⟩
      · intro x
        by_cases hx : x = a
        · subst hx; simp [hnode, Node.ident]
        · simp [Function.update, hx]
      · intro x y hy
        by_cases hx : x = a
        · subst hx
          simp only [Function.update_same, Option.some.injEq] at hy
          subst hy
          exact hc.next_ne x nd hnode
        · simp only [Function.update, hx, dite_false] at hy
          exact hc.next_ne x y hy

theorem unpin_inv {c c' : FileCache} {h : Addr} {f : Bool} (hc : Inv c)
    (hu : unpin c h = some (f, c')) : Inv c' ∧ c'.max_size_ = c.max_size_ := by
  unfold unpin at hu
  by_cases h0 : h = 0
  · simp only [h0, if_true, Option.some.injEq, Prod.mk.injEq] at hu
    obtain ⟨-, rfl⟩ := hu
    exact ⟨hc, rfl⟩
  · rw [if_neg h0] at hu
    cases hkey : c.nodes h with
    | none => simp [hkey] at hu
    | some key =>
      simp only [hkey] at hu
      cases hfind : mapFind c.cache_map_ key.file_name with
      | none =>
        simp only [hfind, Option.some.injEq, Prod.mk.injEq] at hu
        obtain ⟨-, rfl⟩ := hu
        exact ⟨hc, rfl⟩
      | some e =>
        obtain ⟨k, a⟩ := e
        simp only [hfind] at hu
        cases hnode : c.nodes a with
        | none => simp [hnode] at hu
        | some nd =>
          simp only [hnode, Option.some.injEq, Prod.mk.injEq] at hu
          obtain ⟨-, rfl⟩ := hu
          refine ⟨hc.congr rfl rfl rfl (le_refl _) ?_ ?_, rfl⟩
          · intro x
            by_cases hx : x = a
            · subst hx; simp [hnode, Node.ident]
            · simp [Function.update, hx]
          · intro x y hy
            by_cases hx : x = a
            · subst hx
              simp only [Function.update_same, Option.some.injEq] at hy
              subst hy
              exact hc.next_ne x nd hnode
            · simp only [Function.update, hx, dite_false] at hy
              exact hc.next_ne x y hy

theorem step_inv {fs : FileSystem} {c c' : FileCache} {x : Call} (hc : Inv c)
    (hfs : fs.Sized) (h : step fs c x = some c') : Inv c' ∧ c'.max_size_ = c.max_size_ := by
  cases x with
  | pin f =>
    simp only [step, Option.map_eq_some'] at h
    obtain ⟨⟨r, c1⟩, h1, rfl⟩ := h
    exact ⟨(pin_inv hc hfs h1).1, (pin_inv hc hfs h1).2.1⟩
  | unpin hd =>
    simp only [step, Option.map_eq_some'] at h
    obtain ⟨⟨r, c1⟩, h1, rfl⟩ := h
    exact unpin_inv hc h1

theorem run_inv {fs : FileSystem} (hfs : fs.Sized) :
    ∀ (calls : List Call) (c c' : FileCache), Inv c → run fs c calls = some c' →
      Inv c' ∧ c'.max_size_ = c.max_size_ := by
  intro calls
  induction calls with
  | nil =>
    intro c c' hc h
    simp only [run, Option.some.injEq] at h
    subst h
    exact ⟨hc, rfl⟩
  | cons x rest ih =>
    intro c c' hc h
    simp only [run] at h
    cases hs : step fs c x with
    | none => simp [hs] at h
    | some c1 =>
      simp only [hs] at h
      obtain ⟨i1, i2⟩ := step_inv hc hfs hs
      obtain ⟨j1, j2⟩ := ih c1 c' i1 h
      exact ⟨j1, j2.trans i2⟩

theorem first_pin_bytes {fs : FileSystem} {max_size : Int} {name : String} {bytes : List Nat}
    {e : Option Int} {r : PinResult} {c1 : FileCache} (hf : fs name = File.present bytes e)
    (h : pin fs (FileCache.new max_size) name = some (r, c1)) (hr : r.h ≠ 0) :
    c1.bytes_used_ = bytes.length := by
  have hfind : mapFind (FileCache.new max_size).cache_map_ name = none := rfl
  simp only [pin, hfind, load, hf] at h
  by_cases hlt : (FileCache.new max_size).max_size_ - (FileCache.new max_size).bytes_used_ <
      (bytes.length : Int)
  · have hev : evict (FileCache.new max_size) bytes.length = some (false, FileCache.new max_size) :=
      rfl
    simp only [hlt, if_true, hev, Option.some.injEq, Prod.mk.injEq] at h
    obtain ⟨rfl, -⟩ := h
    exact absurd rfl hr
  · simp only [hlt, if_false] at h
    cases hread : readLoop bytes.length Buffer.new bytes e with
    | none => simp [hread] at h
    | some res =>
      cases res with
      | error errno =>
        simp only [hread, Option.some.injEq, Prod.mk.injEq] at h
        obtain ⟨rfl, -⟩ := h
        exact absurd rfl hr
      | ok nb =>
        simp only [hread] at h
        have hfind2 : mapFind (FileCache.new max_size).cache_map_ name = none := rfl
        simp only [hfind2] at h
        split at h
        · simp at h
        · rename_i c3 hins
          simp only [Option.some.injEq, Prod.mk.injEq] at h
          obtain ⟨-, rfl⟩ := h
          obtain ⟨m, -⟩ := nodeInsert_spec hins
          simp only
          rw [m.used]
          simp [FileCache.new]

/-- C9. Capacity invariant. Take a cache of capacity `max_size >= 0` and files whose sizes
are `off_t` values. After every sequence of `pin` and `unpin` calls that runs to completion
(no call touches freed memory), `bytesUsed()` equals the sum of the sizes of the nodes in the
cache map and `bytesUsed() <= maxSize()`; as the sequence is arbitrary this holds after each
call. In particular a successful first pin of a file on the empty cache leaves `bytesUsed()`
equal to the size of the file. -/
theorem capacity_invariant (fs : FileSystem) (max_size : Int) (calls : List Call)
    (c : FileCache) (hmax : 0 ≤ max_size) (hfs : fs.Sized)
    (hrun : run fs (FileCache.new max_size) calls = some c) :
    c.bytesUsed = c.mapBytes ∧ c.bytesUsed ≤ c.maxSize ∧ c.maxSize = max_size ∧
    ∀ (name : String) (bytes : List Nat) (e : Option Int) (r : PinResult) (c1 : FileCache),
      fs name = File.present bytes e → pin fs (FileCache.new max_size) name = some (r, c1) →
      r.h ≠ 0 → c1.bytesUsed = bytes.length := by
  obtain ⟨i1, i2⟩ := run_inv hfs calls _ c (inv_new max_size hmax) hrun
  exact ⟨i1.used, i1.cap, i2, fun name bytes e r c1 hf hp hr => first_pin_bytes hf hp hr⟩

theorem fsA_sized : fsA.Sized := by
  intro name bytes e h
  unfold fsA at h
  split at h
  · cases h; decide
  · split at h
    · cases h; decide
    · split at h
      · cases h; decide
      · cases h

theorem run_getD {fs : FileSystem} {c d : FileCache} {calls : List Call}
    (h : (run fs c calls).isSome = true) : run fs c calls = some ((run fs c calls).getD d) := by
  cases hr : run fs c calls with
  | none => rw [hr] at h; cases h
  | some x => rfl

theorem run_cacheB : run fsA (FileCache.new 10) callsB = some cacheB :=
  run_getD (by decide!)

theorem run_cacheP : run fsA (FileCache.new 10) [.pin "ten"] = some cacheP :=
  run_getD (by decide!)

/-- Witness for C9: the run `callsB` on a cache of capacity 10. -/
theorem capacity_invariant_witness :
    cacheB.bytesUsed = cacheB.mapBytes ∧ cacheB.bytesUsed ≤ cacheB.maxSize ∧
      cacheB.maxSize = 10 ∧ cacheB.bytesUsed = 6 :=
  ⟨(capacity_invariant fsA 10 callsB cacheB (by decide) fsA_sized run_cacheB).1,
    (capacity_invariant fsA 10 callsB cacheB (by decide) fsA_sized run_cacheB).2.1,
    (capacity_invariant fsA 10 callsB cacheB (by decide) fsA_sized run_cacheB).2.2.1,
    by decide!⟩

theorem isChain_det (nodes : Addr → Option Node) :
    ∀ (l1 l2 : List Addr) (s : Option Addr), isChain nodes s l1 → isChain nodes s l2 → l1 = l2 := by
  intro l1
  induction l1 with
  | nil =>
    intro l2 s h1 h2
    cases l2 with
    | nil => rfl
    | cons b r =>
      simp only [isChain] at h1 h2
      rw [h1] at h2
      cases h2.1
  | cons a rest ih =>
    intro l2 s h1 h2
    cases l2 with
    | nil =>
      simp only [isChain] at h1 h2
      rw [h2] at h1
      cases h1.1
    | cons b r =>
      simp only [isChain] at h1 h2
      obtain ⟨e1, n1, g1, c1⟩ := h1
      obtain ⟨e2, n2, g2, c2⟩ := h2
      rw [e1] at e2
      cases e2
      rw [g1] at g2
      cases g2
      rw [ih r _ c1 c2]

theorem isChain_suffix (nodes : Addr → Option Node) :
    ∀ (l : List Addr) (s : Option Addr) (a : Addr), isChain nodes s l → a ∈ l →
      ∃ l1, isChain nodes (some a) l1 ∧ l1.length ≤ l.length := by
  intro l
  induction l with
  | nil => intro s a _ ha; cases ha
  | cons b rest ih =>
    intro s a h ha
    have h' := h
    simp only [isChain] at h
    obtain ⟨e1, n1, g1, c1⟩ := h
    rcases List.mem_cons.1 ha with ha | ha
    · subst ha
      rw [e1] at h'
      exact ⟨a :: rest, h', le_refl _⟩
    · obtain ⟨l1, q1, q2⟩ := ih _ a c1 ha
      exact ⟨l1, q1, by simp only [List.length_cons]; omega⟩

theorem isChain_nodup (nodes : Addr → Option Node) :
    ∀ (l : List Addr) (s : Option Addr), isChain nodes s l → l.Nodup := by
  intro l
  induction l with
  | nil => intro _ _; exact List.nodup_nil
  | cons a rest ih =>
    intro s h
    have h' := h
    simp only [isChain] at h
    obtain ⟨e1, n1, g1, c1⟩ := h
    refine List.nodup_cons.2 ⟨?_, ih _ c1⟩
    intro ha
    obtain ⟨l1, q1, q2⟩ := isChain_suffix nodes rest _ a c1 ha
    rw [e1] at h'
    have := isChain_det nodes _ _ _ q1 h'
    rw [this] at q2
    simp only [List.length_cons] at q2
    omega

theorem isChain_live (nodes : Addr → Option Node) :
    ∀ (l : List Addr) (s : Option Addr) (a : Addr), isChain nodes s l → a ∈ l →
      ∃ nd, nodes a = some nd := by
  intro l s a h ha
  obtain ⟨l1, q1, -⟩ := isChain_suffix nodes l s a h ha
  cases l1 with
  | nil => simp [isChain] at q1
  | cons b r =>
    simp only [isChain] at q1
    obtain ⟨e1, n1, g1, -⟩ := q1
    cases e1
    exact ⟨n1, g1⟩

theorem isChain_ne_zero (nodes : Addr → Option Node)
    (hne : ∀ x nd, nodes x = some nd → nd.next ≠ some 0) :
    ∀ (l : List Addr) (s : Option Addr), s ≠ some 0 → isChain nodes s l → 0 ∉ l := by
  intro l
  induction l with
  | nil => intro _ _ _; simp
  | cons a rest ih =>
    intro s hs h
    simp only [isChain] at h
    obtain ⟨e1, n1, g1, c1⟩ := h
    intro h0
    rcases List.mem_cons.1 h0 with h0 | h0
    · rw [e1, ← h0] at hs
      exact hs rfl
    · exact ih _ (hne a n1 g1) c1 h0

theorem Inv.chain_length {c : FileCache} (hc : Inv c) {l : List Addr} {s : Option Addr}
    (h : isChain c.nodes s l) : l.length ≤ c.node_brk := by
  have hsub : l ⊆ List.range c.node_brk := by
    intro a ha
    obtain ⟨nd, hnd⟩ := isChain_live c.nodes l s a h ha
    rw [List.mem_range]
    by_contra hlt
    rw [hc.fresh a (by omega)] at hnd
    cases hnd
  have := ((isChain_nodup c.nodes l s h).subperm hsub).length_le
  simpa using this

theorem evictLoop_all_pinned :
    ∀ (l : List Addr) (fuel : Nat) (c : FileCache) (n : Nat) (e : Int) (curr : Option Addr)
      (prev : Addr) (del : List Addr), isChain c.nodes curr l →
      (∀ a, a ∈ l → ∀ nd, c.nodes a = some nd → nd.pin_count ≠ 0) → l.length ≤ fuel →
      evictLoop fuel c n e curr prev del = some (c, n, e, del) := by
  intro l
  induction l with
  | nil =>
    intro fuel c n e curr prev del h _ _
    simp only [isChain] at h
    subst h
    unfold evictLoop
    rfl
  | cons a rest ih =>
    intro fuel c n e curr prev del h hp hf
    simp only [isChain] at h
    obtain ⟨e1, nd, g1, c1⟩ := h
    subst e1
    unfold evictLoop
    by_cases hn : n > 0
    · cases fuel with
      | zero => simp at hf
      | succ fuel =>
        have hpin : nd.pin_count ≠ 0 := hp a (List.mem_cons_self _ _) nd g1
        simp only [hn, if_true, g1, hpin, if_false]
        exact ih fuel c n e nd.next a del c1
          (fun x hx => hp x (List.mem_cons_of_mem _ hx))
          (by simp only [List.length_cons] at hf; omega)
    · simp only [hn, if_false]

theorem evict_all_pinned {c : FileCache} (hc : Inv c) {t : Node} {l : List Addr}
    (ht : c.nodes 0 = some t) (hl : isChain c.nodes t.next l)
    (hp : ∀ k a nd, (k, a) ∈ c.cache_map_ → c.nodes a = some nd → 0 < nd.pin_count)
    (n : Nat) (hn : 0 < n) : evict c n = some (false, c) := by
  unfold evict
  by_cases hh : c.head_ = 0
  · rw [if_pos hh]
  · rw [if_neg hh]
    have h0 : 0 ∉ l := isChain_ne_zero c.nodes hc.next_ne l _ (hc.next_ne 0 t ht) hl
    have hpin : ∀ a, a ∈ l → ∀ nd, c.nodes a = some nd → nd.pin_count ≠ 0 := by
      intro a ha nd hnd
      have ha0 : a ≠ 0 := fun hz => h0 (hz ▸ ha)
      have := hp _ a nd (hc.live_map a nd ha0 hnd) hnd
      omega
    have hloop := evictLoop_all_pinned l c.node_brk c n 0 t.next 0 [] hl hpin (hc.chain_length hl)
    simp only [ht, hloop, deleteAll, sub_zero]
    have : decide (n ≤ 0) = false := by simp; omega
    rw [this]

/-- C7. Pinned nodes are never evicted. In a cache state satisfying the representation
invariant: (1) after every completed call `evict(n)`, each map entry whose node had
`pin_count > 0` is still in the map, its node live with the same name, Buffer, size and pin
count; (2) the same entries are still in the map after every completed `pin`; (3) when the
list from the sentinel is intact, every cached node is pinned, the requested path is not
cached and the file is larger than the free space, `pin` returns handle 0 with a NULL buffer
and error 0, and changes nothing but `pins` and `failed`, each incremented by one. -/
theorem pinned_nodes_are_not_evicted (fs : FileSystem) (c : FileCache) (hc : Inv c)
    (hfs : fs.Sized) :
    (∀ (n : Nat) (r : Bool) (c' : FileCache), n < 2 ^ 64 → evict c n = some (r, c') →
      ∀ k a nd, (k, a) ∈ c.cache_map_ → c.nodes a = some nd → 0 < nd.pin_count →
        (k, a) ∈ c'.cache_map_ ∧
          ∃ nd1, c'.nodes a = some nd1 ∧ nd1.file_name = nd.file_name ∧ nd1.buf = nd.buf ∧
            nd1.pin_count = nd.pin_count ∧ nd1.size = nd.size) ∧
    (∀ (name : String) (r : PinResult) (c' : FileCache), pin fs c name = some (r, c') →
      ∀ k a nd, (k, a) ∈ c.cache_map_ → c.nodes a = some nd → 0 < nd.pin_count →
        (k, a) ∈ c'.cache_map_) ∧
    (∀ (name : String) (bytes : List Nat) (e : Option Int) (t : Node) (l : List Addr),
      c.nodes 0 = some t → isChain c.nodes t.next l →
      (∀ k a nd, (k, a) ∈ c.cache_map_ → c.nodes a = some nd → 0 < nd.pin_count) →
      mapFind c.cache_map_ name = none → fs name = File.present bytes e →
      c.max_size_ - c.bytes_used_ < (bytes.length : Int) →
      pin fs c name = some (⟨0, none, 0⟩,
        { c with pin_total_ := c.pin_total_ + 1, failed_total_ := c.failed_total_ + 1 })) := by
  refine ⟨?_, ?_, ?_⟩
  · intro n r c' hn hev k a nd hka hnd hpin
    obtain ⟨-, -, -, -, -, -, -, -, -, -, i11⟩ := evict_spec hc hn hev
    exact i11 k a nd hka hnd (by omega)
  · intro name r c' hp k a nd hka hnd hpin
    exact (pin_inv hc hfs hp).2.2 k a nd hka hnd (by omega)
  · intro name bytes e t l ht hl hall hfind hf hlt
    have hpos : 0 < bytes.length := by
      have := hc.cap
      omega
    have hev := evict_all_pinned hc ht hl hall bytes.length hpos
    simp only [pin, hfind, load, hf, hlt, if_true, hev]

/-- Witness for C7: the cache of capacity 10 holds the pinned 10 byte node `ten`; `pin` of the
6 byte file `six` fails and changes only the two counters. -/
theorem pinned_nodes_are_not_evicted_witness :
    pin fsA cacheP "six" = some (⟨0, none, 0⟩,
      { cacheP with pin_total_ := cacheP.pin_total_ + 1
                    failed_total_ := cacheP.failed_total_ + 1 }) :=
  (pinned_nodes_are_not_evicted fsA cacheP
      (run_inv fsA_sized _ _ _ (inv_new 10 (by decide)) run_cacheP).1 fsA_sized).2.2
    "six" (List.replicate 6 121) none
    { file_name := "", buf := none, pin_count := 0, size := 0, next := some 1 } [1]
    (by decide!)
    (by
      simp only [isChain]
      exact ⟨trivial,
        ⟨({ file_name := "ten", buf := some 1, pin_count := 1, size := 10, next := none } : Node),
          by decide!, rfl⟩⟩)
    (by
      intro k a nd hka hnd
      have hm : cacheP.cache_map_ = [("ten", 1)] := by decide!
      rw [hm] at hka
      simp only [List.mem_singleton, Prod.mk.injEq] at hka
      obtain ⟨-, rfl⟩ := hka
      have h1 : cacheP.nodes 1 =
          some { file_name := "ten", buf := some 1, pin_count := 1, size := 10, next := none } := by
        decide!
      rw [h1] at hnd
      cases hnd
      decide)
    (by decide!)
    (by decide!)
    (by decide!)

end FileCache

/-! ## FileCache: cache hit -/

namespace FileCache

/-- A successful `pin`, by hit or by load, leaves the path in the map at the node whose address
is the handle returned, and that node owns the Buffer returned. -/
theorem pin_registers {fs : FileSystem} {c0 c : FileCache} {p : String} {r0 : PinResult}
    (h : pin fs c0 p = some (r0, c)) (hr : r0.h ≠ 0) :
    ∃ k nd, mapFind c.cache_map_ p = some (k, r0.h) ∧ c.nodes r0.h = some nd ∧
      nd.buf = r0.buf := by
  unfold pin at h
  cases hfind : mapFind c0.cache_map_ p with
  | some e =>
    obtain ⟨k, a⟩ := e
    simp only [hfind] at h
    cases hnode : c0.nodes a with
    | none => simp [hnode] at h
    | some nd =>
      simp only [hnode, Option.some.injEq, Prod.mk.injEq] at h
      obtain ⟨rfl, rfl⟩ := h
      exact ⟨k, { nd with pin_count := nd.pin_count + 1 }, hfind, by simp, rfl⟩
  | none =>
    simp only [hfind] at h
    unfold load at h
    cases hf : fs p with
    | absent errno =>
      simp only [hf, Option.some.injEq, Prod.mk.injEq] at h
      obtain ⟨rfl, -⟩ := h
      exact absurd rfl hr
    | present bytes read_errno =>
      simp only [hf] at h
      cases hroom : (if c0.max_size_ - c0.bytes_used_ < (bytes.length : Int)
          then evict c0 bytes.length else some (true, c0)) with
      | none => simp [hroom] at h
      | some res =>
        obtain ⟨b, c1⟩ := res
        simp only [hroom] at h
        cases b with
        | false =>
          simp only [Option.some.injEq, Prod.mk.injEq] at h
          obtain ⟨rfl, -⟩ := h
          exact absurd rfl hr
        | true =>
          simp only at h
          cases hread : readLoop bytes.length Buffer.new bytes read_errno with
          | none => simp [hread] at h
          | some res2 =>
            cases res2 with
            | error errno =>
              simp only [hread, Option.some.injEq, Prod.mk.injEq] at h
              obtain ⟨rfl, -⟩ := h
              exact absurd rfl hr
            | ok nb =>
              simp only [hread] at h
              cases hfind1 : mapFind c1.cache_map_ p with
              | none =>
                simp only [hfind1] at h
                split at h
                · simp at h
                · rename_i c3 hins
                  simp only [Option.some.injEq, Prod.mk.injEq] at h
                  obtain ⟨rfl, rfl⟩ := h
                  obtain ⟨m, -, -, hcore, -⟩ := nodeInsert_spec hins
                  have hc := hcore c1.node_brk
                  simp only [Function.update_same, Option.map_some'] at hc
                  cases hn : c3.nodes c1.node_brk with
                  | none => simp [hn] at hc
                  | some nd =>
                    simp only [hn, Option.map_some', Option.some.injEq, Node.core,
                      Prod.mk.injEq] at hc
                    refine ⟨p, nd, ?_, rfl, hc.2.1⟩
                    simp only
                    rw [m.map]
                    simp [mapFind]
              | some e =>
                simp only [hfind1] at h
                split at h
                · simp at h
                · simp only [Option.some.injEq, Prod.mk.injEq] at h
                  obtain ⟨rfl, -⟩ := h
                  exact absurd rfl hr

/-- C6. If `p` is in the cache map at a live node `a`, `pin(p)` returns the handle `a` and the
node's Buffer pointer, adds one to `pins`, to `hits` and to the node's `pin_count`, whatever
that count was, and changes nothing else: `bytesUsed`, `failed`, the map and every other node
stay as they were. The handle and the Buffer pointer are those returned by the successful pin
that put the cache in this state; `unpin` changes neither the map nor the Buffer of a node. -/
theorem pin_hit (fs : FileSystem) (c : FileCache) (p k : String) (a : Addr) (nd : Node)
    (hfind : mapFind c.cache_map_ p = some (k, a)) (hlive : c.nodes a = some nd) :
    (∃ c1, pin fs c p = some (⟨a, nd.buf, 0⟩, c1) ∧
      c1.pins = c.pins + 1 ∧ c1.hits = c.hits + 1 ∧
      c1.nodes a = some { nd with pin_count := nd.pin_count + 1 } ∧
      c1.bytesUsed = c.bytesUsed ∧ c1.failed = c.failed ∧
      c1.cache_map_ = c.cache_map_ ∧ c1.head_ = c.head_ ∧ c1.bufs = c.bufs ∧
      ∀ b, b ≠ a → c1.nodes b = c.nodes b) ∧
    (∀ (c0 : FileCache) (r0 : PinResult), pin fs c0 p = some (r0, c) → r0.h ≠ 0 →
      r0.h = a ∧ r0.buf = nd.buf) ∧
    (∀ (c0 : FileCache) (f : Bool) (h : Addr), unpin c0 h = some (f, c) →
      c0.cache_map_ = c.cache_map_ ∧ (c0.nodes a).map (fun x => x.buf) = some nd.buf) := by
  refine ⟨?_, ?_, ?_⟩
  · have hp : pin fs c p = some (⟨a, nd.buf, 0⟩,
        { c with nodes := Function.update c.nodes a (some { nd with pin_count := nd.pin_count + 1 })
                 pin_total_ := c.pin_total_ + 1
                 hit_total_ := c.hit_total_ + 1 }) := by
      simp only [pin, hfind, hlive]
    exact ⟨_, hp, rfl, rfl, by simp, rfl, rfl, rfl, rfl, rfl,
      fun b hb => by simp [Function.update, hb]⟩
  · intro c0 r0 h0 hr
    obtain ⟨k1, nd1, g1, g2, g3⟩ := pin_registers h0 hr
    rw [hfind] at g1
    cases g1
    rw [hlive] at g2
    cases g2
    exact ⟨rfl, g3.symm⟩
  · intro c0 f h hu
    unfold unpin at hu
    by_cases h0 : h = 0
    · simp only [h0, if_true, Option.some.injEq, Prod.mk.injEq] at hu
      obtain ⟨-, rfl⟩ := hu
      exact ⟨rfl, by simp [hlive]⟩
    · rw [if_neg h0] at hu
      cases hkey : c0.nodes h with
      | none => simp [hkey] at hu
      | some key =>
        simp only [hkey] at hu
        cases hfind0 : mapFind c0.cache_map_ key.file_name with
        | none =>
          simp only [hfind0, Option.some.injEq, Prod.mk.injEq] at hu
          obtain ⟨-, rfl⟩ := hu
          exact ⟨rfl, by simp [hlive]⟩
        | some e =>
          obtain ⟨k2, a2⟩ := e
          simp only [hfind0] at hu
          cases hnode : c0.nodes a2 with
          | none => simp [hnode] at hu
          | some nd2 =>
            simp only [hnode, Option.some.injEq, Prod.mk.injEq] at hu
            obtain ⟨-, rfl⟩ := hu
            refine ⟨rfl, ?_⟩
            by_cases ha : a = a2
            · subst ha
              simp only [Function.update_same, Option.some.injEq] at hlive
              subst hlive
              simp [hnode]
            · simp only [Function.update, ha, dite_false] at hlive
              simp [hlive]

/-- Witness for C6: `ten` was loaded at node 1 with Buffer 1 (first pin) and then unpinned;
pinning it again returns handle 1 and Buffer 1. -/
theorem pin_hit_witness :
    (pin fsA (FileCache.new 10) "ten").map (fun r => r.1) = some ⟨1, some 1, 0⟩ ∧
    ∃ c1, pin fsA cacheA "ten" = some (⟨1, some 1, 0⟩, c1) ∧
      c1.pins = cacheA.pins + 1 ∧ c1.hits = cacheA.hits + 1 ∧
      c1.nodes 1 = some { file_name := "ten", buf := some 1, pin_count := 0 + 1, size := 10,
                          next := none } ∧
      c1.bytesUsed = cacheA.bytesUsed ∧ c1.failed = cacheA.failed ∧
      c1.cache_map_ = cacheA.cache_map_ ∧ c1.head_ = cacheA.head_ ∧ c1.bufs = cacheA.bufs ∧
      ∀ b, b ≠ 1 → c1.nodes b = cacheA.nodes b :=
  ⟨by decide!,
    (pin_hit fsA cacheA "ten" "ten" 1
      { file_name := "ten", buf := some 1, pin_count := 0, size := 10, next := none }
      (by decide!) (by decide!)).1⟩

end FileCache

/-! ## Buffer: appendFrom from a source ending on a chunk boundary -/

namespace Buffer

/-- C20 (defect). `srcFull` holds 4096 bytes in two chunks, the second one empty, and was never
consumed. After `d.appendFrom(&srcFull)` on a fresh `d`, the destination holds the 4096 bytes,
and the source has one chunk and counts zero bytes, but its write and read positions still
name chunk 1, which it no longer has: `appendFrom` pushes the saved chunk back without
resetting `other->wpos_`. A byte written to the source afterwards is not stored: the size list
stays `[0]` and `byteCount()` stays 0. -/
theorem appendFrom_full_source_keeps_stale_positions :
    srcFull.isConsumed = false ∧ srcFull.byteCount = 4096 ∧ srcFull.numChunks = 2 ∧
    (Buffer.new.appendFrom srcFull).1.byteCount = 4096 ∧
    (Buffer.new.appendFrom srcFull).2.numChunks = 1 ∧
    (Buffer.new.appendFrom srcFull).2.byteCount = 0 ∧
    (Buffer.new.appendFrom srcFull).2.wpos_ = ⟨1, 0⟩ ∧
    (Buffer.new.appendFrom srcFull).2.rpos_ = ⟨1, 0⟩ ∧
    ((Buffer.new.appendFrom srcFull).2.write [65]).sizes_ = [0] ∧
    ((Buffer.new.appendFrom srcFull).2.write [65]).byteCount = 0 := by
  refine ⟨by decide!, by decide!, by decide!, by decide!, by decide!, by decide!, by decide!,
    by decide!, by decide!, by decide!⟩

end Buffer

/-! ## RequestStats: the two loops, reading fresh threads -/

namespace RequestStats

theorem incPos_lt (p : Nat) : incPos p < 10 := by
  unfold incPos kNumSlots
  omega

theorem incPos_eq {p : Nat} (hp : p < 10) : incPos p = (p + 1) % 10 := by
  unfold incPos kNumSlots
  omega

theorem zeroLoop_spec (new_pos : Nat) (hn : new_pos < 10) :
    ∀ (fuel : Nat) (val : Nat → Nat) (curr : Nat), curr < 10 → ringDist curr new_pos ≤ fuel →
      zeroLoop fuel val curr new_pos =
        some (fun j => if j < 10 ∧ ringDist curr j ≤ ringDist curr new_pos then 0 else val j) := by
  intro fuel
  induction fuel with
  | zero =>
    intro val curr _ hd
    unfold ringDist at hd
    omega
  | succ fuel ih =>
    intro val curr hc hd
    unfold zeroLoop
    simp only [incPos_eq hc]
    by_cases hcn : (curr + 1) % 10 = new_pos
    · rw [if_neg (by simpa using hcn)]
      congr 1
      funext j
      unfold ringDist
      by_cases hj : j = (curr + 1) % 10
      · subst hj
        rw [Function.update_same, if_pos]
        omega
      · rw [Function.update_noteq hj, if_neg]
        omega
    · rw [if_pos hcn]
      have hc' : (curr + 1) % 10 < 10 := by omega
      have hd' : ringDist ((curr + 1) % 10) new_pos ≤ fuel := by
        unfold ringDist at hd ⊢
        omega
      rw [ih _ _ hc' hd']
      congr 1
      funext j
      unfold ringDist
      by_cases hj : j = (curr + 1) % 10
      · subst hj
        rw [Function.update_same]
        have : (curr + 1) % 10 < 10 ∧
            ((curr + 1) % 10 + 9 - curr) % 10 + 1 ≤ (new_pos + 9 - curr) % 10 + 1 := by omega
        rw [if_pos this]
        split <;> rfl
      · rw [Function.update_noteq hj]
        by_cases h1 : j < 10 ∧ (j + 9 - curr) % 10 + 1 ≤ (new_pos + 9 - curr) % 10 + 1
        · rw [if_pos h1, if_pos]
          omega
        · rw [if_neg h1, if_neg]
          omega

theorem sumLoop_spec (val : Nat → Nat) (base_pos : Nat) (hb : base_pos < 10)
    (hz : ∀ j, j ≠ base_pos → val j = 0) :
    ∀ (fuel curr acc : Nat), curr < 10 → ringDist curr base_pos ≤ fuel →
      sumLoop fuel val curr base_pos acc = some ((acc + val base_pos) % 2 ^ 32) := by
  intro fuel
  induction fuel with
  | zero =>
    intro curr acc _ hd
    unfold ringDist at hd
    omega
  | succ fuel ih =>
    intro curr acc hc hd
    unfold sumLoop
    simp only [incPos_eq hc]
    by_cases hcn : (curr + 1) % 10 = base_pos
    · rw [if_neg (by simpa using hcn), hcn]
    · rw [if_pos hcn]
      have hc' : (curr + 1) % 10 < 10 := by omega
      have hd' : ringDist ((curr + 1) % 10) base_pos ≤ fuel := by
        unfold ringDist at hd ⊢
        omega
      rw [ih _ _ hc' hd', hz _ hcn]
      congr 1
      omega

end RequestStats

namespace RequestStats

theorem doubleShift_of_lt {x : Nat} (h : x < 2 ^ 53) : ∀ fuel, doubleShift fuel x = 0 := by
  intro fuel
  cases fuel with
  | zero => rfl
  | succ f => simp only [doubleShift, if_pos h]

/-- Whole numbers below `2 ^ 53` are `double`s. -/
theorem toDouble_of_lt {x : Nat} (h : x < 2 ^ 53) : toDouble x = x := by
  unfold toDouble
  simp only [doubleShift_of_lt h, Nat.pow_zero, Nat.mod_one, Nat.div_one, Nat.mul_one,
    Nat.mul_zero]
  rw [if_pos (by decide)]

theorem div_doubleShift_ge :
    ∀ (fuel x : Nat), 2 ^ 52 ≤ x → 2 ^ 52 ≤ x / 2 ^ doubleShift fuel x := by
  intro fuel
  induction fuel with
  | zero => intro x hx; simpa [doubleShift] using hx
  | succ f ih =>
    intro x hx
    unfold doubleShift
    by_cases h : x < 2 ^ 53
    · rw [if_pos h]; simpa using hx
    · rw [if_neg h]
      have e : x / 2 ^ (doubleShift f (x / 2) + 1) = x / 2 / 2 ^ doubleShift f (x / 2) := by
        rw [Nat.pow_succ, Nat.mul_comm, Nat.div_div_eq_div_mul]
      rw [e]
      exact ih (x / 2) (by omega)

/-- The conversion does not take a number from `2 ^ 53` on below `2 ^ 53`. -/
theorem toDouble_ge {x : Nat} (h : 2 ^ 53 ≤ x) : 2 ^ 53 ≤ toDouble x := by
  have hq := div_doubleShift_ge 64 x (by omega)
  have he : 1 ≤ doubleShift 64 x := by
    unfold doubleShift
    rw [if_neg (by omega)]
    omega
  have hp : 2 ≤ 2 ^ doubleShift 64 x := by
    calc 2 = 2 ^ 1 := rfl
      _ ≤ 2 ^ doubleShift 64 x := Nat.pow_le_pow_right (by decide) he
  have hmul : 2 ^ 53 ≤ x / 2 ^ doubleShift 64 x * 2 ^ doubleShift 64 x := by
    calc 2 ^ 53 = 2 ^ 52 * 2 := by norm_num
      _ ≤ x / 2 ^ doubleShift 64 x * 2 ^ doubleShift 64 x := Nat.mul_le_mul hq hp
  unfold toDouble
  simp only
  split
  · exact hmul
  · split
    · exact le_trans hmul (Nat.mul_le_mul_right _ (by omega))
    · exact le_trans hmul (Nat.mul_le_mul_right _ (by omega))

/-- The test of `getStats`: for a whole `tps` below `2 ^ 53` the comparison `double(x) > tps` is
the comparison of the whole numbers, whatever `x` is. -/
theorem toDouble_gt_iff (x tps : Nat) (h : tps < 2 ^ 53) : tps < toDouble x ↔ tps < x := by
  by_cases hx : x < 2 ^ 53
  · rw [toDouble_of_lt hx]
  · have := toDouble_ge (Nat.le_of_not_lt hx)
    constructor <;> intro _ <;> omega

/-- The test of `finishedRequest`: for `now` below `2 ^ 53` the comparison done in `double` is
the comparison of the whole numbers. -/
theorem double_compare_exact (base_tick tps now : Nat) (h : now < 2 ^ 53) :
    toDouble (toDouble base_tick + tps) < toDouble now ↔ base_tick + tps < now := by
  rw [toDouble_of_lt h]
  by_cases hs : base_tick + tps < 2 ^ 53
  · rw [toDouble_of_lt (by omega : base_tick < 2 ^ 53), toDouble_of_lt hs]
  · have h1 : 2 ^ 53 ≤ toDouble base_tick + tps := by
      by_cases hb : base_tick < 2 ^ 53
      · rw [toDouble_of_lt hb]; omega
      · have := toDouble_ge (Nat.le_of_not_lt hb)
        omega
    have := toDouble_ge h1
    constructor <;> intro _ <;> omega

/-- The conversion rounds ticks from `2 ^ 53` on: between `2 ^ 63` and `2 ^ 64` the `double`s are
`2048` apart, a tie goes to the even mantissa, and `2 ^ 64 - 1` becomes `2 ^ 64`. -/
theorem toDouble_rounds :
    toDouble 1500 = 1500 ∧ toDouble (2 ^ 53 + 1) = 2 ^ 53 ∧ toDouble (2 ^ 53 + 3) = 2 ^ 53 + 4 ∧
    toDouble 9223372036854777700 = 2 ^ 63 + 2048 ∧
    toDouble (toDouble 9223372036854777700 + 1000) = 2 ^ 63 + 2048 ∧
    toDouble (9223372036854777700 + 1100) = 2 ^ 63 + 2048 ∧
    toDouble (2 ^ 64 - 1) = 2 ^ 64 := by
  refine ⟨by decide!, by decide!, by decide!, by decide!, by decide!, by decide!, by decide!⟩

theorem posForTick_lt (tps t : Nat) : posForTick tps t < 10 := by
  unfold posForTick kNumSlots
  exact Nat.mod_lt _ (by decide)

theorem ringDist_le {p j : Nat} : ringDist p j ≤ 10 := by
  unfold ringDist
  omega

/-- A thread whose slots are all zero, but for its base slot, adds the count of the base slot
to the sum when it is read, and nothing when it is skipped. -/
theorem getStatsLoop_cons_single (tps now : Nat) (htps : 10 ≤ tps) (c : Counts) (rest : List Counts)
    (acc : Nat) (hb : c.base_pos < 10) (hz : ∀ j, j ≠ c.base_pos → c.val j = 0) :
    getStatsLoop tps now (c :: rest) acc =
      getStatsLoop tps now rest
        (if usub now c.base_tick > tps then acc else (acc + c.val c.base_pos) % 2 ^ 32) := by
  have hS : kTicksPerSlot tps ≠ 0 := by
    unfold kTicksPerSlot kNumSlots
    omega
  simp only [getStatsLoop]
  by_cases hskip : usub now c.base_tick > tps
  · rw [if_pos hskip, if_pos hskip]
  · rw [if_neg hskip, if_neg hskip, if_neg hS,
      sumLoop_spec c.val c.base_pos hb hz kNumSlots _ acc (posForTick_lt tps now) ringDist_le]

theorem getStatsLoop_fresh (tps now : Nat) (htps : 10 ≤ tps) :
    ∀ (m acc : Nat), acc < 2 ^ 32 →
      getStatsLoop tps now (List.replicate m Counts.fresh) acc = some acc := by
  intro m
  induction m with
  | zero => intro acc _; rfl
  | succ m ih =>
    intro acc hacc
    rw [List.replicate_succ, getStatsLoop_cons_single tps now htps Counts.fresh _ acc
      (by decide) (fun _ _ => rfl)]
    have : (acc + Counts.fresh.val Counts.fresh.base_pos) % 2 ^ 32 = acc := by
      simp only [Counts.fresh, Nat.add_zero]
      exact Nat.mod_eq_of_lt hacc
    rw [this, ite_self]
    exact ih acc hacc

theorem getStatsLoop_set (tps now : Nat) (htps : 10 ≤ tps) (cw : Counts) (hb : cw.base_pos < 10)
    (hz : ∀ j, j ≠ cw.base_pos → cw.val j = 0) (hv : cw.val cw.base_pos < 2 ^ 32) :
    ∀ (n w : Nat), w < n →
      getStatsLoop tps now ((List.replicate n Counts.fresh).set w cw) 0 =
        some (if usub now cw.base_tick > tps then 0 else cw.val cw.base_pos) := by
  intro n
  induction n with
  | zero => intro w hw; omega
  | succ n ih =>
    intro w hw
    cases w with
    | zero =>
      rw [List.replicate_succ, List.set_cons_zero,
        getStatsLoop_cons_single tps now htps cw _ 0 hb hz]
      by_cases hskip : usub now cw.base_tick > tps
      · rw [if_pos hskip, if_pos hskip]
        exact getStatsLoop_fresh tps now htps n 0 (by decide)
      · rw [if_neg hskip, if_neg hskip, Nat.zero_add, Nat.mod_eq_of_lt hv]
        exact getStatsLoop_fresh tps now htps n _ hv
    | succ w =>
      rw [List.replicate_succ, List.set_cons_succ,
        getStatsLoop_cons_single tps now htps Counts.fresh _ 0 (by decide) (fun _ _ => rfl)]
      have : (0 + Counts.fresh.val Counts.fresh.base_pos) % 2 ^ 32 = 0 := rfl
      rw [this, ite_self]
      exact ih w (by omega)

/-- The slot and the tick of the slot that a first completion at tick `t` gives a fresh thread. -/
theorem first_call (tps n w t : Nat) (htps : 10 ≤ tps) (hw : w < n) (ht : t + tps < 2 ^ 64) :
    finishedRequest tps (RequestStats.new n) w t =
      some { num_threads_ := n
             counts_ := (List.replicate n Counts.fresh).set w
               { base_pos := if t > kTicksPerSlot tps then posForTick tps t else 0
                 base_tick := if t > kTicksPerSlot tps then roundTick tps t else 0
                 val := Function.update (fun _ => 0)
                   (if t > kTicksPerSlot tps then posForTick tps t else 0) 1 } } := by
  have hS : kTicksPerSlot tps ≠ 0 := by
    unfold kTicksPerSlot kNumSlots
    omega
  have hSle : kTicksPerSlot tps ≤ tps := by
    unfold kTicksPerSlot
    exact Nat.div_le_self _ _
  have hget : (RequestStats.new n).counts_[w]? = some Counts.fresh := by
    simp [RequestStats.new, Counts.fresh, List.getElem?_replicate, hw]
  unfold finishedRequest
  rw [if_neg (by simp [RequestStats.new]; exact hw), hget]
  simp only [Counts.fresh, Nat.zero_add]
  rw [Nat.mod_eq_of_lt (by omega : kTicksPerSlot tps < 2 ^ 64)]
  by_cases hgt : t > kTicksPerSlot tps
  · rw [if_pos hgt, if_neg hS, if_pos hgt, if_pos hgt]
    have hzero : (if toDouble (toDouble 0 + tps) < toDouble t then
          some (fun i => if i < kNumSlots then 0 else (0 : Nat))
        else zeroLoop kNumSlots (fun _ => 0) 0 (posForTick tps t)) = some (fun _ => 0) := by
      by_cases h1 : toDouble (toDouble 0 + tps) < toDouble t
      · rw [if_pos h1]
        congr 1
        funext i
        simp
      · rw [if_neg h1, zeroLoop_spec _ (posForTick_lt tps t) kNumSlots _ 0 (by decide) ringDist_le]
        congr 1
        funext i
        simp
    rw [hzero]
    simp [RequestStats.new, Counts.fresh]
  · rw [if_neg hgt, if_neg hgt, if_neg hgt]
    simp [RequestStats.new, Counts.fresh]

end RequestStats

/-! ## RequestStats: completions at one tick -/

namespace RequestStats

/-- A further completion at the same tick `t` only increments the base slot. -/
theorem later_call (tps n w t m : Nat) (htps : 10 ≤ tps) (hw : w < n) (ht : t + tps < 2 ^ 64)
    (hm : m + 1 < 2 ^ 32) :
    finishedRequest tps
        { num_threads_ := n
          counts_ := (List.replicate n Counts.fresh).set w
            { base_pos := if t > kTicksPerSlot tps then posForTick tps t else 0
              base_tick := if t > kTicksPerSlot tps then roundTick tps t else 0
              val := Function.update (fun _ => 0)
                (if t > kTicksPerSlot tps then posForTick tps t else 0) m } } w t =
      some { num_threads_ := n
             counts_ := (List.replicate n Counts.fresh).set w
               { base_pos := if t > kTicksPerSlot tps then posForTick tps t else 0
                 base_tick := if t > kTicksPerSlot tps then roundTick tps t else 0
                 val := Function.update (fun _ => 0)
                   (if t > kTicksPerSlot tps then posForTick tps t else 0) (m + 1) } } := by
  have hS : 0 < kTicksPerSlot tps := by
    unfold kTicksPerSlot kNumSlots
    omega
  have hSle : kTicksPerSlot tps ≤ tps := by
    unfold kTicksPerSlot
    exact Nat.div_le_self _ _
  have hmod := Nat.mod_lt t hS
  have hmodle := Nat.mod_le t (kTicksPerSlot tps)
  unfold finishedRequest
  simp only
  rw [if_neg (by omega), List.getElem?_set_self (by simpa using hw)]
  simp only
  have hno : ¬ t > ((if t > kTicksPerSlot tps then roundTick tps t else 0) + kTicksPerSlot tps)
      % 2 ^ 64 := by
    by_cases hgt : t > kTicksPerSlot tps
    · rw [if_pos hgt]
      unfold roundTick
      rw [Nat.mod_eq_of_lt (by omega)]
      omega
    · rw [if_neg hgt, Nat.zero_add, Nat.mod_eq_of_lt (by omega)]
      exact hgt
  rw [if_neg hno]
  simp only [Function.update_same, Function.update_idem, List.set_set,
    Nat.mod_eq_of_lt hm]

theorem run_same_tick (tps n w t : Nat) (htps : 10 ≤ tps) (hw : w < n) (ht : t + tps < 2 ^ 64) :
    ∀ k, k + 1 < 2 ^ 32 →
      run tps (RequestStats.new n) (List.replicate (k + 1) (w, t)) =
        some { num_threads_ := n
               counts_ := (List.replicate n Counts.fresh).set w
                 { base_pos := if t > kTicksPerSlot tps then posForTick tps t else 0
                   base_tick := if t > kTicksPerSlot tps then roundTick tps t else 0
                   val := Function.update (fun _ => 0)
                     (if t > kTicksPerSlot tps then posForTick tps t else 0) (k + 1) } } := by
  have hsnoc : ∀ (l : List (Nat × Nat)) (x : Nat × Nat) (rs : RequestStats),
      run tps rs (l ++ [x]) = (run tps rs l).bind (fun r => finishedRequest tps r x.1 x.2) := by
    intro l
    induction l with
    | nil =>
      intro x rs
      simp only [List.nil_append, run, Option.some_bind]
      cases finishedRequest tps rs x.1 x.2 <;> rfl
    | cons y l ih =>
      intro x rs
      simp only [List.cons_append, run]
      cases finishedRequest tps rs y.1 y.2 with
      | none => rfl
      | some r1 => exact ih x r1
  intro k
  induction k with
  | zero =>
    intro _
    simp only [List.replicate, run, first_call tps n w t htps hw ht]
  | succ k ih =>
    intro hk
    rw [List.replicate_succ', hsnoc, ih (by omega), Option.some_bind]
    exact later_call tps n w t (k + 1) htps hw ht hk

end RequestStats

namespace RequestStats

/-- C12. Visibility window of a completion. On a fresh `RequestStats` for `n` threads, `k ≥ 1`
calls `finishedRequest(w, t)` at one tick `t` all return, and afterwards `getStats(now)` yields
`k` for every `now` with `t ≤ now ≤ t + ticksPerSecond - ticksPerSlot` and `0` for every
`now > t + ticksPerSecond`. Assumed: `ticksPerSecond ≥ 10` (a slot has at least one tick), a
valid thread number, `k` fits the `uint32_t` counter and the ticks fit `uint64_t`. -/
theorem visibility_window (tps n w t k : Nat) (htps : 10 ≤ tps) (hw : w < n) (hk0 : 1 ≤ k)
    (hk : k < 2 ^ 32) (ht : t + tps < 2 ^ 64) :
    ∃ rs, run tps (RequestStats.new n) (List.replicate k (w, t)) = some rs ∧
      (∀ now, t ≤ now → now ≤ t + tps - kTicksPerSlot tps → getStats tps rs now = some k) ∧
      (∀ now, t + tps < now → now < 2 ^ 64 → getStats tps rs now = some 0) := by
  obtain ⟨k', rfl⟩ : ∃ k', k = k' + 1 := ⟨k - 1, by omega⟩
  refine ⟨_, run_same_tick tps n w t htps hw ht k' hk, ?_, ?_⟩
  all_goals
    intro now h1 h2
    have hS : 0 < kTicksPerSlot tps := by
      unfold kTicksPerSlot kNumSlots
      omega
    have hSle : kTicksPerSlot tps ≤ tps := by
      unfold kTicksPerSlot
      exact Nat.div_le_self _ _
    have hmod := Nat.mod_lt t hS
    have hmodle := Nat.mod_le t (kTicksPerSlot tps)
    have hB : (if t > kTicksPerSlot tps then posForTick tps t else 0) < 10 := by
      split
      · exact posForTick_lt tps t
      · decide
    have hbt : (if t > kTicksPerSlot tps then roundTick tps t else 0) ≤ t := by
      split
      · unfold roundTick; omega
      · omega
    unfold getStats
    simp only
    rw [List.take_of_length_le (by simp),
      getStatsLoop_set tps now htps _ hB
        (fun j hj => by simp only [Function.update_noteq hj])
        (by simp only [Function.update_same]; exact hk) n w hw]
    simp only [Function.update_same]
    rw [usub_eq _ _ (by omega) (by omega)]
  · rw [if_neg]
    by_cases hgt : t > kTicksPerSlot tps
    · rw [if_pos hgt]
      unfold roundTick
      omega
    · rw [if_neg hgt]
      omega
  · rw [if_pos]
    omega

/-- Witness for C12: three completions at tick 10 recorded by thread 0 of 2, with 1000 ticks
per second. -/
theorem visibility_window_witness :
    ∃ rs, run 1000 (RequestStats.new 2) (List.replicate 3 (0, 10)) = some rs ∧
      (∀ now, 10 ≤ now → now ≤ 10 + 1000 - kTicksPerSlot 1000 → getStats 1000 rs now = some 3) ∧
      (∀ now, 10 + 1000 < now → now < 2 ^ 64 → getStats 1000 rs now = some 0) :=
  visibility_window 1000 2 0 10 3 (by decide) (by decide) (by decide) (by decide) (by decide)

end RequestStats

/-! ## RequestStats: the slot advance rule and the reading at the edge of the window -/

namespace RequestStats

theorem mem_ringAfter_iff : ∀ old, old < 10 → ∀ new, new < 10 → ∀ s, s < 10 →
    (s ∈ ringAfter old new ↔ ringDist old s ≤ ringDist old new) := by
  decide!

theorem mem_ringAfter_lt {old new s : Nat} (h : s ∈ ringAfter old new) : s < 10 := by
  unfold ringAfter at h
  simp only [List.mem_map, List.mem_range] at h
  obtain ⟨k, -, rfl⟩ := h
  omega

theorem countsOf_set_self (rs : RequestStats) (i : Nat) (c : Counts) (hi : i < rs.counts_.length) :
    countsOf { rs with counts_ := rs.counts_.set i c } i = c := by
  simp [countsOf, List.getD_eq_getElem?_getD, List.getElem?_set_self hi]

theorem countsOf_set_ne (rs : RequestStats) (i j : Nat) (c : Counts) (hij : j ≠ i) :
    countsOf { rs with counts_ := rs.counts_.set i c } j = countsOf rs j := by
  simp [countsOf, List.getD_eq_getElem?_getD, List.getElem?_set_ne (Ne.symm hij)]

theorem getElem?_countsOf (rs : RequestStats) (i : Nat) (hi : i < rs.counts_.length) :
    rs.counts_[i]? = some (countsOf rs i) := by
  simp [countsOf, List.getD_eq_getElem?_getD, List.getElem?_eq_getElem hi]

end RequestStats

namespace RequestStats

/-- C14, amended. `finishedRequest(i, now)` returns for a valid thread number. With
`now > base_tick + ticks_per_slot` it sets the base slot to `(now / ticks_per_slot) mod 10` and
`base_tick` to `now - (now mod ticks_per_slot)`; it zeroes all ten slots when
`double(base_tick) + ticks_per_second < double(now)`, sum and comparison being done in `double`,
and otherwise exactly the slots after the old slot up to and including the new slot in ring
order; the new slot then holds 1. With `now ≤ base_tick + ticks_per_slot` it only increments
`val[base_slot]`. The records of the other threads are not touched. For `now` below `2 ^ 53` the
test in `double` is the test `now - base_tick > ticks_per_second` on the whole numbers; from
`2 ^ 53` on the ticks are rounded before they are compared. -/
theorem slot_advance_rule (tps : Nat) (rs : RequestStats) (i now : Nat) (htps : 10 ≤ tps)
    (hi : i < rs.num_threads_) (hlen : rs.counts_.length = rs.num_threads_)
    (hpos : (rs.countsOf i).base_pos < 10) (hov : (rs.countsOf i).base_tick + tps < 2 ^ 64) :
    ∃ rs', finishedRequest tps rs i now = some rs' ∧ rs'.num_threads_ = rs.num_threads_ ∧
      (∀ j, j ≠ i → rs'.countsOf j = rs.countsOf j) ∧
      (now > (rs.countsOf i).base_tick + kTicksPerSlot tps →
        (rs'.countsOf i).base_pos = now / kTicksPerSlot tps % 10 ∧
        (rs'.countsOf i).base_tick = now - now % kTicksPerSlot tps ∧
        ∀ s, (rs'.countsOf i).val s =
          if s = now / kTicksPerSlot tps % 10 then 1
          else if s < 10 ∧ (toDouble (toDouble (rs.countsOf i).base_tick + tps) < toDouble now ∨
              s ∈ ringAfter (rs.countsOf i).base_pos (now / kTicksPerSlot tps % 10)) then 0
          else (rs.countsOf i).val s) ∧
      (now ≤ (rs.countsOf i).base_tick + kTicksPerSlot tps →
        (rs'.countsOf i).base_pos = (rs.countsOf i).base_pos ∧
        (rs'.countsOf i).base_tick = (rs.countsOf i).base_tick ∧
        (rs'.countsOf i).val = Function.update (rs.countsOf i).val (rs.countsOf i).base_pos
          (((rs.countsOf i).val (rs.countsOf i).base_pos + 1) % 2 ^ 32)) ∧
      (now < 2 ^ 53 →
        (toDouble (toDouble (rs.countsOf i).base_tick + tps) < toDouble now ↔
          (rs.countsOf i).base_tick + tps < now)) := by
  have hS : kTicksPerSlot tps ≠ 0 := by
    unfold kTicksPerSlot kNumSlots
    omega
  have hSle : kTicksPerSlot tps ≤ tps := by
    unfold kTicksPerSlot
    exact Nat.div_le_self _ _
  have hil : i < rs.counts_.length := by omega
  have hnew : now / kTicksPerSlot tps % 10 < 10 := Nat.mod_lt _ (by decide)
  generalize hc : rs.countsOf i = c at hpos hov
  have hget : rs.counts_[i]? = some c := by rw [← hc]; exact getElem?_countsOf rs i hil
  unfold finishedRequest
  rw [if_neg (by omega), hget]
  simp only
  rw [Nat.mod_eq_of_lt (by omega : c.base_tick + kTicksPerSlot tps < 2 ^ 64)]
  by_cases hgt : now > c.base_tick + kTicksPerSlot tps
  · rw [if_pos hgt, if_neg hS]
    have hzero : (if toDouble (toDouble c.base_tick + tps) < toDouble now then
          some (fun i => if i < kNumSlots then 0 else c.val i)
        else zeroLoop kNumSlots c.val c.base_pos (posForTick tps now)) =
        some (fun s => if s < 10 ∧ (toDouble (toDouble c.base_tick + tps) < toDouble now ∨
          s ∈ ringAfter c.base_pos (now / kTicksPerSlot tps % 10)) then 0 else c.val s) := by
      by_cases h1 : toDouble (toDouble c.base_tick + tps) < toDouble now
      · rw [if_pos h1]
        congr 1
        funext s
        simp [h1, kNumSlots]
      · rw [if_neg h1, zeroLoop_spec _ (posForTick_lt tps now) kNumSlots _ _ hpos ringDist_le]
        congr 1
        funext s
        by_cases hs : s < 10
        · have := mem_ringAfter_iff c.base_pos hpos _ hnew s hs
          simp only [posForTick, kNumSlots, hs, h1, true_and, false_or, this]
        · have : s ∉ ringAfter c.base_pos (now / kTicksPerSlot tps % 10) :=
            fun hm => hs (mem_ringAfter_lt hm)
          simp [hs]
    rw [hzero]
    simp only
    refine ⟨_, rfl, rfl, fun j hj => countsOf_set_ne rs i j _ hj, fun _ => ?_,
      fun hle => absurd hgt (by omega), double_compare_exact c.base_tick tps now⟩
    rw [countsOf_set_self rs i _ hil]
    simp only [posForTick, roundTick, kNumSlots]
    refine ⟨trivial, trivial, fun s => ?_⟩
    by_cases hs : s = now / kTicksPerSlot tps % 10
    · subst hs
      rw [Function.update_same, if_pos rfl]
      have hin : now / kTicksPerSlot tps % 10 ∈
          ringAfter c.base_pos (now / kTicksPerSlot tps % 10) :=
        (mem_ringAfter_iff c.base_pos hpos _ hnew _ hnew).2 (le_refl _)
      rw [if_pos ⟨hnew, Or.inr hin⟩]
      rfl
    · rw [Function.update_noteq hs, if_neg hs]
  · rw [if_neg hgt]
    simp only
    refine ⟨_, rfl, rfl, fun j hj => countsOf_set_ne rs i j _ hj, fun h => absurd h hgt,
      fun _ => ?_, double_compare_exact c.base_tick tps now⟩
    rw [countsOf_set_self rs i _ hil]
    exact ⟨rfl, rfl, rfl⟩

end RequestStats

namespace RequestStats

/-- Witness for C14, amended: ten ticks per second, thread 0 recorded completions at ticks 2
and 4, and now records one at tick 12; the slots 5, 6, 7, 8, 9, 0, 1 and 2 are zeroed. -/
theorem slot_advance_rule_witness :
    ∃ rs', finishedRequest 10 advState 0 12 = some rs' ∧ rs'.num_threads_ = advState.num_threads_ ∧
      (∀ j, j ≠ 0 → rs'.countsOf j = advState.countsOf j) ∧
      (12 > (advState.countsOf 0).base_tick + kTicksPerSlot 10 →
        (rs'.countsOf 0).base_pos = 12 / kTicksPerSlot 10 % 10 ∧
        (rs'.countsOf 0).base_tick = 12 - 12 % kTicksPerSlot 10 ∧
        ∀ s, (rs'.countsOf 0).val s =
          if s = 12 / kTicksPerSlot 10 % 10 then 1
          else if s < 10 ∧ (toDouble (toDouble (advState.countsOf 0).base_tick + 10) < toDouble 12 ∨
              s ∈ ringAfter (advState.countsOf 0).base_pos (12 / kTicksPerSlot 10 % 10)) then 0
          else (advState.countsOf 0).val s) ∧
      (12 ≤ (advState.countsOf 0).base_tick + kTicksPerSlot 10 →
        (rs'.countsOf 0).base_pos = (advState.countsOf 0).base_pos ∧
        (rs'.countsOf 0).base_tick = (advState.countsOf 0).base_tick ∧
        (rs'.countsOf 0).val = Function.update (advState.countsOf 0).val
          (advState.countsOf 0).base_pos
          (((advState.countsOf 0).val (advState.countsOf 0).base_pos + 1) % 2 ^ 32)) ∧
      (12 < 2 ^ 53 →
        (toDouble (toDouble (advState.countsOf 0).base_tick + 10) < toDouble 12 ↔
          (advState.countsOf 0).base_tick + 10 < 12)) :=
  slot_advance_rule 10 advState 0 12 (by decide) (by decide!) (by decide!) (by decide!)
    (by decide!)

/-- C14, as stated, fails. Ten ticks per second; thread 0 recorded completions at ticks 2 and 4,
so its base slot is 4, `base_tick` is 4 and slot 2 holds 1. A completion at tick 12 moves the
base slot to 2, eight ticks after `base_tick`. Slot 2 is not strictly between slot 4 and
slot 2, so by the rule as stated it would keep its count and be incremented to 2; the code
zeroes it with the others and leaves it at 1. -/
theorem slot_advance_as_stated_fails :
    (advState.countsOf 0).base_pos = 4 ∧ (advState.countsOf 0).base_tick = 4 ∧
    (advState.countsOf 0).val 2 = 1 ∧
    (finishedRequest 10 advState 0 12).map (fun rs => (rs.countsOf 0).base_pos) = some 2 ∧
    (finishedRequest 10 advState 0 12).map (fun rs => (rs.countsOf 0).val 2) = some 1 ∧
    (finishedRequestSpec 10 (advState.countsOf 0) 12).base_pos = 2 ∧
    (finishedRequestSpec 10 (advState.countsOf 0) 12).val 2 = 2 := by
  refine ⟨by decide!, by decide!, by decide!, by decide!, by decide!, by decide!, by decide!⟩

/-- Ticks beyond `2 ^ 53` are rounded before the test for a full second. With 1000 ticks per
second thread 0 records a completion at tick 9223372036854777700 (slot 7) and one 1100 ticks
later (slot 8). More than a second lies between them, but both `base_tick + ticksPerSecond()`
and `now` are the `double` `2 ^ 63 + 2048`, so the test fails and the walk zeroes slot 8 only:
slot 7 keeps its count. -/
theorem finishedRequest_rounds_large_ticks :
    (run 1000 (RequestStats.new 1) [(0, 9223372036854777700)]).map
      (fun rs => ((rs.countsOf 0).base_pos, (rs.countsOf 0).base_tick, (rs.countsOf 0).val 7)) =
        some (7, 9223372036854777700, 1) ∧
    (run 1000 (RequestStats.new 1)
      [(0, 9223372036854777700), (0, 9223372036854777700 + 1100)]).map
      (fun rs => ((rs.countsOf 0).base_pos, (rs.countsOf 0).val 7, (rs.countsOf 0).val 8)) =
        some (8, 1, 1) := by
  refine ⟨by decide!, by decide!⟩

/-- C13 (defect). With 1000 ticks per second, thread 0 records completions at ticks 300 and
500. Only the one at tick 500 lies in the last second `[500, 1500]` of tick 1500, yet
`getStats(1500)` yields 2: a thread is skipped only when `now - base_tick > ticksPerSecond`, and
at `now = base_tick + ticksPerSecond` the walk starts at the base slot and sums the whole ring.
One tick earlier the answer is 1, one tick later it is 0. -/
theorem getStats_counts_completion_older_than_one_second :
    (callsOver.filter (fun x => decide (1500 - 1000 ≤ x.2 ∧ x.2 ≤ 1500))).length = 1 ∧
    (run 1000 (RequestStats.new 1) callsOver).bind (fun rs => getStats 1000 rs 1500) = some 2 ∧
    (run 1000 (RequestStats.new 1) callsOver).bind (fun rs => getStats 1000 rs 1499) = some 1 ∧
    (run 1000 (RequestStats.new 1) callsOver).bind (fun rs => getStats 1000 rs 1501) = some 0 := by
  refine ⟨by decide!, by decide!, by decide!, by decide!⟩

end RequestStats

/-! ## Buffer: iterating a partly consumed Buffer -/

namespace Buffer

theorem Iterator.nextN_rpos (b : Buffer) (p : Position) :
    ∀ (k : Nat) (it : Iterator),
      Iterator.nextN { b with rpos_ := p } k it = Iterator.nextN b k it := by
  intro k
  induction k with
  | zero => intro it; rfl
  | succ k ih => intro it; exact ih _

theorem Iterator.nextN_add (b : Buffer) (j : Nat) :
    ∀ (k : Nat) (it : Iterator),
      Iterator.nextN b (k + j) it = Iterator.nextN b j (Iterator.nextN b k it) := by
  intro k
  induction k with
  | zero => intro it; simp [Iterator.nextN]
  | succ k ih =>
    intro it
    rw [Nat.add_right_comm]
    exact ih _

theorem Iterator.next_bytes_read_le (b : Buffer) (it : Iterator) :
    it.bytes_read_ ≤ (it.next b).bytes_read_ := by
  unfold Iterator.next Iterator.slowNext
  split
  · simp
  · split
    · dsimp only
      split <;> simp
    · exact le_refl _

/-- Moving an iterator commutes with shifting its byte counters. -/
theorem Iterator.next_shift (b : Buffer) (it : Iterator) (o T : Nat) (h : o ≤ it.bytes_read_) :
    Iterator.next b { it with bytes_read_ := it.bytes_read_ - o, bytes_total_ := T } =
      { it.next b with bytes_read_ := (it.next b).bytes_read_ - o, bytes_total_ := T } := by
  unfold Iterator.next Iterator.slowNext Iterator.getBudget
  simp only
  split
  · simp only [Iterator.mk.injEq, and_true, true_and]
    omega
  · split
    · split
      · simp only [Iterator.mk.injEq, and_true, true_and]
        omega
      · simp only [Iterator.mk.injEq, and_true, true_and]
        omega
    · rfl

theorem Iterator.nextN_shift (b : Buffer) (o T : Nat) :
    ∀ (k : Nat) (it : Iterator), o ≤ it.bytes_read_ →
      Iterator.nextN b k { it with bytes_read_ := it.bytes_read_ - o, bytes_total_ := T } =
        { Iterator.nextN b k it with
            bytes_read_ := (Iterator.nextN b k it).bytes_read_ - o, bytes_total_ := T } := by
  intro k
  induction k with
  | zero => intro it _; rfl
  | succ k ih =>
    intro it h
    simp only [Iterator.nextN]
    rw [Iterator.next_shift b it o T h]
    exact ih (it.next b) (le_trans h (Iterator.next_bytes_read_le b it))

theorem Holds.sizeAt_zero {b : Buffer} {s : List Nat} (h : Holds b s) :
    b.sizeAt 0 = min s.length 4096 := by
  by_cases hq : 0 < s.length / BlockSize
  · rw [h.sizeAt_lt hq]
    simp only [BlockSize] at hq ⊢
    omega
  · have hq0 : s.length / BlockSize = 0 := Nat.eq_zero_of_not_pos hq
    have := h.sizeAt_last
    rw [hq0] at this
    rw [this]
    simp only [BlockSize] at hq0 ⊢
    omega

theorem HoldsAt.byteCount_unread {b : Buffer} {pre s : List Nat} (h : HoldsAt b pre s) :
    b.byteCount = s.length := by
  obtain ⟨h0, hr, ho⟩ := h
  have hb0 := h0.byteCount_eq
  have hz := h0.sizeAt_zero
  simp only [Buffer.byteCount, readSize, sizeAt, List.length_append, BlockSize] at hb0 hz ho ⊢
  rw [usub_eq _ _ (Nat.zero_le _) (by omega)] at hb0
  rw [hr]
  simp only
  rw [usub_eq _ _ (by omega) (by omega)]
  omega

/-- The iterator of a Buffer that holds `s` after the consumed bytes `pre`, moved `j` times. -/
theorem HoldsAt.nextN_from_begin {b : Buffer} {pre s : List Nat} (h : HoldsAt b pre s) :
    ∀ j, j ≤ s.length → Iterator.nextN b j b.begin =
      { pos_ := ⟨(pre.length + j) / 4096, (pre.length + j) % 4096⟩, bytes_read_ := j
        bytes_total_ := s.length
        budget_ := b.sizeAt ((pre.length + j) / 4096) - (pre.length + j) % 4096
        chunk_start_ := (pre.length + j) / 4096 } := by
  intro j hj
  have hbc := h.byteCount_unread
  obtain ⟨h0, hr, ho⟩ := h
  have hz := h0.sizeAt_zero
  simp only [BlockSize, List.length_append] at ho hz
  have hstart := h0.nextN_begin pre.length (by simp)
  have hall := h0.nextN_begin (pre.length + j) (by simp; omega)
  rw [Iterator.nextN_add, hstart] at hall
  have e1 : pre.length / 4096 = 0 := by omega
  have e2 : pre.length % 4096 = pre.length := by omega
  have hbegin : b.begin =
      { ({ pos_ := ⟨pre.length / 4096, pre.length % 4096⟩, bytes_read_ := pre.length
           bytes_total_ := (pre ++ s).length
           budget_ := Buffer.sizeAt { b with rpos_ := ⟨0, 0⟩ } (pre.length / 4096)
             - pre.length % 4096
           chunk_start_ := pre.length / 4096 } : Iterator) with
        bytes_read_ := pre.length - pre.length, bytes_total_ := s.length } := by
    simp only [begin, Iterator.mk0, hbc, hr, e1, e2, Nat.sub_self]
    have : usub (b.sizeAt 0) pre.length = b.sizeAt 0 - pre.length := by
      apply usub_eq
      · have : b.sizeAt 0 = min (pre.length + s.length) 4096 := hz
        omega
      · have : b.sizeAt 0 = min (pre.length + s.length) 4096 := hz
        omega
    rw [this]
    rfl
  rw [hbegin, Iterator.nextN_shift b pre.length s.length j _ (le_refl _),
    ← Iterator.nextN_rpos b ⟨0, 0⟩, hall]
  simp only [Nat.add_sub_cancel_left]
  rfl

theorem HoldsAt.reads {b : Buffer} {pre s : List Nat} (h : HoldsAt b pre s) : Reads b s := by
  have hn := h.nextN_from_begin
  obtain ⟨h0, hr, ho⟩ := h
  have hw := h0.wpos
  simp only [BlockSize, List.length_append] at ho hw
  refine ⟨fun k hk => ?_, fun k hk => ?_, ?_, fun k hk => ?_, ?_, ?_⟩
  · obtain ⟨c1, -, -, -⟩ := h0.sizeAt_cases (pre.length + k) (by simp; omega)
    rw [hn k hk.le]
    simp only [Iterator.eob]
    have : b.sizeAt ((pre.length + k) / 4096) - (pre.length + k) % 4096 ≠ 0 := by
      have : Buffer.sizeAt { b with rpos_ := ⟨0, 0⟩ } ((pre.length + k) / 4096) =
        b.sizeAt ((pre.length + k) / 4096) := rfl
      omega
    rw [if_pos this]
  · have hb := h0.bytes (pre.length + k) (by simp; omega)
    rw [hn k hk.le]
    simp only [Iterator.getChar]
    simp only [BlockSize] at hb
    have e : Buffer.chunkAt { b with rpos_ := ⟨0, 0⟩ } ((pre.length + k) / 4096) =
        b.chunkAt ((pre.length + k) / 4096) := rfl
    rw [← e, hb]
    simp [List.getD_eq_getElem?_getD, List.getElem?_append_right]
  · have hl := h0.sizeAt_last
    simp only [BlockSize, List.length_append] at hl
    have e : Buffer.sizeAt { b with rpos_ := ⟨0, 0⟩ } ((pre.length + s.length) / 4096) =
        b.sizeAt ((pre.length + s.length) / 4096) := rfl
    rw [e] at hl
    have hw' : b.wpos_ = ⟨(pre.length + s.length) / 4096, (pre.length + s.length) % 4096⟩ := hw
    rw [hn s.length (le_refl _)]
    simp only [Iterator.eob, hl, hw']
    simp
  · rw [hn k hk]
    rfl
  · have := hn 0 (Nat.zero_le _)
    simp only [Iterator.nextN] at this
    rw [this]
    rfl
  · have hc := h0.nchunks
    simp only [BlockSize, List.length_append] at hc
    have hc' : b.chunks_.length = (pre.length + s.length) / 4096 + 1 := hc
    simp only [numChunks, hc', BlockSize]
    omega

theorem Holds.holdsAt {b : Buffer} {s : List Nat} (h : Holds b s) : HoldsAt b [] s := by
  refine ⟨?_, h.rpos, by decide⟩
  have : ({ b with rpos_ := ⟨0, 0⟩ } : Buffer) = b := by
    cases b
    simp only [Buffer.mk.injEq, true_and]
    exact h.rpos.symm
  rw [this]
  exact h

end Buffer

/-! ## HTTP parser: a well-formed request -/

namespace Buffer

theorem drop_eq_cons {s : List Nat} {k x : Nat} {t : List Nat} (h : s.drop k = x :: t) :
    k < s.length ∧ s.getD k 0 = x ∧ s.drop (k + 1) = t := by
  have hk : k < s.length := by
    by_contra hn
    rw [List.drop_eq_nil_of_le (by omega)] at h
    cases h
  rw [List.drop_eq_getElem_cons hk] at h
  injection h with h1 h2
  exact ⟨hk, by simp [List.getD_eq_getElem?_getD, List.getElem?_eq_getElem hk, h1], h2⟩

theorem drop_append_left {s : List Nat} {k : Nat} {w u : List Nat} (h : s.drop k = w ++ u) :
    s.drop (k + w.length) = u := by
  rw [← List.drop_drop, h]
  simp

/-- One byte of a Buffer that reads `s`: where `x` is the next byte, the iterator is not at the
end, `getChar()` is `x`, and `next()` leads to the following byte. -/
theorem Reads.step {b : Buffer} {s : List Nat} (h : Reads b s) {k x : Nat} {t : List Nat}
    (hd : s.drop k = x :: t) :
    (Iterator.nextN b k b.begin).eob b = false ∧
      (Iterator.nextN b k b.begin).getChar b = x ∧
      (Iterator.nextN b k b.begin).next b = Iterator.nextN b (k + 1) b.begin ∧
      s.drop (k + 1) = t := by
  obtain ⟨hk, hx, ht⟩ := drop_eq_cons hd
  exact ⟨h.not_eob k hk, by rw [h.getChar k hk, hx], (Buffer.Iterator.nextN_succ b k _).symm, ht⟩

end Buffer

namespace http
open Buffer (Iterator Reads drop_eq_cons drop_append_left)
open Parser

theorem rounds_gt {b : Buffer} {s : List Nat} (h : Reads b s) : s.length < rounds b := by
  have := h.room
  unfold rounds
  omega

theorem parseStringLoop_spec {b : Buffer} {s : List Nat} (h : Reads b s) :
    ∀ (w : List Nat) (k : Nat) (res : List Nat) (fuel c : Nat) (rest : List Nat),
      s.drop k = w ++ c :: rest → (c = 32 ∨ c = 13) → (∀ x, x ∈ w → x ≠ 32 ∧ x ≠ 13) →
      w.length ≤ fuel →
      parseStringLoop fuel b (Iterator.nextN b k b.begin) res =
        some (Iterator.nextN b (k + w.length) b.begin, res ++ w) := by
  intro w
  induction w with
  | nil =>
    intro k res fuel c rest hd hc _ _
    obtain ⟨h1, h2, -, -⟩ := h.step hd
    unfold parseStringLoop
    simp only [h1, h2, Bool.false_eq_true, if_false, List.length_nil, Nat.add_zero,
      List.append_nil]
    rcases hc with rfl | rfl
    · simp
    · simp
  | cons x w ih =>
    intro k res fuel c rest hd hc hw hf
    obtain ⟨h1, h2, h3, h4⟩ := h.step hd
    obtain ⟨hx1, hx2⟩ := hw x (List.mem_cons_self _ _)
    obtain ⟨fuel', rfl⟩ : ∃ f, fuel = f + 1 := ⟨fuel - 1, by simp at hf; omega⟩
    unfold parseStringLoop
    simp only [h1, h2, Bool.false_eq_true, if_false, hx1, hx2, h3]
    rw [ih (k + 1) (res ++ [x]) fuel' c rest h4 hc
      (fun y hy => hw y (List.mem_cons_of_mem _ hy)) (by simp at hf; omega)]
    have e : k + 1 + w.length = k + (x :: w).length := by
      simp only [List.length_cons]
      omega
    rw [e, List.append_assoc, List.singleton_append]

theorem parseString_spec {b : Buffer} {s : List Nat} (h : Reads b s)
    (w : List Nat) (k : Nat) (res : List Nat) (c : Nat) (rest : List Nat)
    (hd : s.drop k = w ++ c :: rest) (hc : c = 32 ∨ c = 13)
    (hw : ∀ x, x ∈ w → x ≠ 32 ∧ x ≠ 13) :
    parseString b (Iterator.nextN b k b.begin) res =
      some (.returned, Iterator.nextN b (k + w.length) b.begin, res ++ w) := by
  have hend := drop_append_left hd
  obtain ⟨e1, -, -, -⟩ := h.step hend
  have hlen : k + w.length < s.length := (drop_eq_cons hend).1
  have h0 : (Iterator.nextN b k b.begin).eob b = false := h.not_eob k (by omega)
  unfold parseString
  rw [parseStringLoop_spec h w k res (rounds b) c rest hd hc hw (by have := rounds_gt h; omega)]
  simp only [h0, e1, Bool.false_eq_true, if_false]

theorem skipChar_spec {b : Buffer} {s : List Nat} (h : Reads b s) (k c : Nat) (rest : List Nat)
    (hd : s.drop k = c :: rest) :
    skipChar b (Iterator.nextN b k b.begin) c = (.returned, Iterator.nextN b (k + 1) b.begin) := by
  obtain ⟨h1, h2, h3, -⟩ := h.step hd
  unfold skipChar
  simp only [h1, h2, h3, Bool.false_eq_true, if_false, ne_eq, not_true_eq_false]

theorem skipNewLine_spec {b : Buffer} {s : List Nat} (h : Reads b s) (k : Nat) (rest : List Nat)
    (hd : s.drop k = 13 :: 10 :: rest) :
    skipNewLine b (Iterator.nextN b k b.begin) =
      (.returned, Iterator.nextN b (k + 2) b.begin) := by
  obtain ⟨h1, h2, h3, h4⟩ := h.step hd
  obtain ⟨g1, g2, g3, -⟩ := h.step h4
  unfold skipNewLine
  simp only [h1, h2, h3, g1, g2, g3, Bool.false_eq_true, if_false, ne_eq, not_true_eq_false,
    or_self]

theorem parseLineLoop_spec {b : Buffer} {s : List Nat} (h : Reads b s) :
    ∀ (w : List Nat) (k : Nat) (res : List Nat) (fuel : Nat) (rest : List Nat),
      s.drop k = w ++ 13 :: 10 :: rest → (∀ x, x ∈ w → x ≠ 13) → w.length ≤ fuel →
      parseLineLoop fuel b (Iterator.nextN b k b.begin) res =
        some (.returned, Iterator.nextN b (k + w.length + 2) b.begin, res ++ w) := by
  intro w
  induction w with
  | nil =>
    intro k res fuel rest hd _ _
    obtain ⟨h1, h2, h3, h4⟩ := h.step hd
    obtain ⟨-, g2, g3, -⟩ := h.step h4
    unfold parseLineLoop
    simp only [h1, h2, h3, g2, g3, Bool.false_eq_true, if_false, if_true, List.length_nil,
      Nat.add_zero, List.append_nil]
  | cons x w ih =>
    intro k res fuel rest hd hw hf
    obtain ⟨h1, h2, h3, h4⟩ := h.step hd
    have hx := hw x (List.mem_cons_self _ _)
    obtain ⟨fuel', rfl⟩ : ∃ f, fuel = f + 1 := ⟨fuel - 1, by simp at hf; omega⟩
    unfold parseLineLoop
    simp only [h1, h2, Bool.false_eq_true, if_false, hx, h3]
    rw [ih (k + 1) (res ++ [x]) fuel' rest h4
      (fun y hy => hw y (List.mem_cons_of_mem _ hy)) (by simp at hf; omega)]
    have e : k + 1 + w.length + 2 = k + (x :: w).length + 2 := by
      simp only [List.length_cons]
      omega
    rw [e, List.append_assoc, List.singleton_append]

theorem parseLine_spec {b : Buffer} {s : List Nat} (h : Reads b s)
    (w : List Nat) (k : Nat) (res : List Nat) (rest : List Nat)
    (hd : s.drop k = w ++ 13 :: 10 :: rest) (hw : ∀ x, x ∈ w → x ≠ 13) :
    parseLine b (Iterator.nextN b k b.begin) res =
      some (.returned, Iterator.nextN b (k + w.length + 2) b.begin, res ++ w) := by
  have hend := drop_append_left hd
  have hlen : k + w.length < s.length := (drop_eq_cons hend).1
  have h0 : (Iterator.nextN b k b.begin).eob b = false := h.not_eob k (by omega)
  unfold parseLine
  rw [parseLineLoop_spec h w k res (rounds b) rest hd hw (by have := rounds_gt h; omega)]
  simp only [h0, Bool.false_eq_true, if_false]

end http

namespace http
open Buffer (Iterator Reads drop_eq_cons drop_append_left)
open Parser

theorem headerLoop_spec {b : Buffer} {s : List Nat} (h : Reads b s) :
    ∀ (headers : List (List Nat)) (k fuel : Nat) (rest : List Nat),
      s.drop k = (headers.map (fun h => h ++ [13, 10])).flatten ++ 13 :: 10 :: rest →
      (∀ hd, hd ∈ headers → hd ≠ [] ∧ ∀ x, x ∈ hd → x ≠ 13) → headers.length ≤ fuel →
      headerLoop fuel b (Iterator.nextN b k b.begin) =
        some (.returned, Iterator.nextN b
          (k + (headers.map (fun h => h ++ [13, 10])).flatten.length + 2) b.begin) := by
  intro headers
  induction headers with
  | nil =>
    intro k fuel rest hd _ _
    simp only [List.map_nil, List.flatten_nil, List.nil_append] at hd
    have e := parseLine_spec h [] k [] rest hd (fun x hx => by cases hx)
    unfold headerLoop
    simp only [e, List.append_nil, List.length_nil, if_true, List.map_nil, List.flatten_nil,
      Nat.add_zero]
  | cons hd0 hs ih =>
    intro k fuel rest hd hh hf
    obtain ⟨hne, h13⟩ := hh hd0 (List.mem_cons_self _ _)
    obtain ⟨fuel', rfl⟩ : ∃ f, fuel = f + 1 := ⟨fuel - 1, by simp at hf; omega⟩
    have hd' : s.drop k = hd0 ++ 13 :: 10 ::
        ((hs.map (fun h => h ++ [13, 10])).flatten ++ 13 :: 10 :: rest) := by
      rw [hd]
      simp
    have e := parseLine_spec h hd0 k [] _ hd' h13
    have hnext : s.drop (k + hd0.length + 2) =
        (hs.map (fun h => h ++ [13, 10])).flatten ++ 13 :: 10 :: rest := by
      have h1 := drop_append_left hd'
      have h2 := (drop_eq_cons h1).2.2
      have h3 := (drop_eq_cons h2).2.2
      exact h3
    have hlen : hd0.length ≠ 0 := by
      intro h0
      exact hne (List.length_eq_zero.1 h0)
    unfold headerLoop
    simp only [e, List.nil_append, hlen, if_false]
    rw [ih (k + hd0.length + 2) fuel' rest hnext
      (fun y hy => hh y (List.mem_cons_of_mem _ hy)) (by simp at hf; omega)]
    congr 3
    simp
    omega

theorem flatten_length_ge (headers : List (List Nat)) :
    headers.length ≤ (headers.map (fun h => h ++ [13, 10])).flatten.length := by
  induction headers with
  | nil => simp
  | cons a l ih =>
    simp only [List.map_cons, List.flatten_cons, List.length_append, List.length_cons]
    omega

/-- A well-formed request at the start of what the Buffer reads is parsed. -/
theorem parseRequest_spec {b : Buffer} (M A V : List Nat) (headers : List (List Nat))
    (R : List Nat) (request : Request) (h : Reads b (requestBytes M A V headers ++ R))
    (hM : ∀ x, x ∈ M → x ≠ 32 ∧ x ≠ 13) (hA : ∀ x, x ∈ A → x ≠ 32 ∧ x ≠ 13)
    (hV : ∀ x, x ∈ V → x ≠ 32 ∧ x ≠ 13)
    (hH : ∀ hd, hd ∈ headers → hd ≠ [] ∧ ∀ x, x ∈ hd → x ≠ 13) :
    parseRequest b b.begin request =
      some (0, Iterator.nextN b (requestBytes M A V headers).length b.begin,
        { method := M, address := A, version := V }) := by
  generalize hs : requestBytes M A V headers ++ R = s at h
  have hs0 : s.drop 0 = M ++ 32 :: 47 :: (A ++ 32 :: (V ++ 13 :: 10 ::
      ((headers.map (fun h => h ++ [13, 10])).flatten ++ 13 :: 10 :: R))) := by
    rw [← hs]
    simp [requestBytes]
  have e1 := parseString_spec h M 0 [] 32 _ hs0 (Or.inl rfl) hM
  have d1 := drop_append_left hs0
  have e2 := skipChar_spec h _ 32 _ d1
  have d2 := (drop_eq_cons d1).2.2
  have e3 := skipChar_spec h _ 47 _ d2
  have d3 := (drop_eq_cons d2).2.2
  have e4 := parseString_spec h A _ [] 32 _ d3 (Or.inl rfl) hA
  have d4 := drop_append_left d3
  have e5 := skipChar_spec h _ 32 _ d4
  have d5 := (drop_eq_cons d4).2.2
  have e6 := parseString_spec h V _ [] 13 _ d5 (Or.inr rfl) hV
  have d6 := drop_append_left d5
  have e7 := skipNewLine_spec h _ _ d6
  have d7 := (drop_eq_cons (drop_eq_cons d6).2.2).2.2
  have hfuel : headers.length ≤ rounds b := by
    have h1 := rounds_gt h
    have h2 : headers.length ≤ s.length := by
      have h3 := flatten_length_ge headers
      rw [← hs]
      simp only [requestBytes, List.length_append]
      omega
    omega
  have e8 := headerLoop_spec h headers _ (rounds b) R d7 hH hfuel
  have elen : (requestBytes M A V headers).length =
      0 + M.length + 1 + 1 + A.length + 1 + V.length + 2 +
        (headers.map (fun h => h ++ [13, 10])).flatten.length + 2 := by
    simp only [requestBytes, List.length_append, List.length_cons, List.length_nil]
    omega
  rw [elen]
  simp only [Iterator.nextN] at e1
  simp only [parseRequest, parseRequestBody, Request.clear, e1, Option.map_some', andThen, e2,
    e3, e4, e5, e6, e7, e8, exitCode, List.nil_append]

end http

/-! ## Buffer: consume on a Buffer written without holes -/

namespace Buffer

/-- Dropping the first `q` full chunks of a Buffer that holds `t` leaves one that holds `t`
without its first `4096 * q` bytes. -/
theorem Holds.drop {b : Buffer} {t : List Nat} (h : Holds b t) (q : Nat)
    (hq : q ≤ t.length / 4096) :
    Holds { chunks_ := b.chunks_.drop q, sizes_ := b.sizes_.drop q
            wpos_ := ⟨t.length / 4096 - q, t.length % 4096⟩, rpos_ := ⟨0, 0⟩ }
      (t.drop (4096 * q)) := by
  have hmul : 4096 * q ≤ t.length := by
    have := Nat.div_mul_le_self t.length 4096
    have := Nat.mul_le_mul_right 4096 hq
    omega
  have hlen : (t.drop (4096 * q)).length = t.length - 4096 * q := List.length_drop _ _
  have e1 : (t.length - 4096 * q) / 4096 = t.length / 4096 - q := by omega
  have e2 : (t.length - 4096 * q) % 4096 = t.length % 4096 := by omega
  refine ⟨?_, ?_, ?_, rfl, ?_⟩
  · simp only [h.sizes, hlen, BlockSize, e1, e2]
    rw [List.drop_append_of_le_length (by simpa [BlockSize] using hq), List.drop_replicate]
  · simp only [List.length_drop, h.nchunks, hlen, BlockSize, e1]
    omega
  · simp only [hlen, BlockSize, e1, e2]
  · intro k hk
    rw [hlen] at hk
    have hb := h.bytes (4096 * q + k) (by omega)
    have e3 : (4096 * q + k) / 4096 = q + k / 4096 := by omega
    have e4 : (4096 * q + k) % 4096 = k % 4096 := by omega
    simp only [BlockSize, e3, e4, chunkAt, List.getD_eq_getElem?_getD] at hb
    simp only [BlockSize, chunkAt, List.getD_eq_getElem?_getD, List.getElem?_drop]
    exact hb

/-- The two loops of `consume` on a Buffer that holds `t` from chunk 0 on, started at chunk `i`,
offset `off`: the read position ends `m` bytes further and one chunk is counted for every chunk
boundary passed. -/
theorem Holds.consumeLoop_spec {b : Buffer} {t : List Nat}
    (h : Holds { b with rpos_ := ⟨0, 0⟩ } t) :
    ∀ (fuel i off m d : Nat), i ≤ t.length / 4096 → off < 4096 →
      4096 * i + off + m ≤ t.length → (m = 0 ∨ t.length / 4096 - i < fuel) →
      (if (consumeLoop fuel { b with rpos_ := ⟨i, off⟩ } m d).2.1 > 0 then
          { (consumeLoop fuel { b with rpos_ := ⟨i, off⟩ } m d).1 with
            rpos_ := ⟨(consumeLoop fuel { b with rpos_ := ⟨i, off⟩ } m d).1.rpos_.idx,
              (consumeLoop fuel { b with rpos_ := ⟨i, off⟩ } m d).1.rpos_.off +
                min (consumeLoop fuel { b with rpos_ := ⟨i, off⟩ } m d).2.1
                  (consumeLoop fuel { b with rpos_ := ⟨i, off⟩ } m d).1.readSize⟩ }
        else (consumeLoop fuel { b with rpos_ := ⟨i, off⟩ } m d).1) =
        { b with rpos_ := ⟨(4096 * i + off + m) / 4096, (4096 * i + off + m) % 4096⟩ } ∧
      (consumeLoop fuel { b with rpos_ := ⟨i, off⟩ } m d).2.2 =
        d + ((4096 * i + off + m) / 4096 - i) := by
  have hw : b.wpos_ = ⟨t.length / 4096, t.length % 4096⟩ := by
    have := h.wpos
    simpa [BlockSize] using this
  have hfull : ∀ i, i < t.length / 4096 → b.sizeAt i = 4096 := by
    intro i hi
    have := h.sizeAt_lt (i := i) (by simpa [BlockSize] using hi)
    simpa [BlockSize, sizeAt] using this
  have hlast : b.sizeAt (t.length / 4096) = t.length % 4096 := by
    have := h.sizeAt_last
    simpa [BlockSize, sizeAt] using this
  -- the case where the first loop does nothing
  have hstop : ∀ (i off m d : Nat), i ≤ t.length / 4096 → off < 4096 →
      4096 * i + off + m ≤ t.length → (m = 0 ∨ i = t.length / 4096) →
      (if m > 0 then
          ({ b with rpos_ := ⟨i, off + min m (readSize { b with rpos_ := ⟨i, off⟩ })⟩ } : Buffer)
        else { b with rpos_ := ⟨i, off⟩ }) =
        { b with rpos_ := ⟨(4096 * i + off + m) / 4096, (4096 * i + off + m) % 4096⟩ } ∧
      d = d + ((4096 * i + off + m) / 4096 - i) := by
    intro i off m d hi hoff hp hcase
    by_cases hm : m > 0
    · have hiQ : i = t.length / 4096 := by omega
      have hrs : readSize { b with rpos_ := ⟨i, off⟩ } = t.length % 4096 - off := by
        simp only [readSize]
        have : Buffer.sizeAt { b with rpos_ := ⟨i, off⟩ } i = b.sizeAt i := rfl
        rw [this, hiQ, hlast, usub_eq _ _ (by omega) (by omega)]
      rw [if_pos hm, hrs]
      have e1 : (4096 * i + off + m) / 4096 = i := by omega
      have e2 : (4096 * i + off + m) % 4096 = off + m := by omega
      have e3 : min m (t.length % 4096 - off) = m := by omega
      rw [e1, e2, e3]
      exact ⟨rfl, by omega⟩
    · have hm0 : m = 0 := by omega
      rw [if_neg hm]
      have e1 : (4096 * i + off + m) / 4096 = i := by omega
      have e2 : (4096 * i + off + m) % 4096 = off := by omega
      rw [e1, e2]
      exact ⟨rfl, by omega⟩
  intro fuel
  induction fuel with
  | zero =>
    intro i off m d hi hoff hp hcase
    have hm0 : m = 0 := by omega
    subst hm0
    simp only [consumeLoop]
    exact hstop i off 0 d hi hoff hp (Or.inl rfl)
  | succ fuel ih =>
    intro i off m d hi hoff hp hcase
    by_cases hcond : m > 0 ∧ i < t.length / 4096
    · have hsz := hfull i hcond.2
      have hrs : readSize { b with rpos_ := ⟨i, off⟩ } = 4096 - off := by
        simp only [readSize]
        have : Buffer.sizeAt { b with rpos_ := ⟨i, off⟩ } i = b.sizeAt i := rfl
        rw [this, hsz, usub_eq _ _ (by omega) (by omega)]
      have hc' : m > 0 ∧ ({ b with rpos_ := ⟨i, off⟩ } : Buffer).rpos_.idx <
          ({ b with rpos_ := ⟨i, off⟩ } : Buffer).wpos_.idx := by
        simp only [hw]
        exact hcond
      rw [consumeLoop, if_pos hc']
      simp only [hrs]
      have hrs1 : readSize { b with rpos_ := ⟨i, off + min m (4096 - off)⟩ } =
          4096 - (off + min m (4096 - off)) := by
        simp only [readSize]
        have : Buffer.sizeAt { b with rpos_ := ⟨i, off + min m (4096 - off)⟩ } i = b.sizeAt i :=
          rfl
        rw [this, hsz, usub_eq _ _ (by omega) (by omega)]
      rw [hrs1]
      by_cases hz : 4096 - (off + min m (4096 - off)) = 0
      · rw [if_pos hz]
        have hk : min m (4096 - off) = 4096 - off := by omega
        have := ih (i + 1) 0 (m - min m (4096 - off)) (d + 1) (by omega) (by omega)
          (by omega) (by omega)
        have e1 : 4096 * (i + 1) + 0 + (m - min m (4096 - off)) = 4096 * i + off + m := by
          omega
        rw [e1] at this
        refine ⟨this.1, ?_⟩
        rw [this.2]
        have : i + 1 ≤ (4096 * i + off + m) / 4096 := by omega
        omega
      · rw [if_neg hz]
        have hk : min m (4096 - off) = m := by omega
        have := ih i (off + min m (4096 - off)) (m - min m (4096 - off)) d hi (by omega)
          (by omega) (by omega)
        have e1 : 4096 * i + (off + min m (4096 - off)) + (m - min m (4096 - off)) =
            4096 * i + off + m := by omega
        rw [e1] at this
        exact this
    · have hc' : ¬ (m > 0 ∧ ({ b with rpos_ := ⟨i, off⟩ } : Buffer).rpos_.idx <
          ({ b with rpos_ := ⟨i, off⟩ } : Buffer).wpos_.idx) := by
        simp only [hw]
        exact hcond
      rw [consumeLoop, if_neg hc']
      exact hstop i off m d hi hoff hp (by omega)

end Buffer

namespace Buffer

/-- Models the effect of `consume(n)` on a Buffer that holds `s` after the consumed bytes `pre`:
the chunks that were read in full are dropped and the rest of `s` is still to be read. -/
theorem HoldsAt.consume {b : Buffer} {pre s : List Nat} (h : HoldsAt b pre s) (n : Nat)
    (hn : n ≤ s.length) (hsize : (pre ++ s).length < 2 ^ 64) :
    HoldsAt (b.consume n)
      (((pre ++ s).drop (4096 * ((pre.length + n) / 4096))).take ((pre.length + n) % 4096))
      (s.drop n) := by
  obtain ⟨h0, hr, ho⟩ := h
  simp only [BlockSize] at ho
  have hL : (pre ++ s).length = pre.length + s.length := List.length_append _ _
  have hw : b.wpos_ = ⟨(pre ++ s).length / 4096, (pre ++ s).length % 4096⟩ := by
    have := h0.wpos
    simpa [BlockSize] using this
  have hcons : ∀ b' : Buffer, b' = { b with rpos_ := ⟨0, pre.length⟩ } →
      b'.consume n = Buffer.dropChunks
        { b with rpos_ := ⟨(pre.length + n) / 4096, (pre.length + n) % 4096⟩ }
        ((pre.length + n) / 4096) := by
    intro b' hb'
    subst hb'
    have key := Holds.consumeLoop_spec h0 ((pre ++ s).length / 4096 + 1) 0 pre.length n 0
      (Nat.zero_le _) ho (by omega) (Or.inr (by omega))
    simp only [Nat.mul_zero, Nat.zero_add, Nat.sub_zero, hw] at key
    unfold Buffer.consume
    simp only [hw, Nat.sub_zero]
    rw [key.2, key.1]
  have hb : b = { b with rpos_ := ⟨0, pre.length⟩ } := by
    cases b
    simp only at hr
    simp only [Buffer.mk.injEq, true_and]
    exact hr
  rw [hcons b hb]
  have hq : (pre.length + n) / 4096 ≤ (pre ++ s).length / 4096 :=
    Nat.div_le_div_right (by omega)
  have hmul : 4096 * ((pre.length + n) / 4096) + (pre.length + n) % 4096 = pre.length + n :=
    Nat.div_add_mod _ _
  have hsplit : ((pre ++ s).drop (4096 * ((pre.length + n) / 4096))).take
      ((pre.length + n) % 4096) ++ s.drop n =
      (pre ++ s).drop (4096 * ((pre.length + n) / 4096)) := by
    have e : s.drop n = ((pre ++ s).drop (4096 * ((pre.length + n) / 4096))).drop
        ((pre.length + n) % 4096) := by
      rw [List.drop_drop, hmul, List.drop_append]
    rw [e, List.take_append_drop]
  have hprelen : (((pre ++ s).drop (4096 * ((pre.length + n) / 4096))).take
      ((pre.length + n) % 4096)).length = (pre.length + n) % 4096 := by
    rw [List.length_take, List.length_drop, hL]
    omega
  have hdrop := h0.drop ((pre.length + n) / 4096) hq
  refine ⟨?_, ?_, ?_⟩
  · rw [hsplit]
    unfold Buffer.dropChunks
    by_cases hz : (pre.length + n) / 4096 = 0
    · rw [if_pos hz]
      simp only [hz, Nat.mul_zero, List.drop_zero]
      exact h0
    · rw [if_neg hz]
      simp only [hw]
      rw [usub_eq _ _ hq (by omega)]
      exact hdrop
  · rw [hprelen]
    unfold Buffer.dropChunks
    by_cases hz : (pre.length + n) / 4096 = 0
    · rw [if_pos hz, hz]
    · rw [if_neg hz]
      simp only
      rw [usub_eq _ _ (le_refl _) (by omega), Nat.sub_self]
  · rw [hprelen]
    simp only [BlockSize]
    omega

end Buffer

/-! ## HTTP parser: complete and incomplete requests -/

namespace http
open Buffer (Iterator Reads)
open Parser

/-- C15. Valid request parse. Let `M`, `A`, `V` hold no space and no CR and let every header
line be non-empty and hold no CR. Over a Buffer whose unread bytes are the request
`M SP / A SP V CRLF H1 CRLF ... Hk CRLF CRLF` followed by any bytes `R`, `parseRequest` on the
iterator `begin()` returns 0 with `method = M`, `address = A`, `version = V`, and `bytesRead()`
is the length of the request. After `consume(bytesRead())` the Buffer reads exactly `R`: its
iterator yields the bytes of `R` and then `eob()`, `byteCount()` is `|R|`, and `eob()` holds
at `begin()` iff `R` is empty. The Buffer holds fewer than `2 ^ 64` bytes. -/
theorem valid_request_parse (b : Buffer) (pre M A V : List Nat) (headers : List (List Nat))
    (R : List Nat) (request : Request)
    (hb : Buffer.HoldsAt b pre (requestBytes M A V headers ++ R))
    (hsize : (pre ++ (requestBytes M A V headers ++ R)).length < 2 ^ 64)
    (hM : ∀ x, x ∈ M → x ≠ 32 ∧ x ≠ 13) (hA : ∀ x, x ∈ A → x ≠ 32 ∧ x ≠ 13)
    (hV : ∀ x, x ∈ V → x ≠ 32 ∧ x ≠ 13)
    (hH : ∀ hd, hd ∈ headers → hd ≠ [] ∧ ∀ x, x ∈ hd → x ≠ 13) :
    ∃ it, parseRequest b b.begin request =
        some (0, it, { method := M, address := A, version := V }) ∧
      it.bytesRead = (requestBytes M A V headers).length ∧
      Reads (b.consume it.bytesRead) R ∧
      (b.consume it.bytesRead).byteCount = R.length ∧
      ((b.consume it.bytesRead).begin.eob (b.consume it.bytesRead) = true ↔ R = []) := by
  have hreads := hb.reads
  have hread : (Iterator.nextN b (requestBytes M A V headers).length b.begin).bytesRead =
      (requestBytes M A V headers).length :=
    hreads.bytesRead _ (by simp)
  refine ⟨_, parseRequest_spec M A V headers R request hreads hM hA hV hH, hread, ?_⟩
  rw [hread]
  have hc := hb.consume (requestBytes M A V headers).length (by simp) hsize
  rw [List.drop_left] at hc
  have hr := hc.reads
  refine ⟨hr, hc.byteCount_unread, ?_⟩
  constructor
  · intro he
    by_contra hne
    have hpos : 0 < R.length := List.length_pos.2 hne
    have := hr.not_eob 0 hpos
    simp only [Iterator.nextN] at this
    rw [this] at he
    cases he
  · intro hR
    have := hr.eob
    rw [hR] at this
    simpa only [List.length_nil, Iterator.nextN] using this

/-- Witness for C15: the request `GET /a HTTP/1.1` with the header line `Host: x`, followed by
the bytes `ABC`, written to a fresh Buffer. -/
theorem valid_request_parse_witness :
    ∃ it, parseRequest (Buffer.new.write (requestBytes (bytes "GET") (bytes "a") (bytes "HTTP/1.1")
          [bytes "Host: x"] ++ bytes "ABC"))
        (Buffer.new.write (requestBytes (bytes "GET") (bytes "a") (bytes "HTTP/1.1")
          [bytes "Host: x"] ++ bytes "ABC")).begin { method := [], address := [], version := [] } =
        some (0, it, { method := bytes "GET", address := bytes "a", version := bytes "HTTP/1.1" }) ∧
      it.bytesRead = (requestBytes (bytes "GET") (bytes "a") (bytes "HTTP/1.1")
          [bytes "Host: x"]).length ∧
      Reads ((Buffer.new.write (requestBytes (bytes "GET") (bytes "a") (bytes "HTTP/1.1")
          [bytes "Host: x"] ++ bytes "ABC")).consume it.bytesRead) (bytes "ABC") ∧
      ((Buffer.new.write (requestBytes (bytes "GET") (bytes "a") (bytes "HTTP/1.1")
          [bytes "Host: x"] ++ bytes "ABC")).consume it.bytesRead).byteCount =
        (bytes "ABC").length ∧
      (((Buffer.new.write (requestBytes (bytes "GET") (bytes "a") (bytes "HTTP/1.1")
          [bytes "Host: x"] ++ bytes "ABC")).consume it.bytesRead).begin.eob
          ((Buffer.new.write (requestBytes (bytes "GET") (bytes "a") (bytes "HTTP/1.1")
          [bytes "Host: x"] ++ bytes "ABC")).consume it.bytesRead) = true ↔ bytes "ABC" = []) :=
  valid_request_parse _ [] (bytes "GET") (bytes "a") (bytes "HTTP/1.1") [bytes "Host: x"]
    (bytes "ABC") _ (Buffer.holds_write _).holdsAt (by decide!) (by decide!) (by decide!)
    (by decide!) (by decide!)

/-- C16 (defect). The bytes `GET / HTTP/1.1 CRLF Host: x CR` are a proper prefix of a
well-formed request. Over a fresh Buffer holding exactly these bytes, `parseRequest` returns -1:
`parseLine` moves past the CR and calls `getChar()` without asking `eob()`, so it reads the
byte after the written part. With the prefix `GET / HTTP/1.1 CRLF CR` of the request without
header lines and a byte `\n` lying
after the written part (stored at the write pointer, which was not advanced) it returns 0. A
prefix that ends after the CR of the request line gives +1: `skipNewLine` asks `eob()`. -/
theorem parseRequest_prefix_ending_after_header_CR :
    reqHost.take prefixHeaderCR.length = prefixHeaderCR ∧
    prefixHeaderCR.length < reqHost.length ∧
    (parseRequest (Buffer.new.write prefixHeaderCR) (Buffer.new.write prefixHeaderCR).begin
      { method := [], address := [], version := [] }).map (fun r => r.1) = some (-1) ∧
    reqPlain.take prefixEmptyCR.length = prefixEmptyCR ∧
    prefixEmptyCR.length < reqPlain.length ∧
    (parseRequest ((Buffer.new.write prefixEmptyCR).pokeAtWritePtr [10])
      ((Buffer.new.write prefixEmptyCR).pokeAtWritePtr [10]).begin
      { method := [], address := [], version := [] }).map (fun r => r.1) = some 0 ∧
    ((Buffer.new.write prefixEmptyCR).pokeAtWritePtr [10]).byteCount = prefixEmptyCR.length ∧
    (parseRequest (Buffer.new.write prefixLineCR) (Buffer.new.write prefixLineCR).begin
      { method := [], address := [], version := [] }).map (fun r => r.1) = some 1 := by
  refine ⟨by decide!, by decide!, by decide!, by decide!, by decide!, by decide!, by decide!,
    by decide!⟩

end http

/-! ## FileCache: what pin reports -/

namespace FileCache

/-- A node that is in the heap after `evict` was there before, with the same Buffer. -/
theorem evict_nodes {c : FileCache} (hc : Inv c) {n : Nat} (hn : n < 2 ^ 64) {r : Bool}
    {c' : FileCache} (h : evict c n = some (r, c')) :
    ∀ a nd1, c'.nodes a = some nd1 → ∃ nd0, c.nodes a = some nd0 ∧ nd0.buf = nd1.buf := by
  unfold evict at h
  by_cases hh : c.head_ = 0
  · rw [if_pos hh] at h
    simp only [Option.some.injEq, Prod.mk.injEq] at h
    obtain ⟨-, rfl⟩ := h
    exact fun a nd1 h1 => ⟨nd1, h1, rfl⟩
  · rw [if_neg hh] at h
    cases ht : c.nodes 0 with
    | none => simp [ht] at h
    | some t =>
      simp only [ht] at h
      cases hl : evictLoop c.node_brk c n 0 t.next 0 [] with
      | none => simp [hl] at h
      | some res =>
        obtain ⟨c1, nf, e, del⟩ := res
        simp only [hl] at h
        cases hd : deleteAll { c1 with bytes_used_ := c1.bytes_used_ - e } del with
        | none => simp [hd] at h
        | some c3 =>
          simp only [hd, Option.some.injEq, Prod.mk.injEq] at h
          obtain ⟨-, rfl⟩ := h
          have hinit : EvictInv c c [] 0 n n :=
            ⟨fun _ => rfl, hc.next_ne, by simp, by simp, by simp, ⟨le_refl _, hn, by simp⟩, rfl,
              rfl, rfl, ⟨rfl, rfl⟩, ⟨rfl, rfl, rfl⟩⟩
          have hI := evictLoop_inv hc n c.node_brk c n 0 t.next 0 [] c1 nf e del hinit
            (hc.next_ne 0 t ht) hl
          obtain ⟨-, -, -, dnodes, -, -⟩ := deleteAll_spec del _ _ hd
          simp only at dnodes
          intro a nd1 h1
          rw [dnodes a] at h1
          by_cases ha : a ∈ del
          · simp [ha] at h1
          · rw [if_neg ha] at h1
            obtain ⟨nd0, q1, -, q3, -, -⟩ := same_core hI.same h1
            exact ⟨nd0, q1, q3⟩

theorem Inv.used_nonneg {c : FileCache} (hc : Inv c) : 0 ≤ c.bytes_used_ := by
  rw [hc.used, mapBytes]
  apply List.sum_nonneg
  intro x hx
  simp only [List.mem_map] at hx
  obtain ⟨e, he, rfl⟩ := hx
  obtain ⟨-, nd, hnd, -, hsz⟩ := hc.map_live e.1 e.2 he
  simp only [hnd]
  exact hsz

end FileCache

namespace FileCache

theorem room_bufOk {c : FileCache} (hc : Inv c) (hb : BufOk c) {n : Nat} (hn : n < 2 ^ 63)
    {b : Bool} {c1 : FileCache}
    (h : (if c.max_size_ - c.bytes_used_ < (n : Int) then evict c n else some (true, c))
      = some (b, c1)) :
    BufOk c1 ∧ ∀ x, x ∈ c1.cache_map_ → x ∈ c.cache_map_ := by
  by_cases hlt : c.max_size_ - c.bytes_used_ < (n : Int)
  · rw [if_pos hlt] at h
    have hs := evict_spec hc (by omega) h
    refine ⟨fun a nd1 ha h1 => ?_, hs.2.2.2.2.2.2.2.2.2.1⟩
    obtain ⟨nd0, q1, q2⟩ := evict_nodes hc (by omega) h a nd1 h1
    rw [← q2]
    exact hb a nd0 ha q1
  · rw [if_neg hlt] at h
    simp only [Option.some.injEq, Prod.mk.injEq] at h
    obtain ⟨-, rfl⟩ := h
    exact ⟨hb, fun x hx => hx⟩

theorem bufOk_of_core {c c1 : FileCache} (hb : BufOk c)
    (h : ∀ x, (c1.nodes x).map Node.core = (c.nodes x).map Node.core) : BufOk c1 := by
  intro a nd ha h1
  obtain ⟨nd0, q1, -, q3, -, -⟩ := same_core h h1
  rw [← q3]
  exact hb a nd0 ha q1

/-- A completed `load` leaves every node with a Buffer. -/
theorem load_bufOk {fs : FileSystem} {c c' : FileCache} {name : String} {r : PinResult}
    (hc : Inv c) (hb : BufOk c) (hfs : fs.Sized) (h : load fs c name = some (r, c')) :
    BufOk c' := by
  unfold load at h
  cases hf : fs name with
  | absent errno =>
    simp only [hf, Option.some.injEq, Prod.mk.injEq] at h
    obtain ⟨-, rfl⟩ := h
    exact hb
  | present bytes read_errno =>
    have hsz : bytes.length < 2 ^ 63 := hfs name bytes read_errno hf
    simp only [hf] at h
    cases hroom : (if c.max_size_ - c.bytes_used_ < (bytes.length : Int)
        then evict c bytes.length else some (true, c)) with
    | none => simp [hroom] at h
    | some res =>
      obtain ⟨b, c1⟩ := res
      obtain ⟨hb1, -⟩ := room_bufOk hc hb hsz hroom
      simp only [hroom] at h
      cases b with
      | false =>
        simp only [Option.some.injEq, Prod.mk.injEq] at h
        obtain ⟨-, rfl⟩ := h
        exact hb1
      | true =>
        simp only at h
        cases hread : readLoop bytes.length Buffer.new bytes read_errno with
        | none => simp [hread] at h
        | some res2 =>
          cases res2 with
          | error errno =>
            simp only [hread, Option.some.injEq, Prod.mk.injEq] at h
            obtain ⟨-, rfl⟩ := h
            exact hb1
          | ok nb =>
            simp only [hread] at h
            have hb2 : ∀ a nd, a ≠ 0 →
                Function.update c1.nodes c1.node_brk
                  (some { file_name := name, buf := some c1.buf_brk, pin_count := 1,
                          size := (bytes.length : Int), next := none }) a = some nd →
                nd.buf ≠ none := by
              intro a nd ha h1
              by_cases hx : a = c1.node_brk
              · subst hx
                simp only [Function.update_same, Option.some.injEq] at h1
                subst h1
                simp
              · rw [Function.update_noteq hx] at h1
                exact hb1 a nd ha h1
            cases hfind : mapFind c1.cache_map_ name with
            | none =>
              simp only [hfind] at h
              split at h
              · simp at h
              · rename_i c3 hins
                simp only [Option.some.injEq, Prod.mk.injEq] at h
                obtain ⟨-, rfl⟩ := h
                obtain ⟨-, -, -, hcore, -⟩ := nodeInsert_spec hins
                intro a nd ha h1
                simp only at h1
                obtain ⟨nd0, q1, -, q3, -, -⟩ := same_core hcore h1
                rw [← q3]
                exact hb2 a nd0 ha q1
            | some e =>
              simp only [hfind] at h
              split at h
              · simp at h
              · rename_i c3 hdel
                simp only [Option.some.injEq, Prod.mk.injEq] at h
                obtain ⟨-, rfl⟩ := h
                obtain ⟨-, -, hnodes, -, -⟩ := deleteNode_spec hdel
                intro a nd ha h1
                simp only at h1
                rw [hnodes] at h1
                by_cases hx : a = c1.node_brk
                · subst hx
                  simp at h1
                · rw [Function.update_noteq hx] at h1
                  exact hb2 a nd ha h1

theorem pin_bufOk {fs : FileSystem} {c c' : FileCache} {name : String} {r : PinResult}
    (hc : Inv c) (hb : BufOk c) (hfs : fs.Sized) (h : pin fs c name = some (r, c')) :
    BufOk c' := by
  unfold pin at h
  cases hfind : mapFind c.cache_map_ name with
  | none =>
    simp only [hfind] at h
    exact load_bufOk hc hb hfs h
  | some e =>
    obtain ⟨k, a⟩ := e
    simp only [hfind] at h
    cases hnode : c.nodes a with
    | none => simp [hnode] at h
    | some nd =>
      simp only [hnode, Option.some.injEq, Prod.mk.injEq] at h
      obtain ⟨-, rfl⟩ := h
      intro x ndx hx h1
      simp only at h1
      by_cases hxa : x = a
      · subst hxa
        simp only [Function.update_same, Option.some.injEq] at h1
        subst h1
        exact hb x nd hx hnode
      · rw [Function.update_noteq hxa] at h1
        exact hb x ndx hx h1

theorem unpin_bufOk {c c' : FileCache} {h : Addr} {f : Bool} (hb : BufOk c)
    (hu : unpin c h = some (f, c')) : BufOk c' := by
  unfold unpin at hu
  by_cases h0 : h = 0
  · simp only [h0, if_true, Option.some.injEq, Prod.mk.injEq] at hu
    obtain ⟨-, rfl⟩ := hu
    exact hb
  · rw [if_neg h0] at hu
    cases hkey : c.nodes h with
    | none => simp [hkey] at hu
    | some key =>
      simp only [hkey] at hu
      cases hfind : mapFind c.cache_map_ key.file_name with
      | none =>
        simp only [hfind, Option.some.injEq, Prod.mk.injEq] at hu
        obtain ⟨-, rfl⟩ := hu
        exact hb
      | some e =>
        obtain ⟨k, a⟩ := e
        simp only [hfind] at hu
        cases hnode : c.nodes a with
        | none => simp [hnode] at hu
        | some nd =>
          simp only [hnode, Option.some.injEq, Prod.mk.injEq] at hu
          obtain ⟨-, rfl⟩ := hu
          intro x ndx hx h1
          simp only at h1
          by_cases hxa : x = a
          · subst hxa
            simp only [Function.update_same, Option.some.injEq] at h1
            subst h1
            exact hb x nd hx hnode
          · rw [Function.update_noteq hxa] at h1
            exact hb x ndx hx h1

theorem run_bufOk {fs : FileSystem} (hfs : fs.Sized) :
    ∀ (calls : List Call) (c c' : FileCache), Inv c → BufOk c → run fs c calls = some c' →
      Inv c' ∧ BufOk c' := by
  intro calls
  induction calls with
  | nil =>
    intro c c' hc hb h
    simp only [run, Option.some.injEq] at h
    subst h
    exact ⟨hc, hb⟩
  | cons x rest ih =>
    intro c c' hc hb h
    simp only [run] at h
    cases hs : step fs c x with
    | none => simp [hs] at h
    | some c1 =>
      simp only [hs] at h
      have hi := (step_inv hc hfs hs).1
      have hb1 : BufOk c1 := by
        cases x with
        | pin f =>
          simp only [step, Option.map_eq_some'] at hs
          obtain ⟨⟨r, c2⟩, h1, rfl⟩ := hs
          exact pin_bufOk hc hb hfs h1
        | unpin hd =>
          simp only [step, Option.map_eq_some'] at hs
          obtain ⟨⟨r, c2⟩, h1, rfl⟩ := hs
          exact unpin_bufOk hb h1
      exact ih c1 c' hi hb1 h

theorem bufOk_new (max_size : Int) : BufOk (FileCache.new max_size) := by
  intro a nd ha h
  simp [FileCache.new, ha] at h

end FileCache

namespace FileCache

theorem readLoop_error : ∀ (fuel : Nat) (b : Buffer) (rest : List Nat) (re : Option Int) (e : Int),
    readLoop fuel b rest re = some (.error e) → rest ≠ [] ∧ re = some e := by
  intro fuel
  induction fuel with
  | zero =>
    intro b rest re e h
    unfold readLoop at h
    split at h
    · simp at h
    · simp at h
  | succ fuel ih =>
    intro b rest re e h
    unfold readLoop at h
    split at h
    · rename_i hlen
      cases re with
      | some e' =>
        simp only [Option.some.injEq, Except.error.injEq] at h
        subst h
        exact ⟨fun h0 => by simp [h0] at hlen, rfl⟩
      | none =>
        simp only at h
        exact absurd (ih _ _ _ _ h).2 (by simp)
    · simp at h

theorem readLoop_ok : ∀ (fuel : Nat) (b : Buffer) (rest : List Nat) (re : Option Int)
    (nb : Buffer), readLoop fuel b rest re = some (.ok nb) → rest = [] ∨ re = none := by
  intro fuel b rest re nb h
  cases re with
  | none => exact Or.inr rfl
  | some e =>
    left
    unfold readLoop at h
    split at h
    · cases fuel with
      | zero => simp at h
      | succ f => simp at h
    · rename_i hlen
      exact List.length_eq_zero.1 (by omega)

/-- The room test of `load`: the map only shrinks, and the test fails exactly when there is no
room. -/
theorem room_cause {c : FileCache} (hc : Inv c) {n : Nat} (hn : n < 2 ^ 63) {b : Bool}
    {c1 : FileCache}
    (h : (if c.max_size_ - c.bytes_used_ < (n : Int) then evict c n else some (true, c))
      = some (b, c1)) :
    (∀ x, x ∈ c1.cache_map_ → x ∈ c.cache_map_) ∧
      ((b = false → NoRoom c n) ∧ (NoRoom c n → b = false)) := by
  by_cases hlt : c.max_size_ - c.bytes_used_ < (n : Int)
  · rw [if_pos hlt] at h
    have hs := evict_spec hc (by omega) h
    refine ⟨hs.2.2.2.2.2.2.2.2.2.1, ⟨fun hb => ⟨hlt, ?_⟩, fun hn => ?_⟩⟩
    · rw [h, hb]
      rfl
    · have := hn.2
      rw [h] at this
      simpa using this
  · rw [if_neg hlt] at h
    simp only [Option.some.injEq, Prod.mk.injEq] at h
    obtain ⟨rfl, rfl⟩ := h
    exact ⟨fun x hx => hx, ⟨fun hb => (by cases hb), fun hn => absurd hn.1 hlt⟩⟩

/-- What a completed `load` of a path that is not in the map reports. -/
theorem load_report {fs : FileSystem} {c c' : FileCache} {name : String} {r : PinResult}
    (hc : Inv c) (hfs : fs.Sized) (h : load fs c name = some (r, c'))
    (hmiss : mapFind c.cache_map_ name = none) :
    (∀ e, fs name = .absent e → r = ⟨0, none, e⟩) ∧
    (∀ bytes re, fs name = .present bytes re →
      (NoRoom c bytes.length → r = ⟨0, none, 0⟩) ∧
      (¬ NoRoom c bytes.length → bytes ≠ [] → ∀ e, re = some e → r = ⟨0, none, e⟩) ∧
      (¬ NoRoom c bytes.length → (bytes = [] ∨ re = none) →
        r.h ≠ 0 ∧ r.buf ≠ none ∧ r.error = 0)) := by
  unfold load at h
  cases hf : fs name with
  | absent errno =>
    simp only [hf, Option.some.injEq, Prod.mk.injEq] at h
    obtain ⟨rfl, -⟩ := h
    refine ⟨fun e he => ?_, fun bytes re hp => by cases hp⟩
    cases he
    rfl
  | present bytes read_errno =>
    have hsz : bytes.length < 2 ^ 63 := hfs name bytes read_errno hf
    simp only [hf] at h
    refine ⟨fun e he => (by cases he), fun bytes' re' hp => ?_⟩
    cases hp
    cases hroom : (if c.max_size_ - c.bytes_used_ < (bytes.length : Int)
        then evict c bytes.length else some (true, c)) with
    | none => simp [hroom] at h
    | some res =>
      obtain ⟨b, c1⟩ := res
      obtain ⟨i1, -, -, -⟩ := room_spec hc hsz hroom
      obtain ⟨hsub, hno⟩ := room_cause hc hsz hroom
      simp only [hroom] at h
      cases b with
      | false =>
        simp only [Option.some.injEq, Prod.mk.injEq] at h
        obtain ⟨rfl, -⟩ := h
        have hN : NoRoom c bytes.length := hno.1 rfl
        exact ⟨fun _ => rfl, fun hn => absurd hN hn, fun hn => absurd hN hn⟩
      | true =>
        have hN : ¬ NoRoom c bytes.length := fun hn => by
          have := hno.2 hn
          cases this
        simp only at h
        cases hread : readLoop bytes.length Buffer.new bytes read_errno with
        | none => simp [hread] at h
        | some res2 =>
          cases res2 with
          | error errno =>
            simp only [hread, Option.some.injEq, Prod.mk.injEq] at h
            obtain ⟨rfl, -⟩ := h
            obtain ⟨hne, hre⟩ := readLoop_error _ _ _ _ _ hread
            refine ⟨fun hn => absurd hn hN, fun _ _ e he => ?_, fun _ hcase => ?_⟩
            · rw [hre] at he
              cases he
              rfl
            · rcases hcase with h1 | h1
              · exact absurd h1 hne
              · rw [hre] at h1
                cases h1
          | ok nb =>
            simp only [hread] at h
            have hcase := readLoop_ok _ _ _ _ _ hread
            have hfind : mapFind c1.cache_map_ name = none := by
              cases hf1 : mapFind c1.cache_map_ name with
              | none => rfl
              | some e =>
                obtain ⟨k, a⟩ := e
                obtain ⟨rfl, hmem⟩ := mapFind_some hf1
                exact absurd (List.mem_map.2 ⟨_, hsub _ hmem, rfl⟩) (mapFind_none hmiss)
            simp only [hfind] at h
            split at h
            · simp at h
            · simp only [Option.some.injEq, Prod.mk.injEq] at h
              obtain ⟨rfl, -⟩ := h
              refine ⟨fun hn => absurd hn hN, fun _ hne e he => ?_, fun _ _ => ?_⟩
              · rcases hcase with h1 | h1
                · exact absurd h1 hne
                · rw [h1] at he
                  cases he
              · exact ⟨Nat.pos_iff_ne_zero.1 i1.brk_pos, by simp, rfl⟩

end FileCache

namespace FileCache

/-- A file larger than the cache is not loaded: `load` reports no room. -/
theorem load_too_large {fs : FileSystem} {c c' : FileCache} {name : String} {r : PinResult}
    {bytes : List Nat} {re : Option Int} (hc : Inv c) (hfs : fs.Sized)
    (h : load fs c name = some (r, c')) (hf : fs name = .present bytes re)
    (hbig : c.max_size_ < (bytes.length : Int)) : r = ⟨0, none, 0⟩ := by
  have hsz : bytes.length < 2 ^ 63 := hfs name bytes re hf
  have hused := hc.used_nonneg
  have hlt : c.max_size_ - c.bytes_used_ < (bytes.length : Int) := by omega
  unfold load at h
  simp only [hf, if_pos hlt] at h
  cases hev : evict c bytes.length with
  | none => simp [hev] at h
  | some res =>
    obtain ⟨b, c1⟩ := res
    simp only [hev] at h
    cases b with
    | false =>
      simp only [Option.some.injEq, Prod.mk.injEq] at h
      exact h.1.symm
    | true =>
      obtain ⟨i1, -, -, -, -, -, -, -, i9, -, -⟩ := evict_spec hc (by omega) hev
      have h1 := i9 rfl
      have h2 := i1.used_nonneg
      have h3 := hc.cap
      omega

/-- C11. Pin failure reporting, for a cache in any state reached from a fresh one by calls of
`pin` and `unpin`, and a `pin` that returns. The handle is 0 iff the Buffer pointer is NULL, and
a pin that succeeds reports error 0. When the handle is 0: if `open` failed the error is its
error number; if the cache had no room for the file (`evict` returned false) the error is 0; if
there was room and `read` failed the error is its error number; and a file that can be opened
and read fails for lack of room only. A pin of a file that is not cached and is larger than the
cache fails with error 0. -/
theorem pin_failure_reporting (fs : FileSystem) (max_size : Int) (calls : List Call)
    (c c' : FileCache) (name : String) (r : PinResult) (hmax : 0 ≤ max_size) (hfs : fs.Sized)
    (hrun : run fs (FileCache.new max_size) calls = some c)
    (hpin : pin fs c name = some (r, c')) :
    (r.h = 0 ↔ r.buf = none) ∧ (r.h ≠ 0 → r.error = 0) ∧
    (r.h = 0 →
      (∀ e, fs name = .absent e → r.error = e) ∧
      (∀ bytes re, fs name = .present bytes re → NoRoom c bytes.length → r.error = 0) ∧
      (∀ bytes e, fs name = .present bytes (some e) → ¬ NoRoom c bytes.length → r.error = e) ∧
      (∀ bytes, fs name = .present bytes none → NoRoom c bytes.length)) ∧
    (∀ bytes re, fs name = .present bytes re → mapFind c.cache_map_ name = none →
      max_size < (bytes.length : Int) → r.h = 0 ∧ r.error = 0) := by
  obtain ⟨hc, hb⟩ := run_bufOk hfs calls _ c (inv_new max_size hmax) (bufOk_new max_size) hrun
  have hm : c.max_size_ = max_size := (run_inv hfs calls _ c (inv_new max_size hmax) hrun).2
  unfold pin at hpin
  cases hfind : mapFind c.cache_map_ name with
  | some e =>
    obtain ⟨k, a⟩ := e
    simp only [hfind] at hpin
    cases hnode : c.nodes a with
    | none => simp [hnode] at hpin
    | some nd =>
      simp only [hnode, Option.some.injEq, Prod.mk.injEq] at hpin
      obtain ⟨rfl, -⟩ := hpin
      obtain ⟨-, hmem⟩ := mapFind_some hfind
      have ha : a ≠ 0 := (hc.map_live k a hmem).1
      have hbuf : nd.buf ≠ none := hb a nd ha hnode
      refine ⟨⟨fun h0 => absurd h0 ha, fun h0 => absurd h0 hbuf⟩, fun _ => rfl,
        fun h0 => absurd h0 ha, fun _ _ _ hmiss _ => by cases hmiss⟩
  | none =>
    simp only [hfind] at hpin
    obtain ⟨r1, r2⟩ := load_report hc hfs hpin hfind
    refine ⟨?_, ?_, ?_, ?_⟩
    · cases hf : fs name with
      | absent e => rw [r1 e hf]; simp
      | present bytes re =>
        obtain ⟨g1, g2, g3⟩ := r2 bytes re hf
        by_cases hN : NoRoom c bytes.length
        · rw [g1 hN]; simp
        · by_cases hok : bytes = [] ∨ re = none
          · obtain ⟨k1, k2, -⟩ := g3 hN hok
            exact ⟨fun h0 => absurd h0 k1, fun h0 => absurd h0 k2⟩
          · have hne : bytes ≠ [] := fun h0 => hok (Or.inl h0)
            cases re with
            | none => exact absurd (Or.inr rfl) hok
            | some e => rw [g2 hN hne e rfl]; simp
    · intro hr
      cases hf : fs name with
      | absent e => rw [r1 e hf] at hr; exact absurd rfl hr
      | present bytes re =>
        obtain ⟨g1, g2, g3⟩ := r2 bytes re hf
        by_cases hN : NoRoom c bytes.length
        · rw [g1 hN]
        · by_cases hok : bytes = [] ∨ re = none
          · exact (g3 hN hok).2.2
          · have hne : bytes ≠ [] := fun h0 => hok (Or.inl h0)
            cases re with
            | none => exact absurd (Or.inr rfl) hok
            | some e => rw [g2 hN hne e rfl] at hr; exact absurd rfl hr
    · intro hr
      refine ⟨fun e hf => by rw [r1 e hf], fun bytes re hf hN => by rw [(r2 bytes re hf).1 hN],
        fun bytes e hf hN => ?_, fun bytes hf => ?_⟩
      · obtain ⟨-, g2, g3⟩ := r2 bytes (some e) hf
        by_cases hne : bytes = []
        · exact absurd hr (g3 hN (Or.inl hne)).1
        · rw [g2 hN hne e rfl]
      · obtain ⟨-, -, g3⟩ := r2 bytes none hf
        by_contra hN
        exact absurd hr (g3 hN (Or.inr rfl)).1
    · intro bytes re hf _ hbig
      rw [load_too_large hc hfs hpin hf (by rw [hm]; exact hbig)]
      exact ⟨rfl, rfl⟩

end FileCache

namespace FileCache

theorem pin_getD {fs : FileSystem} {c : FileCache} {name : String} {d : PinResult × FileCache}
    (h : (pin fs c name).isSome = true) :
    pin fs c name = some (((pin fs c name).getD d).1, ((pin fs c name).getD d).2) := by
  cases hr : pin fs c name with
  | none => rw [hr] at h; cases h
  | some x => rfl

/-- Witness for C11: the cache of capacity 10 is full with the pinned file `ten`; `pin("abc")`
finds no room and returns handle 0, no Buffer and error 0. -/
theorem pin_failure_reporting_witness :
    pinAbc.1 = ⟨0, none, 0⟩ ∧
    ((pinAbc.1.h = 0 ↔ pinAbc.1.buf = none) ∧ (pinAbc.1.h ≠ 0 → pinAbc.1.error = 0) ∧
    (pinAbc.1.h = 0 →
      (∀ e, fsA "abc" = .absent e → pinAbc.1.error = e) ∧
      (∀ bytes re, fsA "abc" = .present bytes re → NoRoom cacheP bytes.length →
        pinAbc.1.error = 0) ∧
      (∀ bytes e, fsA "abc" = .present bytes (some e) → ¬ NoRoom cacheP bytes.length →
        pinAbc.1.error = e) ∧
      (∀ bytes, fsA "abc" = .present bytes none → NoRoom cacheP bytes.length)) ∧
    (∀ bytes re, fsA "abc" = .present bytes re → mapFind cacheP.cache_map_ "abc" = none →
      (10 : Int) < (bytes.length : Int) → pinAbc.1.h = 0 ∧ pinAbc.1.error = 0)) :=
  ⟨by decide!,
    pin_failure_reporting fsA 10 [.pin "ten"] cacheP pinAbc.2 "abc" pinAbc.1 (by decide)
      fsA_sized run_cacheP (pin_getD (by decide!))⟩

end FileCache

/-! ## ThreadPoolFast: dispatch rule and invariant -/

namespace ThreadPoolFast

/-- Changing a function at one point below `n` changes its sum over `0 .. n - 1` by the change at
that point. -/
theorem sum_range_update (n w0 : Nat) (hw : w0 < n) (f g : Nat → Nat)
    (h : ∀ w, w ≠ w0 → g w = f w) :
    Finset.sum (Finset.range n) g + f w0 = Finset.sum (Finset.range n) f + g w0 := by
  have hm : w0 ∈ Finset.range n := Finset.mem_range.2 hw
  rw [← Finset.add_sum_erase _ g hm, ← Finset.add_sum_erase _ f hm]
  have : Finset.sum ((Finset.range n).erase w0) g = Finset.sum ((Finset.range n).erase w0) f :=
    Finset.sum_congr rfl (fun w hw' => h w (Finset.ne_of_mem_erase hw'))
  rw [this]
  generalize Finset.sum ((Finset.range n).erase w0) f = S
  omega

theorem sum_range_congr (n : Nat) (f g : Nat → Nat) (h : ∀ w, w < n → g w = f w) :
    Finset.sum (Finset.range n) g = Finset.sum (Finset.range n) f :=
  Finset.sum_congr rfl (fun w hw => h w (Finset.mem_range.1 hw))

/-- A sum of `n` terms, each at most 1 and one of them 0, is below `n`. -/
theorem sum_range_lt (n j : Nat) (hj : j < n) (f : Nat → Nat) (h1 : ∀ w, w < n → f w ≤ 1)
    (h0 : f j = 0) : Finset.sum (Finset.range n) f < n := by
  have hm : j ∈ Finset.range n := Finset.mem_range.2 hj
  rw [← Finset.add_sum_erase _ f hm, h0, Nat.zero_add]
  have hle : Finset.sum ((Finset.range n).erase j) f ≤ ((Finset.range n).erase j).card • 1 :=
    Finset.sum_le_card_nsmul _ _ _
      (fun w hw => h1 w (Finset.mem_range.1 (Finset.mem_of_mem_erase hw)))
  rw [Finset.card_erase_of_mem hm, Finset.card_range] at hle
  simp only [smul_eq_mul, Nat.mul_one] at hle
  generalize Finset.sum ((Finset.range n).erase j) f = S at hle ⊢
  omega

theorem new_eq (n : Nat) :
    ThreadPoolFast.new n =
      { dispatch_queue_ := [], workers_ := (List.range n).reverse, num_workers := n
        worker := fun _ => { has_task_ := false, task_ := none } } := by
  have key : ∀ (l : List Nat) (p : ThreadPoolFast), p.dispatch_queue_ = [] →
      l.foldl queueWorker p = { p with workers_ := l.reverse ++ p.workers_ } := by
    intro l
    induction l with
    | nil => intro p _; simp
    | cons a l ih =>
      intro p hp
      have h1 : queueWorker p a = { p with workers_ := a :: p.workers_ } := by
        simp [queueWorker, hp]
      rw [List.foldl_cons, h1, ih _ (by simpa using hp)]
      simp
  unfold ThreadPoolFast.new
  rw [key _ _ rfl]
  simp

end ThreadPoolFast

namespace ThreadPoolFast

/-- C18. Fast-pool dispatch rule. `addTask(t)` with a non-empty free list takes the worker at its
front off the list, puts `t` in that worker's mailbox and leaves the dispatch queue and the other
mailboxes as they are; with an empty free list it appends `t` at the tail of the dispatch queue
and touches nothing else. A worker that finishes a task calls `queueWorker`: with a non-empty
dispatch queue it gets the task at the head of the queue in its mailbox, the queue loses its
head and the free list is unchanged; with an empty queue the worker is put on the free list and
the queue stays empty. -/
theorem dispatch_rule (p : ThreadPoolFast) (t : Option Callback) (w : Nat) :
    (∀ v rest, p.workers_ = v :: rest →
      (p.addTask t).workers_ = rest ∧
      (p.addTask t).worker v = { has_task_ := true, task_ := t } ∧
      (∀ u, u ≠ v → (p.addTask t).worker u = p.worker u) ∧
      (p.addTask t).dispatch_queue_ = p.dispatch_queue_) ∧
    (p.workers_ = [] →
      (p.addTask t).dispatch_queue_ = p.dispatch_queue_ ++ [t] ∧
      (p.addTask t).workers_ = [] ∧ (p.addTask t).worker = p.worker) ∧
    (∀ h rest, p.dispatch_queue_ = h :: rest →
      (p.queueWorker w).worker w = { has_task_ := true, task_ := h } ∧
      (∀ u, u ≠ w → (p.queueWorker w).worker u = p.worker u) ∧
      (p.queueWorker w).dispatch_queue_ = rest ∧
      (p.queueWorker w).workers_ = p.workers_) ∧
    (p.dispatch_queue_ = [] →
      (p.queueWorker w).workers_ = w :: p.workers_ ∧
      (p.queueWorker w).dispatch_queue_ = [] ∧ (p.queueWorker w).worker = p.worker) ∧
    (∀ (s : Sys) (c : Callback), w < s.pool.num_workers → s.phase w = .running c →
      step s (.finish w) =
        some { s with done := s.done ++ [c], pool := s.pool.queueWorker w
                      phase := Function.update s.phase w .waiting }) := by
  refine ⟨fun v rest h => ?_, fun h => ?_, fun h rest hq => ?_, fun hq => ?_, fun s c hw hp => ?_⟩
  · simp only [addTask, h, assignTask, Function.update_same, true_and]
    exact ⟨fun u hu => Function.update_noteq hu _ _, trivial⟩
  · simp only [addTask, h, and_self]
  · simp only [queueWorker, hq, assignTask, Function.update_same, true_and, and_true]
    exact fun u hu => Function.update_noteq hu _ _
  · simp only [queueWorker, hq, and_self]
  · simp only [step, hw, if_true, hp]

end ThreadPoolFast

namespace ThreadPoolFast

theorem held_update (s s' : Sys) (x : Option Callback) (w0 : Nat)
    (hn : s'.pool.num_workers = s.pool.num_workers) (hw : w0 < s.pool.num_workers)
    (h : ∀ w, w ≠ w0 → s'.pool.worker w = s.pool.worker w ∧ s'.phase w = s.phase w) :
    s'.held x + itemCount x (s.pool.worker w0) (s.phase w0) =
      s.held x + itemCount x (s'.pool.worker w0) (s'.phase w0) := by
  unfold Sys.held
  rw [hn]
  exact sum_range_update _ w0 hw (fun w => itemCount x (s.pool.worker w) (s.phase w))
    (fun w => itemCount x (s'.pool.worker w) (s'.phase w))
    (fun w hw' => by simp only [(h w hw').1, (h w hw').2])

theorem held_same (s s' : Sys) (x : Option Callback)
    (hn : s'.pool.num_workers = s.pool.num_workers)
    (h : ∀ w, s'.pool.worker w = s.pool.worker w ∧ s'.phase w = s.phase w) :
    s'.held x = s.held x := by
  unfold Sys.held
  rw [hn]
  exact sum_range_congr _ (fun w => itemCount x (s.pool.worker w) (s.phase w))
    (fun w => itemCount x (s'.pool.worker w) (s'.phase w))
    (fun w _ => by simp only [(h w).1, (h w).2])

theorem cnt_nil (x : Option Callback) : cnt x [] = 0 := rfl

theorem cnt_cons (x a : Option Callback) (l : List (Option Callback)) :
    cnt x (a :: l) = cnt x l + (if a = x then 1 else 0) := by
  simp [cnt, List.countP_cons]

theorem cnt_append (x : Option Callback) (l1 l2 : List (Option Callback)) :
    cnt x (l1 ++ l2) = cnt x l1 + cnt x l2 := by
  simp [cnt, List.countP_append]

theorem cnt_replicate (x : Option Callback) (k : Nat) :
    cnt x (List.replicate k none) = if x = none then k else 0 := by
  induction k with
  | zero => simp [cnt]
  | succ k ih =>
    rw [List.replicate_succ, cnt_cons, ih]
    by_cases hx : x = none
    · simp [hx]
    · have : ¬ none = x := fun h => hx h.symm
      simp [hx, this]

theorem cnt_none_map_some (l : List Callback) : cnt none (l.map some) = 0 := by
  induction l with
  | nil => rfl
  | cons a l ih => rw [List.map_cons, cnt_cons, ih]; simp

theorem cnt_some_map_some (l : List Callback) (t : Callback) :
    cnt (some t) (l.map some) = l.count t := by
  induction l with
  | nil => rfl
  | cons a l ih =>
    rw [List.map_cons, cnt_cons, ih, List.count_cons]
    by_cases h : a = t
    · simp [h]
    · simp [h]

theorem cnt_eq_zero {x : Option Callback} {l : List (Option Callback)} (h : cnt x l = 0) :
    x ∉ l := by
  intro hm
  induction l with
  | nil => cases hm
  | cons a l ih =>
    rw [cnt_cons] at h
    rcases List.mem_cons.1 hm with rfl | h1
    · simp at h
    · exact ih (by omega) h1

theorem cnt_of_not_mem {x : Option Callback} {l : List (Option Callback)} (h : x ∉ l) :
    cnt x l = 0 := by
  induction l with
  | nil => rfl
  | cons a l ih =>
    rw [cnt_cons, ih (fun hm => h (List.mem_cons_of_mem _ hm))]
    have : ¬ a = x := fun e => h (e ▸ List.mem_cons_self _ _)
    simp [this]

/-- Before `stop()` is called no stop request is anywhere. -/
theorem no_nulls {n : Nat} {tasks : List Callback} {s : Sys} (h : Sys.Inv n tasks s)
    (hn : s.nullsLeft = n) :
    none ∉ s.pool.dispatch_queue_ ∧
      ∀ w, w < n → itemCount none (s.pool.worker w) (s.phase w) = 0 := by
  have ha := h.account none
  simp only [cnt_append, cnt_none_map_some, cnt_replicate, hn, if_true, Nat.zero_add] at ha
  have hq : cnt none s.pool.dispatch_queue_ = 0 := by omega
  have hh : s.held none = 0 := by omega
  refine ⟨cnt_eq_zero hq, fun w hw => ?_⟩
  unfold Sys.held at hh
  rw [Finset.sum_eq_zero_iff] at hh
  exact hh w (Finset.mem_range.2 (by rw [h.num]; exact hw))

end ThreadPoolFast

namespace ThreadPoolFast

theorem itemCount_idle (x : Option Callback) (m : Worker) (hm : m.has_task_ = false) :
    itemCount x m .waiting = 0 := by
  simp [itemCount, hm]

theorem itemCount_mail (x y : Option Callback) :
    itemCount x { has_task_ := true, task_ := y } .waiting = if y = x then 1 else 0 := by
  simp [itemCount]

theorem itemCount_running (x : Option Callback) (m : Worker) (t : Callback)
    (hm : m.has_task_ = false) :
    itemCount x m (.running t) = if some t = x then 1 else 0 := by
  simp [itemCount, hm]

theorem itemCount_exited (x : Option Callback) (m : Worker) (hm : m.has_task_ = false) :
    itemCount x m .exited = if x = none then 1 else 0 := by
  simp [itemCount, hm]

theorem itemCount_exited_mk (x o : Option Callback) :
    itemCount x { has_task_ := false, task_ := o } .exited = if x = none then 1 else 0 := by
  simp [itemCount]

theorem itemCount_running_mk (x o : Option Callback) (t : Callback) :
    itemCount x { has_task_ := false, task_ := o } (.running t) =
      if some t = x then 1 else 0 := by
  simp [itemCount]

theorem inv_init (n : Nat) (tasks : List Callback) : Sys.Inv n tasks (Sys.init n tasks) := by
  unfold Sys.init
  rw [new_eq]
  refine ⟨rfl, Nat.zero_le _, fun w hw => absurd hw (Nat.not_lt_zero _), fun _ => rfl, fun x => ?_,
    fun w _ hp => absurd rfl hp, fun w => ?_, ?_, fun _ => rfl, List.Pairwise.nil, ?_⟩
  · simp [Sys.held, itemCount, cnt_nil]
  · simp only [List.mem_reverse, List.mem_range, and_self, and_true]
  · exact List.nodup_reverse.2 (List.nodup_range n)
  · rintro ⟨w, -, hw⟩
    rw [itemCount_idle none _ rfl] at hw
    exact absurd hw (Nat.lt_irrefl 0)

/-- The invariant is kept when the client hands the item `x` to `addTask`. -/
theorem inv_addTask {n : Nat} {tasks : List Callback} {s : Sys} (h : Sys.Inv n tasks s)
    (x : Option Callback) (tl : List Callback) (nl : Nat)
    (hleft : ∀ y, cnt y (s.tasksLeft.map some ++ List.replicate s.nullsLeft none) =
      cnt y (tl.map some ++ List.replicate nl none) + (if x = y then 1 else 0))
    (horder : tl ≠ [] → nl = n)
    (hreal : ∀ t, x = some t → s.nullsLeft = n) :
    Sys.Inv n tasks { s with pool := s.pool.addTask x, tasksLeft := tl, nullsLeft := nl } := by
  cases hfl : s.pool.workers_ with
  | nil =>
    have hp : s.pool.addTask x = { s.pool with dispatch_queue_ := s.pool.dispatch_queue_ ++ [x] } := by
      simp [addTask, hfl]
    rw [hp]
    refine ⟨h.num, h.joined_le, h.joined_exited, horder, fun y => ?_, h.busy, ?_, ?_, ?_, ?_, ?_⟩
    · have ha := h.account y
      have hl := hleft y
      have hh := held_same s
        { s with pool := { s.pool with dispatch_queue_ := s.pool.dispatch_queue_ ++ [x] },
                 tasksLeft := tl, nullsLeft := nl } y rfl (fun w => ⟨rfl, rfl⟩)
      rw [hh]
      simp only [cnt_append, cnt_cons, cnt_nil] at ha hl ⊢
      omega
    · exact h.free
    · exact h.free_nodup
    · intro hne
      exact absurd hfl hne
    · simp only
      rw [List.pairwise_append]
      refine ⟨h.nulls_last, List.pairwise_singleton _ _, fun a ha b hb ha0 => ?_⟩
      rw [List.mem_singleton] at hb
      subst hb
      cases b with
      | none => rfl
      | some t =>
        have := (no_nulls h (hreal t rfl)).1
        rw [ha0] at ha
        exact absurd ha this
    · intro hex t
      simp only [List.mem_append, List.mem_singleton, not_or]
      refine ⟨h.delivered hex t, fun hx => ?_⟩
      obtain ⟨w, hw, hpos⟩ := hex
      have := (no_nulls h (hreal t hx.symm)).2 w hw
      simp only at hpos
      omega
  | cons w0 fr =>
    have hmem : w0 ∈ s.pool.workers_ := by rw [hfl]; exact List.mem_cons_self _ _
    obtain ⟨hw0, hph, hht⟩ := (h.free w0).1 hmem
    have hq : s.pool.dispatch_queue_ = [] := h.free_queue (by rw [hfl]; simp)
    have hnd := h.free_nodup
    rw [hfl] at hnd
    have hp : s.pool.addTask x =
        { s.pool with workers_ := fr
                      worker := Function.update s.pool.worker w0 { has_task_ := true, task_ := x } } := by
      simp [addTask, hfl, assignTask]
    rw [hp]
    refine ⟨h.num, h.joined_le, h.joined_exited, horder, fun y => ?_, fun w hw hp' => ?_,
      fun w => ?_, (List.nodup_cons.1 hnd).2, fun _ => hq, ?_, ?_⟩
    · have ha := h.account y
      have hl := hleft y
      have hu := held_update s
        { s with pool := { s.pool with workers_ := fr,
                                       worker := Function.update s.pool.worker w0
                                         { has_task_ := true, task_ := x } },
                 tasksLeft := tl, nullsLeft := nl } y w0 rfl (by rw [h.num]; exact hw0)
        (fun w hw => ⟨Function.update_noteq hw _ _, rfl⟩)
      simp only [Function.update_same, hph, itemCount_idle y _ hht, itemCount_mail] at hu
      simp only [cnt_append] at ha hl ⊢
      omega
    · simp only at hp' ⊢
      by_cases hw' : w = w0
      · subst hw'
        exact absurd hph hp'
      · rw [Function.update_noteq hw']
        exact h.busy w hw hp'
    · simp only
      by_cases hw' : w = w0
      · subst hw'
        simp only [Function.update_same]
        constructor
        · intro hm
          exact absurd hm (List.nodup_cons.1 hnd).1
        · rintro ⟨-, -, hc⟩
          cases hc
      · rw [Function.update_noteq hw', ← h.free w, hfl, List.mem_cons]
        constructor
        · exact fun hm => Or.inr hm
        · rintro (hm | hm)
          · exact absurd hm hw'
          · exact hm
    · simp only
      exact h.nulls_last
    · intro _ t
      simp only
      rw [hq]
      exact List.not_mem_nil _

end ThreadPoolFast

namespace ThreadPoolFast

theorem inv_client {n : Nat} {tasks : List Callback} {s s' : Sys} (h : Sys.Inv n tasks s)
    (hs : step s .client = some s') : Sys.Inv n tasks s' := by
  simp only [step] at hs
  cases htl : s.tasksLeft with
  | cons t rest =>
    simp only [htl, Option.some.injEq] at hs
    subst hs
    have hnl := h.order (by rw [htl]; simp)
    have := inv_addTask h (some t) rest s.nullsLeft
      (fun y => by rw [htl, List.map_cons, List.cons_append, cnt_cons])
      (fun _ => hnl) (fun _ _ => hnl)
    exact this
  | nil =>
    simp only [htl] at hs
    by_cases hnl : s.nullsLeft > 0
    · rw [if_pos hnl] at hs
      simp only [Option.some.injEq] at hs
      subst hs
      have := inv_addTask h none [] (s.nullsLeft - 1)
        (fun y => by
          obtain ⟨k, hk⟩ : ∃ k, s.nullsLeft = k + 1 := ⟨s.nullsLeft - 1, by omega⟩
          rw [htl, hk, Nat.add_sub_cancel, List.replicate_succ]
          simp only [List.map_nil, List.nil_append, cnt_cons])
        (fun hne => absurd rfl hne) (fun t ht => by cases ht)
      exact this
    · rw [if_neg hnl] at hs
      split at hs
      · rename_i hj
        simp only [Option.some.injEq] at hs
        subst hs
        rw [h.num] at hj
        refine ⟨h.num, hj.1, fun w hw => ?_, fun hne => absurd rfl hne,
          fun y => (by have := h.account y; rw [htl] at this; exact this), h.busy, h.free,
          h.free_nodup, h.free_queue, h.nulls_last, h.delivered⟩
        simp only at hw
        by_cases hw' : w = s.joined
        · rw [hw']; exact hj.2
        · exact h.joined_exited w (by omega)
      · cases hs

theorem inv_take {n : Nat} {tasks : List Callback} {s s' : Sys} (h : Sys.Inv n tasks s) (w0 : Nat)
    (hs : step s (.take w0) = some s') : Sys.Inv n tasks s' := by
  simp only [step] at hs
  split at hs
  · rename_i hen
    obtain ⟨hw0, hph, hht⟩ := hen
    rw [h.num] at hw0
    have hnotfree : w0 ∉ s.pool.workers_ := by
      intro hm
      have := ((h.free w0).1 hm).2.2
      rw [hht] at this
      cases this
    cases htask : (s.pool.worker w0).task_ with
    | none =>
      simp only [htask, Option.some.injEq] at hs
      subst hs
      have hold : ∀ y, itemCount y (s.pool.worker w0) (s.phase w0) = if y = none then 1 else 0 := by
        intro y
        simp only [itemCount, hht, htask, hph, true_and, Nat.add_zero]
        by_cases hy : y = none
        · simp [hy]
        · have : ¬ none = y := fun e => hy e.symm
          simp [hy, this]
      refine ⟨h.num, h.joined_le, fun w hw => ?_, h.order, fun y => ?_, fun w hw hp' => ?_,
        fun w => ?_, h.free_nodup, h.free_queue, h.nulls_last, fun _ => ?_⟩
      · simp only
        by_cases hw' : w = w0
        · rw [hw', Function.update_same]
        · rw [Function.update_noteq hw']
          exact h.joined_exited w hw
      · have ha := h.account y
        have hu := held_update s
          { s with pool := { s.pool with worker := Function.update s.pool.worker w0
                                           { s.pool.worker w0 with has_task_ := false } },
                   phase := Function.update s.phase w0 .exited } y w0 rfl
          (by rw [h.num]; exact hw0)
          (fun w hw => ⟨Function.update_noteq hw _ _, Function.update_noteq hw _ _⟩)
        simp only [Function.update_same, hold, itemCount_exited_mk, htask] at hu
        simp only
        omega
      · simp only at hp' ⊢
        by_cases hw' : w = w0
        · rw [hw', Function.update_same]
        · rw [Function.update_noteq hw'] at hp' ⊢
          exact h.busy w hw hp'
      · simp only
        by_cases hw' : w = w0
        · rw [hw', Function.update_same]
          constructor
          · exact fun hm => absurd hm hnotfree
          · rintro ⟨-, hc, -⟩
            cases hc
        · rw [Function.update_noteq hw', Function.update_noteq hw']
          exact h.free w
      · exact h.delivered ⟨w0, hw0, by rw [hold]; simp⟩
    | some t =>
      simp only [htask, Option.some.injEq] at hs
      subst hs
      have hold : ∀ y, itemCount y (s.pool.worker w0) (s.phase w0) =
          if some t = y then 1 else 0 := by
        intro y
        simp only [itemCount, hht, htask, hph, true_and, Nat.add_zero]
      refine ⟨h.num, h.joined_le, fun w hw => ?_, h.order, fun y => ?_, fun w hw hp' => ?_,
        fun w => ?_, h.free_nodup, h.free_queue, h.nulls_last, ?_⟩
      · simp only
        by_cases hw' : w = w0
        · have := h.joined_exited w hw
          rw [hw', hph] at this
          cases this
        · rw [Function.update_noteq hw']
          exact h.joined_exited w hw
      · have ha := h.account y
        have hu := held_update s
          { s with pool := { s.pool with worker := Function.update s.pool.worker w0
                                           { s.pool.worker w0 with has_task_ := false } },
                   phase := Function.update s.phase w0 (.running t) } y w0 rfl
          (by rw [h.num]; exact hw0)
          (fun w hw => ⟨Function.update_noteq hw _ _, Function.update_noteq hw _ _⟩)
        simp only [Function.update_same, hold, itemCount_running_mk, htask] at hu
        simp only
        omega
      · simp only at hp' ⊢
        by_cases hw' : w = w0
        · rw [hw', Function.update_same]
        · rw [Function.update_noteq hw'] at hp' ⊢
          exact h.busy w hw hp'
      · simp only
        by_cases hw' : w = w0
        · rw [hw', Function.update_same]
          constructor
          · exact fun hm => absurd hm hnotfree
          · rintro ⟨-, hc, -⟩
            cases hc
        · rw [Function.update_noteq hw', Function.update_noteq hw']
          exact h.free w
      · rintro ⟨w, hw, hpos⟩
        simp only at hpos
        by_cases hw' : w = w0
        · rw [hw', Function.update_same, Function.update_same, itemCount_running_mk] at hpos
          simp at hpos
        · rw [Function.update_noteq hw', Function.update_noteq hw'] at hpos
          exact h.delivered ⟨w, hw, hpos⟩
  · cases hs

end ThreadPoolFast

namespace ThreadPoolFast

theorem inv_finish {n : Nat} {tasks : List Callback} {s s' : Sys} (h : Sys.Inv n tasks s)
    (w0 : Nat) (hs : step s (.finish w0) = some s') : Sys.Inv n tasks s' := by
  simp only [step] at hs
  split at hs
  · rename_i hw0
    rw [h.num] at hw0
    cases hph : s.phase w0 with
    | waiting => simp [hph] at hs
    | exited => simp [hph] at hs
    | running t =>
      simp only [hph, Option.some.injEq] at hs
      subst hs
      have hht : (s.pool.worker w0).has_task_ = false := h.busy w0 hw0 (by rw [hph]; simp)
      have hnotfree : w0 ∉ s.pool.workers_ := by
        intro hm
        have := ((h.free w0).1 hm).2.1
        rw [hph] at this
        cases this
      have hold : ∀ y, itemCount y (s.pool.worker w0) (s.phase w0) =
          if some t = y then 1 else 0 := by
        intro y
        rw [hph]
        exact itemCount_running y _ t hht
      have hdone : ∀ y, cnt y ((s.done ++ [t]).map some) =
          cnt y (s.done.map some) + (if some t = y then 1 else 0) := by
        intro y
        rw [List.map_append, cnt_append, List.map_cons, List.map_nil, cnt_cons, cnt_nil]
        omega
      have hjoin : ∀ w, w < s.joined → Function.update s.phase w0 .waiting w = .exited := by
        intro w hw
        by_cases hw' : w = w0
        · have := h.joined_exited w hw
          rw [hw', hph] at this
          cases this
        · rw [Function.update_noteq hw']
          exact h.joined_exited w hw
      cases hq : s.pool.dispatch_queue_ with
      | nil =>
        have hp : s.pool.queueWorker w0 = { s.pool with workers_ := w0 :: s.pool.workers_ } := by
          simp [queueWorker, hq]
        rw [hp]
        refine ⟨h.num, h.joined_le, hjoin, h.order, fun y => ?_, fun w hw hp' => ?_, fun w => ?_,
          List.nodup_cons.2 ⟨hnotfree, h.free_nodup⟩, fun _ => hq, ?_, ?_⟩
        · have ha := h.account y
          have hu := held_update s
            { s with done := s.done ++ [t],
                     pool := { s.pool with workers_ := w0 :: s.pool.workers_ },
                     phase := Function.update s.phase w0 .waiting } y w0 rfl
            (by rw [h.num]; exact hw0)
            (fun w hw => ⟨rfl, Function.update_noteq hw _ _⟩)
          simp only [Function.update_same, hold, itemCount_idle y _ hht] at hu
          rw [hdone]
          simp only
          omega
        · simp only at hp' ⊢
          by_cases hw' : w = w0
          · rw [hw', Function.update_same] at hp'
            exact absurd rfl hp'
          · rw [Function.update_noteq hw'] at hp'
            exact h.busy w hw hp'
        · simp only
          by_cases hw' : w = w0
          · rw [hw', Function.update_same]
            simp [hw0, hht]
          · rw [Function.update_noteq hw', List.mem_cons, ← h.free w]
            constructor
            · rintro (hm | hm)
              · exact absurd hm hw'
              · exact hm
            · exact fun hm => Or.inr hm
        · simp only
          rw [hq]
          exact List.Pairwise.nil
        · intro _ t'
          simp only
          rw [hq]
          exact List.not_mem_nil _
      | cons x0 qr =>
        have hfl : s.pool.workers_ = [] := by
          by_contra hne
          have := h.free_queue hne
          rw [hq] at this
          cases this
        have hp : s.pool.queueWorker w0 =
            { s.pool with dispatch_queue_ := qr
                          worker := Function.update s.pool.worker w0
                            { has_task_ := true, task_ := x0 } } := by
          simp [queueWorker, hq, assignTask]
        have hnl := h.nulls_last
        rw [hq, List.pairwise_cons] at hnl
        rw [hp]
        refine ⟨h.num, h.joined_le, hjoin, h.order, fun y => ?_, fun w hw hp' => ?_, fun w => ?_,
          h.free_nodup, fun hne => absurd hfl hne, hnl.2, ?_⟩
        · have ha := h.account y
          have hu := held_update s
            { s with done := s.done ++ [t],
                     pool := { s.pool with dispatch_queue_ := qr,
                                           worker := Function.update s.pool.worker w0
                                             { has_task_ := true, task_ := x0 } },
                     phase := Function.update s.phase w0 .waiting } y w0 rfl
            (by rw [h.num]; exact hw0)
            (fun w hw => ⟨Function.update_noteq hw _ _, Function.update_noteq hw _ _⟩)
          simp only [Function.update_same, hold, itemCount_mail] at hu
          rw [hdone]
          rw [hq, cnt_cons] at ha
          simp only
          omega
        · simp only at hp' ⊢
          by_cases hw' : w = w0
          · rw [hw', Function.update_same] at hp'
            exact absurd rfl hp'
          · rw [Function.update_noteq hw'] at hp' ⊢
            exact h.busy w hw hp'
        · simp only
          rw [hfl]
          by_cases hw' : w = w0
          · rw [hw', Function.update_same]
            simp
          · rw [Function.update_noteq hw', Function.update_noteq hw', ← h.free w, hfl]
        · rintro ⟨w, hw, hpos⟩ t' hmem
          simp only at hpos hmem
          by_cases hw' : w = w0
          · rw [hw', Function.update_same, Function.update_same, itemCount_mail] at hpos
            have hx0 : x0 = none := by
              by_contra hne
              rw [if_neg hne] at hpos
              exact absurd hpos (Nat.lt_irrefl 0)
            have := hnl.1 (some t') hmem hx0
            cases this
          · rw [Function.update_noteq hw', Function.update_noteq hw'] at hpos
            have := h.delivered ⟨w, hw, hpos⟩ t'
            rw [hq] at this
            exact this (List.mem_cons_of_mem _ hmem)
  · cases hs

theorem inv_step {n : Nat} {tasks : List Callback} {s s' : Sys} (h : Sys.Inv n tasks s)
    (e : Event) (hs : step s e = some s') : Sys.Inv n tasks s' := by
  cases e with
  | client => exact inv_client h hs
  | take w => exact inv_take h w hs
  | finish w => exact inv_finish h w hs

theorem inv_run {n : Nat} {tasks : List Callback} :
    ∀ (sched : List Event) (s s' : Sys), Sys.Inv n tasks s → run s sched = some s' →
      Sys.Inv n tasks s' := by
  intro sched
  induction sched with
  | nil =>
    intro s s' h hr
    simp only [run, Option.some.injEq] at hr
    subst hr
    exact h
  | cons e rest ih =>
    intro s s' h hr
    simp only [run] at hr
    cases hs : step s e with
    | none => simp [hs] at hr
    | some s1 =>
      simp only [hs] at hr
      exact ih s1 s' (inv_step h e hs) hr

end ThreadPoolFast

/-! ## ThreadPoolFast: every task is run, the threads never block for ever -/

namespace ThreadPoolFast

/-- When `stop()` has returned, the tasks done are the tasks submitted, each as often as it was
submitted. -/
theorem done_perm {n : Nat} {tasks : List Callback} {s : Sys} (h : Sys.Inv n tasks s)
    (hn : 1 ≤ n) (hr : s.stopReturned) : s.done.Perm tasks := by
  obtain ⟨htl, hnl, hj⟩ := hr
  rw [h.num] at hj
  have hex : ∀ w, w < n → s.phase w = .exited := fun w hw => h.joined_exited w (by omega)
  have hht : ∀ w, w < n → (s.pool.worker w).has_task_ = false :=
    fun w hw => h.busy w hw (by rw [hex w hw]; simp)
  have hq : ∀ t, some t ∉ s.pool.dispatch_queue_ :=
    h.delivered ⟨0, by omega, by rw [hex 0 (by omega), itemCount_exited none _ (hht 0 (by omega))]; simp⟩
  rw [List.perm_iff_count]
  intro t
  have ha := h.account (some t)
  have hheld : s.held (some t) = 0 := by
    unfold Sys.held
    apply Finset.sum_eq_zero
    intro w hw
    rw [Finset.mem_range, h.num] at hw
    rw [hex w hw, itemCount_exited _ _ (hht w hw)]
    simp
  rw [hheld, htl, hnl, cnt_of_not_mem (hq t)] at ha
  simp only [cnt_append, cnt_some_map_some, cnt_replicate, List.map_nil, cnt_nil,
    List.replicate_zero] at ha
  simp only [reduceCtorEq, if_false] at ha
  omega

/-- As long as `stop()` has not returned, some thread can take a step. -/
theorem progress {n : Nat} {tasks : List Callback} {s : Sys} (h : Sys.Inv n tasks s)
    (hr : ¬ s.stopReturned) : ∃ e s', step s e = some s' := by
  cases htl : s.tasksLeft with
  | cons t rest =>
    exact ⟨.client, _, by simp only [step, htl]; rfl⟩
  | nil =>
    by_cases hnl : s.nullsLeft > 0
    · exact ⟨.client, _, by simp only [step, htl, if_pos hnl]; rfl⟩
    · have hnl0 : s.nullsLeft = 0 := by omega
      have hj : s.joined < n := by
        have := h.joined_le
        have hne : s.joined ≠ n := by
          intro he
          exact hr ⟨htl, hnl0, by rw [h.num]; exact he⟩
        omega
      cases hph : s.phase s.joined with
      | exited =>
        exact ⟨.client, _, by
          simp only [step, htl, if_neg hnl]
          rw [if_pos ⟨by rw [h.num]; exact hj, hph⟩]⟩
      | running t =>
        exact ⟨.finish s.joined, _, by
          simp only [step, hph]
          rw [if_pos (by rw [h.num]; exact hj)]⟩
      | waiting =>
        cases hht : (s.pool.worker s.joined).has_task_ with
        | true =>
          cases htask : (s.pool.worker s.joined).task_ with
          | none =>
            exact ⟨.take s.joined, _, by
              simp only [step, htask]
              rw [if_pos ⟨by rw [h.num]; exact hj, hph, hht⟩]⟩
          | some t =>
            exact ⟨.take s.joined, _, by
              simp only [step, htask]
              rw [if_pos ⟨by rw [h.num]; exact hj, hph, hht⟩]⟩
        | false =>
          exfalso
          have hfree : s.joined ∈ s.pool.workers_ := (h.free _).2 ⟨hj, hph, hht⟩
          have hq : s.pool.dispatch_queue_ = [] :=
            h.free_queue (List.ne_nil_of_mem hfree)
          have ha := h.account none
          rw [htl, hnl0, hq] at ha
          simp only [cnt_append, cnt_none_map_some, cnt_replicate, cnt_nil, List.map_nil,
            List.replicate_zero, if_true, Nat.zero_add, Nat.add_zero] at ha
          have hlt : s.held none < n := by
            unfold Sys.held
            rw [h.num]
            refine sum_range_lt n s.joined hj _ (fun w hw => ?_) ?_
            · cases hp : s.phase w with
              | waiting =>
                simp only [itemCount]
                split <;> omega
              | running t =>
                rw [itemCount_running none _ t (h.busy w hw (by rw [hp]; simp))]
                simp
              | exited =>
                rw [itemCount_exited none _ (h.busy w hw (by rw [hp]; simp))]
                simp
            · rw [hph, itemCount_idle none _ hht]
          omega

end ThreadPoolFast

namespace ThreadPoolFast

theorem wsum_update (n w0 : Nat) (hw : w0 < n) (mb mb' : Nat → Worker) (ph ph' : Nat → Phase)
    (h : ∀ w, w ≠ w0 → mb' w = mb w ∧ ph' w = ph w) :
    Finset.sum (Finset.range n) (fun w => workerWeight (mb' w) (ph' w)) +
        workerWeight (mb w0) (ph w0) =
      Finset.sum (Finset.range n) (fun w => workerWeight (mb w) (ph w)) +
        workerWeight (mb' w0) (ph' w0) :=
  sum_range_update n w0 hw (fun w => workerWeight (mb w) (ph w))
    (fun w => workerWeight (mb' w) (ph' w))
    (fun w hw' => by simp only [(h w hw').1, (h w hw').2])

theorem workerWeight_idle (m : Worker) (hm : m.has_task_ = false) :
    workerWeight m .waiting = 0 := by
  simp [workerWeight, hm]

theorem workerWeight_mail (x : Option Callback) (p : Phase) (hp : ∀ t, p ≠ .running t) :
    workerWeight { has_task_ := true, task_ := x } p = weight x := by
  cases p with
  | running t => exact absurd rfl (hp t)
  | waiting => simp [workerWeight]
  | exited => simp [workerWeight]

theorem workerWeight_running (m : Worker) (t : Callback) (hm : m.has_task_ = false) :
    workerWeight m (.running t) = 1 := by
  simp [workerWeight, hm]

theorem workerWeight_exited (m : Worker) (hm : m.has_task_ = false) :
    workerWeight m .exited = 0 := by
  simp [workerWeight, hm]

/-- What `addTask(x)` adds to the steps still to take. -/
theorem addTask_weight {n : Nat} {tasks : List Callback} {s : Sys} (h : Sys.Inv n tasks s)
    (x : Option Callback) :
    (s.pool.addTask x).num_workers = s.pool.num_workers ∧
    ((s.pool.addTask x).dispatch_queue_.map weight).sum +
        Finset.sum (Finset.range s.pool.num_workers)
          (fun w => workerWeight ((s.pool.addTask x).worker w) (s.phase w)) =
      (s.pool.dispatch_queue_.map weight).sum +
        Finset.sum (Finset.range s.pool.num_workers)
          (fun w => workerWeight (s.pool.worker w) (s.phase w)) + weight x := by
  cases hfl : s.pool.workers_ with
  | nil =>
    have hp : s.pool.addTask x =
        { s.pool with dispatch_queue_ := s.pool.dispatch_queue_ ++ [x] } := by
      simp [addTask, hfl]
    rw [hp]
    refine ⟨rfl, ?_⟩
    simp only [List.map_append, List.sum_append, List.map_cons, List.map_nil, List.sum_cons,
      List.sum_nil]
    omega
  | cons w0 fr =>
    have hmem : w0 ∈ s.pool.workers_ := by rw [hfl]; exact List.mem_cons_self _ _
    obtain ⟨hw0, hph, hht⟩ := (h.free w0).1 hmem
    have hp : s.pool.addTask x =
        { s.pool with workers_ := fr
                      worker := Function.update s.pool.worker w0
                        { has_task_ := true, task_ := x } } := by
      simp [addTask, hfl, assignTask]
    rw [hp]
    refine ⟨rfl, ?_⟩
    have hu := wsum_update s.pool.num_workers w0 (by rw [h.num]; exact hw0) s.pool.worker
      (Function.update s.pool.worker w0 { has_task_ := true, task_ := x }) s.phase s.phase
      (fun w hw => ⟨Function.update_noteq hw _ _, rfl⟩)
    rw [Function.update_same, hph, workerWeight_idle _ hht,
      workerWeight_mail x .waiting (fun t => by simp)] at hu
    simp only
    omega

/-- Every step brings the end one step nearer. -/
theorem stepsLeft_step {n : Nat} {tasks : List Callback} {s s' : Sys} (h : Sys.Inv n tasks s)
    (e : Event) (hs : step s e = some s') : s'.stepsLeft + 1 = s.stepsLeft := by
  cases e with
  | client =>
    simp only [step] at hs
    cases htl : s.tasksLeft with
    | cons t rest =>
      simp only [htl, Option.some.injEq] at hs
      subst hs
      obtain ⟨a1, a2⟩ := addTask_weight h (some t)
      simp only [Sys.stepsLeft, a1, htl, List.length_cons, weight] at a2 ⊢
      omega
    | nil =>
      simp only [htl] at hs
      by_cases hnl : s.nullsLeft > 0
      · rw [if_pos hnl] at hs
        simp only [Option.some.injEq] at hs
        subst hs
        obtain ⟨a1, a2⟩ := addTask_weight h none
        simp only [Sys.stepsLeft, a1, htl, List.length_nil, weight] at a2 ⊢
        omega
      · rw [if_neg hnl] at hs
        split at hs
        · rename_i hj
          simp only [Option.some.injEq] at hs
          subst hs
          simp only [Sys.stepsLeft, htl]
          omega
        · cases hs
  | take w0 =>
    simp only [step] at hs
    split at hs
    · rename_i hen
      obtain ⟨hw0, hph, hht⟩ := hen
      have hold : workerWeight (s.pool.worker w0) (s.phase w0) =
          weight (s.pool.worker w0).task_ := by
        simp [workerWeight, hht, hph]
      cases htask : (s.pool.worker w0).task_ with
      | none =>
        simp only [htask, Option.some.injEq] at hs
        subst hs
        have hu := wsum_update s.pool.num_workers w0 hw0 s.pool.worker
          (Function.update s.pool.worker w0 { has_task_ := false, task_ := none }) s.phase
          (Function.update s.phase w0 .exited)
          (fun w hw => ⟨Function.update_noteq hw _ _, Function.update_noteq hw _ _⟩)
        rw [Function.update_same, Function.update_same, hold, htask,
          workerWeight_exited _ rfl] at hu
        simp only [Sys.stepsLeft, weight] at hu ⊢
        omega
      | some t =>
        simp only [htask, Option.some.injEq] at hs
        subst hs
        have hu := wsum_update s.pool.num_workers w0 hw0 s.pool.worker
          (Function.update s.pool.worker w0 { has_task_ := false, task_ := some t }) s.phase
          (Function.update s.phase w0 (.running t))
          (fun w hw => ⟨Function.update_noteq hw _ _, Function.update_noteq hw _ _⟩)
        rw [Function.update_same, Function.update_same, hold, htask,
          workerWeight_running _ t rfl] at hu
        simp only [Sys.stepsLeft, weight] at hu ⊢
        omega
    · cases hs
  | finish w0 =>
    simp only [step] at hs
    split at hs
    · rename_i hw0
      cases hph : s.phase w0 with
      | waiting => simp [hph] at hs
      | exited => simp [hph] at hs
      | running t =>
        simp only [hph, Option.some.injEq] at hs
        subst hs
        have hht : (s.pool.worker w0).has_task_ = false :=
          h.busy w0 (by rw [← h.num]; exact hw0) (by rw [hph]; simp)
        have hold : workerWeight (s.pool.worker w0) (s.phase w0) = 1 := by
          rw [hph]
          exact workerWeight_running _ t hht
        cases hq : s.pool.dispatch_queue_ with
        | nil =>
          have hp : s.pool.queueWorker w0 =
              { s.pool with workers_ := w0 :: s.pool.workers_ } := by
            simp [queueWorker, hq]
          have hu := wsum_update s.pool.num_workers w0 hw0 s.pool.worker s.pool.worker s.phase
            (Function.update s.phase w0 .waiting)
            (fun w hw => ⟨rfl, Function.update_noteq hw _ _⟩)
          rw [Function.update_same, hold, workerWeight_idle _ hht] at hu
          simp only [Sys.stepsLeft, hp, hq] at hu ⊢
          omega
        | cons x0 qr =>
          have hp : s.pool.queueWorker w0 =
              { s.pool with dispatch_queue_ := qr
                            worker := Function.update s.pool.worker w0
                              { has_task_ := true, task_ := x0 } } := by
            simp [queueWorker, hq, assignTask]
          have hu := wsum_update s.pool.num_workers w0 hw0 s.pool.worker
            (Function.update s.pool.worker w0 { has_task_ := true, task_ := x0 }) s.phase
            (Function.update s.phase w0 .waiting)
            (fun w hw => ⟨Function.update_noteq hw _ _, Function.update_noteq hw _ _⟩)
          rw [Function.update_same, Function.update_same, hold,
            workerWeight_mail x0 .waiting (fun t => by simp)] at hu
          simp only [Sys.stepsLeft, hp, hq, List.map_cons, List.sum_cons] at hu ⊢
          omega
    · cases hs

end ThreadPoolFast

/-! ## ThreadPoolNormal: invariant, every task is run -/

namespace ThreadPoolNormal
open ThreadPoolFast (cnt cnt_nil cnt_cons cnt_append cnt_replicate cnt_none_map_some
  cnt_some_map_some cnt_eq_zero cnt_of_not_mem sum_range_update sum_range_congr sum_range_lt
  weight)

theorem held_update_n (s s' : Sys) (x : Option Callback) (w0 : Nat)
    (hn : s'.pool.num_workers = s.pool.num_workers) (hw : w0 < s.pool.num_workers)
    (h : ∀ w, w ≠ w0 → s'.phase w = s.phase w) :
    s'.held x + itemCount x (s.phase w0) = s.held x + itemCount x (s'.phase w0) := by
  unfold Sys.held
  rw [hn]
  exact sum_range_update _ w0 hw (fun w => itemCount x (s.phase w))
    (fun w => itemCount x (s'.phase w)) (fun w hw' => by simp only [h w hw'])

theorem held_same_n (s s' : Sys) (x : Option Callback)
    (hn : s'.pool.num_workers = s.pool.num_workers) (h : ∀ w, s'.phase w = s.phase w) :
    s'.held x = s.held x := by
  unfold Sys.held
  rw [hn]
  exact sum_range_congr _ (fun w => itemCount x (s.phase w))
    (fun w => itemCount x (s'.phase w)) (fun w _ => by simp only [h w])

theorem normal_inv_init (n : Nat) (tasks : List Callback) :
    Sys.Inv n tasks (Sys.init n tasks) := by
  refine ⟨rfl, Nat.zero_le _, fun w hw => absurd hw (Nat.not_lt_zero _), fun _ => rfl,
    fun x => ?_, List.Pairwise.nil, ?_⟩
  · simp [Sys.init, Sys.held, Sys.stopsLeft, itemCount, cnt_nil, ThreadPoolNormal.new]
  · rintro ⟨w, -, hw⟩
    simp [Sys.init] at hw

/-- Before `stop()` is called no stop request is in the queue and no worker is gone. -/
theorem normal_no_nulls {n : Nat} {tasks : List Callback} {s : Sys} (h : Sys.Inv n tasks s)
    (hn : s.stopPushed = false) :
    none ∉ s.pool.dispatch_queue_ ∧ ∀ w, w < n → s.phase w ≠ .exited := by
  have ha := h.account none
  simp only [cnt_append, cnt_none_map_some, cnt_replicate, Sys.stopsLeft, hn, h.num, if_true,
    Nat.zero_add, Bool.false_eq_true, if_false] at ha
  have hq : cnt none s.pool.dispatch_queue_ = 0 := by omega
  have hh : s.held none = 0 := by omega
  refine ⟨cnt_eq_zero hq, fun w hw hex => ?_⟩
  unfold Sys.held at hh
  rw [Finset.sum_eq_zero_iff] at hh
  have := hh w (Finset.mem_range.2 (by rw [h.num]; exact hw))
  rw [hex] at this
  simp [itemCount] at this

theorem normal_inv_client {n : Nat} {tasks : List Callback} {s s' : Sys}
    (h : Sys.Inv n tasks s) (hs : step s .client = some s') : Sys.Inv n tasks s' := by
  simp only [step] at hs
  cases htl : s.tasksLeft with
  | cons t rest =>
    simp only [htl, Option.some.injEq] at hs
    subst hs
    have hsp := h.order (by rw [htl]; simp)
    obtain ⟨hnone, hnoex⟩ := normal_no_nulls h hsp
    refine ⟨h.num, h.joined_le, h.joined_exited, fun _ => hsp, fun y => ?_, ?_, ?_⟩
    · have ha := h.account y
      have hh := held_same_n s
        { s with pool := s.pool.addTask (some t), tasksLeft := rest } y rfl (fun w => rfl)
      rw [hh]
      rw [htl, List.map_cons, List.cons_append, cnt_cons] at ha
      simp only [addTask, cnt_append, cnt_cons, cnt_nil, Sys.stopsLeft] at ha ⊢
      omega
    · simp only [addTask]
      rw [List.pairwise_append]
      refine ⟨h.nulls_last, List.pairwise_singleton _ _, fun a ha b hb ha0 => ?_⟩
      rw [ha0] at ha
      exact absurd ha hnone
    · rintro ⟨w, hw, hex⟩
      exact absurd hex (hnoex w hw)
  | nil =>
    simp only [htl] at hs
    by_cases hsp : s.stopPushed = false
    · rw [if_pos hsp] at hs
      simp only [Option.some.injEq] at hs
      subst hs
      obtain ⟨hnone, hnoex⟩ := normal_no_nulls h hsp
      refine ⟨h.num, h.joined_le, h.joined_exited, fun hne => absurd rfl hne, fun y => ?_, ?_,
        ?_⟩
      · have ha := h.account y
        have hh := held_same_n s
          { s with pool := s.pool.pushStops, tasksLeft := [], stopPushed := true } y rfl
          (fun w => rfl)
        rw [hh]
        rw [htl] at ha
        simp only [pushStops, cnt_append, cnt_replicate, Sys.stopsLeft, hsp, h.num,
          Bool.false_eq_true, if_false, if_true, List.map_nil, cnt_nil, ite_self] at ha ⊢
        omega
      · simp only [pushStops]
        rw [List.pairwise_append]
        refine ⟨h.nulls_last, ?_, fun a _ b hb _ => (List.eq_of_mem_replicate hb)⟩
        rw [List.pairwise_replicate]
        exact Or.inr (fun _ => rfl)
      · rintro ⟨w, hw, hex⟩
        exact absurd hex (hnoex w hw)
    · rw [if_neg hsp] at hs
      split at hs
      · rename_i hj
        simp only [Option.some.injEq] at hs
        subst hs
        rw [h.num] at hj
        refine ⟨h.num, hj.1, fun w hw => ?_, fun hne => absurd rfl hne,
          fun y => (by have := h.account y; rw [htl] at this; exact this), h.nulls_last,
          h.delivered⟩
        simp only at hw
        by_cases hw' : w = s.joined
        · rw [hw']; exact hj.2
        · exact h.joined_exited w (by omega)
      · cases hs

end ThreadPoolNormal

namespace ThreadPoolNormal
open ThreadPoolFast (cnt cnt_nil cnt_cons cnt_append cnt_replicate cnt_none_map_some
  cnt_some_map_some cnt_eq_zero cnt_of_not_mem sum_range_update sum_range_congr sum_range_lt
  weight)

theorem normal_inv_take {n : Nat} {tasks : List Callback} {s s' : Sys}
    (h : Sys.Inv n tasks s) (w0 : Nat) (hs : step s (.take w0) = some s') :
    Sys.Inv n tasks s' := by
  simp only [step] at hs
  split at hs
  · rename_i hen
    obtain ⟨hw0, hph⟩ := hen
    rw [h.num] at hw0
    have hnl := h.nulls_last
    cases hq : s.pool.dispatch_queue_ with
    | nil => simp [hq] at hs
    | cons x0 qr =>
      rw [hq, List.pairwise_cons] at hnl
      cases x0 with
      | none =>
        simp only [hq, Option.some.injEq] at hs
        subst hs
        refine ⟨h.num, h.joined_le, fun w hw => ?_, h.order, fun y => ?_, hnl.2, fun _ t hm => ?_⟩
        · simp only
          by_cases hw' : w = w0
          · rw [hw', Function.update_same]
          · rw [Function.update_noteq hw']
            exact h.joined_exited w hw
        · have ha := h.account y
          have hu := held_update_n s
            { s with pool := { s.pool with dispatch_queue_ := qr },
                     phase := Function.update s.phase w0 .exited } y w0 rfl
            (by rw [h.num]; exact hw0) (fun w hw => Function.update_noteq hw _ _)
          simp only [Function.update_same, hph, itemCount] at hu
          rw [hq, cnt_cons] at ha
          simp only [Sys.stopsLeft] at ha ⊢
          by_cases hy : y = none
          · subst hy
            simp only [if_true] at ha hu ⊢
            omega
          · have e1 : ¬ (none : Option Callback) = y := fun e => hy e.symm
            simp only [hy, e1, if_false] at ha hu ⊢
            omega
        · simp only at hm
          have := hnl.1 (some t) hm rfl
          cases this
      | some t =>
        simp only [hq, Option.some.injEq] at hs
        subst hs
        refine ⟨h.num, h.joined_le, fun w hw => ?_, h.order, fun y => ?_, hnl.2, ?_⟩
        · simp only
          by_cases hw' : w = w0
          · have := h.joined_exited w hw
            rw [hw', hph] at this
            cases this
          · rw [Function.update_noteq hw']
            exact h.joined_exited w hw
        · have ha := h.account y
          have hu := held_update_n s
            { s with pool := { s.pool with dispatch_queue_ := qr },
                     phase := Function.update s.phase w0 (.running t) } y w0 rfl
            (by rw [h.num]; exact hw0) (fun w hw => Function.update_noteq hw _ _)
          simp only [Function.update_same, hph, itemCount] at hu
          rw [hq, cnt_cons] at ha
          simp only [Sys.stopsLeft] at ha ⊢
          omega
        · rintro ⟨w, hw, hex⟩ t' hm
          simp only at hex hm
          by_cases hw' : w = w0
          · rw [hw', Function.update_same] at hex
            cases hex
          · rw [Function.update_noteq hw'] at hex
            have := h.delivered ⟨w, hw, hex⟩ t'
            rw [hq] at this
            exact this (List.mem_cons_of_mem _ hm)
  · cases hs

theorem normal_inv_finish {n : Nat} {tasks : List Callback} {s s' : Sys}
    (h : Sys.Inv n tasks s) (w0 : Nat) (hs : step s (.finish w0) = some s') :
    Sys.Inv n tasks s' := by
  simp only [step] at hs
  split at hs
  · rename_i hw0
    rw [h.num] at hw0
    cases hph : s.phase w0 with
    | idle => simp [hph] at hs
    | exited => simp [hph] at hs
    | running t =>
      simp only [hph, Option.some.injEq] at hs
      subst hs
      refine ⟨h.num, h.joined_le, fun w hw => ?_, h.order, fun y => ?_, h.nulls_last, ?_⟩
      · simp only
        by_cases hw' : w = w0
        · have := h.joined_exited w hw
          rw [hw', hph] at this
          cases this
        · rw [Function.update_noteq hw']
          exact h.joined_exited w hw
      · have ha := h.account y
        have hu := held_update_n s
          { s with done := s.done ++ [t], phase := Function.update s.phase w0 .idle } y w0 rfl
          (by rw [h.num]; exact hw0) (fun w hw => Function.update_noteq hw _ _)
        simp only [Function.update_same, hph, itemCount] at hu
        simp only [Sys.stopsLeft, List.map_append, cnt_append, List.map_cons, List.map_nil,
          cnt_cons, cnt_nil] at ha ⊢
        omega
      · rintro ⟨w, hw, hex⟩
        simp only at hex
        by_cases hw' : w = w0
        · rw [hw', Function.update_same] at hex
          cases hex
        · rw [Function.update_noteq hw'] at hex
          exact h.delivered ⟨w, hw, hex⟩
  · cases hs

theorem normal_inv_step {n : Nat} {tasks : List Callback} {s s' : Sys} (h : Sys.Inv n tasks s)
    (e : Event) (hs : step s e = some s') : Sys.Inv n tasks s' := by
  cases e with
  | client => exact normal_inv_client h hs
  | take w => exact normal_inv_take h w hs
  | finish w => exact normal_inv_finish h w hs

theorem normal_inv_run {n : Nat} {tasks : List Callback} :
    ∀ (sched : List Event) (s s' : Sys), Sys.Inv n tasks s → run s sched = some s' →
      Sys.Inv n tasks s' := by
  intro sched
  induction sched with
  | nil =>
    intro s s' h hr
    simp only [run, Option.some.injEq] at hr
    subst hr
    exact h
  | cons e rest ih =>
    intro s s' h hr
    simp only [run] at hr
    cases hs : step s e with
    | none => simp [hs] at hr
    | some s1 =>
      simp only [hs] at hr
      exact ih s1 s' (normal_inv_step h e hs) hr

/-- When `stop()` has returned, the tasks done are the tasks submitted, each as often as it was
submitted. -/
theorem normal_done_perm {n : Nat} {tasks : List Callback} {s : Sys} (h : Sys.Inv n tasks s)
    (hn : 1 ≤ n) (hr : s.stopReturned) : s.done.Perm tasks := by
  obtain ⟨htl, hsp, hj⟩ := hr
  rw [h.num] at hj
  have hex : ∀ w, w < n → s.phase w = .exited := fun w hw => h.joined_exited w (by omega)
  have hq : ∀ t, some t ∉ s.pool.dispatch_queue_ := h.delivered ⟨0, by omega, hex 0 (by omega)⟩
  rw [List.perm_iff_count]
  intro t
  have ha := h.account (some t)
  have hheld : s.held (some t) = 0 := by
    unfold Sys.held
    apply Finset.sum_eq_zero
    intro w hw
    rw [Finset.mem_range, h.num] at hw
    rw [hex w hw]
    simp [itemCount]
  rw [hheld, htl, cnt_of_not_mem (hq t)] at ha
  simp only [cnt_append, cnt_some_map_some, cnt_replicate, List.map_nil, cnt_nil,
    Sys.stopsLeft, hsp, if_true, reduceCtorEq, if_false] at ha
  omega

/-- As long as `stop()` has not returned, some thread can take a step. -/
theorem normal_progress {n : Nat} {tasks : List Callback} {s : Sys} (h : Sys.Inv n tasks s)
    (hr : ¬ s.stopReturned) : ∃ e s', step s e = some s' := by
  cases htl : s.tasksLeft with
  | cons t rest => exact ⟨.client, _, by simp only [step, htl]; rfl⟩
  | nil =>
    by_cases hsp : s.stopPushed = false
    · exact ⟨.client, _, by simp only [step, htl, if_pos hsp]; rfl⟩
    · have hsp1 : s.stopPushed = true := by simpa using hsp
      have hj : s.joined < n := by
        have := h.joined_le
        have hne : s.joined ≠ n := by
          intro he
          exact hr ⟨htl, hsp1, by rw [h.num]; exact he⟩
        omega
      cases hph : s.phase s.joined with
      | exited =>
        exact ⟨.client, _, by
          simp only [step, htl, if_neg hsp]
          rw [if_pos ⟨by rw [h.num]; exact hj, hph⟩]⟩
      | running t =>
        exact ⟨.finish s.joined, _, by
          simp only [step, hph]
          rw [if_pos (by rw [h.num]; exact hj)]⟩
      | idle =>
        cases hq : s.pool.dispatch_queue_ with
        | cons x0 qr =>
          cases x0 with
          | none =>
            exact ⟨.take s.joined, _, by
              simp only [step, hq]
              rw [if_pos ⟨by rw [h.num]; exact hj, hph⟩]⟩
          | some t =>
            exact ⟨.take s.joined, _, by
              simp only [step, hq]
              rw [if_pos ⟨by rw [h.num]; exact hj, hph⟩]⟩
        | nil =>
          exfalso
          have ha := h.account none
          rw [htl, hq] at ha
          simp only [cnt_append, cnt_none_map_some, cnt_replicate, cnt_nil, List.map_nil,
            Sys.stopsLeft, hsp1, if_true, Nat.zero_add, Nat.add_zero] at ha
          have hlt : s.held none < n := by
            unfold Sys.held
            rw [h.num]
            refine sum_range_lt n s.joined hj _ (fun w _ => ?_) ?_
            · simp only [itemCount]
              split
              · simp
              · simp
              · simp
            · rw [hph]
              rfl
          omega

end ThreadPoolNormal

/-! ## Thread pools: every step brings the end nearer; all submitted tasks run -/

namespace ThreadPoolNormal
open ThreadPoolFast (sum_range_update sum_range_congr weight)

theorem rsum_update (n w0 : Nat) (hw : w0 < n) (ph ph' : Nat → Phase)
    (h : ∀ w, w ≠ w0 → ph' w = ph w) :
    Finset.sum (Finset.range n) (fun w => (ph' w).load) + (ph w0).load =
      Finset.sum (Finset.range n) (fun w => (ph w).load) + (ph' w0).load :=
  sum_range_update n w0 hw (fun w => (ph w).load) (fun w => (ph' w).load)
    (fun w hw' => by simp only [h w hw'])

theorem load_idle : Phase.idle.load = 0 := rfl

theorem load_exited : Phase.exited.load = 0 := rfl

theorem load_running (t : Callback) : (Phase.running t).load = 1 := rfl

/-- Every step brings the end one step nearer. -/
theorem normal_stepsLeft_step {s s' : Sys}
    (e : Event) (hs : step s e = some s') :
    s'.stepsLeft + 1 = s.stepsLeft := by
  cases e with
  | client =>
    simp only [step] at hs
    cases htl : s.tasksLeft with
    | cons t rest =>
      simp only [htl, Option.some.injEq] at hs
      subst hs
      simp only [Sys.stepsLeft, addTask, htl, List.length_cons, List.map_append, List.sum_append,
        List.map_cons, List.map_nil, List.sum_cons, List.sum_nil, weight]
      omega
    | nil =>
      simp only [htl] at hs
      by_cases hsp : s.stopPushed = false
      · rw [if_pos hsp] at hs
        simp only [Option.some.injEq] at hs
        subst hs
        have hsum : ((List.replicate s.pool.num_workers (none : Option Callback)).map weight).sum
            = s.pool.num_workers := by
          simp [weight]
        simp only [Sys.stepsLeft, pushStops, htl, hsp, List.length_nil, List.map_append,
          List.sum_append, hsum, Bool.false_eq_true, if_false, if_true]
        omega
      · rw [if_neg hsp] at hs
        split at hs
        · rename_i hj
          simp only [Option.some.injEq] at hs
          subst hs
          simp only [Sys.stepsLeft, htl]
          omega
        · cases hs
  | take w0 =>
    simp only [step] at hs
    split at hs
    · rename_i hen
      obtain ⟨hw0, hph⟩ := hen
      cases hq : s.pool.dispatch_queue_ with
      | nil => simp [hq] at hs
      | cons x0 qr =>
        cases x0 with
        | none =>
          simp only [hq, Option.some.injEq] at hs
          subst hs
          have hu := rsum_update s.pool.num_workers w0 hw0 s.phase
            (Function.update s.phase w0 .exited) (fun w hw => Function.update_noteq hw _ _)
          simp only [Function.update_same, hph, load_idle, load_exited, load_running] at hu
          simp only [Sys.stepsLeft, hq, List.map_cons, List.sum_cons, weight] at hu ⊢
          omega
        | some t =>
          simp only [hq, Option.some.injEq] at hs
          subst hs
          have hu := rsum_update s.pool.num_workers w0 hw0 s.phase
            (Function.update s.phase w0 (.running t)) (fun w hw => Function.update_noteq hw _ _)
          simp only [Function.update_same, hph, load_idle, load_exited, load_running] at hu
          simp only [Sys.stepsLeft, hq, List.map_cons, List.sum_cons, weight] at hu ⊢
          omega
    · cases hs
  | finish w0 =>
    simp only [step] at hs
    split at hs
    · rename_i hw0
      cases hph : s.phase w0 with
      | idle => simp [hph] at hs
      | exited => simp [hph] at hs
      | running t =>
        simp only [hph, Option.some.injEq] at hs
        subst hs
        have hu := rsum_update s.pool.num_workers w0 hw0 s.phase
          (Function.update s.phase w0 .idle) (fun w hw => Function.update_noteq hw _ _)
        simp only [Function.update_same, hph, load_idle, load_exited, load_running] at hu
        simp only [Sys.stepsLeft] at hu ⊢
        omega
    · cases hs

end ThreadPoolNormal

namespace ThreadPoolFast

theorem stepsLeft_init (n : Nat) (tasks : List Callback) :
    (Sys.init n tasks).stepsLeft = 3 * tasks.length + 3 * n := by
  unfold Sys.init
  rw [new_eq]
  simp only [Sys.stepsLeft, List.map_nil, List.sum_nil, workerWeight, Bool.false_eq_true,
    if_false, Nat.add_zero, Finset.sum_const_zero, Nat.sub_zero]
  omega

theorem stepsLeft_run {n : Nat} {tasks : List Callback} :
    ∀ (sched : List Event) (s s' : Sys), Sys.Inv n tasks s → run s sched = some s' →
      sched.length + s'.stepsLeft = s.stepsLeft := by
  intro sched
  induction sched with
  | nil =>
    intro s s' _ hr
    simp only [run, Option.some.injEq] at hr
    subst hr
    simp
  | cons e rest ih =>
    intro s s' h hr
    simp only [run] at hr
    cases hs : step s e with
    | none => simp [hs] at hr
    | some s1 =>
      simp only [hs] at hr
      have h1 := ih s1 s' (inv_step h e hs) hr
      have h2 := stepsLeft_step h e hs
      simp only [List.length_cons]
      omega

end ThreadPoolFast

namespace ThreadPoolNormal

theorem normal_stepsLeft_init (n : Nat) (tasks : List Callback) :
    (Sys.init n tasks).stepsLeft = 3 * tasks.length + 2 * n + 1 := by
  simp only [Sys.init, ThreadPoolNormal.new, Sys.stepsLeft, List.map_nil, List.sum_nil,
    load_idle, Finset.sum_const_zero, Bool.false_eq_true, if_false]
  omega

theorem normal_stepsLeft_run :
    ∀ (sched : List Event) (s s' : Sys), run s sched = some s' →
      sched.length + s'.stepsLeft = s.stepsLeft := by
  intro sched
  induction sched with
  | nil =>
    intro s s' hr
    simp only [run, Option.some.injEq] at hr
    subst hr
    simp
  | cons e rest ih =>
    intro s s' hr
    simp only [run] at hr
    cases hs : step s e with
    | none => simp [hs] at hr
    | some s1 =>
      simp only [hs] at hr
      have h1 := ih s1 s' hr
      have h2 := normal_stepsLeft_step e hs
      simp only [List.length_cons]
      omega

end ThreadPoolNormal

/-- C17. All submitted tasks run, in both pools. Take a pool of `n ≥ 1` workers whose client, a
thread that is not a worker, submits `tasks` with `addTask` and then calls `stop()`, and any
interleaving `sched` of the steps of the client and of the workers that leads to a state `s`.
* When `stop()` has returned in `s`, the tasks run to completion are the submitted ones, each as
  often as it was submitted, so a counter incremented by each task equals their number.
* The reason: in the dispatch queue no task comes after a stop request.
* `stop()` does return: as long as it has not, some thread can take a step, and every step
  brings the end one step nearer (`3 * M + 3 * n` steps in all for `ThreadPoolFast`,
  `3 * M + 2 * n + 1` for `ThreadPoolNormal`). -/
theorem ThreadPool.all_submitted_tasks_run (n : Nat) (tasks : List Callback) (hn : 1 ≤ n) :
    (∀ (sched : List ThreadPoolFast.Event) (s : ThreadPoolFast.Sys),
      ThreadPoolFast.run (ThreadPoolFast.Sys.init n tasks) sched = some s →
        (s.stopReturned → s.done.Perm tasks ∧ s.done.length = tasks.length) ∧
        s.pool.dispatch_queue_.Pairwise (fun a b => a = none → b = none) ∧
        (¬ s.stopReturned → ∃ e s', ThreadPoolFast.step s e = some s') ∧
        sched.length + s.stepsLeft = 3 * tasks.length + 3 * n) ∧
    (∀ (sched : List ThreadPoolNormal.Event) (s : ThreadPoolNormal.Sys),
      ThreadPoolNormal.run (ThreadPoolNormal.Sys.init n tasks) sched = some s →
        (s.stopReturned → s.done.Perm tasks ∧ s.done.length = tasks.length) ∧
        s.pool.dispatch_queue_.Pairwise (fun a b => a = none → b = none) ∧
        (¬ s.stopReturned → ∃ e s', ThreadPoolNormal.step s e = some s') ∧
        sched.length + s.stepsLeft = 3 * tasks.length + 2 * n + 1) := by
  constructor
  · intro sched s hr
    have hi := ThreadPoolFast.inv_run sched _ s (ThreadPoolFast.inv_init n tasks) hr
    refine ⟨fun hsr => ?_, hi.nulls_last, fun hsr => ThreadPoolFast.progress hi hsr, ?_⟩
    · have hp := ThreadPoolFast.done_perm hi hn hsr
      exact ⟨hp, hp.length_eq⟩
    · rw [ThreadPoolFast.stepsLeft_run sched _ s (ThreadPoolFast.inv_init n tasks) hr,
        ThreadPoolFast.stepsLeft_init]
  · intro sched s hr
    have hi := ThreadPoolNormal.normal_inv_run sched _ s (ThreadPoolNormal.normal_inv_init n tasks) hr
    refine ⟨fun hsr => ?_, hi.nulls_last, fun hsr => ThreadPoolNormal.normal_progress hi hsr, ?_⟩
    · have hp := ThreadPoolNormal.normal_done_perm hi hn hsr
      exact ⟨hp, hp.length_eq⟩
    · rw [ThreadPoolNormal.normal_stepsLeft_run sched _ s hr,
        ThreadPoolNormal.normal_stepsLeft_init]

/-- Witness for C17: two workers, tasks 7, 8 and 9, with one interleaving for each pool that ends
with `stop()` returned. -/
theorem ThreadPool.all_submitted_tasks_run_witness :
    1 ≤ 2 ∧
    (ThreadPoolFast.run (ThreadPoolFast.Sys.init 2 [7, 8, 9])
        [.client, .client, .client, .client, .client, .take 1, .finish 1, .take 0, .take 1,
          .finish 1, .finish 0, .take 0, .take 1, .client, .client]).map
      (fun s => (s.done, s.tasksLeft, s.nullsLeft, s.joined, s.pool.num_workers)) =
        some ([7, 9, 8], [], 0, 2, 2) ∧
    (ThreadPoolNormal.run (ThreadPoolNormal.Sys.init 2 [7, 8, 9])
        [.client, .client, .client, .client, .take 0, .take 1, .finish 1, .take 1, .finish 0,
          .finish 1, .take 0, .take 1, .client, .client]).map
      (fun s => (s.done, s.tasksLeft, s.stopPushed, s.joined, s.pool.num_workers)) =
        some ([8, 7, 9], [], true, 2, 2) ∧
    (∀ s, ThreadPoolFast.run (ThreadPoolFast.Sys.init 2 [7, 8, 9])
        [.client, .client, .client, .client, .client, .take 1, .finish 1, .take 0, .take 1,
          .finish 1, .finish 0, .take 0, .take 1, .client, .client] = some s →
      s.stopReturned → s.done.Perm [7, 8, 9] ∧ s.done.length = 3) ∧
    (∀ s, ThreadPoolNormal.run (ThreadPoolNormal.Sys.init 2 [7, 8, 9])
        [.client, .client, .client, .client, .take 0, .take 1, .finish 1, .take 1, .finish 0,
          .finish 1, .take 0, .take 1, .client, .client] = some s →
      s.stopReturned → s.done.Perm [7, 8, 9] ∧ s.done.length = 3) :=
  ⟨by decide, by decide!, by decide!,
    fun s hr hsr =>
      (((ThreadPool.all_submitted_tasks_run 2 [7, 8, 9] (by decide)).1 _ s hr).1 hsr),
    fun s hr hsr =>
      (((ThreadPool.all_submitted_tasks_run 2 [7, 8, 9] (by decide)).2 _ s hr).1 hsr)⟩

namespace ThreadPoolFast

theorem held_ge {s : Sys} (x : Option Callback) (w : Nat) (hw : w < s.pool.num_workers) :
    itemCount x (s.pool.worker w) (s.phase w) ≤ s.held x :=
  Finset.single_le_sum (f := fun w => itemCount x (s.pool.worker w) (s.phase w))
    (fun _ _ => Nat.zero_le _) (Finset.mem_range.2 hw)

theorem cnt_pos_of_mem {x : Option Callback} {l : List (Option Callback)} (h : x ∈ l) :
    0 < cnt x l := by
  rcases Nat.eq_zero_or_pos (cnt x l) with h0 | h0
  · exact absurd h (cnt_eq_zero h0)
  · exact h0

theorem sched_getD {s d : Sys} {sched : List Event} (h : (run s sched).isSome = true) :
    run s sched = some ((run s sched).getD d) := by
  cases hr : run s sched with
  | none => rw [hr] at h; cases h
  | some a => rfl

/-- C19, the claim as stated fails. One worker, tasks 7 and 8. After the two `addTask` calls the
client is about to call `stop()`; task 7 is in the mailbox of the worker and task 8 waits in the
dispatch queue. `stop()` queues its stop request behind task 8, the worker runs 7, then 8, then
takes the stop request, and `stop()` returns after task 8 was run. -/
theorem stop_runs_the_queued_task :
    (run (Sys.init 1 [7, 8]) [.client, .client]).map
        (fun s => (s.pool.dispatch_queue_, s.tasksLeft, s.nullsLeft, s.pool.num_workers)) =
      some ([some 8], [], 1, 1) ∧
    (run (Sys.init 1 [7, 8]) [.client, .client]).map
        (fun s => (s.done, (s.pool.worker 0).has_task_, (s.pool.worker 0).task_)) =
      some ([], true, some 7) ∧
    (run (Sys.init 1 [7, 8])
          ([.client, .client] ++
            [.client, .take 0, .finish 0, .take 0, .finish 0, .take 0, .client])).map
        (fun s => (s.tasksLeft, s.nullsLeft, s.joined, s.pool.num_workers)) =
      some ([], 0, 1, 1) ∧
    (run (Sys.init 1 [7, 8])
          ([.client, .client] ++
            [.client, .take 0, .finish 0, .take 0, .finish 0, .take 0, .client])).map
        (fun s => (s.done, s.pool.dispatch_queue_)) =
      some ([7, 8], []) :=
  ⟨by decide!, by decide!, by decide!, by decide!⟩

/-- C19 amended. Tasks that wait in the dispatch queue of a `ThreadPoolFast`, in a mailbox or are
running when a thread that is not a worker calls `stop()` are all run before `stop()` returns:
the stop requests are queued behind them. For a pool of `n ≥ 1` workers, a state `s1` in which
the client is about to call `stop()` and a later state `s2` in which `stop()` has returned, each
task is completed between `s1` and `s2` exactly as often as it was pending in `s1`; so every
queued task and every running task of `s1` is among the tasks done in `s2`. -/
theorem stop_runs_pending_tasks (n : Nat) (tasks : List Callback) (hn : 1 ≤ n)
    (sched1 sched2 : List Event) (s1 s2 : Sys)
    (h1 : run (Sys.init n tasks) sched1 = some s1) (hc : s1.stopCalled)
    (h2 : run s1 sched2 = some s2) (hr : s2.stopReturned) :
    (∀ t, s2.done.count t =
      s1.done.count t + cnt (some t) s1.pool.dispatch_queue_ + s1.held (some t)) ∧
    (∀ t, some t ∈ s1.pool.dispatch_queue_ → t ∈ s2.done) ∧
    (∀ t w, w < n → s1.phase w = .running t → t ∈ s2.done) := by
  have hi1 := inv_run sched1 _ s1 (inv_init n tasks) h1
  have hi2 := inv_run sched2 s1 s2 hi1 h2
  have hp := done_perm hi2 hn hr
  have key : ∀ t, s2.done.count t =
      s1.done.count t + cnt (some t) s1.pool.dispatch_queue_ + s1.held (some t) := by
    intro t
    have ha := hi1.account (some t)
    rw [hc.1] at ha
    simp only [cnt_append, cnt_some_map_some, cnt_replicate, List.map_nil, cnt_nil,
      reduceCtorEq, if_false] at ha
    rw [hp.count_eq t]
    omega
  refine ⟨key, fun t ht => ?_, fun t w hw hph => ?_⟩
  · have := key t
    have := cnt_pos_of_mem ht
    exact List.count_pos_iff.1 (by omega)
  · have hk := key t
    have hg := held_ge (s := s1) (some t) w (by rw [hi1.num]; exact hw)
    rw [hph, itemCount_running _ _ _ (hi1.busy w hw (by rw [hph]; simp))] at hg
    simp only [if_true] at hg
    exact List.count_pos_iff.1 (by omega)

/-- Witness for C19 amended: one worker, tasks 7 and 8. When `stop()` is called task 8 waits in
the dispatch queue; when `stop()` has returned, task 8 is done. -/
theorem stop_runs_pending_tasks_witness :
    (atStop.stopCalled ∧ afterStop.stopReturned ∧ atStop.pool.dispatch_queue_ = [some 8] ∧
      afterStop.done = [7, 8]) ∧
    ((∀ t, afterStop.done.count t =
      atStop.done.count t + cnt (some t) atStop.pool.dispatch_queue_ + atStop.held (some t)) ∧
    (∀ t, some t ∈ atStop.pool.dispatch_queue_ → t ∈ afterStop.done) ∧
    (∀ t w, w < 1 → atStop.phase w = .running t → t ∈ afterStop.done)) :=
  ⟨⟨⟨by decide!, by decide!⟩, ⟨by decide!, by decide!, by decide!⟩, by decide!, by decide!⟩,
    stop_runs_pending_tasks 1 [7, 8] (by decide) [.client, .client]
      [.client, .take 0, .finish 0, .take 0, .finish 0, .take 0, .client] atStop afterStop
      (sched_getD (by decide!)) ⟨by decide!, by decide!⟩ (sched_getD (by decide!))
      ⟨by decide!, by decide!, by decide!⟩⟩

end ThreadPoolFast

/-! ## ThreadPoolFast: the dispatch rule on concrete pools -/

namespace ThreadPoolFast

/-- Witness for C18. A fresh pool of two workers has the free list `[1, 0]`: `addTask(7)` takes
worker 1 off the list and puts task 7 in its mailbox, the queue stays as it is. With one worker
that holds task 7 and task 8 queued, the worker finishing gets task 8 from the head of the queue
and is not put on the free list. -/
theorem dispatch_rule_witness :
    ((ThreadPoolFast.new 2).workers_ = [1, 0] ∧
      (((ThreadPoolFast.new 1).addTask (some 7)).addTask (some 8)).dispatch_queue_ = [some 8] ∧
      (((ThreadPoolFast.new 1).addTask (some 7)).addTask (some 8)).workers_ = []) ∧
    (((ThreadPoolFast.new 2).addTask (some 7)).workers_ = [0] ∧
      ((ThreadPoolFast.new 2).addTask (some 7)).worker 1 = { has_task_ := true, task_ := some 7 } ∧
      (∀ u, u ≠ 1 →
        ((ThreadPoolFast.new 2).addTask (some 7)).worker u = (ThreadPoolFast.new 2).worker u) ∧
      ((ThreadPoolFast.new 2).addTask (some 7)).dispatch_queue_ =
        (ThreadPoolFast.new 2).dispatch_queue_) ∧
    (((((ThreadPoolFast.new 1).addTask (some 7)).addTask (some 8)).queueWorker 0).worker 0 =
        { has_task_ := true, task_ := some 8 } ∧
      (∀ u, u ≠ 0 →
        ((((ThreadPoolFast.new 1).addTask (some 7)).addTask (some 8)).queueWorker 0).worker u =
          (((ThreadPoolFast.new 1).addTask (some 7)).addTask (some 8)).worker u) ∧
      ((((ThreadPoolFast.new 1).addTask (some 7)).addTask (some 8)).queueWorker 0).dispatch_queue_ =
        [] ∧
      ((((ThreadPoolFast.new 1).addTask (some 7)).addTask (some 8)).queueWorker 0).workers_ =
        (((ThreadPoolFast.new 1).addTask (some 7)).addTask (some 8)).workers_) :=
  ⟨⟨by decide!, by decide!, by decide!⟩,
    (dispatch_rule (ThreadPoolFast.new 2) (some 7) 0).1 1 [0] (by decide!),
    (dispatch_rule (((ThreadPoolFast.new 1).addTask (some 7)).addTask (some 8)) none 0).2.2.1
      (some 8) [] (by decide!)⟩

end ThreadPoolFast

/-! ## DescriptorPoller: the event mask -/

theorem lor_eq_zero (a b : Nat) : a ||| b = 0 ↔ a = 0 ∧ b = 0 := by
  constructor
  · intro h
    have key : ∀ i, a.testBit i = false ∧ b.testBit i = false := by
      intro i
      have := congrArg (fun n => Nat.testBit n i) h
      simp only [Nat.testBit_or, Nat.zero_testBit, Bool.or_eq_false_iff] at this
      exact this
    exact ⟨Nat.eq_of_testBit_eq (fun i => by rw [(key i).1, Nat.zero_testBit]),
      Nat.eq_of_testBit_eq (fun i => by rw [(key i).2, Nat.zero_testBit])⟩
  · rintro ⟨rfl, rfl⟩
    rfl

theorem land_lor_ne_zero (x a b : Nat) : x &&& (a ||| b) ≠ 0 ↔ x &&& a ≠ 0 ∨ x &&& b ≠ 0 := by
  rw [Nat.and_or_distrib_left, Ne, lor_eq_zero]
  tauto

namespace DescriptorPoller

/-- The mask returned by `getEvents`, by cases on what was reported. -/
theorem getEvents_mask (fl : EpollFlags) (ev : EpollEvent) (events : Nat) :
    (getEvents fl ev events).1 =
      if ev.events &&& fl.EPOLLERR ≠ 0 then 1
      else if ev.events &&& fl.EPOLLHUP ≠ 0 ∨ ev.events &&& fl.EPOLLIN ≠ 0 then
        (if ev.events &&& fl.EPOLLHUP ≠ 0 ∨ ev.events &&& fl.EPOLLOUT ≠ 0 then 6 else 2)
      else (if ev.events &&& fl.EPOLLHUP ≠ 0 ∨ ev.events &&& fl.EPOLLOUT ≠ 0 then 4 else 0) := by
  unfold getEvents
  simp only [land_lor_ne_zero, Nat.and_zero, Nat.zero_or, DP_ERROR, DP_READ_READY,
    DP_WRITE_READY]
  split
  · rfl
  · split <;> split <;> rfl

/-- C27, the claim as stated fails. With the flag values of Linux, a hangup reported together
with the error flag (`EPOLLHUP | EPOLLERR = 0x18`) gives the mask `DP_ERROR` alone: it holds
neither `DP_READ_READY` nor `DP_WRITE_READY`. The same for input-ready with the error flag. -/
theorem getEvents_hangup_with_error :
    (getEvents linuxFlags { events := 24, ptr := 7 } 0).1 = DP_ERROR ∧
    (getEvents linuxFlags { events := 24, ptr := 7 } 0).1 &&& DP_READ_READY = 0 ∧
    (getEvents linuxFlags { events := 24, ptr := 7 } 0).1 &&& DP_WRITE_READY = 0 ∧
    (getEvents linuxFlags { events := 9, ptr := 7 } 0).1 &&& DP_READ_READY = 0 := by
  decide

/-- C27 amended. For every reported event set, whatever the flag values:
* with the error flag, the mask is exactly `DP_ERROR`, also when hangup, input-ready or
  output-ready are reported with it;
* without the error flag, the mask holds `DP_READ_READY` iff the set includes hangup or
  input-ready, `DP_WRITE_READY` iff it includes hangup or output-ready, and not `DP_ERROR`; so
  a hangup gives both;
* the mask holds `DP_ERROR` iff the set includes the error flag; the descriptor is the one
  stored with the event;
* the polling loop takes `DP_ERROR` for readiness in both directions: it calls `readIfWaiting`
  iff error, hangup or input-ready was reported, and `writeIfWaiting` iff error, hangup or
  output-ready was reported. -/
theorem getEvents_mapping (fl : EpollFlags) (ev : EpollEvent) (events : Nat) :
    (ev.events &&& fl.EPOLLERR ≠ 0 → (getEvents fl ev events).1 = DP_ERROR) ∧
    (ev.events &&& fl.EPOLLERR = 0 →
      ((getEvents fl ev events).1 &&& DP_READ_READY ≠ 0 ↔
        (ev.events &&& fl.EPOLLHUP ≠ 0 ∨ ev.events &&& fl.EPOLLIN ≠ 0)) ∧
      ((getEvents fl ev events).1 &&& DP_WRITE_READY ≠ 0 ↔
        (ev.events &&& fl.EPOLLHUP ≠ 0 ∨ ev.events &&& fl.EPOLLOUT ≠ 0)) ∧
      (getEvents fl ev events).1 &&& DP_ERROR = 0) ∧
    ((getEvents fl ev events).1 &&& DP_ERROR ≠ 0 ↔ ev.events &&& fl.EPOLLERR ≠ 0) ∧
    (getEvents fl ev events).2 = ev.ptr ∧
    (∀ s : Descriptor × TaskLog,
      IOManager.dispatch (getEvents fl ev events).1 s =
        (let s1 :=
          if ev.events &&& fl.EPOLLERR ≠ 0 ∨ ev.events &&& fl.EPOLLHUP ≠ 0 ∨
              ev.events &&& fl.EPOLLIN ≠ 0 then s.1.readIfWaiting s.2
          else s
        if ev.events &&& fl.EPOLLERR ≠ 0 ∨ ev.events &&& fl.EPOLLHUP ≠ 0 ∨
            ev.events &&& fl.EPOLLOUT ≠ 0 then s1.1.writeIfWaiting s1.2
        else s1)) := by
  have hm := getEvents_mask fl ev events
  have hd : (getEvents fl ev events).2 = ev.ptr := by
    unfold getEvents
    split <;> rfl
  by_cases he : ev.events &&& fl.EPOLLERR ≠ 0
  · rw [if_pos he] at hm
    refine ⟨fun _ => hm, fun h0 => absurd h0 he, ?_, hd, fun s => ?_⟩
    · rw [hm]
      exact ⟨fun _ => he, fun _ => by decide⟩
    · have h1 : (1 : Nat) &&& (DP_ERROR ||| DP_READ_READY) ≠ 0 := by decide
      have h2 : (1 : Nat) &&& (DP_ERROR ||| DP_WRITE_READY) ≠ 0 := by decide
      simp only [IOManager.dispatch, hm]
      rw [if_pos h1, if_pos h2, if_pos (Or.inl he), if_pos (Or.inl he)]
  · rw [if_neg he] at hm
    have he0 : ev.events &&& fl.EPOLLERR = 0 := not_not.1 he
    have hor : ∀ p : Prop, (ev.events &&& fl.EPOLLERR ≠ 0 ∨ p) ↔ p :=
      fun p => ⟨fun h => h.resolve_left he, Or.inr⟩
    by_cases hr : ev.events &&& fl.EPOLLHUP ≠ 0 ∨ ev.events &&& fl.EPOLLIN ≠ 0 <;>
    by_cases hw : ev.events &&& fl.EPOLLHUP ≠ 0 ∨ ev.events &&& fl.EPOLLOUT ≠ 0
    · rw [if_pos hr, if_pos hw] at hm
      refine ⟨fun h => absurd h he, fun _ => ?_, ?_, hd, fun s => ?_⟩
      · rw [hm]
        exact ⟨⟨fun _ => hr, fun _ => by decide⟩, ⟨fun _ => hw, fun _ => by decide⟩, by decide⟩
      · rw [hm]
        exact ⟨fun h => absurd h (by decide), fun h => absurd h he⟩
      · have h1 : (6 : Nat) &&& (DP_ERROR ||| DP_READ_READY) ≠ 0 := by decide
        have h2 : (6 : Nat) &&& (DP_ERROR ||| DP_WRITE_READY) ≠ 0 := by decide
        simp only [IOManager.dispatch, hm]
        rw [if_pos h1, if_pos h2, if_pos (Or.inr hr), if_pos (Or.inr hw)]
    · rw [if_pos hr, if_neg hw] at hm
      refine ⟨fun h => absurd h he, fun _ => ?_, ?_, hd, fun s => ?_⟩
      · rw [hm]
        exact ⟨⟨fun _ => hr, fun _ => by decide⟩, ⟨fun h => absurd h (by decide),
          fun h => absurd h hw⟩, by decide⟩
      · rw [hm]
        exact ⟨fun h => absurd h (by decide), fun h => absurd h he⟩
      · have h1 : (2 : Nat) &&& (DP_ERROR ||| DP_READ_READY) ≠ 0 := by decide
        have h2 : ¬ (2 : Nat) &&& (DP_ERROR ||| DP_WRITE_READY) ≠ 0 := by decide
        simp only [IOManager.dispatch, hm]
        rw [if_pos h1, if_neg h2, if_pos (Or.inr hr), if_neg (fun h => hw ((hor _).1 h))]
    · rw [if_neg hr, if_pos hw] at hm
      refine ⟨fun h => absurd h he, fun _ => ?_, ?_, hd, fun s => ?_⟩
      · rw [hm]
        exact ⟨⟨fun h => absurd h (by decide), fun h => absurd h hr⟩,
          ⟨fun _ => hw, fun _ => by decide⟩, by decide⟩
      · rw [hm]
        exact ⟨fun h => absurd h (by decide), fun h => absurd h he⟩
      · have h1 : ¬ (4 : Nat) &&& (DP_ERROR ||| DP_READ_READY) ≠ 0 := by decide
        have h2 : (4 : Nat) &&& (DP_ERROR ||| DP_WRITE_READY) ≠ 0 := by decide
        simp only [IOManager.dispatch, hm]
        rw [if_neg h1, if_pos h2, if_neg (fun h => hr ((hor _).1 h)), if_pos (Or.inr hw)]
    · rw [if_neg hr, if_neg hw] at hm
      refine ⟨fun h => absurd h he, fun _ => ?_, ?_, hd, fun s => ?_⟩
      · rw [hm]
        exact ⟨⟨fun h => absurd h (by decide), fun h => absurd h hr⟩,
          ⟨fun h => absurd h (by decide), fun h => absurd h hw⟩, by decide⟩
      · rw [hm]
        exact ⟨fun h => absurd h (by decide), fun h => absurd h he⟩
      · have h1 : ¬ (0 : Nat) &&& (DP_ERROR ||| DP_READ_READY) ≠ 0 := by decide
        have h2 : ¬ (0 : Nat) &&& (DP_ERROR ||| DP_WRITE_READY) ≠ 0 := by decide
        simp only [IOManager.dispatch, hm]
        rw [if_neg h1, if_neg h2, if_neg (fun h => hr ((hor _).1 h)),
          if_neg (fun h => hw ((hor _).1 h))]

/-- Witness for C27 amended: a hangup without the error flag gives both `DP_READ_READY` and
`DP_WRITE_READY`; with the error flag the mask is `DP_ERROR`. -/
theorem getEvents_mapping_witness :
    ((getEvents linuxFlags { events := 16, ptr := 7 } 0).1 = 6 ∧
      (getEvents linuxFlags { events := 24, ptr := 7 } 0) = (DP_ERROR, 7)) ∧
    ((getEvents linuxFlags { events := 16, ptr := 7 } 0).1 &&& DP_READ_READY ≠ 0 ↔
        ((16 : Nat) &&& linuxFlags.EPOLLHUP ≠ 0 ∨ (16 : Nat) &&& linuxFlags.EPOLLIN ≠ 0)) :=
  ⟨by decide,
    ((getEvents_mapping linuxFlags { events := 16, ptr := 7 } 0).2.1 (by decide)).1⟩

end DescriptorPoller

/-! ## Descriptor: the latch from its idle state -/

namespace Descriptor

/-- C28, the claim as stated fails. A new descriptor with both callbacks installed is idle in
both directions. The next event on the read direction schedules nothing: a user request
(`readWhenReady`) only sets `waiting_read_`, a readiness edge (`readIfWaiting`) only sets
`can_read_`. The same for the write direction. -/
theorem idle_next_event_schedules_nothing :
    (Descriptor.new 3 (some 7) (some 8)).readWhenReady [] =
      ({ Descriptor.new 3 (some 7) (some 8) with waiting_read_ := true }, []) ∧
    (Descriptor.new 3 (some 7) (some 8)).readIfWaiting [] =
      ({ Descriptor.new 3 (some 7) (some 8) with can_read_ := true }, []) ∧
    (Descriptor.new 3 (some 7) (some 8)).writeWhenReady [] =
      ({ Descriptor.new 3 (some 7) (some 8) with waiting_write_ := true }, []) ∧
    (Descriptor.new 3 (some 7) (some 8)).writeIfWaiting [] =
      ({ Descriptor.new 3 (some 7) (some 8) with can_write_ := true }, []) := by
  decide

/-- C28 amended. From the idle latch state of a direction (`can` and `waiting` both false,
callback `f` installed) the next event on that direction schedules nothing and sets the latch:
a user request sets `waiting`, a readiness edge sets `can`. The event of the other kind that
follows schedules the callback once and brings the latch back to idle; a repeated event of the
same kind schedules nothing and leaves the latch as it is. -/
theorem idle_latch_fires_on_second_event (d : Descriptor) (pool : TaskLog) :
    (∀ f, d.read_cb_ = some f → d.can_read_ = false → d.waiting_read_ = false →
      d.readWhenReady pool = ({ d with waiting_read_ := true }, pool) ∧
      d.readIfWaiting pool = ({ d with can_read_ := true }, pool) ∧
      (d.readWhenReady pool).1.readIfWaiting (d.readWhenReady pool).2 = (d, pool ++ [f]) ∧
      (d.readIfWaiting pool).1.readWhenReady (d.readIfWaiting pool).2 = (d, pool ++ [f]) ∧
      (d.readWhenReady pool).1.readWhenReady (d.readWhenReady pool).2 =
        ({ d with waiting_read_ := true }, pool) ∧
      (d.readIfWaiting pool).1.readIfWaiting (d.readIfWaiting pool).2 =
        ({ d with can_read_ := true }, pool)) ∧
    (∀ g, d.write_cb_ = some g → d.can_write_ = false → d.waiting_write_ = false →
      d.writeWhenReady pool = ({ d with waiting_write_ := true }, pool) ∧
      d.writeIfWaiting pool = ({ d with can_write_ := true }, pool) ∧
      (d.writeWhenReady pool).1.writeIfWaiting (d.writeWhenReady pool).2 = (d, pool ++ [g]) ∧
      (d.writeIfWaiting pool).1.writeWhenReady (d.writeIfWaiting pool).2 = (d, pool ++ [g]) ∧
      (d.writeWhenReady pool).1.writeWhenReady (d.writeWhenReady pool).2 =
        ({ d with waiting_write_ := true }, pool) ∧
      (d.writeIfWaiting pool).1.writeIfWaiting (d.writeIfWaiting pool).2 =
        ({ d with can_write_ := true }, pool)) := by
  cases d with
  | mk fd closed rcb wcb cr cw wr ww =>
    constructor
    · intro f hf hc hw
      simp only at hf hc hw
      subst hf hc hw
      simp [readWhenReady, readIfWaiting, submitIf]
    · intro g hg hc hw
      simp only at hg hc hw
      subst hg hc hw
      simp [writeWhenReady, writeIfWaiting, submitIf]

/-- Witness for C28 amended: a new descriptor with the read callback 7; a user request followed
by a readiness edge schedules 7. -/
theorem idle_latch_fires_on_second_event_witness :
    ((Descriptor.new 3 (some 7) (some 8)).readWhenReady []).1.readIfWaiting
        ((Descriptor.new 3 (some 7) (some 8)).readWhenReady []).2 =
      (Descriptor.new 3 (some 7) (some 8), [] ++ [7]) ∧
    ((Descriptor.new 3 (some 7) (some 8)).writeIfWaiting []).1.writeWhenReady
        ((Descriptor.new 3 (some 7) (some 8)).writeIfWaiting []).2 =
      (Descriptor.new 3 (some 7) (some 8), [] ++ [8]) :=
  ⟨((idle_latch_fires_on_second_event (Descriptor.new 3 (some 7) (some 8)) []).1 7
      rfl rfl rfl).2.2.1,
    ((idle_latch_fires_on_second_event (Descriptor.new 3 (some 7) (some 8)) []).2 8
      rfl rfl rfl).2.2.2.1⟩

end Descriptor

/-! ## FileCache: unpin of a node that is not pinned -/

namespace FileCache

/-- C29 (failing input). On a cache of capacity 10, after `h = pin("ten")` and `unpin(h)` the
node has `pin_count == 0`. A second `unpin(h)` logs the FATAL message, but the count was
decremented before it was tested: the node is left with `pin_count == -1`. `unpin(0)` does
nothing. -/
theorem unpin_of_unpinned_node_leaves_negative_pin_count :
    (cacheA.cache_map_ = [("ten", 1)] ∧
      (cacheA.nodes 1).map (fun nd => nd.pin_count) = some 0) ∧
    (unpin cacheA 1).map (fun r => (r.1, r.2.cache_map_, (r.2.nodes 1).map (fun nd => nd.pin_count)))
      = some (true, [("ten", 1)], some (-1)) ∧
    ((run fsA (FileCache.new 10) [.pin "ten", .unpin 1, .unpin 1]).bind (fun c => c.nodes 1)).map
      (fun nd => nd.pin_count) = some (-1) ∧
    (unpin cacheA 0).map (fun r => (r.1, (r.2.nodes 1).map (fun nd => nd.pin_count)))
      = some (false, some 0) := by
  refine ⟨⟨by decide!, by decide!⟩, by decide!, by decide!, by decide!⟩

end FileCache

/-! ## IOManager: the timer queue -/

namespace IOManager

theorem insert_perm (q : TimerQueue) (ts : Nat) (task : Callback) :
    (q.insert ts task).Perm ((ts, task) :: q) := by
  induction q with
  | nil => exact List.Perm.refl _
  | cons e rest ih =>
    simp only [TimerQueue.insert]
    split
    · exact List.Perm.refl _
    · exact (List.Perm.cons e ih).trans (List.Perm.swap _ _ _)

theorem insert_sorted (q : TimerQueue) (ts : Nat) (task : Callback)
    (h : q.Pairwise (fun a b => a.1 ≤ b.1)) :
    (q.insert ts task).Pairwise (fun a b => a.1 ≤ b.1) := by
  induction q with
  | nil => simp [TimerQueue.insert]
  | cons e rest ih =>
    rw [List.pairwise_cons] at h
    simp only [TimerQueue.insert]
    split
    · rename_i hlt
      refine List.Pairwise.cons (fun x hx => ?_) (List.Pairwise.cons h.1 h.2)
      rcases List.mem_cons.1 hx with rfl | hx
      · exact Nat.le_of_lt hlt
      · exact Nat.le_trans (Nat.le_of_lt hlt) (h.1 x hx)
    · rename_i hge
      refine List.Pairwise.cons (fun x hx => ?_) (ih h.2)
      rcases List.mem_cons.1 ((insert_perm rest ts task).subset hx) with rfl | hx
      · exact Nat.le_of_not_lt hge
      · exact h.1 x hx

/-- Entries of one deadline stay in the order of their insertion. -/
theorem insert_filter (q : TimerQueue) (ts : Nat) (task : Callback) (d : Nat)
    (h : q.Pairwise (fun a b => a.1 ≤ b.1)) :
    (q.insert ts task).filter (fun e => decide (e.1 = d)) =
      q.filter (fun e => decide (e.1 = d)) ++ (if ts = d then [(ts, task)] else []) := by
  induction q with
  | nil =>
    simp only [TimerQueue.insert, List.filter_nil, List.nil_append]
    split
    · rename_i hd
      simp [hd]
    · rename_i hd
      simp [hd]
  | cons e rest ih =>
    rw [List.pairwise_cons] at h
    simp only [TimerQueue.insert]
    split
    · rename_i hlt
      by_cases hd : ts = d
      · have hnone : (e :: rest).filter (fun x => decide (x.1 = d)) = [] := by
          rw [List.filter_eq_nil_iff]
          intro x hx
          have hle : e.1 ≤ x.1 := by
            rcases List.mem_cons.1 hx with rfl | hx
            · exact Nat.le_refl _
            · exact h.1 x hx
          simp only [decide_eq_true_eq]
          omega
        rw [List.filter_cons, hnone, if_pos hd]
        simp [hd]
      · rw [List.filter_cons, if_neg hd]
        simp [hd]
    · rw [List.filter_cons, List.filter_cons, ih h.2]
      split <;> simp

theorem drainTimers_eq (now : Nat) (q : TimerQueue) (pool : TaskLog) :
    drainTimers now q pool =
      (q.dropWhile (fun e => decide (e.1 ≤ now)),
        pool ++ (q.takeWhile (fun e => decide (e.1 ≤ now))).map Prod.snd) := by
  induction q generalizing pool with
  | nil => simp [drainTimers]
  | cons e rest ih =>
    simp only [drainTimers]
    split
    · rename_i hgt
      have : ¬ e.1 ≤ now := by omega
      simp [List.dropWhile_cons, List.takeWhile_cons, this]
    · rename_i hle
      have : e.1 ≤ now := by omega
      rw [ih]
      simp [List.dropWhile_cons, List.takeWhile_cons, this]

theorem sorted_takeWhile (now : Nat) (q : TimerQueue)
    (h : q.Pairwise (fun a b => a.1 ≤ b.1)) :
    q.takeWhile (fun e => decide (e.1 ≤ now)) = q.filter (fun e => decide (e.1 ≤ now)) ∧
    q.dropWhile (fun e => decide (e.1 ≤ now)) = q.filter (fun e => decide (now < e.1)) := by
  induction q with
  | nil => simp
  | cons e rest ih =>
    rw [List.pairwise_cons] at h
    by_cases hle : e.1 ≤ now
    · have hn : ¬ now < e.1 := by omega
      simp [List.takeWhile_cons, List.dropWhile_cons, List.filter_cons, hle, hn, ih h.2]
    · have hlt : now < e.1 := by omega
      have hall : ∀ x ∈ rest, now < x.1 := fun x hx => Nat.lt_of_lt_of_le hlt (h.1 x hx)
      have h1 : rest.filter (fun e => decide (e.1 ≤ now)) = [] := by
        rw [List.filter_eq_nil_iff]
        intro x hx
        have := hall x hx
        simp only [decide_eq_true_eq]
        omega
      have h2 : rest.filter (fun e => decide (now < e.1)) = rest := by
        rw [List.filter_eq_self]
        intro x hx
        simpa using hall x hx
      simp [List.takeWhile_cons, List.dropWhile_cons, List.filter_cons, hle, hlt, h1, h2]

theorem addTimers_spec (ins : List (Nat × Callback)) (q0 : TimerQueue)
    (h0 : q0.Pairwise (fun a b => a.1 ≤ b.1)) :
    (ins.foldl (fun q e => addTimer q e.1 e.2) q0).Pairwise (fun a b => a.1 ≤ b.1) ∧
    (ins.foldl (fun q e => addTimer q e.1 e.2) q0).Perm (q0 ++ ins) ∧
    ∀ d, (ins.foldl (fun q e => addTimer q e.1 e.2) q0).filter (fun e => decide (e.1 = d)) =
      q0.filter (fun e => decide (e.1 = d)) ++ ins.filter (fun e => decide (e.1 = d)) := by
  induction ins generalizing q0 with
  | nil => simp [h0]
  | cons e rest ih =>
    simp only [List.foldl_cons]
    have hs := insert_sorted q0 e.1 e.2 h0
    obtain ⟨h1, h2, h3⟩ := ih (addTimer q0 e.1 e.2) hs
    refine ⟨h1, ?_, fun d => ?_⟩
    · refine h2.trans ?_
      refine ((insert_perm q0 e.1 e.2).append_right rest).trans ?_
      simp only [List.cons_append]
      exact (List.perm_middle).symm
    · rw [h3 d]
      unfold addTimer
      rw [insert_filter q0 e.1 e.2 d h0, List.append_assoc, List.filter_cons]
      by_cases hd : e.1 = d
      · subst hd
        simp
      · simp [hd]

/-- C26. Timer drain. Let the timer queue hold the entries `ins`, added by `addTimer` in this
order, and let one drain pass run at time `now` with the pool having received the tasks `pool`
so far. Then
* the pass hands to the pool exactly the tasks of the entries with deadline `≤ now`, in the order
  of the queue, and removes exactly those entries; the entries with deadline `> now` stay;
* the queue is in non-decreasing deadline order and, for each deadline, holds the entries with
  that deadline in the order of their insertion;
* every entry of the queue is either handed over once or stays in the queue, so a later pass
  cannot hand it over again. -/
theorem timer_drain (ins : List (Nat × Callback)) (now : Nat) (pool : TaskLog) :
    (drainTimers now (ins.foldl (fun q e => addTimer q e.1 e.2) []) pool).2 =
      pool ++ ((ins.foldl (fun q e => addTimer q e.1 e.2) []).filter
        (fun e => decide (e.1 ≤ now))).map Prod.snd ∧
    (drainTimers now (ins.foldl (fun q e => addTimer q e.1 e.2) []) pool).1 =
      (ins.foldl (fun q e => addTimer q e.1 e.2) []).filter (fun e => decide (now < e.1)) ∧
    (ins.foldl (fun q e => addTimer q e.1 e.2) []).Pairwise (fun a b => a.1 ≤ b.1) ∧
    (∀ d, (ins.foldl (fun q e => addTimer q e.1 e.2) []).filter (fun e => decide (e.1 = d)) =
      ins.filter (fun e => decide (e.1 = d))) ∧
    (ins.foldl (fun q e => addTimer q e.1 e.2) []).Perm ins ∧
    ((ins.foldl (fun q e => addTimer q e.1 e.2) []).filter (fun e => decide (e.1 ≤ now)) ++
      (drainTimers now (ins.foldl (fun q e => addTimer q e.1 e.2) []) pool).1).Perm
        (ins.foldl (fun q e => addTimer q e.1 e.2) []) := by
  obtain ⟨h1, h2, h3⟩ := addTimers_spec ins [] List.Pairwise.nil
  have ht := sorted_takeWhile now _ h1
  rw [drainTimers_eq, ht.1, ht.2]
  refine ⟨rfl, rfl, h1, fun d => by simpa using h3 d, by simpa using h2, ?_⟩
  have := List.filter_append_perm (fun e : Nat × Callback => decide (e.1 ≤ now))
    (ins.foldl (fun q e => addTimer q e.1 e.2) [])
  refine List.Perm.trans ?_ this
  refine List.Perm.append_left _ ?_
  apply List.Perm.of_eq
  apply List.filter_congr
  intro x _
  by_cases hx : x.1 ≤ now
  · have : ¬ now < x.1 := by omega
    simp [hx, this]
  · have : now < x.1 := by omega
    simp [hx, this]

/-- Witness for C26: timers added with the deadlines 30, 10, 20, 10 (tasks 1, 2, 3, 4) and a
drain at time 20: the tasks 2, 4, 3 are handed to the pool in this order, the entry with
deadline 30 stays. -/
theorem timer_drain_witness :
    drainTimers 20 ([(30, 1), (10, 2), (20, 3), (10, 4)].foldl (fun q e => addTimer q e.1 e.2) [])
        [9] = ([(30, 1)], [9, 2, 4, 3]) ∧
    (drainTimers 20 ([(30, 1), (10, 2), (20, 3), (10, 4)].foldl
        (fun q e => addTimer q e.1 e.2) []) [9]).2 =
      [9] ++ (([(30, 1), (10, 2), (20, 3), (10, 4)].foldl
        (fun q e => addTimer q e.1 e.2) []).filter (fun e => decide (e.1 ≤ 20))).map Prod.snd :=
  ⟨by decide, (timer_drain [(30, 1), (10, 2), (20, 3), (10, 4)] 20 [9]).1⟩

end IOManager

/-! ## HTTP parser: what a call that needs more input leaves behind -/

namespace http

open Buffer (Iterator)

namespace Parser

theorem parseString_incomplete (b : Buffer) (it : Iterator) (res : List Nat)
    (it1 : Iterator) (res1 : List Nat)
    (h : parseString b it res = some (.IncompleteInput, it1, res1)) : it1.eob b = true := by
  unfold parseString at h
  split at h
  · rename_i he
    simp only [Option.some.injEq, Prod.mk.injEq, true_and] at h
    rw [← h.1]; exact he
  · split at h
    · cases h
    · split at h
      · rename_i he
        simp only [Option.some.injEq, Prod.mk.injEq, true_and] at h
        rw [← h.1]; exact he
      · simp only [Option.some.injEq, Prod.mk.injEq, reduceCtorEq, false_and] at h

theorem parseLineLoop_incomplete (b : Buffer) :
    ∀ (fuel : Nat) (it : Iterator) (res : List Nat) (it1 : Iterator) (res1 : List Nat),
      parseLineLoop fuel b it res = some (.IncompleteInput, it1, res1) → it1.eob b = true := by
  intro fuel
  induction fuel with
  | zero =>
    intro it res it1 res1 h
    unfold parseLineLoop at h
    split at h
    · rename_i he
      simp only [Option.some.injEq, Prod.mk.injEq, true_and] at h
      rw [← h.1]; exact he
    · dsimp only at h
      split at h
      · split at h <;> simp at h
      · cases h
  | succ fuel ih =>
    intro it res it1 res1 h
    unfold parseLineLoop at h
    split at h
    · rename_i he
      simp only [Option.some.injEq, Prod.mk.injEq, true_and] at h
      rw [← h.1]; exact he
    · dsimp only at h
      split at h
      · split at h <;> simp at h
      · exact ih _ _ _ _ h

theorem parseLine_incomplete (b : Buffer) (it : Iterator) (res : List Nat)
    (it1 : Iterator) (res1 : List Nat)
    (h : parseLine b it res = some (.IncompleteInput, it1, res1)) : it1.eob b = true := by
  unfold parseLine at h
  split at h
  · rename_i he
    simp only [Option.some.injEq, Prod.mk.injEq, true_and] at h
    rw [← h.1]; exact he
  · exact parseLineLoop_incomplete b _ _ _ _ _ h

theorem skipChar_incomplete (b : Buffer) (it : Iterator) (c : Nat)
    (h : (skipChar b it c).1 = .IncompleteInput) : (skipChar b it c).2.eob b = true := by
  unfold skipChar at h ⊢
  split
  · rename_i he; exact he
  · rename_i he
    rw [if_neg he] at h
    split at h <;> cases h

theorem skipNewLine_incomplete (b : Buffer) (it : Iterator)
    (h : (skipNewLine b it).1 = .IncompleteInput) : (skipNewLine b it).2.eob b = true := by
  unfold skipNewLine at h ⊢
  split
  · rename_i he; exact he
  · rename_i he
    rw [if_neg he] at h
    dsimp only at h ⊢
    split
    · rename_i he1; exact he1
    · rename_i he1
      rw [if_neg he1] at h
      split at h <;> cases h

theorem headerLoop_incomplete (b : Buffer) :
    ∀ (fuel : Nat) (it it1 : Iterator),
      headerLoop fuel b it = some (.IncompleteInput, it1) → it1.eob b = true := by
  intro fuel
  induction fuel with
  | zero =>
    intro it it1 h
    unfold headerLoop at h
    cases hp : parseLine b it [] with
    | none => simp [hp] at h
    | some r =>
      obtain ⟨e, it2, dummy⟩ := r
      cases e with
      | returned =>
        simp only [hp] at h
        split at h <;> simp at h
      | IncompleteInput =>
        simp only [hp, Option.some.injEq, Prod.mk.injEq, true_and] at h
        rw [← h]
        exact parseLine_incomplete b it [] it2 dummy hp
      | ErrorInRequest => simp [hp] at h
  | succ fuel ih =>
    intro it it1 h
    unfold headerLoop at h
    cases hp : parseLine b it [] with
    | none => simp [hp] at h
    | some r =>
      obtain ⟨e, it2, dummy⟩ := r
      cases e with
      | returned =>
        simp only [hp] at h
        split at h
        · simp at h
        · exact ih _ _ h
      | IncompleteInput =>
        simp only [hp, Option.some.injEq, Prod.mk.injEq, true_and] at h
        rw [← h]
        exact parseLine_incomplete b it [] it2 dummy hp
      | ErrorInRequest => simp [hp] at h

/-- A sequence of routines ends with `IncompleteInput` at `eob()` when each of them does. -/
theorem andThen_incomplete (b : Buffer) (r : Option (Exit × Iterator × Request))
    (g : Iterator × Request → Option (Exit × Iterator × Request))
    (hr : ∀ it rq, r = some (.IncompleteInput, it, rq) → it.eob b = true)
    (hg : ∀ s it rq, g s = some (.IncompleteInput, it, rq) → it.eob b = true) :
    ∀ it rq, andThen r g = some (.IncompleteInput, it, rq) → it.eob b = true := by
  intro it rq h
  unfold andThen at h
  split at h
  · exact hg _ _ _ h
  · exact hr _ _ h

theorem parseRequestBody_incomplete (b : Buffer) (it : Iterator) (request : Request)
    (it1 : Iterator) (rq : Request)
    (h : parseRequestBody b it request = some (.IncompleteInput, it1, rq)) :
    it1.eob b = true := by
  unfold parseRequestBody at h
  refine andThen_incomplete b _ _ ?_ ?_ it1 rq h
  · refine andThen_incomplete b _ _ ?_ ?_
    · refine andThen_incomplete b _ _ ?_ ?_
      · refine andThen_incomplete b _ _ ?_ ?_
        · refine andThen_incomplete b _ _ ?_ ?_
          · refine andThen_incomplete b _ _ ?_ ?_
            · refine andThen_incomplete b _ _ ?_ ?_
              · intro it2 rq2 h2
                cases hp : parseString b it request.method with
                | none => simp [hp] at h2
                | some r =>
                  obtain ⟨e, it3, res⟩ := r
                  simp only [hp, Option.map_some', Option.some.injEq, Prod.mk.injEq] at h2
                  obtain ⟨rfl, rfl, -⟩ := h2
                  exact parseString_incomplete b _ _ _ _ hp
              · intro s it2 rq2 h2
                simp only [Option.some.injEq, Prod.mk.injEq] at h2
                rw [← h2.2.1]
                exact skipChar_incomplete b _ _ h2.1
            · intro s it2 rq2 h2
              simp only [Option.some.injEq, Prod.mk.injEq] at h2
              rw [← h2.2.1]
              exact skipChar_incomplete b _ _ h2.1
          · intro s it2 rq2 h2
            cases hp : parseString b s.1 s.2.address with
            | none => simp [hp] at h2
            | some r =>
              obtain ⟨e, it3, res⟩ := r
              simp only [hp, Option.map_some', Option.some.injEq, Prod.mk.injEq] at h2
              obtain ⟨rfl, rfl, -⟩ := h2
              exact parseString_incomplete b _ _ _ _ hp
        · intro s it2 rq2 h2
          simp only [Option.some.injEq, Prod.mk.injEq] at h2
          rw [← h2.2.1]
          exact skipChar_incomplete b _ _ h2.1
      · intro s it2 rq2 h2
        cases hp : parseString b s.1 s.2.version with
        | none => simp [hp] at h2
        | some r =>
          obtain ⟨e, it3, res⟩ := r
          simp only [hp, Option.map_some', Option.some.injEq, Prod.mk.injEq] at h2
          obtain ⟨rfl, rfl, -⟩ := h2
          exact parseString_incomplete b _ _ _ _ hp
    · intro s it2 rq2 h2
      simp only [Option.some.injEq, Prod.mk.injEq] at h2
      rw [← h2.2.1]
      exact skipNewLine_incomplete b _ h2.1
  · intro s it2 rq2 h2
    cases hp : headerLoop (rounds b) b s.1 with
    | none => simp [hp] at h2
    | some r =>
      obtain ⟨e, it3⟩ := r
      simp only [hp, Option.map_some', Option.some.injEq, Prod.mk.injEq] at h2
      obtain ⟨rfl, rfl, -⟩ := h2
      exact headerLoop_incomplete b _ _ _ hp

theorem exitCode_eq_one (e : Exit) : exitCode e = 1 ↔ e = .IncompleteInput := by
  cases e <;> simp [exitCode]

/-- C30, the claim as stated fails. A fresh Buffer holds the three bytes `GET`. `parseRequest`
returns +1, and the Request record holds the partly parsed method `GET`. -/
theorem parseRequest_incomplete_keeps_partial_method :
    (parseRequest (Buffer.new.write (bytes "GET")) (Buffer.new.write (bytes "GET")).begin
        { method := bytes "old", address := [], version := [] }).map (fun r => (r.1, r.2.2)) =
      some (1, { method := bytes "GET", address := [], version := [] }) ∧
    (parseRequest (Buffer.new.write (bytes "GET /index.html HTTP"))
        (Buffer.new.write (bytes "GET /index.html HTTP")).begin
        { method := [], address := [], version := [] }).map (fun r => (r.1, r.2.2)) =
      some (1, { method := bytes "GET", address := bytes "index.html",
                 version := bytes "HTTP" }) := by
  constructor <;> decide!

/-- C30 amended. `parseRequest` reads the Buffer through the iterator only and never writes to
it. Whenever it returns +1, the iterator it was given has been moved to `eob()`: the whole input
was looked at. The Request record is cleared at the start of every call, so the outcome of a call
does not depend on what the record held before, and a record left partly filled by a call that
returned +1 does no harm to the next call; it is not empty in general. -/
theorem parseRequest_need_more_input (b : Buffer) (it : Iterator) (request : Request) :
    (∀ it1 rq, parseRequest b it request = some (1, it1, rq) → it1.eob b = true) ∧
    (∀ request0, parseRequest b it request0 = parseRequest b it request) := by
  constructor
  · intro it1 rq h
    unfold parseRequest at h
    cases hp : parseRequestBody b it request.clear with
    | none => simp [hp] at h
    | some r =>
      obtain ⟨e, it2, rq2⟩ := r
      simp only [hp, Option.map_some', Option.some.injEq, Prod.mk.injEq] at h
      obtain ⟨he, rfl, -⟩ := h
      rw [exitCode_eq_one] at he
      subst he
      exact parseRequestBody_incomplete b _ _ _ _ hp
  · intro request0
    rfl

/-- Witness for C30 amended: the Buffer holds `GET`; the call returns +1 with the iterator at
`eob()`. -/
theorem parseRequest_need_more_input_witness :
    (parseRequest (Buffer.new.write (bytes "GET")) (Buffer.new.write (bytes "GET")).begin
        { method := bytes "old", address := [], version := [] }).map (fun r => r.1) = some 1 ∧
    (∀ it1 rq, parseRequest (Buffer.new.write (bytes "GET"))
        (Buffer.new.write (bytes "GET")).begin
        { method := bytes "old", address := [], version := [] } = some (1, it1, rq) →
      it1.eob (Buffer.new.write (bytes "GET")) = true) :=
  ⟨by decide!, (parseRequest_need_more_input _ _ _).1⟩

end Parser

end http

/-! ## Buffer: copyFrom into a fully consumed Buffer -/

namespace Buffer

/-- An iterator without budget that stands at the end of its chunk is not moved by `next()`. -/
theorem Iterator.next_stuck (b : Buffer) (it : Iterator) (hb : it.budget_ ≤ 1)
    (hs : b.sizeAt it.pos_.idx ≤ it.pos_.off) : it.next b = it := by
  unfold Iterator.next
  rw [if_neg (by omega)]
  unfold Iterator.slowNext
  rw [if_neg (by omega)]

theorem Iterator.nextN_stuck (b : Buffer) (it : Iterator) (h : it.next b = it) :
    ∀ k, Iterator.nextN b k it = it := by
  intro k
  induction k with
  | zero => rfl
  | succ k ih => rw [Iterator.nextN, h, ih]

/-- C21 (failing input). The destination has consumed its 100 bytes (read and write position
both at offset 100 of its only chunk); the source holds 4000 bytes `y` and was never consumed.
The source does not fit into the 3996 bytes left in the chunk, so `copyFrom` copies it into a
new chunk, and leaves the read position at the end of the old one. Afterwards the destination
counts 4000 bytes, but `readSize()` is 0, and the iterator from `begin()` is not at `eob()`,
does not point to a byte of the source and is not moved by `next()`: the copied bytes are never
reached. -/
theorem copyFrom_to_consumed_buffer_hides_the_copy :
    (dstRead.byteCount = 0 ∧ dstRead.rpos_ = ⟨0, 100⟩ ∧ dstRead.wpos_ = ⟨0, 100⟩ ∧
      src4000.byteCount = 4000 ∧ src4000.isConsumed = false) ∧
    ((dstRead.copyFrom src4000).byteCount = 4000 ∧
      (dstRead.copyFrom src4000).sizes_ = [100, 4000] ∧
      (dstRead.copyFrom src4000).rpos_ = ⟨0, 100⟩ ∧
      (dstRead.copyFrom src4000).wpos_ = ⟨1, 4000⟩) ∧
    (dstRead.copyFrom src4000).readSize = 0 ∧
    ((dstRead.copyFrom src4000).begin.eob (dstRead.copyFrom src4000) = false ∧
      (dstRead.copyFrom src4000).begin.getChar (dstRead.copyFrom src4000) = 0) ∧
    (∀ k, Iterator.nextN (dstRead.copyFrom src4000) k (dstRead.copyFrom src4000).begin =
      (dstRead.copyFrom src4000).begin) := by
  refine ⟨⟨by decide!, by decide!, by decide!, by decide!, by decide!⟩,
    ⟨by decide!, by decide!, by decide!, by decide!⟩, by decide!, ⟨by decide!, by decide!⟩,
    Iterator.nextN_stuck _ _ (Iterator.next_stuck _ _ (by decide!) (by decide!))⟩

end Buffer

/-! ## Buffer: the layout kept by write, reserve, advance and consume -/

namespace Buffer

theorem getD_set_nat (l : List Nat) (i j v : Nat) :
    (l.set i v).getD j 0 = if j = i ∧ i < l.length then v else l.getD j 0 := by
  simp only [List.getD_eq_getElem?_getD, List.getElem?_set]
  by_cases h : i = j
  · subst h
    by_cases h2 : i < l.length
    · simp [h2]
    · simp [h2]
      rw [List.getElem?_eq_none (by omega)]
      rfl
  · have h' : ¬ j = i := fun e => h e.symm
    simp [h, h']

theorem getD_append_zero (l : List Nat) (j : Nat) :
    (l ++ [0]).getD j 0 = l.getD j 0 := by
  simp only [List.getD_eq_getElem?_getD]
  by_cases h : j < l.length
  · rw [List.getElem?_append_left h]
  · rw [List.getElem?_append_right (by omega), List.getElem?_eq_none (l := l) (by omega)]
    cases hj : j - l.length with
    | zero => rfl
    | succ m => rfl

theorem getD_drop_nat (l : List Nat) (d j : Nat) :
    (l.drop d).getD j 0 = l.getD (d + j) 0 := by
  simp only [List.getD_eq_getElem?_getD, List.getElem?_drop]

theorem sum_drop_succ (l : List Nat) (j : Nat) :
    (l.drop j).sum = l.getD j 0 + (l.drop (j + 1)).sum := by
  induction l generalizing j with
  | nil => simp
  | cons a l ih =>
    cases j with
    | zero => simp
    | succ j =>
      simp only [List.drop_succ_cons]
      rw [ih j]
      simp

theorem sum_drop_append_zero (l : List Nat) (j : Nat) :
    ((l ++ [0]).drop j).sum = (l.drop j).sum := by
  induction l generalizing j with
  | nil => cases j <;> simp
  | cons a l ih =>
    cases j with
    | zero => simp
    | succ j => simpa using ih j

theorem sum_drop_set (l : List Nat) (i j v : Nat) (hi : i < l.length) :
    ((l.set i v).drop j).sum + (if j ≤ i then l.getD i 0 else 0) =
      (l.drop j).sum + (if j ≤ i then v else 0) := by
  induction l generalizing i j with
  | nil => simp at hi
  | cons a l ih =>
    cases i with
    | zero =>
      cases j with
      | zero => simp; omega
      | succ j => simp
    | succ i =>
      simp only [List.length_cons, Nat.add_lt_add_iff_right] at hi
      cases j with
      | zero =>
        have := ih i 0 hi
        simp only [Nat.zero_le, if_true, List.drop_zero] at this
        simp only [List.set_cons_succ, List.drop_zero, List.sum_cons, Nat.zero_le, if_true,
          List.getD_cons_succ]
        omega
      | succ j =>
        have := ih i j hi
        simp only [List.set_cons_succ, List.drop_succ_cons, List.getD_cons_succ,
          Nat.add_le_add_iff_right]
        exact this

end Buffer

namespace Buffer

theorem Lay.readSize_eq {b : Buffer} (h : Lay b) :
    b.readSize = b.sizeAt b.rpos_.idx - b.rpos_.off := by
  unfold readSize
  have := h.le b.rpos_.idx
  simp only [BlockSize] at this
  exact usub_eq _ _ h.roff (by omega)

theorem Lay.off_le {b : Buffer} (h : Lay b) : b.wpos_.off ≤ BlockSize := by
  rw [← h.woff]
  exact h.le _

theorem Lay.writeSize_eq' {b : Buffer} (h : Lay b) : b.writeSize = BlockSize - b.wpos_.off := by
  unfold writeSize
  have := h.off_le
  simp only [BlockSize] at this ⊢
  exact usub_eq _ _ this (by omega)

theorem Wf.byteCount_eq_unread {b : Buffer} (h : Wf b) : b.byteCount = b.unread := by
  unfold byteCount unread
  rw [h.lay.readSize_eq, h.first]

theorem Lay.readNotPastWrite {b : Buffer} (h : Lay b) : b.readNotPastWrite := by
  unfold Buffer.readNotPastWrite
  rcases Nat.lt_or_ge b.rpos_.idx b.wpos_.idx with hlt | hge
  · exact Or.inl hlt
  · have he : b.rpos_.idx = b.wpos_.idx := Nat.le_antisymm h.ridx hge
    refine Or.inr ⟨he, ?_⟩
    have := h.roff
    rw [he, h.woff] at this
    exact this

theorem wf_new : Wf Buffer.new := by
  refine ⟨⟨rfl, rfl, rfl, Nat.le_refl _, Nat.zero_le _, fun i => ?_, fun i hi hlt => ?_⟩,
    (rfl : Buffer.new.rpos_.idx = 0), fun hlt => ?_⟩
  · simp only [sizeAt, Buffer.new, addChunk, List.nil_append]
    cases i <;> simp
  · simp [Buffer.new, addChunk] at hlt
  · simp [Buffer.new, addChunk] at hlt

theorem getD_set_add (l : List Nat) (w m i : Nat) :
    (l.set w (l.getD w 0 + m)).getD i 0 =
      l.getD i 0 + (if i = w ∧ w < l.length then m else 0) := by
  rw [getD_set_nat]
  split
  · rename_i hc
    rw [hc.1]
  · rfl

/-- The layout after `m` more bytes were accounted at the write position. -/
theorem Lay.grow {b : Buffer} (h : Lay b) (m : Nat) (hm : b.wpos_.off + m ≤ BlockSize)
    (c : List Chunk) (hc : c.length = b.chunks_.length) :
    Lay { chunks_ := c, sizes_ := b.sizes_.set b.wpos_.idx (b.sizeAt b.wpos_.idx + m)
          wpos_ := ⟨b.wpos_.idx, b.wpos_.off + m⟩, rpos_ := b.rpos_ } := by
  have hw := h.widx
  have hwo := h.woff
  simp only [sizeAt] at hwo
  refine ⟨by simp [hc, h.chunks], by simpa using hw, ?_, h.ridx, ?_, fun i => ?_,
    fun i hi hlt => ?_⟩
  · simp only [sizeAt, getD_set_add]
    rw [if_pos ⟨trivial, by omega⟩]
    omega
  · simp only [sizeAt, getD_set_add]
    have := h.roff
    simp only [sizeAt] at this
    omega
  · simp only [sizeAt, getD_set_add]
    have := h.le i
    simp only [sizeAt] at this
    split
    · rename_i hi
      rw [hi.1] at this ⊢
      omega
    · omega
  · simp only [sizeAt, getD_set_add]
    have := h.mid i hi hlt
    simp only [sizeAt] at this
    omega

theorem unread_grow {b : Buffer} (h : Lay b) (m : Nat) (c : List Chunk) :
    unread { chunks_ := c, sizes_ := b.sizes_.set b.wpos_.idx (b.sizeAt b.wpos_.idx + m)
             wpos_ := ⟨b.wpos_.idx, b.wpos_.off + m⟩, rpos_ := b.rpos_ } = b.unread + m := by
  have hw := h.widx
  have hr := h.ridx
  have hro := h.roff
  have hs := sum_drop_set b.sizes_ b.wpos_.idx (b.rpos_.idx + 1) (b.sizeAt b.wpos_.idx + m)
    (by omega)
  simp only [unread, sizeAt, getD_set_add] at hs hro ⊢
  rcases Nat.lt_or_ge b.rpos_.idx b.wpos_.idx with hlt | hge
  · rw [if_pos (by omega), if_pos (by omega)] at hs
    rw [if_neg (by omega)]
    omega
  · have he : b.rpos_.idx = b.wpos_.idx := Nat.le_antisymm hr hge
    rw [if_neg (by omega), if_neg (by omega)] at hs
    rw [if_pos ⟨he, by omega⟩]
    omega

theorem ahead_grow {b : Buffer} (ha : Ahead b) (m : Nat) (c : List Chunk) :
    Ahead { chunks_ := c, sizes_ := b.sizes_.set b.wpos_.idx (b.sizeAt b.wpos_.idx + m)
            wpos_ := ⟨b.wpos_.idx, b.wpos_.off + m⟩, rpos_ := b.rpos_ } := by
  intro hlt he
  simp only [sizeAt, getD_set_add] at hlt he ⊢
  rw [if_neg (by omega)] at he
  have := ha hlt he
  simp only [sizeAt] at this
  omega

/-- The layout after `wpos_ = addChunk()`. -/
theorem Lay.newChunk {b : Buffer} (h : Lay b) (hoff : 0 < b.wpos_.idx → 0 < b.wpos_.off) :
    Lay b.withNewChunk := by
  have hw := h.widx
  have hc := h.chunks
  refine ⟨by simp [withNewChunk, addChunk, hc], by simp [withNewChunk, addChunk, hc], ?_, ?_, ?_,
    fun i => ?_, fun i hi hlt => ?_⟩
  · simp only [withNewChunk, addChunk, sizeAt, getD_append_zero, List.length_append,
      List.length_singleton, Nat.add_sub_cancel, hc]
    rw [List.getD_eq_default _ _ (Nat.le_refl _)]
  · simp only [withNewChunk, addChunk, List.length_append, List.length_singleton,
      Nat.add_sub_cancel, hc]
    have := h.ridx
    omega
  · simp only [withNewChunk, addChunk, sizeAt, getD_append_zero]
    exact h.roff
  · simp only [withNewChunk, addChunk, sizeAt, getD_append_zero]
    exact h.le i
  · simp only [withNewChunk, addChunk, sizeAt, getD_append_zero, List.length_append,
      List.length_singleton, Nat.add_sub_cancel, hc] at hlt ⊢
    rcases Nat.lt_or_ge i b.wpos_.idx with h1 | h1
    · exact h.mid i hi h1
    · have he : i = b.wpos_.idx := by omega
      have := h.woff
      simp only [sizeAt] at this
      rw [he, this]
      exact hoff (by omega)

theorem unread_newChunk (b : Buffer) : b.withNewChunk.unread = b.unread := by
  simp only [unread, withNewChunk, addChunk, sizeAt, getD_append_zero, sum_drop_append_zero]

theorem numChunks_newChunk (b : Buffer) : b.withNewChunk.numChunks = b.numChunks + 1 := by
  simp [withNewChunk, addChunk, numChunks]

end Buffer

namespace Buffer

theorem Wf.rpos_eq_wpos_iff {b : Buffer} (h : Wf b) :
    b.rpos_ = b.wpos_ ↔ b.wpos_.idx = 0 ∧ b.rpos_.off = b.wpos_.off := by
  constructor
  · intro he
    rw [← he]
    exact ⟨h.first, rfl⟩
  · rintro ⟨h1, h2⟩
    have h3 := h.first
    cases hr : b.rpos_ with
    | mk ri ro =>
      cases hw : b.wpos_ with
      | mk wi wo =>
        rw [hr] at h2 h3
        rw [hw] at h1 h2
        simp only at h1 h2 h3
        rw [h1, h2, h3]

/-- What `advance` does to a well-formed Buffer. -/
theorem Wf.advance {b : Buffer} (h : Wf b) (n : Nat) :
    Wf (b.advance n).2 ∧
    ((b.advance n).1 = true ↔ 0 < n ∧ n ≤ b.writeSize) ∧
    ((b.advance n).1 = false → (b.advance n).2 = b) ∧
    (b.advance n).2.unread = b.unread + (if (b.advance n).1 = true then n else 0) ∧
    (b.advance n).2.numChunks = b.numChunks ∧
    (b.advance n).2.rpos_ = b.rpos_ := by
  unfold Buffer.advance
  by_cases h0 : n ≤ 0
  · rw [if_pos h0]
    exact ⟨h, ⟨fun hf => (by cases hf), fun hp => (by omega)⟩, fun _ => rfl, (by simp), rfl,
      rfl⟩
  · rw [if_neg h0]
    by_cases h1 : n ≤ b.writeSize
    · rw [if_pos h1]
      have hws := h.lay.writeSize_eq'
      have hoff := h.lay.off_le
      have hm : b.wpos_.off + n ≤ BlockSize := by omega
      refine ⟨⟨h.lay.grow n hm b.chunks_ rfl, h.first, ahead_grow h.ahead n b.chunks_⟩,
        ⟨fun _ => ⟨(by omega), h1⟩, fun _ => rfl⟩, fun hf => (by cases hf), ?_, ?_, rfl⟩
      · simp only [if_true]
        exact unread_grow h.lay n b.chunks_
      · simp [numChunks]
    · rw [if_neg h1]
      exact ⟨h, ⟨fun hf => (by cases hf), fun hp => absurd hp.2 h1⟩, fun _ => rfl, (by simp),
        rfl, rfl⟩

/-- The three ways `reserve` ends on a well-formed Buffer: nothing changes; a chunk is added
behind a chunk that holds unread bytes; or nothing was unread and the only chunk is replaced by
a new one. -/
theorem Wf.reserve_cases {b : Buffer} (h : Wf b) (n : Nat) :
    ((b.reserve n).2 = b ∧ ((b.reserve n).1 = true → n ≤ b.writeSize)) ∨
    ((b.reserve n).1 = true ∧ b.rpos_ ≠ b.wpos_ ∧ 0 < b.wpos_.off ∧
      (b.reserve n).2 = b.withNewChunk) ∨
    ((b.reserve n).1 = true ∧ b.rpos_ = b.wpos_ ∧ b.numChunks = 1 ∧
      (b.reserve n).2 =
        { chunks_ := [freshChunk], sizes_ := [0], wpos_ := ⟨0, 0⟩, rpos_ := ⟨0, 0⟩ }) := by
  unfold Buffer.reserve
  by_cases h0 : n > BlockSize
  · rw [if_pos h0]
    exact Or.inl ⟨rfl, fun hf => (by cases hf)⟩
  · rw [if_neg h0]
    have hws := h.lay.writeSize_eq'
    have hoff := h.lay.off_le
    unfold writeSize at hws
    by_cases h1 : usub BlockSize b.wpos_.off ≥ n
    · rw [if_pos h1]
      refine Or.inl ⟨rfl, fun _ => ?_⟩
      unfold writeSize
      exact h1
    · rw [if_neg h1]
      have hpos : 0 < b.wpos_.off := by omega
      dsimp only
      by_cases he : b.rpos_ = b.wpos_
      · refine Or.inr (Or.inr ?_)
        have hw0 := (h.rpos_eq_wpos_iff.1 he).1
        have hlen := h.lay.widx
        have hc := h.lay.chunks
        rw [hw0] at hlen
        have hn1 : b.numChunks = 1 := by
          unfold numChunks
          omega
        rw [if_pos (by simp [he])]
        refine ⟨rfl, he, hn1, ?_⟩
        obtain ⟨c0, hc0⟩ : ∃ c0, b.chunks_ = [c0] := by
          cases hcs : b.chunks_ with
          | nil => rw [hcs] at hc; simp at hc; omega
          | cons c0 t =>
            cases t with
            | nil => exact ⟨c0, rfl⟩
            | cons c1 t => rw [hcs] at hc; simp at hc; omega
        obtain ⟨s0, hs0⟩ : ∃ s0, b.sizes_ = [s0] := by
          cases hss : b.sizes_ with
          | nil => rw [hss] at hlen; simp at hlen
          | cons s0 t =>
            cases t with
            | nil => exact ⟨s0, rfl⟩
            | cons s1 t => rw [hss] at hlen; simp at hlen
        simp only [dropChunks, addChunk, hc0, hs0, List.cons_append, List.nil_append,
          List.length_cons, List.length_nil, Nat.zero_add, Nat.add_sub_cancel, Nat.one_ne_zero,
          if_false, List.drop_succ_cons, List.drop_zero]
        have hu : usub 1 1 = 0 := by decide
        rw [hu]
      · rw [if_neg (by simp [he])]
        exact Or.inr (Or.inl ⟨rfl, he, hpos, rfl⟩)

/-- What `reserve` does to a well-formed Buffer. -/
theorem Wf.reserve {b : Buffer} (h : Wf b) (n : Nat) :
    Wf (b.reserve n).2 ∧
    ((b.reserve n).1 = false ↔ n > BlockSize) ∧
    ((b.reserve n).1 = false → (b.reserve n).2 = b) ∧
    ((b.reserve n).1 = true → n ≤ (b.reserve n).2.writeSize) ∧
    (b.reserve n).2.unread = b.unread ∧
    (b.reserve n).2.numChunks ≤ b.numChunks + 1 := by
  have hflag : (b.reserve n).1 = false ↔ n > BlockSize := by
    unfold Buffer.reserve
    by_cases h0 : n > BlockSize
    · simp [h0]
    · rw [if_neg h0]
      refine ⟨fun hf => ?_, fun hp => absurd hp h0⟩
      split at hf
      · cases hf
      · dsimp only at hf
        split at hf <;> cases hf
  have hn : ¬ n > BlockSize → n ≤ BlockSize := fun hx => by omega
  rcases h.reserve_cases n with ⟨he, hw⟩ | ⟨ht, hne, hpos, he⟩ | ⟨ht, heq, hn1, he⟩
  · rw [he]
    exact ⟨h, hflag, fun _ => rfl, hw, rfl, by omega⟩
  · rw [he]
    have hl : Lay b.withNewChunk := h.lay.newChunk (fun _ => hpos)
    refine ⟨⟨hl, h.first, ?_⟩, hflag, fun hf => (by rw [ht] at hf; cases hf), fun _ => ?_,
      unread_newChunk b, (by rw [numChunks_newChunk])⟩
    · intro hlt heq
      have hw := h.lay.widx
      have hc := h.lay.chunks
      simp only [withNewChunk, addChunk, sizeAt, getD_append_zero, List.length_append,
        List.length_singleton, Nat.add_sub_cancel, hc] at hlt heq ⊢
      rcases Nat.eq_zero_or_pos b.wpos_.idx with h0 | h0
      · exfalso
        apply hne
        rw [h.rpos_eq_wpos_iff]
        refine ⟨h0, ?_⟩
        have := h.lay.woff
        simp only [sizeAt] at this
        rw [h.first] at heq
        rw [h0] at this
        omega
      · have := h.ahead (by have := h.first; omega) heq
        simp only [sizeAt] at this
        exact this
    · rw [hl.writeSize_eq']
      have : b.withNewChunk.wpos_.off = 0 := rfl
      rw [this]
      have := hflag.not.1 (by rw [ht]; simp)
      omega
  · rw [he]
    refine ⟨⟨⟨rfl, rfl, rfl, Nat.le_refl _, Nat.zero_le _, fun i => ?_, fun i hi hlt => ?_⟩,
      rfl, fun hlt => ?_⟩, hflag, fun hf => (by rw [ht] at hf; cases hf), fun _ => ?_, ?_, ?_⟩
    · simp only [sizeAt]
      cases i <;> simp
    · simp at hlt
    · simp at hlt
    · have := hflag.not.1 (by rw [ht]; simp)
      simp only [writeSize, BlockSize] at this ⊢
      have hu : usub 4096 0 = 4096 := by decide
      rw [hu]
      omega
    · have h2 := h.lay.woff
      have h3 := h.lay.widx
      have h4 := (h.rpos_eq_wpos_iff.1 heq)
      have h5 : b.sizes_.drop (b.rpos_.idx + 1) = [] := by
        apply List.drop_eq_nil_of_le
        rw [h.first]
        omega
      have h6 : b.sizeAt b.rpos_.idx - b.rpos_.off = 0 := by
        rw [h.first, ← h4.1, h2, h4.2]
        omega
      unfold unread
      rw [h5, h6]
      rfl
    · simp [numChunks]

end Buffer

namespace Buffer

/-- One round of the loop of `write`: the bytes are stored and accounted, and a chunk is added
when more bytes are left or the chunk is full. -/
theorem writeRound_eq (b : Buffer) (src : List Nat) :
    b.writeRound src =
      if src.length - min b.writeSize src.length > 0 ∨
          b.wpos_.off + min b.writeSize src.length = BlockSize then
        withNewChunk
          { chunks_ := b.chunks_.set b.wpos_.idx
              (copyBytes (b.chunkAt b.wpos_.idx) b.wpos_.off
                (src.take (min b.writeSize src.length)))
            sizes_ := b.sizes_.set b.wpos_.idx (b.sizeAt b.wpos_.idx + min b.writeSize src.length)
            wpos_ := ⟨b.wpos_.idx, b.wpos_.off + min b.writeSize src.length⟩
            rpos_ := b.rpos_ }
      else
        { chunks_ := b.chunks_.set b.wpos_.idx
            (copyBytes (b.chunkAt b.wpos_.idx) b.wpos_.off
              (src.take (min b.writeSize src.length)))
          sizes_ := b.sizes_.set b.wpos_.idx (b.sizeAt b.wpos_.idx + min b.writeSize src.length)
          wpos_ := ⟨b.wpos_.idx, b.wpos_.off + min b.writeSize src.length⟩
          rpos_ := b.rpos_ } := rfl

theorem writeRound_spec (b : Buffer) (src : List Nat) (hl : Lay b) (hsrc : src ≠ [])
    (ha : Ahead b ∨ (b.wpos_.off = 0 ∧ b.wpos_.idx = b.rpos_.idx + 1)) :
    Lay (b.writeRound src) ∧ (b.writeRound src).rpos_ = b.rpos_ ∧
    (b.writeRound src).unread = b.unread + min b.writeSize src.length ∧
    (b.writeRound src).wpos_.off < BlockSize ∧
    (b.wpos_.off < BlockSize → 0 < min b.writeSize src.length) ∧
    (Ahead (b.writeRound src) ∨
      (src.drop (min b.writeSize src.length) ≠ [] ∧ (b.writeRound src).wpos_.off = 0 ∧
        (b.writeRound src).wpos_.idx = (b.writeRound src).rpos_.idx + 1)) := by
  have hws := hl.writeSize_eq'
  have hoff := hl.off_le
  have hlen : 0 < src.length := List.length_pos.2 hsrc
  have hmle : min b.writeSize src.length ≤ BlockSize - b.wpos_.off := by
    rw [hws]; exact Nat.min_le_left _ _
  have hmle2 : min b.writeSize src.length ≤ src.length := Nat.min_le_right _ _
  have hmpos : b.wpos_.off < BlockSize → 0 < min b.writeSize src.length := by
    intro hlt
    rw [hws]
    exact Nat.lt_min.2 ⟨by omega, hlen⟩
  generalize hm : min b.writeSize src.length = m at hmle hmle2 hmpos
  have hgl := hl.grow m (by omega)
    (b.chunks_.set b.wpos_.idx (copyBytes (b.chunkAt b.wpos_.idx) b.wpos_.off (src.take m)))
    (by simp)
  have hgu := unread_grow hl m
    (b.chunks_.set b.wpos_.idx (copyBytes (b.chunkAt b.wpos_.idx) b.wpos_.off (src.take m)))
  have hga : Ahead
      { chunks_ := b.chunks_.set b.wpos_.idx
          (copyBytes (b.chunkAt b.wpos_.idx) b.wpos_.off (src.take m))
        sizes_ := b.sizes_.set b.wpos_.idx (b.sizeAt b.wpos_.idx + m)
        wpos_ := ⟨b.wpos_.idx, b.wpos_.off + m⟩, rpos_ := b.rpos_ } := by
    rcases ha with ha | ⟨h0, h1⟩
    · exact ahead_grow ha m _
    · intro hlt he
      have hw := hl.widx
      simp only [sizeAt, getD_set_add] at hlt he ⊢
      rw [if_pos ⟨by omega, by omega⟩]
      have := hmpos (by simp only [BlockSize]; omega)
      omega
  rw [writeRound_eq, hm]
  split
  · rename_i hc
    have hfull : b.wpos_.off + m = BlockSize := by
      rcases hc with hc | hc
      · have : m = b.writeSize := by
          rw [← hm]
          apply Nat.min_eq_left
          rw [← hm] at hc
          omega
        omega
      · exact hc
    refine ⟨hgl.newChunk (fun _ => by show 0 < b.wpos_.off + m; simp only [BlockSize] at hfull; omega),
      rfl, by rw [unread_newChunk, hgu], by show 0 < BlockSize; decide, hmpos, ?_⟩
    have hw := hl.widx
    have hc' := hl.chunks
    by_cases hst : b.rpos_.idx = b.wpos_.idx ∧ b.rpos_.off = BlockSize
    · right
      refine ⟨?_, rfl, ?_⟩
      · have hro := hl.roff
        have hwo := hl.woff
        rw [hst.1, hwo] at hro
        have hm0 : m = 0 := by omega
        rw [hm0]
        simpa using hsrc
      · show (b.chunks_.set _ _ ++ [freshChunk]).length - 1 = b.rpos_.idx + 1
        simp only [List.length_append, List.length_set, List.length_singleton, Nat.add_sub_cancel]
        omega
    · left
      intro hlt he
      simp only [withNewChunk, addChunk, sizeAt, getD_append_zero, List.length_append,
        List.length_set, List.length_singleton, Nat.add_sub_cancel] at hlt he ⊢
      rcases Nat.lt_or_ge b.rpos_.idx b.wpos_.idx with h1 | h1
      · have := hga h1 he
        simp only [sizeAt] at this
        exact this
      · exfalso
        apply hst
        have hr := hl.ridx
        have heq : b.rpos_.idx = b.wpos_.idx := by omega
        refine ⟨heq, ?_⟩
        rw [getD_set_add, if_pos ⟨heq, by omega⟩] at he
        have hwo := hl.woff
        simp only [sizeAt] at hwo
        rw [heq, hwo] at he
        omega
  · rename_i hc
    refine ⟨hgl, rfl, hgu, ?_, hmpos, Or.inl hga⟩
    show b.wpos_.off + m < BlockSize
    have : ¬ b.wpos_.off + m = BlockSize := fun e => hc (Or.inr e)
    omega

theorem writeLoop_spec : ∀ (fuel : Nat) (b : Buffer) (src : List Nat), Lay b →
    (Ahead b ∨ (src ≠ [] ∧ b.wpos_.off = 0 ∧ b.wpos_.idx = b.rpos_.idx + 1)) →
    src.length + (if b.wpos_.off = BlockSize then 1 else 0) ≤ fuel →
    Lay (writeLoop fuel b src) ∧ Ahead (writeLoop fuel b src) ∧
    (writeLoop fuel b src).rpos_ = b.rpos_ ∧
    (writeLoop fuel b src).unread = b.unread + src.length := by
  intro fuel
  induction fuel with
  | zero =>
    intro b src hl ha hf
    have hs : src = [] := List.length_eq_zero.1 (by omega)
    subst hs
    refine ⟨hl, ?_, rfl, rfl⟩
    rcases ha with ha | ⟨hne, -⟩
    · exact ha
    · exact absurd rfl hne
  | succ fuel ih =>
    intro b src hl ha hf
    unfold writeLoop
    by_cases hs : src.length > 0
    · rw [if_pos hs]
      have hsrc : src ≠ [] := List.length_pos.1 hs
      have ha' : Ahead b ∨ (b.wpos_.off = 0 ∧ b.wpos_.idx = b.rpos_.idx + 1) := by
        rcases ha with ha | ⟨-, h1, h2⟩
        · exact Or.inl ha
        · exact Or.inr ⟨h1, h2⟩
      obtain ⟨h1, h2, h3, h4, h5, h6⟩ := writeRound_spec b src hl hsrc ha'
      have hoff := hl.off_le
      have hmle2 : min b.writeSize src.length ≤ src.length := Nat.min_le_right _ _
      have hfuel : (src.drop (min b.writeSize src.length)).length +
          (if (b.writeRound src).wpos_.off = BlockSize then 1 else 0) ≤ fuel := by
        rw [if_neg (by omega), List.length_drop]
        by_cases hfull : b.wpos_.off = BlockSize
        · rw [if_pos hfull] at hf
          omega
        · have := h5 (by omega)
          omega
      obtain ⟨k1, k2, k3, k4⟩ := ih _ _ h1 h6 hfuel
      refine ⟨k1, k2, by rw [k3, h2], ?_⟩
      rw [k4, h3, List.length_drop]
      omega
    · rw [if_neg hs]
      have hs0 : src = [] := List.length_eq_zero.1 (by omega)
      subst hs0
      refine ⟨hl, ?_, rfl, rfl⟩
      rcases ha with ha | ⟨hne, -⟩
      · exact ha
      · exact absurd rfl hne

/-- What `write` does to a well-formed Buffer. -/
theorem Wf.write {b : Buffer} (h : Wf b) (data : List Nat) :
    Wf (b.write data) ∧ (b.write data).unread = b.unread + data.length ∧
    (b.write data).rpos_ = b.rpos_ := by
  obtain ⟨h1, h2, h3, h4⟩ := writeLoop_spec (data.length + 1) b data h.lay (Or.inl h.ahead)
    (by split <;> omega)
  exact ⟨⟨h1, by rw [show (b.write data).rpos_ = b.rpos_ from h3]; exact h.first, h2⟩, h4, h3⟩

end Buffer

namespace Buffer

theorem consumeLoop_lay : ∀ (fuel : Nat) (b : Buffer) (n d : Nat), Lay b → Ahead b →
    (n = 0 ∨ b.wpos_.idx - b.rpos_.idx ≤ fuel) →
    Lay (consumeLoop fuel b n d).1 ∧ Ahead (consumeLoop fuel b n d).1 ∧
    (consumeLoop fuel b n d).1.chunks_ = b.chunks_ ∧
    (consumeLoop fuel b n d).1.sizes_ = b.sizes_ ∧
    (consumeLoop fuel b n d).1.wpos_ = b.wpos_ ∧
    (consumeLoop fuel b n d).2.2 + b.rpos_.idx = d + (consumeLoop fuel b n d).1.rpos_.idx ∧
    (consumeLoop fuel b n d).1.unread + n = b.unread + (consumeLoop fuel b n d).2.1 ∧
    (0 < (consumeLoop fuel b n d).2.1 →
      (consumeLoop fuel b n d).1.rpos_.idx = (consumeLoop fuel b n d).1.wpos_.idx) := by
  intro fuel
  induction fuel with
  | zero =>
    intro b n d hl ha hf
    show Lay b ∧ Ahead b ∧ b.chunks_ = b.chunks_ ∧ b.sizes_ = b.sizes_ ∧ b.wpos_ = b.wpos_ ∧
      d + b.rpos_.idx = d + b.rpos_.idx ∧ b.unread + n = b.unread + n ∧
      (0 < n → b.rpos_.idx = b.wpos_.idx)
    refine ⟨hl, ha, rfl, rfl, rfl, rfl, rfl, fun hn => ?_⟩
    have := hl.ridx
    omega
  | succ fuel ih =>
    intro b n d hl ha hf
    unfold consumeLoop
    by_cases hc : n > 0 ∧ b.rpos_.idx < b.wpos_.idx
    · rw [if_pos hc]
      dsimp only
      have hrs := hl.readSize_eq
      have hro := hl.roff
      have hm1 : min n b.readSize ≤ b.sizeAt b.rpos_.idx - b.rpos_.off := by
        rw [← hrs]; exact Nat.min_le_right _ _
      have hm2 : min n b.readSize ≤ n := Nat.min_le_left _ _
      have hm3 : min n b.readSize < b.sizeAt b.rpos_.idx - b.rpos_.off → min n b.readSize = n := by
        intro hlt
        rw [← hrs] at hlt
        rcases Nat.le_total n b.readSize with h1 | h1
        · exact Nat.min_eq_left h1
        · rw [Nat.min_eq_right h1] at hlt
          omega
      generalize min n b.readSize = m at hm1 hm2 hm3
      have hl1 : Lay { b with rpos_ := ⟨b.rpos_.idx, b.rpos_.off + m⟩ } :=
        ⟨hl.chunks, hl.widx, hl.woff, hl.ridx, by show b.rpos_.off + m ≤ b.sizeAt b.rpos_.idx; omega,
          hl.le, hl.mid⟩
      have hrs1 := hl1.readSize_eq
      have hrs1' : ({ b with rpos_ := ⟨b.rpos_.idx, b.rpos_.off + m⟩ } : Buffer).readSize =
          b.sizeAt b.rpos_.idx - (b.rpos_.off + m) := hrs1
      rw [hrs1']
      by_cases hz : b.sizeAt b.rpos_.idx - (b.rpos_.off + m) = 0
      · rw [if_pos hz]
        have hl2 : Lay { b with rpos_ := ⟨b.rpos_.idx + 1, 0⟩ } :=
          ⟨hl.chunks, hl.widx, hl.woff, by show b.rpos_.idx + 1 ≤ b.wpos_.idx; omega,
            Nat.zero_le _, hl.le, hl.mid⟩
        have ha2 : Ahead { b with rpos_ := ⟨b.rpos_.idx + 1, 0⟩ } := by
          intro hlt he
          have := hl.mid (b.rpos_.idx + 1) (by omega) hlt
          have he' : 0 = b.sizeAt (b.rpos_.idx + 1) := he
          omega
        obtain ⟨k1, k2, k3, k4, k5, k6, k7, k8⟩ := ih { b with rpos_ := ⟨b.rpos_.idx + 1, 0⟩ }
          (n - m) (d + 1) hl2 ha2
          (by
            rcases hf with hf | hf
            · omega
            · right
              show b.wpos_.idx - (b.rpos_.idx + 1) ≤ fuel
              omega)
        refine ⟨k1, k2, k3, k4, k5, ?_, ?_, k8⟩
        · have : ({ b with rpos_ := ⟨b.rpos_.idx + 1, 0⟩ } : Buffer).rpos_.idx = b.rpos_.idx + 1 :=
            rfl
          rw [this] at k6
          omega
        · have hu : ({ b with rpos_ := ⟨b.rpos_.idx + 1, 0⟩ } : Buffer).unread + m = b.unread := by
            simp only [unread, Nat.sub_zero]
            rw [sum_drop_succ b.sizes_ (b.rpos_.idx + 1)]
            simp only [sizeAt] at hz hm1 hro ⊢
            omega
          omega
      · rw [if_neg hz]
        have ha1 : Ahead { b with rpos_ := ⟨b.rpos_.idx, b.rpos_.off + m⟩ } := by
          intro _ he
          have he' : b.rpos_.off + m = b.sizeAt b.rpos_.idx := he
          omega
        have hmn : m = n := hm3 (by omega)
        obtain ⟨k1, k2, k3, k4, k5, k6, k7, k8⟩ :=
          ih { b with rpos_ := ⟨b.rpos_.idx, b.rpos_.off + m⟩ } (n - m) d hl1 ha1
            (Or.inl (by omega))
        refine ⟨k1, k2, k3, k4, k5, k6, ?_, k8⟩
        have hu : ({ b with rpos_ := ⟨b.rpos_.idx, b.rpos_.off + m⟩ } : Buffer).unread + m =
            b.unread := by
          simp only [unread, sizeAt] at hm1 hro ⊢
          omega
        omega
    · rw [if_neg hc]
      show Lay b ∧ Ahead b ∧ b.chunks_ = b.chunks_ ∧ b.sizes_ = b.sizes_ ∧ b.wpos_ = b.wpos_ ∧
        d + b.rpos_.idx = d + b.rpos_.idx ∧ b.unread + n = b.unread + n ∧
        (0 < n → b.rpos_.idx = b.wpos_.idx)
      refine ⟨hl, ha, rfl, rfl, rfl, rfl, rfl, fun hn => ?_⟩
      have := hl.ridx
      have : ¬ b.rpos_.idx < b.wpos_.idx := fun hlt => hc ⟨hn, hlt⟩
      omega

/-- Dropping the chunks before the read chunk gives a well-formed Buffer with the same unread
bytes. -/
theorem Lay.dropChunks {b : Buffer} (hl : Lay b) (ha : Ahead b) (hs : b.numChunks < 2 ^ 64) :
    Wf (b.dropChunks b.rpos_.idx) ∧ (b.dropChunks b.rpos_.idx).unread = b.unread ∧
    (b.dropChunks b.rpos_.idx).numChunks + b.rpos_.idx = b.numChunks ∧
    (b.dropChunks b.rpos_.idx).rpos_.off = b.rpos_.off := by
  unfold Buffer.dropChunks
  by_cases h0 : b.rpos_.idx = 0
  · rw [if_pos h0]
    exact ⟨⟨hl, h0, ha⟩, rfl, by omega, rfl⟩
  · rw [if_neg h0]
    have hw := hl.widx
    have hr := hl.ridx
    have hc := hl.chunks
    simp only [numChunks] at hs
    have hu1 : usub b.wpos_.idx b.rpos_.idx = b.wpos_.idx - b.rpos_.idx :=
      usub_eq _ _ hr (by omega)
    have hu2 : usub b.rpos_.idx b.rpos_.idx = 0 := by
      rw [usub_eq _ _ (Nat.le_refl _) (by omega)]
      omega
    rw [hu1, hu2]
    refine ⟨⟨⟨?_, ?_, ?_, Nat.zero_le _, ?_, fun i => ?_, fun i hi hlt => ?_⟩, rfl, ?_⟩, ?_, ?_,
      rfl⟩
    · simp only [List.length_drop, hc]
    · simp only [List.length_drop]
      omega
    · simp only [sizeAt, getD_drop_nat]
      have := hl.woff
      simp only [sizeAt] at this
      rw [show b.rpos_.idx + (b.wpos_.idx - b.rpos_.idx) = b.wpos_.idx by omega]
      exact this
    · simp only [sizeAt, getD_drop_nat, Nat.add_zero]
      exact hl.roff
    · simp only [sizeAt, getD_drop_nat]
      exact hl.le _
    · simp only [sizeAt, getD_drop_nat] at hlt ⊢
      exact hl.mid _ (by omega) (by omega)
    · intro hlt he
      simp only [sizeAt, getD_drop_nat, Nat.add_zero] at hlt he ⊢
      exact ha (by omega) he
    · simp only [unread, sizeAt, getD_drop_nat, Nat.add_zero, List.drop_drop]
    · simp only [numChunks, List.length_drop]
      omega

/-- What `consume` does to a well-formed Buffer: it stays well-formed and the unread bytes go
down by the bytes consumed, not below zero. -/
theorem Wf.consumed {b : Buffer} (h : Wf b) (hs : b.numChunks < 2 ^ 64) (n : Nat) :
    Wf (b.consume n) ∧ (b.consume n).unread = b.unread - n ∧
    (b.consume n).numChunks ≤ b.numChunks := by
  obtain ⟨k1, k2, k3, k4, k5, k6, k7, k8⟩ :=
    consumeLoop_lay (b.wpos_.idx - b.rpos_.idx + 1) b n 0 h.lay h.ahead (Or.inr (by omega))
  unfold Buffer.consume
  dsimp only
  generalize consumeLoop (b.wpos_.idx - b.rpos_.idx + 1) b n 0 = r at k1 k2 k3 k4 k5 k6 k7 k8
  obtain ⟨b1, n1, d1⟩ := r
  simp only at k1 k2 k3 k4 k5 k6 k7 k8 ⊢
  rw [h.first] at k6
  have hd : d1 = b1.rpos_.idx := by omega
  have hnum : b1.numChunks = b.numChunks := by simp [numChunks, k3]
  by_cases hn1 : n1 > 0
  · rw [if_pos hn1]
    have hri := k8 hn1
    have hrs := k1.readSize_eq
    have hro := k1.roff
    have hm1 : min n1 b1.readSize ≤ b1.sizeAt b1.rpos_.idx - b1.rpos_.off := by
      rw [← hrs]; exact Nat.min_le_right _ _
    have hm2 : min n1 b1.readSize = min n1 (b1.sizeAt b1.rpos_.idx - b1.rpos_.off) := by
      rw [hrs]
    generalize min n1 b1.readSize = m at hm1 hm2
    have hl2 : Lay { b1 with rpos_ := ⟨b1.rpos_.idx, b1.rpos_.off + m⟩ } :=
      ⟨k1.chunks, k1.widx, k1.woff, k1.ridx,
        by show b1.rpos_.off + m ≤ b1.sizeAt b1.rpos_.idx; omega, k1.le, k1.mid⟩
    have ha2 : Ahead { b1 with rpos_ := ⟨b1.rpos_.idx, b1.rpos_.off + m⟩ } := by
      intro hlt _
      have hlt' : b1.rpos_.idx < b1.wpos_.idx := hlt
      omega
    have hlast : (b1.sizes_.drop (b1.rpos_.idx + 1)).sum = 0 := by
      rw [List.drop_eq_nil_of_le]
      · rfl
      · have := k1.widx
        omega
    have hu1 : b1.unread = b1.sizeAt b1.rpos_.idx - b1.rpos_.off := by
      unfold unread
      rw [hlast]
      rfl
    have hu3 : ({ b1 with rpos_ := ⟨b1.rpos_.idx, b1.rpos_.off + m⟩ } : Buffer).unread =
        b1.sizeAt b1.rpos_.idx - (b1.rpos_.off + m) := by
      show (b1.sizeAt b1.rpos_.idx - (b1.rpos_.off + m)) +
        (b1.sizes_.drop (b1.rpos_.idx + 1)).sum = _
      rw [hlast]
      rfl
    have hu2 : ({ b1 with rpos_ := ⟨b1.rpos_.idx, b1.rpos_.off + m⟩ } : Buffer).unread =
        b.unread - n := by
      rw [hu3]
      rw [hu1] at k7
      rcases Nat.le_total n1 (b1.sizeAt b1.rpos_.idx - b1.rpos_.off) with hle | hle
      · rw [Nat.min_eq_left hle] at hm2
        omega
      · rw [Nat.min_eq_right hle] at hm2
        omega
    obtain ⟨j1, j2, j3, j4⟩ := hl2.dropChunks ha2 (by rw [← hnum] at hs; exact hs)
    rw [hd]
    refine ⟨j1, by rw [j2, hu2], ?_⟩
    have : ({ b1 with rpos_ := ⟨b1.rpos_.idx, b1.rpos_.off + m⟩ } : Buffer).numChunks =
        b.numChunks := hnum
    rw [this] at j3
    have e : ({ b1 with rpos_ := ⟨b1.rpos_.idx, b1.rpos_.off + m⟩ } : Buffer).rpos_.idx =
        b1.rpos_.idx := rfl
    rw [e] at j3
    omega
  · rw [if_neg hn1]
    obtain ⟨j1, j2, j3, j4⟩ := k1.dropChunks k2 (by rw [← hnum] at hs; exact hs)
    rw [hd]
    refine ⟨j1, by rw [j2]; omega, by omega⟩

end Buffer

namespace Buffer

theorem Wf.after_step {b : Buffer} (h : Wf b) (hs : b.numChunks < 2 ^ 64) (op : Op) :
    Wf (b.step op) := by
  cases op with
  | write data => exact (h.write data).1
  | reserve n => exact (h.reserve n).1
  | advance n => exact (h.advance n).1
  | consume n => exact (h.consumed hs n).1

theorem fits_head {b : Buffer} {ops : List Op} (h : b.fits ops = true) :
    b.numChunks < 2 ^ 64 := by
  cases ops with
  | nil => simpa [fits] using h
  | cons op rest =>
    simp only [fits, Bool.and_eq_true, decide_eq_true_eq] at h
    exact h.1

theorem wf_run : ∀ (ops : List Op) (b : Buffer), Wf b → b.fits ops = true →
    Wf (b.run ops) ∧ (b.run ops).numChunks < 2 ^ 64 := by
  intro ops
  induction ops with
  | nil =>
    intro b h hf
    exact ⟨h, fits_head hf⟩
  | cons op rest ih =>
    intro b h hf
    have h0 := fits_head hf
    simp only [fits, Bool.and_eq_true, decide_eq_true_eq] at hf
    exact ih (b.step op) (h.after_step h0 op) hf.2

theorem fits_take : ∀ (ops : List Op) (b : Buffer) (k : Nat), b.fits ops = true →
    b.fits (ops.take k) = true := by
  intro ops
  induction ops with
  | nil =>
    intro b k h
    simpa using h
  | cons op rest ih =>
    intro b k h
    cases k with
    | zero =>
      have := fits_head h
      simpa [fits] using this
    | succ k =>
      simp only [fits, Bool.and_eq_true, decide_eq_true_eq, List.take_succ_cons] at h ⊢
      exact ⟨h.1, ih _ k h.2⟩

/-- A well-formed Buffer without unread bytes has one chunk, and its read position is its write
position. -/
theorem Wf.empty {b : Buffer} (h : Wf b) (hu : b.unread = 0) :
    b.rpos_ = b.wpos_ ∧ b.numChunks = 1 ∧ b.readSize = 0 ∧ b.byteCount = 0 := by
  have hw := h.lay.widx
  have hro := h.lay.roff
  have hwo := h.lay.woff
  have hf := h.first
  have hrs := h.lay.readSize_eq
  have hb := h.byteCount_eq_unread
  have hsum := sum_drop_succ b.sizes_ (b.rpos_.idx + 1)
  rw [hu] at hb
  unfold unread at hu
  have hw0 : b.wpos_.idx = 0 := by
    rcases Nat.eq_zero_or_pos b.wpos_.idx with h0 | h0
    · exact h0
    · exfalso
      have := h.ahead (by omega) (by omega)
      simp only [sizeAt] at this
      omega
  refine ⟨h.rpos_eq_wpos_iff.2 ⟨hw0, ?_⟩, ?_, by omega, by omega⟩
  · rw [hf] at hro hu
    rw [hw0] at hwo
    omega
  · unfold numChunks
    rw [h.lay.chunks]
    omega

/-- C22. Full drain. For every Buffer reached from a fresh one by `write`, `reserve`, `advance`
and `consume` calls (the number of chunks staying below `2 ^ 64`), after
`consume(byteCount())` the Buffer has `readSize() == 0`, `byteCount() == 0`,
`numChunks() == 1` and `begin() == end()`: only the current write chunk survives. -/
theorem full_drain (ops : List Op) (hfit : Buffer.new.fits ops = true) :
    ((Buffer.new.run ops).consume (Buffer.new.run ops).byteCount).readSize = 0 ∧
    ((Buffer.new.run ops).consume (Buffer.new.run ops).byteCount).byteCount = 0 ∧
    ((Buffer.new.run ops).consume (Buffer.new.run ops).byteCount).numChunks = 1 ∧
    ((Buffer.new.run ops).consume (Buffer.new.run ops).byteCount).begin.eq
      ((Buffer.new.run ops).consume (Buffer.new.run ops).byteCount).end_ = true := by
  obtain ⟨hw, hs⟩ := wf_run ops Buffer.new wf_new hfit
  obtain ⟨h1, h2, -⟩ := hw.consumed hs (Buffer.new.run ops).byteCount
  rw [hw.byteCount_eq_unread] at h1 h2 ⊢
  obtain ⟨e1, e2, e3, e4⟩ := h1.empty (by omega)
  refine ⟨e3, e4, e2, ?_⟩
  simp only [Iterator.eq, begin, end_, decide_eq_true_eq]
  exact e1

/-- Witness for C22: `TEST` is written, the rest of the chunk is skipped by `reserve(4096)`,
a byte is written and two bytes are consumed; three bytes are left in two chunks. -/
theorem full_drain_witness :
    ((Buffer.new.run [.write [84, 69, 83, 84], .reserve 4096, .write [33], .consume 2]).byteCount
        = 3 ∧
      (Buffer.new.run [.write [84, 69, 83, 84], .reserve 4096, .write [33], .consume 2]).numChunks
        = 2) ∧
    (((Buffer.new.run [.write [84, 69, 83, 84], .reserve 4096, .write [33], .consume 2]).consume
        (Buffer.new.run [.write [84, 69, 83, 84], .reserve 4096, .write [33],
          .consume 2]).byteCount).readSize = 0 ∧
      ((Buffer.new.run [.write [84, 69, 83, 84], .reserve 4096, .write [33], .consume 2]).consume
        (Buffer.new.run [.write [84, 69, 83, 84], .reserve 4096, .write [33],
          .consume 2]).byteCount).byteCount = 0 ∧
      ((Buffer.new.run [.write [84, 69, 83, 84], .reserve 4096, .write [33], .consume 2]).consume
        (Buffer.new.run [.write [84, 69, 83, 84], .reserve 4096, .write [33],
          .consume 2]).byteCount).numChunks = 1 ∧
      ((Buffer.new.run [.write [84, 69, 83, 84], .reserve 4096, .write [33], .consume 2]).consume
        (Buffer.new.run [.write [84, 69, 83, 84], .reserve 4096, .write [33],
          .consume 2]).byteCount).begin.eq
        ((Buffer.new.run [.write [84, 69, 83, 84], .reserve 4096, .write [33],
          .consume 2]).consume
        (Buffer.new.run [.write [84, 69, 83, 84], .reserve 4096, .write [33],
          .consume 2]).byteCount).end_ = true) :=
  ⟨⟨by decide!, by decide!⟩,
    full_drain [.write [84, 69, 83, 84], .reserve 4096, .write [33], .consume 2] (by decide!)⟩

/-- C25. Read never passes write. For every sequence of `write`, `reserve`, `advance` and
`consume(n)` calls on a fresh Buffer, with arbitrary `n` (the number of chunks staying below
`2 ^ 64`): after every call the read position is not after the write position in stream order;
and `consume(n)` with `n ≥ byteCount()` leaves the Buffer empty, with the read position equal
to the write position, in chunk 0 of the one chunk left and at an offset of at most
`BlockSize`: no index or size has wrapped below zero. -/
theorem read_never_passes_write (ops : List Op) (hfit : Buffer.new.fits ops = true) :
    (∀ k, (Buffer.new.run (ops.take k)).readNotPastWrite) ∧
    (∀ n, (Buffer.new.run ops).byteCount ≤ n →
      ((Buffer.new.run ops).consume n).byteCount = 0 ∧
      ((Buffer.new.run ops).consume n).readSize = 0 ∧
      ((Buffer.new.run ops).consume n).rpos_ = ((Buffer.new.run ops).consume n).wpos_ ∧
      ((Buffer.new.run ops).consume n).numChunks = 1 ∧
      ((Buffer.new.run ops).consume n).rpos_.idx = 0 ∧
      ((Buffer.new.run ops).consume n).rpos_.off ≤ BlockSize) := by
  constructor
  · intro k
    exact (wf_run _ Buffer.new wf_new (fits_take ops _ k hfit)).1.lay.readNotPastWrite
  · intro n hn
    obtain ⟨hw, hs⟩ := wf_run ops Buffer.new wf_new hfit
    obtain ⟨h1, h2, -⟩ := hw.consumed hs n
    rw [hw.byteCount_eq_unread] at hn
    obtain ⟨e1, e2, e3, e4⟩ := h1.empty (by omega)
    refine ⟨e4, e3, e1, e2, h1.first, ?_⟩
    rw [e1]
    exact h1.lay.off_le

/-- Witness for C25: a Buffer with two chunks and three unread bytes; `consume(1000)` empties
it. -/
theorem read_never_passes_write_witness :
    ((Buffer.new.run [.write [84, 69, 83, 84], .reserve 4096, .write [33], .consume 2]).rpos_
        = ⟨0, 2⟩ ∧
      (Buffer.new.run [.write [84, 69, 83, 84], .reserve 4096, .write [33], .consume 2]).wpos_
        = ⟨1, 1⟩ ∧
      ((Buffer.new.run [.write [84, 69, 83, 84], .reserve 4096, .write [33],
        .consume 2]).consume 1000).rpos_ = ⟨0, 1⟩) ∧
    ((Buffer.new.run [.write [84, 69, 83, 84], .reserve 4096, .write [33],
        .consume 2]).readNotPastWrite ∧
      ((Buffer.new.run [.write [84, 69, 83, 84], .reserve 4096, .write [33],
        .consume 2]).consume 1000).rpos_ =
      ((Buffer.new.run [.write [84, 69, 83, 84], .reserve 4096, .write [33],
        .consume 2]).consume 1000).wpos_) :=
  ⟨⟨by decide!, by decide!, by decide!⟩,
    (read_never_passes_write [.write [84, 69, 83, 84], .reserve 4096, .write [33], .consume 2]
      (by decide!)).1 4,
    ((read_never_passes_write [.write [84, 69, 83, 84], .reserve 4096, .write [33], .consume 2]
      (by decide!)).2 1000 (by decide!)).2.2.1⟩

end Buffer

/-! ## Buffer: reserve, and write against reserve and advance -/

namespace Buffer

theorem withNewChunk_sizeAt (b : Buffer) (i : Nat) : b.withNewChunk.sizeAt i = b.sizeAt i := by
  simp only [withNewChunk, addChunk, sizeAt, getD_append_zero]

theorem withNewChunk_chunkAt (b : Buffer) (i : Nat) :
    b.withNewChunk.chunkAt i = b.chunkAt i := by
  simp only [withNewChunk, addChunk, chunkAt, List.getD_eq_getElem?_getD]
  by_cases h : i < b.chunks_.length
  · rw [List.getElem?_append_left h]
  · rw [List.getElem?_append_right (by omega), List.getElem?_eq_none (l := b.chunks_) (by omega)]
    cases hj : i - b.chunks_.length with
    | zero => rfl
    | succ m => rfl

theorem Lay.withNewChunk_wpos {b : Buffer} (h : Lay b) :
    b.withNewChunk.wpos_ = ⟨b.wpos_.idx + 1, 0⟩ := by
  have h1 := h.widx
  have h2 := h.chunks
  simp only [withNewChunk, addChunk, List.length_append, List.length_singleton,
    Nat.add_sub_cancel, Position.mk.injEq, and_true]
  omega

theorem withNewChunk_byteCount (b : Buffer) : b.withNewChunk.byteCount = b.byteCount := by
  simp only [byteCount, readSize, withNewChunk_sizeAt]
  simp only [withNewChunk, addChunk, sum_drop_append_zero]

theorem withNewChunk_begin (b : Buffer) : b.withNewChunk.begin = b.begin := by
  simp only [begin, Iterator.mk0, withNewChunk_byteCount, withNewChunk_sizeAt]
  rfl

theorem Iterator.getChar_withNewChunk (b : Buffer) (it : Iterator) :
    it.getChar b.withNewChunk = it.getChar b := by
  simp only [Iterator.getChar, withNewChunk_chunkAt]

/-- One call of `next()` on a Buffer and on the Buffer with a new chunk at its end: the two
iterators stay the same until the one reaches the old write position, where the other moves on
to the new chunk; there both stay. -/
theorem Iterator.next_withNewChunk {b : Buffer} (h : Lay b) (hoff : 0 < b.wpos_.off)
    (it it' : Iterator)
    (hr : (it' = it ∧ it.pos_.idx ≤ b.wpos_.idx ∧ ¬ (it.pos_ = b.wpos_ ∧ it.budget_ = 0)) ∨
      (it.pos_ = b.wpos_ ∧ it.budget_ = 0 ∧ it'.pos_ = ⟨b.wpos_.idx + 1, 0⟩ ∧ it'.budget_ = 0 ∧
        it'.bytes_read_ = it.bytes_read_ ∧ it'.bytes_total_ = it.bytes_total_)) :
    (it'.next b.withNewChunk = it.next b ∧ (it.next b).pos_.idx ≤ b.wpos_.idx ∧
        ¬ ((it.next b).pos_ = b.wpos_ ∧ (it.next b).budget_ = 0)) ∨
      ((it.next b).pos_ = b.wpos_ ∧ (it.next b).budget_ = 0 ∧
        (it'.next b.withNewChunk).pos_ = ⟨b.wpos_.idx + 1, 0⟩ ∧
        (it'.next b.withNewChunk).budget_ = 0 ∧
        (it'.next b.withNewChunk).bytes_read_ = (it.next b).bytes_read_ ∧
        (it'.next b.withNewChunk).bytes_total_ = (it.next b).bytes_total_) := by
  have hwp := h.withNewChunk_wpos
  have hwo := h.woff
  have hw : b.wpos_ = ⟨b.wpos_.idx, b.wpos_.off⟩ := rfl
  rcases hr with ⟨rfl, hidx, hne⟩ | ⟨hp, hb, hp', hb', hrd, htot⟩
  · unfold Iterator.next
    by_cases hfast : it'.budget_ > 1
    · rw [if_pos hfast, if_pos hfast]
      refine Or.inl ⟨rfl, hidx, fun hc => ?_⟩
      have : it'.budget_ - 1 = 0 := hc.2
      omega
    · rw [if_neg hfast, if_neg hfast]
      unfold Iterator.slowNext
      simp only [withNewChunk_sizeAt, hwp, Iterator.getBudget]
      by_cases hin : it'.pos_.off < b.sizeAt it'.pos_.idx
      · rw [if_pos hin, if_pos hin]
        by_cases hend : it'.pos_.off + 1 = b.sizeAt it'.pos_.idx
        · rcases Nat.lt_or_ge it'.pos_.idx b.wpos_.idx with hlt | hge
          · rw [if_pos ⟨hend, by omega⟩, if_pos ⟨hend, hlt⟩]
            simp only [withNewChunk_sizeAt]
            refine Or.inl ⟨trivial, (by show it'.pos_.idx + 1 ≤ b.wpos_.idx; omega), fun hc => ?_⟩
            have hc1 : (⟨it'.pos_.idx + 1, 0⟩ : Position) = b.wpos_ := hc.1
            rw [hw] at hc1
            simp only [Position.mk.injEq] at hc1
            omega
          · have hie : it'.pos_.idx = b.wpos_.idx := by omega
            rw [if_pos ⟨hend, by omega⟩, if_neg (fun hc => by omega)]
            simp only [withNewChunk_sizeAt]
            have hle := h.le it'.pos_.idx
            simp only [BlockSize] at hle
            have hz1 : usub (b.sizeAt it'.pos_.idx) (it'.pos_.off + 1) = 0 := by
              rw [usub_eq _ _ (by omega) (by omega)]
              omega
            have hlast : b.sizeAt (it'.pos_.idx + 1) = 0 := by
              unfold sizeAt
              apply List.getD_eq_default
              have := h.widx
              omega
            have hz2 : usub (b.sizeAt (it'.pos_.idx + 1)) 0 = 0 := by
              rw [hlast]
              decide
            refine Or.inr ⟨?_, hz1, ?_, hz2, trivial, trivial⟩
            · show (⟨it'.pos_.idx, it'.pos_.off + 1⟩ : Position) = b.wpos_
              rw [hw, hie, hend, hie, hwo]
            · show (⟨it'.pos_.idx + 1, 0⟩ : Position) = ⟨b.wpos_.idx + 1, 0⟩
              rw [hie]
        · rw [if_neg (fun hc => hend hc.1), if_neg (fun hc => hend hc.1)]
          refine Or.inl ⟨rfl, hidx, fun hc => ?_⟩
          have hc1 : (⟨it'.pos_.idx, it'.pos_.off + 1⟩ : Position) = b.wpos_ := hc.1
          rw [hw] at hc1
          simp only [Position.mk.injEq] at hc1
          apply hend
          rw [hc1.1, hwo]
          exact hc1.2
      · rw [if_neg hin, if_neg hin]
        exact Or.inl ⟨rfl, hidx, hne⟩
  · have hn : it.next b = it := by
      apply Iterator.next_stuck
      · omega
      · rw [hp, hwo]
    have hn' : it'.next b.withNewChunk = it' := by
      apply Iterator.next_stuck
      · omega
      · rw [withNewChunk_sizeAt, hp']
        show b.sizeAt (b.wpos_.idx + 1) ≤ 0
        unfold sizeAt
        rw [List.getD_eq_default]
        have := h.widx
        omega
    rw [hn, hn']
    exact Or.inr ⟨hp, hb, hp', hb', hrd, htot⟩

theorem Iterator.nextN_withNewChunk {b : Buffer} (h : Lay b) (hoff : 0 < b.wpos_.off) :
    ∀ (k : Nat) (it it' : Iterator),
      ((it' = it ∧ it.pos_.idx ≤ b.wpos_.idx ∧ ¬ (it.pos_ = b.wpos_ ∧ it.budget_ = 0)) ∨
        (it.pos_ = b.wpos_ ∧ it.budget_ = 0 ∧ it'.pos_ = ⟨b.wpos_.idx + 1, 0⟩ ∧
          it'.budget_ = 0 ∧ it'.bytes_read_ = it.bytes_read_ ∧
          it'.bytes_total_ = it.bytes_total_)) →
      ((Iterator.nextN b.withNewChunk k it' = Iterator.nextN b k it ∧
          (Iterator.nextN b k it).pos_.idx ≤ b.wpos_.idx ∧
          ¬ ((Iterator.nextN b k it).pos_ = b.wpos_ ∧ (Iterator.nextN b k it).budget_ = 0)) ∨
        ((Iterator.nextN b k it).pos_ = b.wpos_ ∧ (Iterator.nextN b k it).budget_ = 0 ∧
          (Iterator.nextN b.withNewChunk k it').pos_ = ⟨b.wpos_.idx + 1, 0⟩ ∧
          (Iterator.nextN b.withNewChunk k it').budget_ = 0 ∧
          (Iterator.nextN b.withNewChunk k it').bytes_read_ =
            (Iterator.nextN b k it).bytes_read_ ∧
          (Iterator.nextN b.withNewChunk k it').bytes_total_ =
            (Iterator.nextN b k it).bytes_total_)) := by
  intro k
  induction k with
  | zero =>
    intro it it' hr
    exact hr
  | succ k ih =>
    intro it it' hr
    exact ih _ _ (Iterator.next_withNewChunk h hoff it it' hr)

/-- An iterator over a Buffer sees the same bytes after a chunk was added at the end of the
Buffer, when the write position was not at the start of its chunk and something was unread:
after any number of `next()` calls `eob()`, `bytesRead()` and `bytesTotal()` agree, and so does
`getChar()` before `eob()`. -/
theorem iterate_withNewChunk {b : Buffer} (h : Lay b) (hoff : 0 < b.wpos_.off)
    (hne : b.rpos_ ≠ b.wpos_) (k : Nat) :
    (Iterator.nextN b.withNewChunk k b.withNewChunk.begin).eob b.withNewChunk =
      (Iterator.nextN b k b.begin).eob b ∧
    (Iterator.nextN b.withNewChunk k b.withNewChunk.begin).bytesRead =
      (Iterator.nextN b k b.begin).bytesRead ∧
    (Iterator.nextN b.withNewChunk k b.withNewChunk.begin).bytesTotal =
      (Iterator.nextN b k b.begin).bytesTotal ∧
    ((Iterator.nextN b k b.begin).eob b = false →
      (Iterator.nextN b.withNewChunk k b.withNewChunk.begin).getChar b.withNewChunk =
        (Iterator.nextN b k b.begin).getChar b) := by
  have hwp := h.withNewChunk_wpos
  have hstart : (b.withNewChunk.begin = b.begin ∧ b.begin.pos_.idx ≤ b.wpos_.idx ∧
      ¬ (b.begin.pos_ = b.wpos_ ∧ b.begin.budget_ = 0)) :=
    ⟨withNewChunk_begin b, h.ridx, fun hc => hne hc.1⟩
  rcases Iterator.nextN_withNewChunk h hoff k b.begin b.withNewChunk.begin (Or.inl hstart) with
    ⟨he, hidx, hna⟩ | ⟨hp, hb, hp', hb', hrd, htot⟩
  · rw [he]
    refine ⟨?_, rfl, rfl, fun _ => Iterator.getChar_withNewChunk b _⟩
    generalize Iterator.nextN b k b.begin = it at hidx hna
    unfold Iterator.eob
    by_cases hbz : it.budget_ ≠ 0
    · rw [if_pos hbz, if_pos hbz]
    · rw [if_neg hbz, if_neg hbz, hwp]
      have hbz' : it.budget_ = 0 := not_not.1 hbz
      have h1 : ¬ it.pos_.idx = b.wpos_.idx + 1 := by omega
      have h2 : ¬ (it.pos_.idx = b.wpos_.idx ∧ it.pos_.off = b.wpos_.off) := by
        intro hc
        apply hna
        refine ⟨?_, hbz'⟩
        cases hpos : it.pos_ with
        | mk i o =>
          rw [hpos] at hc
          simp only at hc
          rw [hc.1, hc.2]
      simp only [h1, decide_False, Bool.false_and]
      by_cases h3 : it.pos_.idx = b.wpos_.idx
      · have h4 : ¬ it.pos_.off = b.wpos_.off := fun e => h2 ⟨h3, e⟩
        simp [h3, h4]
      · simp [h3]
  · refine ⟨?_, hrd, htot, fun hf => ?_⟩
    · unfold Iterator.eob
      rw [if_neg (by rw [hb']; simp), if_neg (by rw [hb]; simp), hp', hp, hwp]
      simp
    · exfalso
      unfold Iterator.eob at hf
      rw [if_neg (by rw [hb]; simp), hp] at hf
      simp at hf

end Buffer

namespace Buffer

theorem Wf.poke {b : Buffer} (h : Wf b) (data : List Nat) : Wf (b.pokeAtWritePtr data) :=
  ⟨⟨by simp [pokeAtWritePtr, h.lay.chunks], h.lay.widx, h.lay.woff, h.lay.ridx, h.lay.roff,
    h.lay.le, h.lay.mid⟩, h.first, h.ahead⟩

theorem Wf.byteCount_fresh_eq {b c : Buffer} (hb : Wf b) (hc : Wf c) (h : c.unread = b.unread) :
    c.byteCount = b.byteCount := by
  rw [hb.byteCount_eq_unread, hc.byteCount_eq_unread, h]

/-- An iterator over a Buffer without unread bytes is at `eob()` and stays there. -/
theorem Wf.iterate_empty {b : Buffer} (h : Wf b) (he : b.rpos_ = b.wpos_) (k : Nat) :
    Iterator.nextN b k b.begin = b.begin ∧ b.begin.eob b = true ∧ b.begin.bytesRead = 0 ∧
    b.begin.bytesTotal = b.byteCount := by
  have hwo := h.lay.woff
  have hle := h.lay.le b.wpos_.idx
  simp only [BlockSize] at hle
  have hb : b.begin.budget_ = 0 := by
    show usub (b.sizeAt b.rpos_.idx) b.rpos_.off = 0
    rw [he, hwo, usub_eq _ _ (Nat.le_refl _) (by omega)]
    omega
  refine ⟨Iterator.nextN_stuck b _ (Iterator.next_stuck b _ (by omega) ?_) k, ?_, rfl, rfl⟩
  · show b.sizeAt b.rpos_.idx ≤ b.rpos_.off
    rw [he, hwo]
  · unfold Iterator.eob
    rw [if_neg (by rw [hb]; simp)]
    show (decide (b.rpos_.idx = b.wpos_.idx) && decide (b.rpos_.off = b.wpos_.off)) = true
    rw [he]
    simp

/-- C23. reserve. For every Buffer reached from a fresh one by `write`, `reserve`, `advance` and
`consume` calls (the number of chunks staying below `2 ^ 64`) and every `n`: `reserve(n)`
returns false iff `n > BlockSize`, and then leaves the Buffer as it is; when it returns true,
`writeSize() ≥ n` holds afterwards, `byteCount()` is what it was, and an iterator from `begin()`
sees what it saw before: after any number `k` of `next()` calls, `eob()`, `bytesRead()` and
`bytesTotal()` are the same, and before `eob()` so is `getChar()`. -/
theorem reserve_contract (ops : List Op) (hfit : Buffer.new.fits ops = true) (n : Nat) :
    (((Buffer.new.run ops).reserve n).1 = false ↔ n > BlockSize) ∧
    (((Buffer.new.run ops).reserve n).1 = false →
      ((Buffer.new.run ops).reserve n).2 = Buffer.new.run ops) ∧
    (((Buffer.new.run ops).reserve n).1 = true →
      n ≤ ((Buffer.new.run ops).reserve n).2.writeSize ∧
      ((Buffer.new.run ops).reserve n).2.byteCount = (Buffer.new.run ops).byteCount ∧
      ∀ k,
        (Iterator.nextN ((Buffer.new.run ops).reserve n).2 k
            ((Buffer.new.run ops).reserve n).2.begin).eob ((Buffer.new.run ops).reserve n).2 =
          (Iterator.nextN (Buffer.new.run ops) k (Buffer.new.run ops).begin).eob
            (Buffer.new.run ops) ∧
        (Iterator.nextN ((Buffer.new.run ops).reserve n).2 k
            ((Buffer.new.run ops).reserve n).2.begin).bytesRead =
          (Iterator.nextN (Buffer.new.run ops) k (Buffer.new.run ops).begin).bytesRead ∧
        (Iterator.nextN ((Buffer.new.run ops).reserve n).2 k
            ((Buffer.new.run ops).reserve n).2.begin).bytesTotal =
          (Iterator.nextN (Buffer.new.run ops) k (Buffer.new.run ops).begin).bytesTotal ∧
        ((Iterator.nextN (Buffer.new.run ops) k (Buffer.new.run ops).begin).eob
            (Buffer.new.run ops) = false →
          (Iterator.nextN ((Buffer.new.run ops).reserve n).2 k
              ((Buffer.new.run ops).reserve n).2.begin).getChar
              ((Buffer.new.run ops).reserve n).2 =
            (Iterator.nextN (Buffer.new.run ops) k (Buffer.new.run ops).begin).getChar
              (Buffer.new.run ops))) := by
  obtain ⟨hw, -⟩ := wf_run ops Buffer.new wf_new hfit
  generalize Buffer.new.run ops = b at hw
  obtain ⟨h1, h2, h3, h4, h5, -⟩ := hw.reserve n
  refine ⟨h2, h3, fun ht => ⟨h4 ht, hw.byteCount_fresh_eq h1 h5, fun k => ?_⟩⟩
  rcases hw.reserve_cases n with ⟨he, -⟩ | ⟨-, hne, hpos, he⟩ | ⟨-, heq, -, he⟩
  · rw [he]
    exact ⟨rfl, rfl, rfl, fun _ => rfl⟩
  · rw [he]
    exact iterate_withNewChunk hw.lay hpos hne k
  · have hb := hw.iterate_empty heq k
    have heq' : (b.reserve n).2.rpos_ = (b.reserve n).2.wpos_ := by rw [he]
    have hb' := h1.iterate_empty heq' k
    rw [hb.1, hb'.1, hb.2.1, hb'.2.1]
    refine ⟨rfl, ?_, ?_, fun hc => (by cases hc)⟩
    · rw [hb.2.2.1, hb'.2.2.1]
    · rw [hb.2.2.2, hb'.2.2.2]
      exact hw.byteCount_fresh_eq h1 h5

/-- Witness for C23: `TEST` was written and two bytes were consumed; `reserve(4096)` adds a
chunk and the iterator still sees `S`, `T` and then `eob()`. -/
theorem reserve_contract_witness :
    (((Buffer.new.run [.write [84, 69, 83, 84], .consume 2]).reserve 4096).1 = true ∧
      ((Buffer.new.run [.write [84, 69, 83, 84], .consume 2]).reserve 4096).2.numChunks = 2 ∧
      (List.range 3).map (fun k =>
        ((Iterator.nextN ((Buffer.new.run [.write [84, 69, 83, 84], .consume 2]).reserve 4096).2 k
          ((Buffer.new.run [.write [84, 69, 83, 84], .consume 2]).reserve 4096).2.begin).getChar
            ((Buffer.new.run [.write [84, 69, 83, 84], .consume 2]).reserve 4096).2,
         (Iterator.nextN ((Buffer.new.run [.write [84, 69, 83, 84], .consume 2]).reserve 4096).2 k
          ((Buffer.new.run [.write [84, 69, 83, 84], .consume 2]).reserve 4096).2.begin).eob
            ((Buffer.new.run [.write [84, 69, 83, 84], .consume 2]).reserve 4096).2)) =
        [(83, false), (84, false), (0, true)]) ∧
    (4096 ≤ ((Buffer.new.run [.write [84, 69, 83, 84], .consume 2]).reserve 4096).2.writeSize ∧
      ((Buffer.new.run [.write [84, 69, 83, 84], .consume 2]).reserve 4096).2.byteCount =
        (Buffer.new.run [.write [84, 69, 83, 84], .consume 2]).byteCount) :=
  ⟨⟨by decide!, by decide!, by decide!⟩,
    ((reserve_contract [.write [84, 69, 83, 84], .consume 2] (by decide!) 4096).2.2
      (by decide!)).1,
    ((reserve_contract [.write [84, 69, 83, 84], .consume 2] (by decide!) 4096).2.2
      (by decide!)).2.1⟩

end Buffer

namespace Buffer

theorem writeLoop_nil (fuel : Nat) (b : Buffer) : writeLoop fuel b [] = b := by
  cases fuel with
  | zero => rfl
  | succ fuel => simp [writeLoop]

/-- When the data fit into the write chunk, `write` takes one round of its loop. -/
theorem write_one_round (b : Buffer) (data : List Nat) (h0 : 0 < data.length)
    (h1 : data.length ≤ b.writeSize) : b.write data = b.writeRound data := by
  unfold Buffer.write
  rw [writeLoop, if_pos h0, Nat.min_eq_right h1, List.drop_length, writeLoop_nil]

theorem reserve_of_room (b : Buffer) (n : Nat) (h0 : n ≤ BlockSize) (h1 : n ≤ b.writeSize) :
    b.reserve n = (true, b) := by
  unfold Buffer.reserve
  rw [if_neg (by omega), if_pos (show usub BlockSize b.wpos_.off ≥ n from h1)]

theorem reserveCopyAdvance_of_room (b : Buffer) (data : List Nat) (h0 : 0 < data.length)
    (hb : data.length ≤ BlockSize) (h1 : data.length ≤ b.writeSize) :
    b.reserveCopyAdvance data =
      { chunks_ := b.chunks_.set b.wpos_.idx
          (copyBytes (b.chunkAt b.wpos_.idx) b.wpos_.off data)
        sizes_ := b.sizes_.set b.wpos_.idx (b.sizeAt b.wpos_.idx + data.length)
        wpos_ := ⟨b.wpos_.idx, b.wpos_.off + data.length⟩
        rpos_ := b.rpos_ } := by
  unfold reserveCopyAdvance
  rw [reserve_of_room b _ hb h1]
  unfold Buffer.advance
  rw [if_neg (by omega), if_pos (by exact h1)]
  rfl

/-- The layout that `write` leaves. On a fresh Buffer `write` of 4096 bytes fills the chunk and
adds a new one: two chunks, `writeSize() == 4096`; `reserve(4096)`, the copy and
`advance(4096)` leave one chunk and `writeSize() == 0`. On a Buffer that holds 100 bytes,
`write` of 4000 bytes fills the first chunk and puts 4 bytes into a second one
(`readSize() == 4096`, `writeSize() == 4092`), whereas `reserve(4000)` leaves the rest of the
first chunk unused and the 4000 bytes go to the second chunk (`readSize() == 100`,
`writeSize() == 96`). -/
theorem write_differs_from_reserve_advance :
    ((Buffer.new.write (List.replicate 4096 120)).numChunks = 2 ∧
      (Buffer.new.write (List.replicate 4096 120)).writeSize = 4096 ∧
      (Buffer.new.reserveCopyAdvance (List.replicate 4096 120)).numChunks = 1 ∧
      (Buffer.new.reserveCopyAdvance (List.replicate 4096 120)).writeSize = 0) ∧
    (((Buffer.new.write (List.replicate 100 120)).write (List.replicate 4000 121)).readSize
        = 4096 ∧
      ((Buffer.new.write (List.replicate 100 120)).write (List.replicate 4000 121)).writeSize
        = 4092 ∧
      ((Buffer.new.write (List.replicate 100 120)).reserveCopyAdvance
        (List.replicate 4000 121)).readSize = 100 ∧
      ((Buffer.new.write (List.replicate 100 120)).reserveCopyAdvance
        (List.replicate 4000 121)).writeSize = 96) := by
  refine ⟨⟨by decide!, by decide!, by decide!, by decide!⟩,
    by decide!, by decide!, by decide!, by decide!⟩

/-- Where `write` agrees with reserve, copy, advance. For every Buffer `b` reached from a fresh
one by `write`, `reserve`, `advance` and `consume` calls (the number of chunks staying below `2 ^ 64`) and every `data` with
`0 < |data| ≤ BlockSize`:
* `reserve(|data|)` and the `advance(|data|)` after the copy both return true, and both
  `write(data)` and the sequence reserve, copy, advance make `byteCount()` grow by `|data|`;
* when `|data| < writeSize()`, the two leave the Buffer in the same state;
* when `|data| = writeSize()`, `write` leaves the state of the sequence with one more, empty,
  chunk that holds the write position, and an iterator from `begin()` sees the same in both.
The case `|data| > writeSize()` is not covered: there `write` fills what is left of the write
chunk before it adds a chunk and does not move the read position. -/
theorem write_versus_reserve_advance (ops : List Op) (hfit : Buffer.new.fits ops = true)
    (data : List Nat) (h0 : 0 < data.length) (h1 : data.length ≤ BlockSize) :
    (((Buffer.new.run ops).reserve data.length).1 = true ∧
      ((((Buffer.new.run ops).reserve data.length).2.pokeAtWritePtr data).advance
        data.length).1 = true) ∧
    (((Buffer.new.run ops).write data).byteCount = (Buffer.new.run ops).byteCount + data.length ∧
      ((Buffer.new.run ops).reserveCopyAdvance data).byteCount =
        (Buffer.new.run ops).byteCount + data.length) ∧
    (data.length < (Buffer.new.run ops).writeSize →
      (Buffer.new.run ops).write data = (Buffer.new.run ops).reserveCopyAdvance data) ∧
    (data.length = (Buffer.new.run ops).writeSize →
      (Buffer.new.run ops).write data =
        ((Buffer.new.run ops).reserveCopyAdvance data).withNewChunk ∧
      ∀ k,
        (Iterator.nextN ((Buffer.new.run ops).write data) k
            ((Buffer.new.run ops).write data).begin).eob ((Buffer.new.run ops).write data) =
          (Iterator.nextN ((Buffer.new.run ops).reserveCopyAdvance data) k
            ((Buffer.new.run ops).reserveCopyAdvance data).begin).eob
              ((Buffer.new.run ops).reserveCopyAdvance data) ∧
        ((Iterator.nextN ((Buffer.new.run ops).reserveCopyAdvance data) k
            ((Buffer.new.run ops).reserveCopyAdvance data).begin).eob
              ((Buffer.new.run ops).reserveCopyAdvance data) = false →
          (Iterator.nextN ((Buffer.new.run ops).write data) k
              ((Buffer.new.run ops).write data).begin).getChar
              ((Buffer.new.run ops).write data) =
            (Iterator.nextN ((Buffer.new.run ops).reserveCopyAdvance data) k
              ((Buffer.new.run ops).reserveCopyAdvance data).begin).getChar
                ((Buffer.new.run ops).reserveCopyAdvance data))) := by
  obtain ⟨hw, -⟩ := wf_run ops Buffer.new wf_new hfit
  generalize Buffer.new.run ops = b at hw
  obtain ⟨r1, r2, -, r4, r5, -⟩ := hw.reserve data.length
  have hflag : (b.reserve data.length).1 = true := by
    cases hf : (b.reserve data.length).1 with
    | true => rfl
    | false =>
      have := r2.1 hf
      omega
  have hp := r1.poke data
  obtain ⟨a1, a2, -, a4, -, -⟩ := hp.advance data.length
  have hadv : (((b.reserve data.length).2.pokeAtWritePtr data).advance data.length).1 = true :=
    a2.2 ⟨h0, r4 hflag⟩
  have hwr := hw.write data
  have hrca : (b.reserveCopyAdvance data).unread = b.unread + data.length := by
    unfold reserveCopyAdvance
    rw [a4, if_pos hadv]
    have : ((b.reserve data.length).2.pokeAtWritePtr data).unread =
        (b.reserve data.length).2.unread := rfl
    rw [this, r5]
  refine ⟨⟨hflag, hadv⟩, ⟨?_, ?_⟩, fun hlt => ?_, fun heq => ?_⟩
  · rw [hwr.1.byteCount_eq_unread, hw.byteCount_eq_unread, hwr.2.1]
  · have : Wf (b.reserveCopyAdvance data) := a1
    rw [this.byteCount_eq_unread, hw.byteCount_eq_unread, hrca]
  · have hws := hw.lay.writeSize_eq'
    rw [write_one_round b data h0 (by omega), reserveCopyAdvance_of_room b data h0 h1 (by omega),
      writeRound_eq, Nat.min_eq_right (by omega), List.take_length]
    rw [if_neg]
    intro hc
    rcases hc with hc | hc
    · omega
    · omega
  · have hws := hw.lay.writeSize_eq'
    have hoff := hw.lay.off_le
    have hrc := reserveCopyAdvance_of_room b data h0 h1 (by omega)
    have hwe : b.write data = (b.reserveCopyAdvance data).withNewChunk := by
      rw [write_one_round b data h0 (by omega), hrc, writeRound_eq,
        Nat.min_eq_right (by omega), List.take_length]
      rw [if_pos]
      right
      omega
    refine ⟨hwe, fun k => ?_⟩
    rw [hwe]
    have hl : Lay (b.reserveCopyAdvance data) := (show Wf (b.reserveCopyAdvance data) from a1).lay
    have hpos : 0 < (b.reserveCopyAdvance data).wpos_.off := by
      rw [hrc]
      show 0 < b.wpos_.off + data.length
      omega
    have hne : (b.reserveCopyAdvance data).rpos_ ≠ (b.reserveCopyAdvance data).wpos_ := by
      rw [hrc]
      show b.rpos_ ≠ ⟨b.wpos_.idx, b.wpos_.off + data.length⟩
      intro hc
      have h1' := hw.lay.roff
      have h2' := hw.lay.woff
      have h3' := hw.first
      rw [hc] at h1' h3'
      simp only at h1' h3'
      rw [h2'] at h1'
      omega
    have := iterate_withNewChunk hl hpos hne k
    exact ⟨this.1, this.2.2.2⟩

/-- An instance with room in the write chunk: `TEST` was written and two bytes were consumed;
the byte `!` is written. -/
theorem write_versus_reserve_advance_witness :
    ((Buffer.new.run [.write [84, 69, 83, 84], .consume 2]).write [33]).byteCount = 3 ∧
    ((([33] : List Nat).length < (Buffer.new.run [.write [84, 69, 83, 84], .consume 2]).writeSize →
      (Buffer.new.run [.write [84, 69, 83, 84], .consume 2]).write [33] =
        (Buffer.new.run [.write [84, 69, 83, 84], .consume 2]).reserveCopyAdvance [33]) ∧
      ((Buffer.new.run [.write [84, 69, 83, 84], .consume 2]).write [33]).byteCount =
        (Buffer.new.run [.write [84, 69, 83, 84], .consume 2]).byteCount + ([33] : List Nat).length) :=
  ⟨by decide!,
    (write_versus_reserve_advance [.write [84, 69, 83, 84], .consume 2] (by decide!) [33]
      (by decide) (by decide)).2.2.1,
    (write_versus_reserve_advance [.write [84, 69, 83, 84], .consume 2] (by decide!) [33]
      (by decide) (by decide)).2.1.1⟩

end Buffer

namespace Buffer

/-- C24 (failing input). `reserve(4096)`, `advance(4096)` and `consume(4096)` on a fresh Buffer
leave one full chunk that was read to its end: read and write position are both at offset 4096
and `writeSize()` is 0. There `reserve(1)` and the `advance(1)` after the copy both succeed:
`reserve` adds a chunk, moves the read position to it and drops the read chunk, so the sequence
reserve, copy, advance leaves one chunk with `readSize() == 1`, and the iterator from `begin()`
yields the byte `A` and is then at `eob()`. `write("A")` adds a chunk too, but leaves the read
position at the end of the old one: two chunks, `byteCount() == 1`, yet `readSize() == 0`, and
the iterator from `begin()` is not at `eob()`, does not point to the byte and is not moved by
`next()`. -/
theorem write_after_full_chunk_read_hides_the_byte :
    (fullRead.sizes_ = [4096] ∧ fullRead.rpos_ = ⟨0, 4096⟩ ∧ fullRead.wpos_ = ⟨0, 4096⟩ ∧
      fullRead.writeSize = 0) ∧
    ((fullRead.reserve 1).1 = true ∧
      (((fullRead.reserve 1).2.pokeAtWritePtr [65]).advance 1).1 = true) ∧
    ((fullRead.reserveCopyAdvance [65]).byteCount = 1 ∧
      (fullRead.reserveCopyAdvance [65]).readSize = 1 ∧
      (fullRead.reserveCopyAdvance [65]).writeSize = 4095 ∧
      (fullRead.reserveCopyAdvance [65]).numChunks = 1) ∧
    ((fullRead.reserveCopyAdvance [65]).begin.eob (fullRead.reserveCopyAdvance [65]) = false ∧
      (fullRead.reserveCopyAdvance [65]).begin.getChar (fullRead.reserveCopyAdvance [65]) = 65 ∧
      ((fullRead.reserveCopyAdvance [65]).begin.next (fullRead.reserveCopyAdvance [65])).eob
        (fullRead.reserveCopyAdvance [65]) = true) ∧
    ((fullRead.write [65]).byteCount = 1 ∧ (fullRead.write [65]).readSize = 0 ∧
      (fullRead.write [65]).writeSize = 4095 ∧ (fullRead.write [65]).numChunks = 2) ∧
    ((fullRead.write [65]).sizes_ = [4096, 1] ∧ (fullRead.write [65]).rpos_ = ⟨0, 4096⟩ ∧
      (fullRead.write [65]).wpos_ = ⟨1, 1⟩) ∧
    ((fullRead.write [65]).begin.eob (fullRead.write [65]) = false ∧
      (fullRead.write [65]).begin.getChar (fullRead.write [65]) = 0) ∧
    (∀ k, Iterator.nextN (fullRead.write [65]) k (fullRead.write [65]).begin =
      (fullRead.write [65]).begin) := by
  refine ⟨⟨by decide!, by decide!, by decide!, by decide!⟩, ⟨by decide!, by decide!⟩,
    ⟨by decide!, by decide!, by decide!, by decide!⟩, ⟨by decide!, by decide!, by decide!⟩,
    ⟨by decide!, by decide!, by decide!, by decide!⟩, ⟨by decide!, by decide!, by decide!⟩,
    ⟨by decide!, by decide!⟩,
    Iterator.nextN_stuck _ _ (Iterator.next_stuck _ _ (by decide!) (by decide!))⟩

end Buffer

/-! ## Connection: connecting and writing -/

namespace Connection

theorem startConnect_hard_error (env : Env) (c : Connection) (hs : 0 ≤ env.socket_fd)
    (hc : env.connect_res < 0)
    (he : env.connect_errno ≠ env.EINPROGRESS ∧ env.connect_errno ≠ env.EINTR) :
    ∃ c1, startConnect env c = some c1 ∧
      c1.log = c.log ++ [.connDone, .release c.refs_] ∧ c1.refs_ = c.refs_ := by
  unfold startConnect
  simp only [not_lt.mpr hs, if_false, ge_iff_le, not_le.mpr hc, he, ne_eq, not_false_eq_true,
    and_self, if_true]
  unfold doConnect
  simp [acquire, release]
  split <;> simp

/-- C32. Not on every path of `startConnect` is `connDone()` issued. When `socket()` fails,
`startConnect` sets `in_error_` and returns: `connDone()` is not called, now or later (no
reference is taken, no `Descriptor` is made and no task is handed to the pool). -/
theorem startConnect_without_socket_skips_connDone (env : Env) (c : Connection)
    (hs : env.socket_fd < 0) :
    ∃ c1, startConnect env c = some c1 ∧ c1.log = c.log ∧ c1.refs_ = c.refs_ ∧
      c1.in_error_ = true ∧ c1.io_desc_ = c.io_desc_ ∧ c1.pool = c.pool := by
  unfold startConnect
  simp [hs]

/-- Witness for C32: a new client-side connection and a failing `socket()`; for comparison, on a
refused `connect` the up-call is issued once and the reference is released after it. -/
theorem startConnect_without_socket_skips_connDone_witness :
    (∃ c1, startConnect envNoSocket active = some c1 ∧ c1.log = active.log ∧
      c1.refs_ = active.refs_ ∧ c1.in_error_ = true ∧ c1.io_desc_ = active.io_desc_ ∧
      c1.pool = active.pool) ∧
    active.log = [] ∧ active.pool = [] ∧ active.io_desc_ = none ∧
    (startConnect envRefused active).map (fun c => c.log) = some [.connDone, .release 0] :=
  ⟨startConnect_without_socket_skips_connDone envNoSocket active (by decide), rfl, rfl, rfl,
    by decide!⟩

/-- C36. On the path of `startConnect` on which `connect()` succeeds at once, `doConnect` runs
inline while `io_desc_` is still `NULL`: when `getsockopt` reports no error, the call
`io_desc_->setUpCalls(...)` dereferences the null pointer and `startConnect` has no defined
result. -/
theorem immediate_connect_success_uses_null_descriptor (env : Env) (c : Connection)
    (hs : 0 ≤ env.socket_fd) (hc : 0 ≤ env.connect_res) (he : env.so_error = 0)
    (hd : c.io_desc_ = none) (hi : c.in_error_ = false) :
    startConnect env c = none := by
  unfold startConnect
  simp only [not_lt.mpr hs, if_false, ge_iff_le, hc, if_true]
  unfold doConnect
  simp [acquire, hi, he, hd]

/-- Witness for C36: a connection made by the client-side constructor, whose `io_desc_` is
`NULL`. -/
theorem immediate_connect_success_uses_null_descriptor_witness :
    (active.io_desc_ = none ∧ active.in_error_ = false) ∧ startConnect envNow active = none :=
  ⟨⟨rfl, rfl⟩,
    immediate_connect_success_uses_null_descriptor envNow active (by decide) (by decide) rfl rfl
      rfl⟩

/-- C35. The write flag can stay set with nothing left to write. When `startWrite()` is called
with `writing_ == false` and an empty `out_` on a connection that is referenced elsewhere (so
that it outlives the call), and the zero-length `write` on the socket returns
0, `doWrite` leaves through the `bytes_written == 0` branch: afterwards `out_` is still empty,
the reference is released, no write is pending on the `Descriptor`, and `writing_ == true`. From
then on `startWrite()` does nothing, also after more bytes were put in `out_`. -/
theorem startWrite_on_empty_output_leaves_writing_set (rest : List WriteRes) (c : Connection)
    (hw : c.writing_ = false) (he : c.out_.byteCount = 0) (hr : c.refs_ ≠ 0) :
    ∃ c1, startWrite (.wrote 0 :: rest) c = some c1 ∧ c1.writing_ = true ∧ c1.out_ = c.out_ ∧
      c1.out_.byteCount = 0 ∧ c1.refs_ = c.refs_ ∧ c1.deleted = c.deleted ∧
      c1.io_desc_ = c.io_desc_ ∧ c1.pool = c.pool ∧
      ∀ (data : List Nat) (ws : List WriteRes),
        startWrite ws { c1 with out_ := c1.out_.write data }
          = some { c1 with out_ := c1.out_.write data } := by
  unfold startWrite
  simp [hw, doWrite, release, acquire, he, hr, startWrite]

/-- Witness for C35: a served connection whose `out_` is empty and whose zero-length `write`
returns 0; whatever is written to `out_` after the call, a further `startWrite()` does
nothing. -/
theorem startWrite_on_empty_output_leaves_writing_set_witness :
    (served.writing_ = false ∧ served.out_.byteCount = 0 ∧ served.refs_ = 1) ∧
    ∃ c1, startWrite [.wrote 0] served = some c1 ∧ c1.writing_ = true ∧ c1.out_ = served.out_ ∧
      c1.out_.byteCount = 0 ∧ c1.refs_ = served.refs_ ∧ c1.deleted = served.deleted ∧
      c1.io_desc_ = served.io_desc_ ∧ c1.pool = served.pool ∧
      ∀ (data : List Nat) (ws : List WriteRes),
        startWrite ws { c1 with out_ := c1.out_.write data }
          = some { c1 with out_ := c1.out_.write data } :=
  ⟨⟨by decide!, by decide!, by decide!⟩,
    startWrite_on_empty_output_leaves_writing_set [] served (by decide!) (by decide!)
      (by decide!)⟩

end Connection

/-! ## Descriptor: submissions are bounded by edges and requests -/

namespace Descriptor

theorem sched_step (r w : Callback) (hrw : r ≠ w) (c : Call) (hc : c.isLatch = true)
    (s : Descriptor × TaskLog) (h : Sched r w s.1) :
    Sched r w (step s c).1 ∧
    (step s c).2.count r + flag (step s c).1.can_read_
      ≤ s.2.count r + flag s.1.can_read_ + [c].count .readIfWaiting ∧
    (step s c).2.count r + flag (step s c).1.waiting_read_
      ≤ s.2.count r + flag s.1.waiting_read_ + [c].count .readWhenReady ∧
    (step s c).2.count w + flag (step s c).1.can_write_
      ≤ s.2.count w + flag s.1.can_write_ + [c].count .writeIfWaiting ∧
    (step s c).2.count w + flag (step s c).1.waiting_write_
      ≤ s.2.count w + flag s.1.waiting_write_ + [c].count .writeWhenReady := by
  obtain ⟨d, pool⟩ := s
  have hok := latchOk_step (d, pool) c h.ok
  obtain ⟨h1, h2, h3, h4⟩ := h
  have hwr : w ≠ r := fun e => hrw e.symm
  simp only at h1 h2 h3 h4
  cases c with
  | setUpCalls a b => simp [Call.isLatch] at hc
  | readWhenReady =>
    refine ⟨⟨?_, ?_, hok⟩, ?_⟩
    · simp only [step, readWhenReady]; split <;> exact h1
    · simp only [step, readWhenReady]; split <;> exact h2
    · cases hcr : d.can_read_ <;> cases hwt : d.waiting_read_ <;>
        simp_all [step, readWhenReady, submitIf, flag, List.count_cons, hwr]
  | writeWhenReady =>
    refine ⟨⟨?_, ?_, hok⟩, ?_⟩
    · simp only [step, writeWhenReady]; split <;> exact h1
    · simp only [step, writeWhenReady]; split <;> exact h2
    · cases hcr : d.can_write_ <;> cases hwt : d.waiting_write_ <;>
        simp_all [step, writeWhenReady, submitIf, flag, List.count_cons, hwr]
  | readIfWaiting =>
    refine ⟨⟨?_, ?_, hok⟩, ?_⟩
    · simp only [step, readIfWaiting]; split <;> exact h1
    · simp only [step, readIfWaiting]; split <;> exact h2
    · cases hcr : d.can_read_ <;> cases hwt : d.waiting_read_ <;>
        simp_all [step, readIfWaiting, submitIf, flag, List.count_cons, hwr]
  | writeIfWaiting =>
    refine ⟨⟨?_, ?_, hok⟩, ?_⟩
    · simp only [step, writeIfWaiting]; split <;> exact h1
    · simp only [step, writeIfWaiting]; split <;> exact h2
    · cases hcr : d.can_write_ <;> cases hwt : d.waiting_write_ <;>
        simp_all [step, writeIfWaiting, submitIf, flag, List.count_cons, hwr]

theorem sched_run (r w : Callback) (hrw : r ≠ w) (calls : List Call)
    (hc : ∀ c ∈ calls, c.isLatch = true) (s : Descriptor × TaskLog) (h : Sched r w s.1) :
    Sched r w (run s calls).1 ∧
    (run s calls).2.count r + flag (run s calls).1.can_read_
      ≤ s.2.count r + flag s.1.can_read_ + calls.count .readIfWaiting ∧
    (run s calls).2.count r + flag (run s calls).1.waiting_read_
      ≤ s.2.count r + flag s.1.waiting_read_ + calls.count .readWhenReady ∧
    (run s calls).2.count w + flag (run s calls).1.can_write_
      ≤ s.2.count w + flag s.1.can_write_ + calls.count .writeIfWaiting ∧
    (run s calls).2.count w + flag (run s calls).1.waiting_write_
      ≤ s.2.count w + flag s.1.waiting_write_ + calls.count .writeWhenReady := by
  induction calls generalizing s with
  | nil => simpa [run] using h
  | cons c rest ih =>
    obtain ⟨a0, a1, a2, a3, a4⟩ := sched_step r w hrw c (hc c (by simp)) s h
    obtain ⟨b0, b1, b2, b3, b4⟩ := ih (fun x hx => hc x (by simp [hx])) (step s c) a0
    have e : run s (c :: rest) = run (step s c) rest := by simp [run]
    rw [e]
    have k : ∀ x : Call, (c :: rest).count x = [c].count x + rest.count x := by
      intro x; simp [List.count_cons]; omega
    refine ⟨b0, ?_, ?_, ?_, ?_⟩
    · rw [k]; omega
    · rw [k]; omega
    · rw [k]; omega
    · rw [k]; omega

theorem idle_after_submit (r w : Callback) (hrw : r ≠ w) (c : Call) (hc : c.isLatch = true)
    (s : Descriptor × TaskLog) (h : Sched r w s.1) :
    (s.2.count r < (step s c).2.count r →
      (step s c).1.can_read_ = false ∧ (step s c).1.waiting_read_ = false) ∧
    (s.2.count w < (step s c).2.count w →
      (step s c).1.can_write_ = false ∧ (step s c).1.waiting_write_ = false) := by
  obtain ⟨d, pool⟩ := s
  obtain ⟨h1, h2, h3, h4⟩ := h
  have hwr : w ≠ r := fun e => hrw e.symm
  simp only at h1 h2 h3 h4
  cases c with
  | setUpCalls a b => simp [Call.isLatch] at hc
  | readWhenReady =>
    cases hcr : d.can_read_ <;> cases hwt : d.waiting_read_ <;>
      simp_all [step, readWhenReady, submitIf, hwr]
  | writeWhenReady =>
    cases hcr : d.can_write_ <;> cases hwt : d.waiting_write_ <;>
      simp_all [step, writeWhenReady, submitIf, hwr]
  | readIfWaiting =>
    cases hcr : d.can_read_ <;> cases hwt : d.waiting_read_ <;>
      simp_all [step, readIfWaiting, submitIf, hwr]
  | writeIfWaiting =>
    cases hcr : d.can_write_ <;> cases hwt : d.waiting_write_ <;>
      simp_all [step, writeIfWaiting, submitIf, hwr]

theorem sched_new (fd : Int) (r w : Callback) : Sched r w (Descriptor.new fd (some r) (some w)) :=
  ⟨rfl, rfl, by simp [LatchOk, Descriptor.new]⟩

/-- C39. Scheduling is bounded by both signals. On a Descriptor that starts idle with read
callback `r` and write callback `w`, after any sequence `pre` of `readIfWaiting`,
`readWhenReady`, `writeIfWaiting` and `writeWhenReady` calls the number of submissions of `r`
is at most the number of `readIfWaiting` calls and at most the number of `readWhenReady` calls,
and likewise for `w`. When a call `c` after `pre` submits `r`, the submissions of `r` during
any further calls `post` are at most the number of `readIfWaiting` calls and at most the number
of `readWhenReady` calls in `post`: the next submission needs a new edge and a new request;
likewise for `w`. The calls of one direction leave the flags of the other direction alone. -/
theorem scheduling_bounded_by_both_signals (fd : Int) (r w : Callback) (hrw : r ≠ w)
    (pre post : List Call) (c : Call) (hpre : ∀ x ∈ pre, x.isLatch = true)
    (hc : c.isLatch = true) (hpost : ∀ x ∈ post, x.isLatch = true) :
    ((run (Descriptor.new fd (some r) (some w), []) pre).2.count r
        ≤ min (pre.count .readIfWaiting) (pre.count .readWhenReady) ∧
      (run (Descriptor.new fd (some r) (some w), []) pre).2.count w
        ≤ min (pre.count .writeIfWaiting) (pre.count .writeWhenReady)) ∧
    ((run (Descriptor.new fd (some r) (some w), []) pre).2.count r
        < (run (Descriptor.new fd (some r) (some w), []) (pre ++ [c])).2.count r →
      (run (Descriptor.new fd (some r) (some w), []) (pre ++ c :: post)).2.count r
        ≤ (run (Descriptor.new fd (some r) (some w), []) (pre ++ [c])).2.count r
          + min (post.count .readIfWaiting) (post.count .readWhenReady)) ∧
    ((run (Descriptor.new fd (some r) (some w), []) pre).2.count w
        < (run (Descriptor.new fd (some r) (some w), []) (pre ++ [c])).2.count w →
      (run (Descriptor.new fd (some r) (some w), []) (pre ++ c :: post)).2.count w
        ≤ (run (Descriptor.new fd (some r) (some w), []) (pre ++ [c])).2.count w
          + min (post.count .writeIfWaiting) (post.count .writeWhenReady)) ∧
    (∀ (d : Descriptor) (pool : TaskLog),
      ((d.readIfWaiting pool).1.can_write_ = d.can_write_ ∧
        (d.readIfWaiting pool).1.waiting_write_ = d.waiting_write_) ∧
      ((d.readWhenReady pool).1.can_write_ = d.can_write_ ∧
        (d.readWhenReady pool).1.waiting_write_ = d.waiting_write_) ∧
      ((d.writeIfWaiting pool).1.can_read_ = d.can_read_ ∧
        (d.writeIfWaiting pool).1.waiting_read_ = d.waiting_read_) ∧
      ((d.writeWhenReady pool).1.can_read_ = d.can_read_ ∧
        (d.writeWhenReady pool).1.waiting_read_ = d.waiting_read_)) := by
  obtain ⟨a0, a1, a2, a3, a4⟩ :=
    sched_run r w hrw pre hpre (Descriptor.new fd (some r) (some w), []) (sched_new fd r w)
  have e1 : run (Descriptor.new fd (some r) (some w), []) (pre ++ [c])
      = step (run (Descriptor.new fd (some r) (some w), []) pre) c := by
    simp [run, List.foldl_append]
  have e2 : run (Descriptor.new fd (some r) (some w), []) (pre ++ c :: post)
      = run (step (run (Descriptor.new fd (some r) (some w), []) pre) c) post := by
    simp [run, List.foldl_append]
  obtain ⟨i1, i2⟩ := idle_after_submit r w hrw c hc _ a0
  obtain ⟨s0, -⟩ := sched_step r w hrw c hc _ a0
  obtain ⟨-, b1, b2, b3, b4⟩ := sched_run r w hrw post hpost _ s0
  rw [e1, e2]
  refine ⟨⟨?_, ?_⟩, ?_, ?_, ?_⟩
  · have z1 : (Descriptor.new fd (some r) (some w), ([] : TaskLog)).2.count r = 0 := rfl
    have z2 : flag (Descriptor.new fd (some r) (some w), ([] : TaskLog)).1.can_read_ = 0 := rfl
    have z3 : flag (Descriptor.new fd (some r) (some w), ([] : TaskLog)).1.waiting_read_ = 0 := rfl
    omega
  · have z1 : (Descriptor.new fd (some r) (some w), ([] : TaskLog)).2.count w = 0 := rfl
    have z2 : flag (Descriptor.new fd (some r) (some w), ([] : TaskLog)).1.can_write_ = 0 := rfl
    have z3 : flag (Descriptor.new fd (some r) (some w), ([] : TaskLog)).1.waiting_write_ = 0 := rfl
    omega
  · intro hlt
    obtain ⟨f1, f2⟩ := i1 hlt
    rw [f1] at b1
    rw [f2] at b2
    simp only [flag, Bool.false_eq_true, if_false] at b1 b2
    omega
  · intro hlt
    obtain ⟨f1, f2⟩ := i2 hlt
    rw [f1] at b3
    rw [f2] at b4
    simp only [flag, Bool.false_eq_true, if_false] at b3 b4
    omega
  · intro d pool
    refine ⟨⟨?_, ?_⟩, ⟨?_, ?_⟩, ⟨?_, ?_⟩, ⟨?_, ?_⟩⟩ <;>
      simp only [readIfWaiting, readWhenReady, writeIfWaiting, writeWhenReady] <;>
      split <;> rfl

/-- Witness for C39: an edge, then a request that submits callback 1, then two more requests
and one edge in the read direction and one edge in the write direction. -/
theorem scheduling_bounded_by_both_signals_witness :
    ((run (Descriptor.new 3 (some 1) (some 2), []) [.readIfWaiting]).2.count 1
        < (run (Descriptor.new 3 (some 1) (some 2), []) ([.readIfWaiting] ++ [.readWhenReady])).2.count
          1) ∧
    (run (Descriptor.new 3 (some 1) (some 2), [])
        ([.readIfWaiting] ++
          .readWhenReady :: [.readWhenReady, .writeIfWaiting, .readWhenReady, .readIfWaiting])).2.count 1
      ≤ (run (Descriptor.new 3 (some 1) (some 2), []) ([.readIfWaiting] ++ [.readWhenReady])).2.count 1
        + min ([Call.readWhenReady, .writeIfWaiting, .readWhenReady, .readIfWaiting].count
            .readIfWaiting)
          ([Call.readWhenReady, .writeIfWaiting, .readWhenReady, .readIfWaiting].count
            .readWhenReady) :=
  ⟨by decide!,
    (scheduling_bounded_by_both_signals 3 1 2 (by decide) [.readIfWaiting]
      [.readWhenReady, .writeIfWaiting, .readWhenReady, .readIfWaiting] .readWhenReady
      (by decide) (by decide) (by decide)).2.1 (by decide!)⟩

end Descriptor

/-! ## ThreadPoolFast: no free worker while tasks are queued -/

namespace ThreadPoolFast

theorem excl_queueWorker (p : ThreadPoolFast) (w : Nat)
    (h : p.workers_ = [] ∨ p.dispatch_queue_ = []) :
    (p.queueWorker w).workers_ = [] ∨ (p.queueWorker w).dispatch_queue_ = [] := by
  unfold queueWorker
  cases hq : p.dispatch_queue_ with
  | nil => exact Or.inr rfl
  | cons t rest =>
    rcases h with h | h
    · exact Or.inl h
    · rw [hq] at h; cases h

theorem excl_addTask (p : ThreadPoolFast) (t : Option Callback)
    (h : p.workers_ = [] ∨ p.dispatch_queue_ = []) :
    (p.addTask t).workers_ = [] ∨ (p.addTask t).dispatch_queue_ = [] := by
  unfold addTask
  cases hq : p.workers_ with
  | nil => exact Or.inl rfl
  | cons v rest =>
    rcases h with h | h
    · rw [hq] at h; cases h
    · exact Or.inr h

theorem excl_foldl_queueWorker (l : List Nat) (p : ThreadPoolFast)
    (h : p.workers_ = [] ∨ p.dispatch_queue_ = []) :
    (l.foldl queueWorker p).workers_ = [] ∨ (l.foldl queueWorker p).dispatch_queue_ = [] := by
  induction l generalizing p with
  | nil => exact h
  | cons w rest ih => exact ih _ (excl_queueWorker p w h)

theorem excl_runOps (ops : List Op) (p : ThreadPoolFast)
    (h : p.workers_ = [] ∨ p.dispatch_queue_ = []) :
    (p.runOps ops).workers_ = [] ∨ (p.runOps ops).dispatch_queue_ = [] := by
  induction ops generalizing p with
  | nil => exact h
  | cons o rest ih =>
    cases o with
    | addTask t => exact ih _ (excl_addTask p t h)
    | queueWorker w => exact ih _ (excl_queueWorker p w h)

/-- C40. No idle worker while work is queued. In every state that a pool of `n` workers reaches
from its constructor by `addTask` and `queueWorker` calls in any order, the free list or the
dispatch queue is empty; so `count() > 0` means that the free list is empty, and a call of
`addTask` that puts its task in the queue found the free list empty. With the worker threads in
the picture: in every state that the pool, its workers and a client reach by any interleaving
of their steps, `count() > 0` means that no worker waits with an empty mailbox. -/
theorem no_free_worker_while_tasks_are_queued (n : Nat) (ops : List Op) (task : Option Callback)
    (tasks : List Callback) (sched : List Event) (s : Sys) :
    (((ThreadPoolFast.new n).runOps ops).workers_ = [] ∨
      ((ThreadPoolFast.new n).runOps ops).dispatch_queue_ = []) ∧
    (((ThreadPoolFast.new n).runOps ops).count > 0 →
      ((ThreadPoolFast.new n).runOps ops).workers_ = []) ∧
    ((((ThreadPoolFast.new n).runOps ops).addTask task).dispatch_queue_
        ≠ ((ThreadPoolFast.new n).runOps ops).dispatch_queue_ →
      ((ThreadPoolFast.new n).runOps ops).workers_ = []) ∧
    (run (Sys.init n tasks) sched = some s → s.pool.count > 0 →
      ∀ w, w < n → ¬ (s.phase w = .waiting ∧ (s.pool.worker w).has_task_ = false)) := by
  have h0 : (ThreadPoolFast.new n).workers_ = [] ∨ (ThreadPoolFast.new n).dispatch_queue_ = [] :=
    excl_foldl_queueWorker _ _ (Or.inl rfl)
  have h := excl_runOps ops _ h0
  refine ⟨h, ?_, ?_, ?_⟩
  · intro hc
    rcases h with h | h
    · exact h
    · simp [count, h] at hc
  · intro hne
    cases hw : ((ThreadPoolFast.new n).runOps ops).workers_ with
    | nil => rfl
    | cons v rest =>
      exfalso
      apply hne
      simp [addTask, hw, assignTask]
  · intro hr hc w hw hidle
    have hi := inv_run sched _ _ (inv_init n tasks) hr
    have hmem : w ∈ s.pool.workers_ := (hi.free w).2 ⟨hw, hidle.1, hidle.2⟩
    have hq := hi.free_queue (List.ne_nil_of_mem hmem)
    simp [count, hq] at hc

/-- Witness for C40: one worker, two tasks submitted while it has not finished the first; the
second task is queued and the free list is empty. -/
theorem no_free_worker_while_tasks_are_queued_witness :
    (((ThreadPoolFast.new 1).runOps [.addTask (some 7), .addTask (some 8)]).count > 0 ∧
      run (Sys.init 1 [7, 8]) [.client, .client] = some atStop ∧ atStop.pool.count > 0) ∧
    ((ThreadPoolFast.new 1).runOps [.addTask (some 7), .addTask (some 8)]).workers_ = [] ∧
    (∀ w, w < 1 → ¬ (atStop.phase w = .waiting ∧ (atStop.pool.worker w).has_task_ = false)) :=
  ⟨⟨by decide!, rfl, by decide!⟩,
    (no_free_worker_while_tasks_are_queued 1 [.addTask (some 7), .addTask (some 8)] none [7, 8]
      [.client, .client] atStop).2.1 (by decide!),
    (no_free_worker_while_tasks_are_queued 1 [.addTask (some 7), .addTask (some 8)] none [7, 8]
      [.client, .client] atStop).2.2.2 rfl (by decide!)⟩

end ThreadPoolFast

/-! ## FileCache: a walk of `evict` that removes two neighbouring nodes -/

namespace FileCache

/-- C34 (failing input). The cache of capacity 10 holds the unpinned 5 byte nodes `a` (address
1) and `b` (address 2): the map has both, the list is sentinel, 1, 2 and `head_` is 2. The call
`evict(10)`, made by `pin("c")` for the 10 byte file `c`, removes both in one walk and returns
true. After unlinking node 1 the walk keeps it as `prev`, so node 2 is unlinked from node 1 and
not from the sentinel: afterwards the map is empty and both nodes are deleted, but the sentinel
still points to node 2 and `head_` points to node 1. `pin("c")` then runs `nodeInsert`, which
writes `head_->next` in the deleted node 1: the call has no defined result. -/
theorem evict_of_two_neighbours_leaves_deleted_nodes_on_the_list :
    ((run fsPair (FileCache.new 10) [.pin "a", .pin "b", .unpin 1, .unpin 2]).map
        (fun c => (c.cache_map_, c.head_, (c.nodes 0).map (fun nd => nd.next), c.bytesUsed))
        = some ([("b", 2), ("a", 1)], 2, some (some 1), 10) ∧
      ((cachePair.nodes 1).map (fun nd => (nd.next, nd.pin_count)),
        (cachePair.nodes 2).map (fun nd => (nd.next, nd.pin_count)))
        = (some (some 2, 0), some (none, 0))) ∧
    ((evict cachePair 10).map
        (fun r => (r.1, r.2.cache_map_, r.2.head_, (r.2.nodes 0).map (fun nd => nd.next)))
        = some (true, [], 1, some (some 2)) ∧
      (evict cachePair 10).map
        (fun r => ((r.2.nodes 1).isSome, (r.2.nodes 2).isSome, r.2.bytesUsed))
        = some (false, false, 0)) ∧
    (pin fsPair cachePair "c").isSome = false ∧
    (run fsPair (FileCache.new 10) [.pin "a", .pin "b", .unpin 1, .unpin 2, .pin "c"]).isSome
      = false := by
  refine ⟨⟨by decide!, by decide!⟩, ⟨by decide!, by decide!⟩, by decide!, by decide!⟩

/-- C33 (failing input). Threads 1 and 2 use a cache of capacity 10 over the files `a`, `b` (5
bytes each) and `c` (10 bytes); their calls do not overlap. After thread 1 pinned and unpinned
`a` and thread 2 pinned and unpinned `b`, the call `pin("c")` of thread 1 evicts both nodes in
one walk and then writes to a deleted node: the schedule has no defined result. Also, after
`pin("nope")` of thread 1, which cannot open its file, and `pin("a")` of thread 2, `pins()` is
1 for two pin calls. A load of a path that is in the map by the time it inserts (the other
thread won) returns handle 0 and is counted in `pins()` and `failed()`, as the claim says. -/
theorem serial_schedule_of_two_threads_has_no_defined_result :
    (runSchedule fsPair (FileCache.new 10)
        [(1, .pin "a"), (2, .pin "b"), (2, .unpin 2), (1, .unpin 1)]).map
        (fun c => (c.cache_map_, c.head_, c.bytesUsed, c.pins))
      = some ([("b", 2), ("a", 1)], 2, 10, 2) ∧
    (runSchedule fsPair (FileCache.new 10)
        [(1, .pin "a"), (2, .pin "b"), (2, .unpin 2), (1, .unpin 1), (1, .pin "c")]).isSome
      = false ∧
    (runSchedule fsPair (FileCache.new 10) [(1, .pin "nope"), (2, .pin "a")]).map
        (fun c => (c.pins, c.failed, c.hits)) = some (1, 0, 0) ∧
    (((run fsPair (FileCache.new 10) [.pin "a"]).bind (fun c => load fsPair c "a")).map
        (fun r => (r.1, r.2.pins, r.2.failed)) = some (⟨0, none, 0⟩, 2, 1) ∧
      ((run fsPair (FileCache.new 10) [.pin "a"]).bind (fun c => load fsPair c "a")).map
        (fun r => (r.2.cache_map_, r.2.bytesUsed, (r.2.nodes 1).map (fun nd => nd.pin_count)))
        = some ([("a", 1)], 5, some 1)) := by
  refine ⟨by decide!, by decide!, by decide!, by decide!, by decide!⟩

end FileCache

/-! ## Allocator free lists: the sorted list of the last size class -/

namespace HeapMem

theorem getLast_getD_cons (b : Nat) (r : List Nat) (p q : Nat) :
    (b :: r).getLast?.getD p = (b :: r).getLast?.getD q := by
  rw [List.getLast?_eq_getLast _ (List.cons_ne_nil _ _)]
  rfl

theorem seg_congr (m m1 : HeapMem) (l : List Nat) :
    ∀ (p s e : Nat), (∀ a ∈ l, m1.node a = m.node a) → Seg m p s l e → Seg m1 p s l e := by
  induction l with
  | nil => intro p s e _ h; exact h
  | cons a rest ih =>
    intro p s e hc h
    obtain ⟨h1, h2, h3, h4⟩ := h
    have ha : m1.node a = m.node a := hc a (by simp)
    refine ⟨h1, h2, by rw [ha]; exact h3, ?_⟩
    rw [ha]
    exact ih a _ e (fun y hy => hc y (by simp [hy])) h4

theorem seg_append (m : HeapMem) (l1 l2 : List Nat) :
    ∀ (p s e : Nat), Seg m p s (l1 ++ l2) e ↔
      ∃ mid, Seg m p s l1 mid ∧ Seg m (l1.getLast?.getD p) mid l2 e := by
  induction l1 with
  | nil =>
    intro p s e
    constructor
    · intro h; exact ⟨s, rfl, h⟩
    · rintro ⟨mid, h1, h2⟩
      have : s = mid := h1
      subst this
      exact h2
  | cons a rest ih =>
    intro p s e
    have hl : ((a :: rest).getLast?.getD p) = (rest.getLast?.getD a) := by
      cases rest with
      | nil => rfl
      | cons b r => rw [List.getLast?_cons_cons]; exact getLast_getD_cons b r p a
    rw [hl]
    constructor
    · intro h
      obtain ⟨h1, h2, h3, h4⟩ := h
      obtain ⟨mid, k1, k2⟩ := (ih a _ e).1 h4
      exact ⟨mid, ⟨h1, h2, h3, k1⟩, k2⟩
    · rintro ⟨mid, ⟨h1, h2, h3, k1⟩, k2⟩
      exact ⟨h1, h2, h3, (ih a _ e).2 ⟨mid, k1, k2⟩⟩

theorem seg_ne_zero (m : HeapMem) (l : List Nat) :
    ∀ (p s e : Nat), Seg m p s l e → ∀ a ∈ l, a ≠ 0 := by
  induction l with
  | nil => intro p s e _ a ha; cases ha
  | cons b rest ih =>
    intro p s e h a ha
    obtain ⟨-, h2, -, h4⟩ := h
    rcases List.mem_cons.1 ha with rfl | hr
    · exact h2
    · exact ih _ _ e h4 a hr

theorem seg_unique (m : HeapMem) (l : List Nat) :
    ∀ (l1 : List Nat) (p p1 s : Nat), Seg m p s l 0 → Seg m p1 s l1 0 → l = l1 := by
  induction l with
  | nil =>
    intro l1 p p1 s h h1
    have hs : s = 0 := h
    cases l1 with
    | nil => rfl
    | cons a r =>
      obtain ⟨k1, k2, -, -⟩ := h1
      exact absurd (k1.symm.trans hs) k2
  | cons a rest ih =>
    intro l1 p p1 s h h1
    obtain ⟨h1a, h2, -, h4⟩ := h
    cases l1 with
    | nil =>
      have hs : s = 0 := h1
      exact absurd (h1a.symm.trans hs) h2
    | cons b r =>
      obtain ⟨k1, -, -, k4⟩ := h1
      have hab : a = b := h1a.symm.trans k1
      subst hab
      rw [ih r _ _ _ h4 k4]

theorem seg_nodup (m : HeapMem) (l : List Nat) :
    ∀ (p s : Nat), Seg m p s l 0 → l.Nodup := by
  induction l with
  | nil => intro p s _; exact List.nodup_nil
  | cons a rest ih =>
    intro p s h
    obtain ⟨-, -, -, h4⟩ := h
    refine List.nodup_cons.2 ⟨?_, ih _ _ h4⟩
    intro ha
    obtain ⟨r1, r2, hr⟩ := List.append_of_mem ha
    rw [hr] at h4
    obtain ⟨mid, -, k2⟩ := (seg_append m r1 (a :: r2) _ _ 0).1 h4
    obtain ⟨-, -, -, k4⟩ := k2
    have := seg_unique m r2 (r1 ++ a :: r2) _ _ _ k4 h4
    have hlen := congrArg List.length this
    simp at hlen
    omega

theorem seg_set_last (m m1 : HeapMem) (l : List Nat) (a p s e v : Nat)
    (h : Seg m p s (l ++ [a]) e) (hl : ∀ y ∈ l, m1.node y = m.node y)
    (hp : (m1.node a).prev_ = (m.node a).prev_) (hn : (m1.node a).next_ = v) :
    Seg m1 p s (l ++ [a]) v := by
  obtain ⟨mid, h1, h2⟩ := (seg_append m l [a] p s e).1 h
  refine (seg_append m1 l [a] p s v).2 ⟨mid, seg_congr m m1 l p s mid hl h1, ?_⟩
  obtain ⟨k1, k2, k3, -⟩ := h2
  exact ⟨k1, k2, by rw [hp]; exact k3, hn⟩

theorem seg_set_first (m m1 : HeapMem) (l : List Nat) (a p s e v : Nat)
    (h : Seg m p s (a :: l) e) (hl : ∀ y ∈ l, m1.node y = m.node y)
    (hn : (m1.node a).next_ = (m.node a).next_) (hp : (m1.node a).prev_ = v) :
    Seg m1 v s (a :: l) e := by
  obtain ⟨k1, k2, -, k4⟩ := h
  refine ⟨k1, k2, hp, ?_⟩
  rw [hn]
  exact seg_congr m m1 l a _ e hl k4

theorem insertScan_spec (m : HeapMem) (n : Nat) (pre : List Nat) :
    ∀ (post : List Nat) (fuel p s q : Nat), Seg m p s (pre ++ post) 0 →
      (∀ a ∈ pre, m.getFreeNodeSize a < n) → (∀ a ∈ post.head?, n ≤ m.getFreeNodeSize a) →
      pre.length ≤ fuel →
      insertScan m n fuel s q = some (post.head?.getD 0, pre.getLast?.getD q) := by
  induction pre with
  | nil =>
    intro post fuel p s q h _ hpost _
    cases post with
    | nil =>
      have hs : s = 0 := h
      subst hs
      unfold insertScan
      simp
    | cons b r =>
      obtain ⟨h1, h2, -, -⟩ := h
      subst h1
      have hb := hpost s (by simp)
      unfold insertScan
      simp [h2, hb]
  | cons a rest ih =>
    intro post fuel p s q h hpre hpost hf
    obtain ⟨h1, h2, -, h4⟩ := h
    subst h1
    have ha := hpre s (by simp)
    cases fuel with
    | zero => simp at hf
    | succ f =>
      unfold insertScan
      simp only [ne_eq, h2, not_false_eq_true, if_true, ge_iff_le, not_le.mpr ha, if_false]
      rw [ih post f s _ s h4 (fun y hy => hpre y (by simp [hy])) hpost
        (by simp at hf; omega)]
      cases rest with
      | nil => rfl
      | cons b r => rw [List.getLast?_cons_cons, getLast_getD_cons b r s q]

theorem rmScan_spec (m : HeapMem) (n : Nat) (pre : List Nat) :
    ∀ (post : List Nat) (fuel p s : Nat), Seg m p s (pre ++ post) 0 →
      (∀ a ∈ pre, m.getFreeNodeSize a < n) → (∀ a ∈ post.head?, n ≤ m.getFreeNodeSize a) →
      pre.length ≤ fuel →
      rmScan m n fuel s = some (post.head?.getD 0) := by
  induction pre with
  | nil =>
    intro post fuel p s h _ hpost _
    cases post with
    | nil =>
      have hs : s = 0 := h
      subst hs
      unfold rmScan
      simp
    | cons b r =>
      obtain ⟨h1, h2, -, -⟩ := h
      subst h1
      have hb := hpost s (by simp)
      unfold rmScan
      simp [h2, hb]
  | cons a rest ih =>
    intro post fuel p s h hpre hpost hf
    obtain ⟨h1, h2, -, h4⟩ := h
    subst h1
    have ha := hpre s (by simp)
    cases fuel with
    | zero => simp at hf
    | succ f =>
      unfold rmScan
      simp only [ne_eq, h2, not_false_eq_true, if_true, ge_iff_le, not_le.mpr ha, if_false]
      exact ih post f s _ h4 (fun y hy => hpre y (by simp [hy])) hpost (by simp at hf; omega)

theorem sorted_split (m : HeapMem) (n : Nat) (l : List Nat) (hs : SortedBySize m l) :
    ∃ pre post, l = pre ++ post ∧ (∀ a ∈ pre, m.getFreeNodeSize a < n) ∧
      (∀ a ∈ post, n ≤ m.getFreeNodeSize a) := by
  induction l with
  | nil => exact ⟨[], [], rfl, by simp, by simp⟩
  | cons a rest ih =>
    have hs1 : SortedBySize m rest := by
      unfold SortedBySize at hs ⊢
      simp only [List.map_cons, List.pairwise_cons] at hs
      exact hs.2
    by_cases ha : m.getFreeNodeSize a < n
    · obtain ⟨pre, post, e, h1, h2⟩ := ih hs1
      refine ⟨a :: pre, post, by rw [e]; rfl, ?_, h2⟩
      intro y hy
      rcases List.mem_cons.1 hy with rfl | hr
      · exact ha
      · exact h1 y hr
    · refine ⟨[], a :: rest, rfl, by simp, ?_⟩
      intro y hy
      unfold SortedBySize at hs
      simp only [List.map_cons, List.pairwise_cons, List.mem_map, forall_exists_index, and_imp,
        forall_apply_eq_imp_iff₂] at hs
      rcases List.mem_cons.1 hy with rfl | hr
      · omega
      · have := hs.1 y hr
        omega

end HeapMem

namespace HeapMem

theorem clamp_last (pos : Int) (hpos : 64 ≤ pos) :
    (if pos > (NUMOFSIZECLASSES : Int) - 1 then NUMOFSIZECLASSES - 1 else pos.toNat) = 64 := by
  simp only [NUMOFSIZECLASSES]
  split
  · rfl
  · have : pos = 64 := by omega
    subst this
    rfl

theorem sortedBySize_congr (m m1 : HeapMem) (l : List Nat) (h : m1.hdr = m.hdr) :
    SortedBySize m1 l ↔ SortedBySize m l := by
  unfold SortedBySize
  have : m1.getFreeNodeSize = m.getFreeNodeSize := by
    funext a
    simp [getFreeNodeSize, h]
  rw [this]

theorem sortedBySize_insert (m : HeapMem) (pre post : List Nat) (x : Nat)
    (hs : SortedBySize m (pre ++ post))
    (h1 : ∀ a ∈ pre, m.getFreeNodeSize a < m.getFreeNodeSize x)
    (h2 : ∀ a ∈ post, m.getFreeNodeSize x ≤ m.getFreeNodeSize a) :
    SortedBySize m (pre ++ x :: post) := by
  unfold SortedBySize at hs ⊢
  simp only [List.map_append, List.map_cons, List.pairwise_append, List.pairwise_cons,
    List.mem_map, List.mem_cons, forall_exists_index, and_imp, forall_apply_eq_imp_iff₂,
    forall_eq_or_imp] at hs ⊢
  refine ⟨hs.1, ⟨h2, hs.2.1⟩, fun a ha => ⟨?_, fun b hb => hs.2.2 a ha b hb⟩⟩
  have := h1 a ha
  omega

theorem sortedBySize_remove (m : HeapMem) (pre post : List Nat) (x : Nat)
    (hs : SortedBySize m (pre ++ x :: post)) : SortedBySize m (pre ++ post) := by
  unfold SortedBySize at hs ⊢
  simp only [List.map_append, List.map_cons, List.pairwise_append, List.pairwise_cons,
    List.mem_map, List.mem_cons, forall_exists_index, and_imp, forall_apply_eq_imp_iff₂,
    forall_eq_or_imp] at hs ⊢
  exact ⟨hs.1, hs.2.1.2, fun a ha b hb => (hs.2.2 a ha).2 b hb⟩

theorem setNext_spec (m : HeapMem) (a v : Nat) (ha : a ≠ 0) :
    ∃ m1, m.setNext a v = some m1 ∧ m1.hdr = m.hdr ∧ (m1.node a).next_ = v ∧
      (m1.node a).prev_ = (m.node a).prev_ ∧ ∀ y, y ≠ a → m1.node y = m.node y := by
  refine ⟨{ m with node := Function.update m.node a { m.node a with next_ := v } },
    by simp only [setNext, ha, if_false], rfl, by simp, by simp, ?_⟩
  intro y hy
  simp [Function.update_apply, hy]

theorem setPrev_spec (m : HeapMem) (a v : Nat) (ha : a ≠ 0) :
    ∃ m1, m.setPrev a v = some m1 ∧ m1.hdr = m.hdr ∧ (m1.node a).prev_ = v ∧
      (m1.node a).next_ = (m.node a).next_ ∧ ∀ y, y ≠ a → m1.node y = m.node y := by
  refine ⟨{ m with node := Function.update m.node a { m.node a with prev_ := v } },
    by simp only [setPrev, ha, if_false], rfl, by simp, by simp, ?_⟩
  intro y hy
  simp [Function.update_apply, hy]

/-- Inserting into the sorted list of the last class. -/
theorem insert_last_class (fuel : Nat) (freels_ : FreeLs) (m : HeapMem) (l : List Nat)
    (pos : Int) (hpos : 64 ≤ pos) (hl : IsList freels_ m 64 l) (hs : SortedBySize m l)
    (hf : l.length ≤ fuel) (x : Nat) (hx : x ≠ 0) (hxl : x ∉ l) :
    ∃ fl1 m1 pre post, insertFreeBlock fuel freels_ m x pos = some (true, fl1, m1) ∧
      l = pre ++ post ∧ IsList fl1 m1 64 (pre ++ x :: post) ∧
      SortedBySize m1 (pre ++ x :: post) ∧ m1.hdr = m.hdr ∧
      (∀ i, i ≠ 64 → fl1 i = freels_ i) ∧ (∀ a, a ≠ x → a ∉ l → m1.node a = m.node a) := by
  obtain ⟨pre, post, e, hpre, hpost⟩ := sorted_split m (m.getFreeNodeSize x) l hs
  subst e
  have hnd : (pre ++ post).Nodup := seg_nodup m _ _ _ hl
  have hnz : ∀ a ∈ pre ++ post, a ≠ 0 := seg_ne_zero m _ _ _ _ hl
  have hnot : ¬ pos < 0 := by omega
  unfold insertFreeBlock
  simp only [hnot, if_false, clamp_last pos hpos]
  unfold IsList at hl
  by_cases hempty : pre ++ post = []
  · -- the class is empty: the block becomes the only node
    have hp : pre = [] := (List.append_eq_nil.1 hempty).1
    have hq : post = [] := (List.append_eq_nil.1 hempty).2
    subst hp hq
    have h0 : freels_ 64 = 0 := hl
    refine ⟨Function.update freels_ 64 x,
      { m with node := Function.update m.node x { next_ := 0, prev_ := 0 } }, [], [], ?_, rfl, ?_,
      ?_, rfl, ?_, ?_⟩
    · simp [NUMOFSIZECLASSES, h0, setNext, setPrev, hx]
    · simp [IsList, Seg, hx]
    · simp [SortedBySize]
    · intro i hi
      simp [Function.update_apply, hi]
    · intro a ha _
      simp [Function.update_apply, ha]
  · have hne : freels_ 64 ≠ 0 := by
      cases hpp : pre ++ post with
      | nil => exact absurd hpp hempty
      | cons a r =>
        rw [hpp] at hl
        obtain ⟨k1, k2, -, -⟩ := hl
        rw [k1]
        exact k2
    have hhead : ∀ a ∈ post.head?, m.getFreeNodeSize x ≤ m.getFreeNodeSize a := by
      intro a ha
      exact hpost a (List.mem_of_mem_head? ha)
    have hscan := insertScan_spec m (m.getFreeNodeSize x) pre post fuel 0 (freels_ 64) 0 hl hpre
      hhead (by simp at hf; omega)
    simp only [NUMOFSIZECLASSES, Nat.add_one_sub_one, hne, ne_eq, not_false_eq_true, and_self,
      if_true, hx, if_false, hscan]
    have hxpre : x ∉ pre := fun h => hxl (List.mem_append_left _ h)
    have hxpost : x ∉ post := fun h => hxl (List.mem_append_right _ h)
    have hfix : ∀ i, i ≠ 64 → freels_ i = freels_ i := fun _ _ => rfl
    cases post with
    | nil =>
      -- every block is smaller: the block goes to the end
      rcases List.eq_nil_or_concat pre with hp | ⟨pre1, b, hp⟩
      · subst hp; exact absurd rfl hempty
      rw [List.concat_eq_append] at hp
      subst hp
      have hb : b ≠ 0 := hnz b (by simp)
      have hbx : b ≠ x := fun h => hxpre (by simp [h])
      obtain ⟨m1, e1, a1, b1, c1, d1⟩ := setNext_spec m b x hb
      obtain ⟨m2, e2, a2, b2, c2, d2⟩ := setPrev_spec m1 x b hx
      obtain ⟨m3, e3, a3, b3, c3, d3⟩ := setNext_spec m2 x 0 hx
      refine ⟨freels_, m3, pre1 ++ [b], [], ?_, rfl, ?_, ?_, ?_, hfix, ?_⟩
      · simp [e1, e2, e3]
      · simp only [List.append_nil] at hl
        have hnd1 : b ∉ pre1 := by
          have := hnd
          simp only [List.append_nil] at this
          intro h
          exact List.disjoint_of_nodup_append this h (by simp)
        refine (seg_append m3 (pre1 ++ [b]) [x] 0 _ 0).2 ⟨x, ?_, ?_⟩
        · refine seg_set_last m m3 pre1 b 0 _ 0 x hl ?_ ?_ ?_
          · intro y hy
            have hyb : y ≠ b := fun h => hnd1 (h ▸ hy)
            have hyx : y ≠ x := fun h => hxpre (by simp [← h, hy])
            rw [d3 y hyx, d2 y hyx, d1 y hyb]
          · rw [d3 b hbx, d2 b hbx, c1]
          · rw [d3 b hbx, d2 b hbx, b1]
        · refine ⟨rfl, hx, ?_, ?_⟩
          · rw [c3, b2]; simp
          · rw [b3]; rfl
      · rw [sortedBySize_congr m m3 _ (by rw [a3, a2, a1])]
        exact sortedBySize_insert m _ _ x hs hpre hpost
      · rw [a3, a2, a1]
      · intro a ha hal
        have hab : a ≠ b := fun h => hal (by simp [h])
        rw [d3 a ha, d2 a ha, d1 a hab]
    | cons c post1 =>
      have hc : c ≠ 0 := hnz c (by simp)
      have hcx : c ≠ x := fun h => hxpost (by simp [h])
      have hxc : x ≠ c := fun h => hcx h.symm
      have hcpost : c ∉ post1 := by
        have := (List.nodup_append.1 hnd).2.1
        exact (List.nodup_cons.1 this).1
      have hdis : ∀ y, y ∈ pre → y ∈ c :: post1 → False :=
        fun y h1 h2 => List.disjoint_of_nodup_append hnd h1 h2
      simp only [List.head?_cons, Option.getD_some, hc, if_false]
      rcases List.eq_nil_or_concat pre with hp | ⟨pre1, b, hp⟩
      · -- no block is smaller: the block goes to the front
        subst hp
        simp only [List.getLast?_nil, Option.getD_none, if_true]
        obtain ⟨m1, e1, a1, b1, c1, d1⟩ := setNext_spec m x c hx
        obtain ⟨m2, e2, a2, b2, c2, d2⟩ := setPrev_spec m1 x 0 hx
        obtain ⟨m3, e3, a3, b3, c3, d3⟩ := setPrev_spec m2 c x hc
        refine ⟨Function.update freels_ 64 x, m3, [], c :: post1, ?_, rfl, ?_, ?_, ?_, ?_, ?_⟩
        · simp [e1, e2, e3]
        · simp only [List.nil_append] at hl ⊢
          have hs64 : freels_ 64 = c := hl.1
          refine ⟨by simp, hx, ?_, ?_⟩
          · rw [d3 x hxc, b2]
          · rw [d3 x hxc, c2, b1]
            have hseg : Seg m3 x (freels_ 64) (c :: post1) 0 := by
              refine seg_set_first m m3 post1 c 0 _ 0 x hl ?_ ?_ b3
              · intro y hy
                have hyc : y ≠ c := fun h => hcpost (h ▸ hy)
                have hyx : y ≠ x := fun h => hxpost (by simp [← h, hy])
                rw [d3 y hyc, d2 y hyx, d1 y hyx]
              · rw [c3, d2 c hcx, d1 c hcx]
            rw [hs64] at hseg
            exact hseg
        · rw [sortedBySize_congr m m3 _ (by rw [a3, a2, a1])]
          exact sortedBySize_insert m _ _ x hs hpre hpost
        · rw [a3, a2, a1]
        · intro i hi
          simp [Function.update_apply, hi]
        · intro a ha hal
          have hac : a ≠ c := fun h => hal (by simp [h])
          rw [d3 a hac, d2 a ha, d1 a ha]
      · -- the block goes between two blocks
        rw [List.concat_eq_append] at hp
        subst hp
        have hb : b ≠ 0 := hnz b (by simp)
        have hbx : b ≠ x := fun h => hxpre (by simp [h])
        have hbc : b ≠ c := fun h => hdis b (by simp) (by simp [h])
        have hbpre : b ∉ pre1 := by
          have := (List.nodup_append.1 hnd).1
          intro h
          exact List.disjoint_of_nodup_append this h (by simp)
        have hlast : (pre1 ++ [b]).getLast?.getD 0 = b := by simp
        rw [hlast]
        simp only [hb, if_false]
        obtain ⟨m1, e1, a1, b1, c1, d1⟩ := setNext_spec m b x hb
        obtain ⟨m2, e2, a2, b2, c2, d2⟩ := setNext_spec m1 x c hx
        obtain ⟨m3, e3, a3, b3, c3, d3⟩ := setPrev_spec m2 c x hc
        obtain ⟨m4, e4, a4, b4, c4, d4⟩ := setPrev_spec m3 x b hx
        refine ⟨freels_, m4, pre1 ++ [b], c :: post1, ?_, rfl, ?_, ?_, ?_, hfix, ?_⟩
        · simp [e1, e2, e3, e4]
        · obtain ⟨mid, k1, k2⟩ := (seg_append m (pre1 ++ [b]) (c :: post1) 0 _ 0).1 hl
          rw [hlast] at k2
          have hmid : mid = c := k2.1
          refine (seg_append m4 (pre1 ++ [b]) (x :: c :: post1) 0 _ 0).2 ⟨x, ?_, ?_⟩
          · refine seg_set_last m m4 pre1 b 0 _ mid x k1 ?_ ?_ ?_
            · intro y hy
              have hyb : y ≠ b := fun h => hbpre (h ▸ hy)
              have hyx : y ≠ x := fun h => hxpre (by simp [← h, hy])
              have hyc : y ≠ c := fun h => hdis y (by simp [hy]) (by simp [h])
              rw [d4 y hyx, d3 y hyc, d2 y hyx, d1 y hyb]
            · rw [d4 b hbx, d3 b hbc, d2 b hbx, c1]
            · rw [d4 b hbx, d3 b hbc, d2 b hbx, b1]
          · rw [hlast]
            refine ⟨rfl, hx, b4, ?_⟩
            rw [c4, d3 x hxc, b2]
            have hseg : Seg m4 x mid (c :: post1) 0 := by
              refine seg_set_first m m4 post1 c b mid 0 x k2 ?_ ?_ ?_
              · intro y hy
                have hyc : y ≠ c := fun h => hcpost (h ▸ hy)
                have hyx : y ≠ x := fun h => hxpost (by simp [← h, hy])
                have hyb : y ≠ b := fun h => hdis b (by simp) (by simp [← h, hy])
                rw [d4 y hyx, d3 y hyc, d2 y hyx, d1 y hyb]
              · rw [d4 c hcx, c3, d2 c hcx, d1 c (fun h => hbc h.symm)]
              · rw [d4 c hcx, b3]
            rw [hmid] at hseg
            exact hseg
        · rw [sortedBySize_congr m m4 _ (by rw [a4, a3, a2, a1])]
          exact sortedBySize_insert m _ _ x hs hpre hpost
        · rw [a4, a3, a2, a1]
        · intro a ha hal
          have hab : a ≠ b := fun h => hal (by simp [h])
          have hac : a ≠ c := fun h => hal (by simp [h])
          rw [d4 a ha, d3 a hac, d2 a ha, d1 a hab]

end HeapMem

namespace HeapMem

theorem head_ne_zero (m : HeapMem) (p s a : Nat) (r : List Nat) (h : Seg m p s (a :: r) 0) :
    s = a ∧ s ≠ 0 := by
  obtain ⟨k1, k2, -, -⟩ := h
  exact ⟨k1, k1 ▸ k2⟩

/-- Removing from the sorted list of the last class. -/
theorem remove_last_class (fuel : Nat) (freels_ : FreeLs) (m : HeapMem) (l : List Nat)
    (pos : Int) (hpos : 64 ≤ pos) (hl : IsList freels_ m 64 l) (hs : SortedBySize m l)
    (hf : l.length ≤ fuel) (n : Nat) :
    (∀ pre b post, l = pre ++ b :: post → (∀ a ∈ pre, m.getFreeNodeSize a < n) →
      n ≤ m.getFreeNodeSize b →
      ∃ fl1 m1, rmFromFreeLs fuel freels_ m pos n = some (b, fl1, m1) ∧
        IsList fl1 m1 64 (pre ++ post) ∧ SortedBySize m1 (pre ++ post) ∧ m1.hdr = m.hdr ∧
        (∀ i, i ≠ 64 → fl1 i = freels_ i) ∧
        (∀ y ∈ l, n ≤ m.getFreeNodeSize y → m.getFreeNodeSize b ≤ m.getFreeNodeSize y)) ∧
    ((∀ a ∈ l, m.getFreeNodeSize a < n) →
      rmFromFreeLs fuel freels_ m pos n = some (0, freels_, m)) := by
  have hnot : ¬ pos < 0 := by omega
  unfold IsList at hl
  constructor
  · intro pre b post e hpre hb
    subst e
    have hnd : (pre ++ b :: post).Nodup := seg_nodup m _ _ _ hl
    have hnz : ∀ a ∈ pre ++ b :: post, a ≠ 0 := seg_ne_zero m _ _ _ _ hl
    have hb0 : b ≠ 0 := hnz b (by simp)
    have hne : freels_ 64 ≠ 0 := by
      cases hpp : pre ++ b :: post with
      | nil => simp at hpp
      | cons a r =>
        rw [hpp] at hl
        exact (head_ne_zero m _ _ _ _ hl).2
    have hscan := rmScan_spec m n pre (b :: post) fuel 0 (freels_ 64) hl hpre
      (by intro a ha; simp at ha; subst ha; exact hb) (by simp at hf; omega)
    have hbpost : b ∉ post := by
      have := (List.nodup_append.1 hnd).2.1
      exact (List.nodup_cons.1 this).1
    have hdis : ∀ y, y ∈ pre → y ∈ b :: post → False :=
      fun y h1 h2 => List.disjoint_of_nodup_append hnd h1 h2
    have hsmall : ∀ y ∈ pre ++ b :: post, n ≤ m.getFreeNodeSize y →
        m.getFreeNodeSize b ≤ m.getFreeNodeSize y := by
      intro y hy hny
      rcases List.mem_append.1 hy with h1 | h2
      · have := hpre y h1
        omega
      · rcases List.mem_cons.1 h2 with rfl | h3
        · exact Nat.le_refl _
        · unfold SortedBySize at hs
          simp only [List.map_append, List.map_cons, List.pairwise_append, List.pairwise_cons,
            List.mem_map, forall_exists_index, and_imp, forall_apply_eq_imp_iff₂] at hs
          exact hs.2.1.1 y h3
    have hsort : SortedBySize m (pre ++ post) := sortedBySize_remove m pre post b hs
    unfold rmFromFreeLs
    simp only [hnot, if_false, clamp_last pos hpos]
    simp only [hne, NUMOFSIZECLASSES, Nat.add_one_sub_one, if_true, if_false, hscan,
      List.head?_cons, Option.getD_some, hb0]
    obtain ⟨mid, k1, k2⟩ := (seg_append m pre (b :: post) 0 _ 0).1 hl
    obtain ⟨kb1, -, kb3, kb4⟩ := k2
    rcases List.eq_nil_or_concat pre with hp | ⟨pre1, a, hp⟩
    · -- the first block of the list is taken
      subst hp
      have hs64 : freels_ 64 = b := (head_ne_zero m _ _ _ _ hl).1
      simp only [hs64, if_true]
      cases post with
      | nil =>
        have hnx : (m.node b).next_ = 0 := kb4
        refine ⟨Function.update freels_ 64 0, m, ?_, ?_, hsort, rfl, ?_, hsmall⟩
        · simp [hnx]
        · simp [IsList, Seg]
        · intro i hi
          simp [Function.update_apply, hi]
      | cons c post1 =>
        have hseg0 : Seg m b (m.node b).next_ (c :: post1) 0 := kb4
        obtain ⟨kc1, kc2, -, -⟩ := kb4
        have hcb : c ≠ b := fun h => hbpost (by simp [← h])
        obtain ⟨m1, e1, a1, b1, c1, d1⟩ := setPrev_spec m c 0 kc2
        refine ⟨Function.update freels_ 64 c, m1, ?_, ?_, ?_, a1, ?_, hsmall⟩
        · simp [kc1, kc2, e1]
        · have hseg : Seg m1 0 (m.node b).next_ (c :: post1) 0 := by
            refine seg_set_first m m1 post1 c b _ 0 0 hseg0 ?_ c1 b1
            · intro y hy
              have hyc : y ≠ c := by
                intro h
                have := (List.nodup_append.1 hnd).2.1
                have := (List.nodup_cons.1 (List.nodup_cons.1 this).2).1
                exact this (h ▸ hy)
              exact d1 y hyc
          rw [kc1] at hseg
          simpa [IsList] using hseg
        · rw [sortedBySize_congr m m1 _ a1]
          exact hsort
        · intro i hi
          simp [Function.update_apply, hi]
    · -- a later block is taken
      rw [List.concat_eq_append] at hp
      subst hp
      have hlast : (pre1 ++ [a]).getLast?.getD 0 = a := by simp
      rw [hlast] at kb3
      have ha0 : a ≠ 0 := hnz a (by simp)
      have hab : a ≠ b := fun h => hdis a (by simp) (by simp [h])
      have hba : b ≠ a := fun h => hab h.symm
      have hapre : a ∉ pre1 := by
        have := (List.nodup_append.1 hnd).1
        intro h
        exact List.disjoint_of_nodup_append this h (by simp)
      have hhead : b ≠ freels_ 64 := by
        intro h
        cases hpp : pre1 ++ [a] with
        | nil => simp at hpp
        | cons z r =>
          rw [hpp] at hl
          have hz := (head_ne_zero m _ _ _ _ hl).1
          exact hdis b (by rw [hpp, h, hz]; simp) (by simp)
      simp only [hhead, if_false, kb3]
      obtain ⟨m1, e1, a1, b1, c1, d1⟩ := setNext_spec m a (m.node b).next_ ha0
      have hfix : ∀ i, i ≠ 64 → freels_ i = freels_ i := fun _ _ => rfl
      cases post with
      | nil =>
        have hnx : (m.node b).next_ = 0 := kb4
        rw [hnx] at e1 b1
        refine ⟨freels_, m1, ?_, ?_, ?_, a1, hfix, hsmall⟩
        · simp [e1, d1 b hba, hnx]
        · simp only [IsList, List.append_nil]
          refine seg_set_last m m1 pre1 a 0 _ mid 0 k1 ?_ c1 b1
          intro y hy
          exact d1 y (fun h => hapre (h ▸ hy))
        · rw [sortedBySize_congr m m1 _ a1]
          exact hsort
      | cons c post1 =>
        have hseg0 : Seg m b (m.node b).next_ (c :: post1) 0 := kb4
        obtain ⟨kc1, kc2, -, -⟩ := kb4
        have hcb : c ≠ b := fun h => hbpost (by simp [← h])
        have hca : c ≠ a := fun h => hdis a (by simp) (by simp [← h])
        have hcpost : c ∉ post1 := by
          have := (List.nodup_append.1 hnd).2.1
          exact (List.nodup_cons.1 (List.nodup_cons.1 this).2).1
        rw [kc1] at e1 b1
        have hnb : (m1.node b).next_ = c := by rw [d1 b hba, kc1]
        have hpb : (m1.node b).prev_ = a := by rw [d1 b hba, kb3]
        obtain ⟨m2, e2, a2, b2, c2, d2⟩ := setPrev_spec m1 c a kc2
        refine ⟨freels_, m2, ?_, ?_, ?_, by rw [a2, a1], hfix, hsmall⟩
        · simp [e1, hnb, hpb, kc1, kc2, e2]
        · refine (seg_append m2 (pre1 ++ [a]) (c :: post1) 0 _ 0).2 ⟨c, ?_, ?_⟩
          · refine seg_set_last m m2 pre1 a 0 _ mid c k1 ?_ ?_ ?_
            · intro y hy
              have hya : y ≠ a := fun h => hapre (h ▸ hy)
              have hyc : y ≠ c := fun h => hdis y (by simp [hy]) (by simp [h])
              rw [d2 y hyc, d1 y hya]
            · rw [d2 a (fun h => hca h.symm), c1]
            · rw [d2 a (fun h => hca h.symm), b1]
          · rw [hlast]
            have hseg : Seg m2 a (m.node b).next_ (c :: post1) 0 := by
              refine seg_set_first m m2 post1 c b _ 0 a hseg0 ?_ ?_ b2
              · intro y hy
                have hyc : y ≠ c := fun h => hcpost (h ▸ hy)
                have hya : y ≠ a := fun h => hdis a (by simp) (by simp [← h, hy])
                rw [d2 y hyc, d1 y hya]
              · rw [c2, d1 c hca]
            rw [kc1] at hseg
            exact hseg
        · rw [sortedBySize_congr m m2 _ (by rw [a2, a1])]
          exact hsort
  · intro hall
    unfold rmFromFreeLs
    simp only [hnot, if_false, clamp_last pos hpos]
    cases l with
    | nil =>
      have h0 : freels_ 64 = 0 := hl
      simp [h0]
    | cons a r =>
      have hne := (head_ne_zero m _ _ _ _ hl).2
      have hscan := rmScan_spec m n (a :: r) [] fuel 0 (freels_ 64)
        (by simpa using hl) hall (by simp) hf
      simp [hne, NUMOFSIZECLASSES, hscan]

end HeapMem

namespace HeapMem

/-- C38. The free list of the last size class is sorted and gives best fit. Let the list of
class 64 consist of the nodes `l`, linked consistently by `next_` and `prev_` and in
non-decreasing order of block size, and let the loops be given at least as many rounds as the
list has nodes. Then `insertFreeBlock(x, pos)` with `pos >= 64`, for a block `x` that is not on
the list, returns true and leaves the list `pre ++ x :: post` where `l = pre ++ post`: the
list is again linked consistently and sorted, no size and no other class changes, and no node
outside the list and `x` is written. `rmFromFreeLs(pos, n)` returns the first block `b` of the
list with size at least `n` and leaves the list without it, linked consistently and sorted; no
block of the list with size at least `n` is smaller than `b`. When every block is smaller than
`n`, it returns `NULL` and changes nothing. -/
theorem last_class_is_sorted_and_gives_best_fit (fuel : Nat) (freels_ : FreeLs) (m : HeapMem)
    (l : List Nat) (pos : Int) (hpos : 64 ≤ pos) (hl : IsList freels_ m 64 l)
    (hs : SortedBySize m l) (hf : l.length ≤ fuel) :
    (∀ x, x ≠ 0 → x ∉ l →
      ∃ fl1 m1 pre post, insertFreeBlock fuel freels_ m x pos = some (true, fl1, m1) ∧
        l = pre ++ post ∧ IsList fl1 m1 64 (pre ++ x :: post) ∧
        SortedBySize m1 (pre ++ x :: post) ∧ m1.hdr = m.hdr ∧
        (∀ i, i ≠ 64 → fl1 i = freels_ i) ∧ (∀ a, a ≠ x → a ∉ l → m1.node a = m.node a)) ∧
    (∀ n,
      (∀ pre b post, l = pre ++ b :: post → (∀ a ∈ pre, m.getFreeNodeSize a < n) →
        n ≤ m.getFreeNodeSize b →
        ∃ fl1 m1, rmFromFreeLs fuel freels_ m pos n = some (b, fl1, m1) ∧
          IsList fl1 m1 64 (pre ++ post) ∧ SortedBySize m1 (pre ++ post) ∧ m1.hdr = m.hdr ∧
          (∀ i, i ≠ 64 → fl1 i = freels_ i) ∧
          (∀ y ∈ l, n ≤ m.getFreeNodeSize y → m.getFreeNodeSize b ≤ m.getFreeNodeSize y)) ∧
      ((∀ a ∈ l, m.getFreeNodeSize a < n) →
        rmFromFreeLs fuel freels_ m pos n = some (0, freels_, m))) :=
  ⟨fun x hx hxl => insert_last_class fuel freels_ m l pos hpos hl hs hf x hx hxl,
    fun n => remove_last_class fuel freels_ m l pos hpos hl hs hf n⟩

/-- Witness for C38: the list of class 64 holds a 512 byte block and a 1024 byte block. The
600 byte block is inserted between them, and a request for 600 bytes takes the 1024 byte
block. -/
theorem last_class_is_sorted_and_gives_best_fit_witness :
    (IsList flTwo memTwo 64 [1016, 2016] ∧ SortedBySize memTwo [1016, 2016]) ∧
    (∃ fl1 m1 pre post, insertFreeBlock 2 flTwo memTwo 4016 64 = some (true, fl1, m1) ∧
      [1016, 2016] = pre ++ post ∧ IsList fl1 m1 64 (pre ++ 4016 :: post) ∧
      SortedBySize m1 (pre ++ 4016 :: post) ∧ m1.hdr = memTwo.hdr ∧
      (∀ i, i ≠ 64 → fl1 i = flTwo i) ∧
      (∀ a, a ≠ 4016 → a ∉ [1016, 2016] → m1.node a = memTwo.node a)) ∧
    (insertFreeBlock 2 flTwo memTwo 4016 64).map
        (fun r => (r.1, r.2.1 64, r.2.2.node 1016, r.2.2.node 4016, r.2.2.node 2016))
      = some (true, 1016, ⟨4016, 0⟩, ⟨2016, 1016⟩, ⟨0, 4016⟩) ∧
    (rmFromFreeLs 2 flTwo memTwo 64 600).map
        (fun r => (r.1, r.2.1 64, r.2.2.node 1016))
      = some (2016, 1016, ⟨0, 0⟩) :=
  ⟨⟨⟨rfl, by decide, rfl, rfl, by decide, rfl, rfl⟩, by simp [SortedBySize, getFreeNodeSize,
      memTwo, sizeofObjHeader]⟩,
    (last_class_is_sorted_and_gives_best_fit 2 flTwo memTwo [1016, 2016] 64 (by decide)
      ⟨rfl, by decide, rfl, rfl, by decide, rfl, rfl⟩
      (by simp [SortedBySize, getFreeNodeSize, memTwo, sizeofObjHeader]) (by decide)).1 4016
      (by decide) (by decide),
    by decide!, by decide!⟩

end HeapMem

/-! ## Two-layer allocator: `realloc` of an object of the thread cache -/

namespace myalloc

/-- C37 (failing input). One thread, program break 65536 at the start, calls `p = malloc(8)`,
`free(p)`, `q = malloc(8)` and `realloc(q, 8)`. The first call gives the thread cache a page
from the central heap, and `p = 65552` is an object of 4096 bytes in all; `free(p)` puts it on
the last list of the thread cache; the third call splits it, `q = 65552` has 48 bytes in all
and the rest of 4048 bytes stays with the thread cache. Up to here every assertion of
`Allocator::checkALL` holds. `realloc(q, 8)` gets its new object from the thread cache and
hands `q` to `Allocator::freeObject` of the central heap, which puts the 48 byte block on
`freels_[0]` of the central heap. Then `checkFreeLsConsist(0)` fails: it asserts that the size
is a multiple of 4096 and equal to the class size 0. -/
theorem realloc_puts_thread_cache_block_on_central_list :
    ((malloc 100 1 (Heap.init 65536) 8).map
        (fun r => (r.1, r.2.brk, r.2.mem.hdr 65536, r.2.mem.hdr (65536 + 4080)))
        = some (65552, 69632, ⟨1, 4096⟩, ⟨1, 4096⟩) ∧
      ((run 100 1 (Heap.init 65536) [.malloc 8, .free 65552]).bind
          (fun s => malloc 100 1 s 8)).map
        (fun r => (r.1, r.2.mem.hdr 65536, (r.2.TheAllocator._thr_caches 1).freels_ 64,
          r.2.mem.hdr 65584))
        = some (65552, ⟨1, 48⟩, 65600, ⟨0, 4048⟩) ∧
      (run 100 1 (Heap.init 65536) [.malloc 8, .free 65552, .malloc 8]).bind
          (fun s => Allocator.checkALL 100 s) = some true) ∧
    ((run 100 1 (Heap.init 65536) [.malloc 8, .free 65552, .malloc 8]).bind
        (fun s => realloc 100 1 s 65552 8)).map
      (fun r => (r.1, r.2.TheAllocator.freels_ 0, r.2.mem.hdr 65536, r.2.mem.hdr 65568))
      = some (65600, 65552, ⟨0, 48⟩, ⟨0, 48⟩) ∧
    (run 100 1 (Heap.init 65536) [.malloc 8, .free 65552, .malloc 8, .realloc 65552 8]).bind
        (fun s => Allocator.checkFreeLsConsist 100 s 0) = some false ∧
    (run 100 1 (Heap.init 65536) [.malloc 8, .free 65552, .malloc 8, .realloc 65552 8]).bind
        (fun s => Allocator.checkALL 100 s) = some false := by
  refine ⟨⟨by decide!, by decide!, by decide!⟩, by decide!, by decide!, by decide!⟩

end myalloc

/-! ## HTTP: the `stats` response is parsed back -/

namespace http
open Buffer (Iterator Reads drop_eq_cons drop_append_left)
open Parser

theorem digitChar_range (d : Nat) (hd : d < 10) :
    48 ≤ (Nat.digitChar d).toNat ∧ (Nat.digitChar d).toNat ≤ 57 := by
  interval_cases d <;> decide

theorem toDigitsCore_range (fuel : Nat) :
    ∀ (n : Nat) (ds : List Char), (∀ c ∈ ds, 48 ≤ c.toNat ∧ c.toNat ≤ 57) →
      ∀ c ∈ Nat.toDigitsCore 10 fuel n ds, 48 ≤ c.toNat ∧ c.toNat ≤ 57 := by
  induction fuel with
  | zero => intro n ds h c hc; exact h c (by simpa [Nat.toDigitsCore] using hc)
  | succ f ih =>
    intro n ds h c hc
    have hd := digitChar_range (n % 10) (Nat.mod_lt n (by decide))
    have hds : ∀ x ∈ Nat.digitChar (n % 10) :: ds, 48 ≤ x.toNat ∧ x.toNat ≤ 57 := by
      intro x hx
      rcases List.mem_cons.1 hx with rfl | hx
      · exact hd
      · exact h x hx
    simp only [Nat.toDigitsCore] at hc
    split at hc
    · exact hds c hc
    · exact ih _ _ hds c hc

theorem decimal_range (n : Nat) : ∀ c ∈ decimal n, 48 ≤ c ∧ c ≤ 57 := by
  intro c hc
  simp only [decimal, Nat.toDigits, List.mem_map] at hc
  obtain ⟨x, hx, rfl⟩ := hc
  exact toDigitsCore_range _ _ _ (by simp) x hx

theorem decimal_length_le (n : Nat) (hn : n < 2 ^ 32) : (decimal n).length ≤ 10 := by
  simp only [decimal, Nat.toDigits, List.length_map]
  exact Nat.toDigitsCore_length 10 (by decide) (n + 1) n 10 (by omega) (by decide)

theorem cstr_eq (s : List Nat) (h : ∀ c ∈ s, c ≠ 0) : cstr s = s := by
  unfold cstr
  rw [List.takeWhile_eq_self_iff]
  intro c hc
  simpa using h c hc

theorem holds_after_write {b : Buffer} {pre : List Nat} (h : Buffer.Holds b pre) (d : List Nat) :
    Buffer.Holds (b.write d) (pre ++ d) := by
  have := Buffer.Holds.writeLoop (d.length + 1) b pre d h (by omega)
  simpa [Buffer.write] using this

end http

namespace http
open Buffer (Iterator Reads drop_eq_cons drop_append_left)
open Parser

theorem next_bytesTotal (b : Buffer) (it : Iterator) :
    (it.next b).bytes_total_ = it.bytes_total_ := by
  unfold Iterator.next
  split
  · rfl
  · unfold Iterator.slowNext
    split
    · dsimp only
      split <;> rfl
    · rfl

theorem nextN_bytesTotal (b : Buffer) (k : Nat) :
    ∀ it : Iterator, (Iterator.nextN b k it).bytes_total_ = it.bytes_total_ := by
  induction k with
  | zero => intro it; rfl
  | succ k ih =>
    intro it
    simp only [Iterator.nextN]
    rw [ih, next_bytesTotal]

theorem responseHeaderLoop_spec {b : Buffer} {s : List Nat} (h : Reads b s) :
    ∀ (headers : List (List Nat)) (k fuel cs : Nat) (hr rest : List Nat) (cs1 : Nat),
      s.drop k = (headers.map (fun h => h ++ [13, 10])).flatten ++ 13 :: 10 :: rest →
      (∀ hd, hd ∈ headers → hd ≠ [] ∧ ∀ x, x ∈ hd → x ≠ 13) → headers.length ≤ fuel →
      lengthAfter cs headers = some cs1 →
      responseHeaderLoop fuel b (Iterator.nextN b k b.begin) cs hr =
        some (.returned, Iterator.nextN b
          (k + (headers.map (fun h => h ++ [13, 10])).flatten.length + 2) b.begin, cs1,
          hr ++ headers.flatten) := by
  intro headers
  induction headers with
  | nil =>
    intro k fuel cs hr rest cs1 hd _ _ hcs
    simp only [List.map_nil, List.flatten_nil, List.nil_append] at hd
    have e := parseLine_spec h [] k [] rest hd (fun x hx => by cases hx)
    simp only [lengthAfter, Option.some.injEq] at hcs
    subst hcs
    unfold responseHeaderLoop
    simp only [e, List.append_nil, List.length_nil, if_true, List.map_nil, List.flatten_nil,
      Nat.add_zero]
  | cons hd0 hs ih =>
    intro k fuel cs hr rest cs1 hd hh hf hcs
    obtain ⟨hne, h13⟩ := hh hd0 (List.mem_cons_self _ _)
    obtain ⟨fuel1, rfl⟩ : ∃ f, fuel = f + 1 := ⟨fuel - 1, by simp at hf; omega⟩
    have hd1 : s.drop k = hd0 ++ 13 :: 10 ::
        ((hs.map (fun h => h ++ [13, 10])).flatten ++ 13 :: 10 :: rest) := by
      rw [hd]
      simp
    have e := parseLine_spec h hd0 k [] _ hd1 h13
    have hnext : s.drop (k + hd0.length + 2) =
        (hs.map (fun h => h ++ [13, 10])).flatten ++ 13 :: 10 :: rest := by
      have h1 := drop_append_left hd1
      have h2 := (drop_eq_cons h1).2.2
      have h3 := (drop_eq_cons h2).2.2
      exact h3
    simp only [lengthAfter] at hcs
    cases hc : contentLength cs hd0 with
    | none => rw [hc] at hcs; cases hcs
    | some c1 =>
      rw [hc] at hcs
      unfold responseHeaderLoop
      simp only [e, List.nil_append, hne, if_false, hc]
      rw [ih (k + hd0.length + 2) fuel1 c1 (hr ++ hd0) rest cs1 hnext
        (fun y hy => hh y (List.mem_cons_of_mem _ hy)) (by simp at hf; omega) hcs]
      have e1 : k + hd0.length + 2 + (hs.map (fun h => h ++ [13, 10])).flatten.length + 2 =
          k + ((hd0 :: hs).map (fun h => h ++ [13, 10])).flatten.length + 2 := by
        simp only [List.map_cons, List.flatten_cons, List.length_append, List.length_cons,
          List.length_nil]
        omega
      have e2 : hr ++ hd0 ++ hs.flatten = hr ++ (hd0 :: hs).flatten := by
        simp only [List.flatten_cons, List.append_assoc]
      rw [e1, e2]

theorem bodyLoop_spec {b : Buffer} {s : List Nat} (h : Reads b s) :
    ∀ (w : List Nat) (k : Nat) (acc rest : List Nat), s.drop k = w ++ rest →
      bodyLoop b w.length (Iterator.nextN b k b.begin) acc =
        (Iterator.nextN b (k + w.length) b.begin, acc ++ w) := by
  intro w
  induction w with
  | nil => intro k acc rest _; simp [bodyLoop]
  | cons x w ih =>
    intro k acc rest hd
    obtain ⟨-, h2, h3, h4⟩ := h.step (x := x) (t := w ++ rest) (by simpa using hd)
    simp only [List.length_cons, bodyLoop, h2, h3]
    rw [ih (k + 1) (acc ++ [x]) rest h4]
    have e : k + 1 + w.length = k + (w.length + 1) := by omega
    rw [e, List.append_assoc, List.singleton_append]

/-- A complete response at the start of what the Buffer reads is parsed. -/
theorem parseResponse_spec {b : Buffer} (sl : List Nat) (headers : List (List Nat))
    (body : List Nat) (response : Response)
    (h : Reads b (responseBytes sl headers body))
    (hsl : ∀ x, x ∈ sl → x ≠ 13)
    (hH : ∀ hd, hd ∈ headers → hd ≠ [] ∧ ∀ x, x ∈ hd → x ≠ 13)
    (hlen : lengthAfter 0 headers = some body.length)
    (hsz : (responseBytes sl headers body).length < 2 ^ 64) :
    parseResponse b b.begin response =
      some (0, Iterator.nextN b (responseBytes sl headers body).length b.begin,
        { statusLine := sl, headerRemainder := headers.flatten, body := body }) := by
  generalize hs : responseBytes sl headers body = s at h hsz
  have hs0 : s.drop 0 = sl ++ 13 :: 10 ::
      ((headers.map (fun h => h ++ [13, 10])).flatten ++ 13 :: 10 :: body) := by
    rw [← hs]
    simp [responseBytes]
  have e1 : parseLine b b.begin [] =
      some (.returned, Iterator.nextN b (0 + sl.length + 2) b.begin, [] ++ sl) :=
    parseLine_spec h sl 0 [] _ hs0 hsl
  have d1 := (drop_eq_cons (drop_eq_cons (drop_append_left hs0)).2.2).2.2
  have hfuel : headers.length ≤ rounds b := by
    have h1 := rounds_gt h
    have h2 : headers.length ≤ s.length := by
      have h3 := flatten_length_ge headers
      rw [← hs]
      simp only [responseBytes, List.length_append]
      omega
    omega
  have e2 := responseHeaderLoop_spec h headers _ (rounds b) 0 [] body body.length d1 hH hfuel hlen
  have d2 : s.drop (0 + sl.length + 1 + 1 +
      (headers.map (fun h => h ++ [13, 10])).flatten.length + 2) = body ++ [] := by
    have := drop_append_left d1
    have := (drop_eq_cons (drop_eq_cons this).2.2).2.2
    simpa using this
  have e3 := bodyLoop_spec h body _ [] [] d2
  have elen : s.length = 0 + sl.length + 1 + 1 +
      (headers.map (fun h => h ++ [13, 10])).flatten.length + 2 + body.length := by
    rw [← hs]
    simp only [responseBytes, List.length_append, List.length_cons, List.length_nil]
    omega
  have hK : 0 + sl.length + 1 + 1 + (headers.map (fun h => h ++ [13, 10])).flatten.length + 2
      ≤ s.length := by omega
  have hbr := h.bytesRead _ hK
  have hbt : (Iterator.nextN b (0 + sl.length + 1 + 1 +
      (headers.map (fun h => h ++ [13, 10])).flatten.length + 2) b.begin).bytesTotal
      = s.length := by
    simp only [Iterator.bytesTotal]
    rw [nextN_bytesTotal]
    exact h.bytesTotal
  have hcmp : ¬ usub s.length (0 + sl.length + 1 + 1 +
      (headers.map (fun h => h ++ [13, 10])).flatten.length + 2) < body.length := by
    rw [usub_eq _ _ hK hsz]
    omega
  have hfin : 0 + sl.length + 1 + 1 + (headers.map (fun h => h ++ [13, 10])).flatten.length + 2
      + body.length = s.length := by omega
  simp only [Iterator.bytesTotal] at hbt
  simp only [Iterator.bytesRead] at hbr
  simp only [parseResponse, Response.clear, e1, List.nil_append, e2, Iterator.bytesTotal,
    Iterator.bytesRead, hbt, hbr, hcmp, if_false, e3, hfin]

end http

namespace http
open Buffer (Iterator Reads)
open Parser

theorem contentLength_of_no_match (cs : Nat) (line : List Nat)
    (h : find line (bytes "Content-Length:") = none) : contentLength cs line = some cs := by
  simp only [contentLength, h]

theorem contentLength_decimal (k : Nat) (hk : k ≤ 10) :
    contentLength 0 (bytes "Content-Length: " ++ decimal k) = some k := by
  interval_cases k <;> decide

theorem lengthAfter_statsHeaders (k : Nat) (hk : k ≤ 10) :
    lengthAfter 0 (statsHeaders k) = some k := by
  have h1 : contentLength 0 (bytes "Date: Wed, 28 Oct 2009 15:24:11 GMT") = some 0 := by decide
  have h2 : contentLength 0 (bytes "Server: Lab02a") = some 0 := by decide
  have h3 : contentLength 0 (bytes "Accept-Ranges: bytes") = some 0 := by decide
  have h4 := contentLength_decimal k hk
  have h5 : contentLength k (bytes "Content-Type: text/html") = some k :=
    contentLength_of_no_match k _ (by decide)
  simp only [statsHeaders, lengthAfter, h1, h2, h3, h4, h5]

theorem statsHeaders_ok (k : Nat) :
    ∀ hd, hd ∈ statsHeaders k → hd ≠ [] ∧ ∀ x, x ∈ hd → x ≠ 13 := by
  intro hd hmem
  simp only [statsHeaders, List.mem_cons, List.mem_singleton, List.not_mem_nil, or_false] at hmem
  rcases hmem with rfl | rfl | rfl | rfl | rfl
  · exact ⟨by decide, by decide⟩
  · exact ⟨by decide, by decide⟩
  · exact ⟨by decide, by decide⟩
  · refine ⟨?_, ?_⟩
    · intro h
      have := congrArg List.length h
      simp [bytes] at this
    · intro x hx
      have hlit : ∀ y ∈ bytes "Content-Length: ", y ≠ 13 := by decide
      rcases List.mem_append.1 hx with h1 | h2
      · exact hlit x h1
      · have := decimal_range k x h2
        omega
  · exact ⟨by decide, by decide⟩

theorem stats_written {out_ : Buffer} {pre : List Nat} (h : Buffer.Holds out_ pre) (n : Nat) :
    Buffer.Holds (HTTPServerConnection.writeStats out_ n)
      (pre ++ responseBytes (bytes "HTTP/1.1 200 OK") (statsHeaders (decimal n).length)
        (decimal n)) := by
  have c1 : cstr (decimal n) = decimal n :=
    cstr_eq _ (fun c hc => by have := decimal_range n c hc; omega)
  have c2 : cstr (bytes "Content-Length: " ++ decimal (decimal n).length ++ bytes "\r\n") =
      bytes "Content-Length: " ++ decimal (decimal n).length ++ bytes "\r\n" := by
    apply cstr_eq
    intro c hc
    have hlit1 : ∀ y ∈ bytes "Content-Length: ", y ≠ 0 := by decide
    have hlit2 : ∀ y ∈ bytes "\r\n", y ≠ 0 := by decide
    rcases List.mem_append.1 hc with h1 | h2
    · rcases List.mem_append.1 h1 with h3 | h4
      · exact hlit1 c h3
      · have := decimal_range _ c h4
        omega
    · exact hlit2 c h2
  have hw := holds_after_write (holds_after_write (holds_after_write (holds_after_write
    (holds_after_write (holds_after_write (holds_after_write (holds_after_write h
      (bytes "HTTP/1.1 200 OK\r\n")) (bytes "Date: Wed, 28 Oct 2009 15:24:11 GMT\r\n"))
      (bytes "Server: Lab02a\r\n")) (bytes "Accept-Ranges: bytes\r\n"))
      (bytes "Content-Length: " ++ decimal (decimal n).length ++ bytes "\r\n"))
      (bytes "Content-Type: text/html\r\n")) (bytes "\r\n")) (decimal n)
  have e1 : bytes "HTTP/1.1 200 OK\r\n" = bytes "HTTP/1.1 200 OK" ++ [13, 10] := by decide
  have e2 : bytes "Date: Wed, 28 Oct 2009 15:24:11 GMT\r\n" =
      bytes "Date: Wed, 28 Oct 2009 15:24:11 GMT" ++ [13, 10] := by decide
  have e3 : bytes "Server: Lab02a\r\n" = bytes "Server: Lab02a" ++ [13, 10] := by decide
  have e4 : bytes "Accept-Ranges: bytes\r\n" = bytes "Accept-Ranges: bytes" ++ [13, 10] := by
    decide
  have e5 : bytes "Content-Type: text/html\r\n" = bytes "Content-Type: text/html" ++ [13, 10] := by
    decide
  have e6 : bytes "\r\n" = [13, 10] := by decide
  unfold HTTPServerConnection.writeStats
  simp only [c1, c2]
  rw [e1, e2, e3, e4, e5, e6] at hw ⊢
  have el : pre ++ responseBytes (bytes "HTTP/1.1 200 OK") (statsHeaders (decimal n).length)
      (decimal n) =
      pre ++ (bytes "HTTP/1.1 200 OK" ++ [13, 10]) ++
        (bytes "Date: Wed, 28 Oct 2009 15:24:11 GMT" ++ [13, 10]) ++
        (bytes "Server: Lab02a" ++ [13, 10]) ++ (bytes "Accept-Ranges: bytes" ++ [13, 10]) ++
        (bytes "Content-Length: " ++ decimal (decimal n).length ++ [13, 10]) ++
        (bytes "Content-Type: text/html" ++ [13, 10]) ++ [13, 10] ++ decimal n := by
    simp only [responseBytes, statsHeaders, List.map_cons, List.map_nil, List.flatten_cons,
      List.flatten_nil, List.append_assoc, List.append_nil]
  rw [el]
  exact hw

end http

namespace http
open Buffer (Iterator Reads)
open Parser

theorem stats_length_lt (n : Nat) (hn : n < 2 ^ 32) :
    (responseBytes (bytes "HTTP/1.1 200 OK") (statsHeaders (decimal n).length)
      (decimal n)).length < 2 ^ 64 := by
  have h1 := decimal_length_le n hn
  have h2 := decimal_length_le (decimal n).length (by omega)
  have e : (responseBytes (bytes "HTTP/1.1 200 OK") (statsHeaders (decimal n).length)
      (decimal n)).length = 137 + (decimal (decimal n).length).length + (decimal n).length := by
    simp only [responseBytes, statsHeaders, List.map_cons, List.map_nil, List.flatten_cons,
      List.flatten_nil, List.length_append, List.length_cons, List.length_nil]
    have l1 : (bytes "HTTP/1.1 200 OK").length = 15 := by decide
    have l2 : (bytes "Date: Wed, 28 Oct 2009 15:24:11 GMT").length = 35 := by decide
    have l3 : (bytes "Server: Lab02a").length = 14 := by decide
    have l4 : (bytes "Accept-Ranges: bytes").length = 20 := by decide
    have l5 : (bytes "Content-Length: ").length = 16 := by decide
    have l6 : (bytes "Content-Type: text/html").length = 23 := by decide
    rw [l1, l2, l3, l4, l5, l6]
    omega
  rw [e]
  omega

/-- C31. Stats response round trip. For every count `n` below `2 ^ 32`: the writes of
`handleRequest` for the address `stats` add to `out_` exactly the bytes of a response with the
status line `HTTP/1.1 200 OK`, the five header lines, among them `Content-Length: ` followed by
the decimal digits of the length of the body, an empty line, and the decimal digits of `n` as
the body. On every Buffer that reads these bytes, as `out_` itself does when it was empty,
`parseResponse` returns 0 with that status line and that body, the header lines are collected
in `headerRemainder`, the value read from the `Content-Length` line is the number of bytes of
the body, and the iterator ends at `eob()` with `bytesRead()` equal to `bytesTotal()`, the
length of the response. -/
theorem stats_response_round_trip (n : Nat) (hn : n < 2 ^ 32) (out_ : Buffer) (pre : List Nat)
    (hout : Buffer.Holds out_ pre) (b : Buffer) (response : Response)
    (hb : Reads b (responseBytes (bytes "HTTP/1.1 200 OK") (statsHeaders (decimal n).length)
      (decimal n))) :
    Buffer.Holds (HTTPServerConnection.writeStats out_ n)
      (pre ++ responseBytes (bytes "HTTP/1.1 200 OK") (statsHeaders (decimal n).length)
        (decimal n)) ∧
    Reads (HTTPServerConnection.writeStats Buffer.new n)
      (responseBytes (bytes "HTTP/1.1 200 OK") (statsHeaders (decimal n).length) (decimal n)) ∧
    (∃ it, parseResponse b b.begin response =
        some (0, it,
          { statusLine := bytes "HTTP/1.1 200 OK"
            headerRemainder := (statsHeaders (decimal n).length).flatten
            body := decimal n }) ∧
      it.eob b = true ∧ it.bytesRead = it.bytesTotal ∧
      it.bytesRead = (responseBytes (bytes "HTTP/1.1 200 OK")
        (statsHeaders (decimal n).length) (decimal n)).length) ∧
    contentLength 0 (bytes "Content-Length: " ++ decimal (decimal n).length)
      = some (decimal n).length := by
  have hk := decimal_length_le n hn
  refine ⟨stats_written hout n, ?_, ?_, contentLength_decimal _ hk⟩
  · have := stats_written Buffer.holds_new n
    rw [List.nil_append] at this
    exact this.holdsAt.reads
  · refine ⟨_, parseResponse_spec _ _ _ response hb (by decide) (statsHeaders_ok _)
      (lengthAfter_statsHeaders _ hk) (stats_length_lt n hn), hb.eob, ?_, hb.bytesRead _ (le_refl _)⟩
    have h1 := hb.bytesRead _ (le_refl _)
    simp only [Iterator.bytesRead, Iterator.bytesTotal] at h1 ⊢
    rw [h1, nextN_bytesTotal]
    exact hb.bytesTotal.symm

/-- Witness for C31: the count 42 written to an empty `out_` and parsed from it. -/
theorem stats_response_round_trip_witness :
    (decimal 42 = bytes "42" ∧ (decimal 42).length = 2) ∧
    ∃ it, parseResponse (HTTPServerConnection.writeStats Buffer.new 42)
        (HTTPServerConnection.writeStats Buffer.new 42).begin
        { statusLine := [], headerRemainder := [], body := [] } =
        some (0, it,
          { statusLine := bytes "HTTP/1.1 200 OK"
            headerRemainder := (statsHeaders (decimal 42).length).flatten
            body := decimal 42 }) ∧
      it.eob (HTTPServerConnection.writeStats Buffer.new 42) = true ∧
      it.bytesRead = it.bytesTotal ∧
      it.bytesRead = (responseBytes (bytes "HTTP/1.1 200 OK")
        (statsHeaders (decimal 42).length) (decimal 42)).length :=
  ⟨⟨by decide, by decide⟩,
    (stats_response_round_trip 42 (by decide) Buffer.new [] Buffer.holds_new
      (HTTPServerConnection.writeStats Buffer.new 42)
      { statusLine := [], headerRemainder := [], body := [] }
      (by
        have := stats_written Buffer.holds_new 42
        rw [List.nil_append] at this
        exact this.holdsAt.reads)).2.2.1⟩

end http
